import Mathlib

/-!
The package go-setdb: a shallow embedding of the query pipeline.

The Go sources are embedded package by package, keeping the source names:

* `sets`    : `sets/sets.go`, the in-memory set of strings and its n-ary algebra;
* `lexer`   : `query/lexer/lexer.go`;
* `ast`     : `query/ast/ast.go`;
* `parser`  : `query/parser/parser.go`;
* `setdb`   : `setdb.go`, the database facade.

Conventions.  A Go `map[string]struct{}` is a `Finset String` (its key set); a
`map[string]int` that is only ever incremented is a `Multiset String` (the
value stored under a key is the multiplicity of the key).  Ranging over a map
visits every key once in an unspecified order; every such loop of the sources
performs a commutative update, so it is written as the corresponding finite-set
operation.  A Go panic is an explicit failure value.  Recursion that Go performs
on the call stack without a bound visible in the source takes a fuel argument,
and `none` means that the fuel ran out.
-/

set_option autoImplicit false

/-! ## Results of Go calls -/

/-- Equality of results `(value, error)` is decidable. -/
instance decEqExcept {ε α : Type} [DecidableEq ε] [DecidableEq α] : DecidableEq (Except ε α)
  | .ok a, .ok b => if h : a = b then isTrue (by rw [h]) else isFalse (fun x => h (by cases x; rfl))
  | .error a, .error b =>
    if h : a = b then isTrue (by rw [h]) else isFalse (fun x => h (by cases x; rfl))
  | .ok _, .error _ => isFalse (fun x => by cases x)
  | .error _, .ok _ => isFalse (fun x => by cases x)

/-! ## Package `sets` -/

namespace sets

/-- The struct `Set`: the field `items` is a map used as a set of strings.  The
mutex `muItems` holds no data and is left out. -/
structure Set where
  items : Finset String

/-- Two sets are equal when they hold the same items. -/
instance : DecidableEq Set := fun a b =>
  decidable_of_iff (a.items = b.items) (by cases a; cases b; simp)

/-- `NewSet(items ...string)`: insert every argument into a fresh map. -/
def NewSet (items : List String) : Set :=
  ⟨items.foldl (fun itemsMap item => insert item itemsMap) ∅⟩

/-- `Union(sets ...*Set)`: starting from `NewSet()`, every key of every argument
is stored in the result. -/
def Union (sets : List Set) : Set :=
  sets.foldl (fun S set => ⟨S.items ∪ set.items⟩) (NewSet [])

/-- The counting loop shared by `Intersection` and `SymmetricDifference`:
`for _, set := range sets { for item := range set.items { m[item] += 1 } }`. -/
def countItems (sets : List Set) : Multiset String :=
  sets.foldl (fun intersectionMap set => intersectionMap + set.items.val) 0

/-- `Intersection(sets ...*Set)`: keep the keys of the counting map whose count is
`len(sets)`. -/
def Intersection (sets : List Set) : Set :=
  let intersectionMap := countItems sets
  ⟨(NewSet []).items ∪
    intersectionMap.toFinset.filter (fun k => intersectionMap.count k = sets.length)⟩

/-- `Difference(sets ...*Set)`: `sets[0]` is read first, which panics with an index
out of range on an empty argument list (`none`); otherwise the keys of `sets[0]`
are copied and the keys of every later argument are deleted. -/
def Difference : List Set → Option Set
  | [] => none
  | sourceSet :: rest =>
    some (rest.foldl (fun S set => ⟨S.items \ set.items⟩)
      ⟨(NewSet []).items ∪ sourceSet.items⟩)

/-- `SymmetricDifference(sets ...*Set)`: keep the keys of the counting map whose
count is 1. -/
def SymmetricDifference (sets : List Set) : Set :=
  let intersectionMap := countItems sets
  ⟨(NewSet []).items ∪
    intersectionMap.toFinset.filter (fun k => intersectionMap.count k = 1)⟩

/-- The method `Contains`. -/
def Set.Contains (s : Set) (value : String) : Bool :=
  decide (value ∈ s.items)

/-- The method `Length`. -/
def Set.Length (s : Set) : Int :=
  (s.items.card : Int)

/-- The method `SupersetOf`: `false` when `len(s.items) <= len(target.items)`;
otherwise the keys of `s` are copied to `sourceMap` and the loop over the keys of
`target` returns `false` at the first key that is not in `sourceMap`. -/
def Set.SupersetOf (s target : Set) : Bool :=
  if s.items.card ≤ target.items.card then false
  else
    let sourceMap : Finset String := ∅ ∪ s.items
    decide (∀ item ∈ target.items, item ∈ sourceMap)

/-- The method `SubsetOf`. -/
def Set.SubsetOf (s target : Set) : Bool :=
  target.SupersetOf s

/-- The method `SameAs`: `false` when the lengths differ; otherwise the loop over
the keys of `target` returns `false` at the first key that is not in `sourceMap`
(`targetMap` is filled and never read). -/
def Set.SameAs (s target : Set) : Bool :=
  if s.items.card ≠ target.items.card then false
  else
    let sourceMap : Finset String := ∅ ∪ s.items
    decide (∀ item ∈ target.items, item ∈ sourceMap)

end sets

/-! ## Package `unicode` of the Go standard library

The lexer classifies runes with `unicode.IsSpace`, `unicode.IsLetter` and
`unicode.IsDigit`.  On ASCII these are fixed by a few comparisons, written out
below; beyond ASCII they are lookups in the tables of the Go standard library,
which are not part of this repository and are taken as a parameter. -/

namespace unicode

/-- The range tables of the standard library, on the runes beyond ASCII: the
property `White_Space` and the categories `Letter` and `Digit`.  A rune has one
general category, and no white space is a letter or a digit, so the three are
pairwise disjoint. -/
structure Tables where
  White_Space : Char → Bool
  Letter : Char → Bool
  Digit : Char → Bool
  space_not_letter : ∀ r, White_Space r = true → Letter r = false
  space_not_digit : ∀ r, White_Space r = true → Digit r = false
  letter_not_digit : ∀ r, Letter r = true → Digit r = false

/-- Tables in which no rune beyond ASCII has a class; used to evaluate the
embedding on concrete ASCII inputs. -/
def asciiOnly : Tables where
  White_Space := fun _ => false
  Letter := fun _ => false
  Digit := fun _ => false
  space_not_letter := fun _ _ => rfl
  space_not_digit := fun _ _ => rfl
  letter_not_digit := fun _ _ => rfl

/-- `unicode.IsSpace`: on ASCII, `'\t'`, `'\n'`, `'\v'`, `'\f'`, `'\r'` and `' '`. -/
def IsSpace (u : Tables) (r : Char) : Bool :=
  if r.toNat < 128 then
    r == '\t' || r == '\n' || r == '\x0b' || r == '\x0c' || r == '\r' || r == ' '
  else u.White_Space r

/-- `unicode.IsLetter`: on ASCII, `A`..`Z` and `a`..`z`. -/
def IsLetter (u : Tables) (r : Char) : Bool :=
  if r.toNat < 128 then
    (65 ≤ r.toNat && r.toNat ≤ 90) || (97 ≤ r.toNat && r.toNat ≤ 122)
  else u.Letter r

/-- `unicode.IsDigit`: on ASCII, `0`..`9`. -/
def IsDigit (u : Tables) (r : Char) : Bool :=
  if r.toNat < 128 then 48 ≤ r.toNat && r.toNat ≤ 57
  else u.Digit r

end unicode

/-! ## Package `lexer` -/

namespace lexer

/-- The constants `EOF = iota, ILLEGAL, COMMA, SET, ITEM, ASSIGN, UNION,
INTERSECTION, DIFFERENCE, SYMMETRIC_DIFFERENCE, SET_OPEN, SET_CLOSE`. -/
inductive TokenType
  | EOF
  | ILLEGAL
  | COMMA
  | SET
  | ITEM
  | ASSIGN
  | UNION
  | INTERSECTION
  | DIFFERENCE
  | SYMMETRIC_DIFFERENCE
  | SET_OPEN
  | SET_CLOSE
  deriving DecidableEq, Repr

/-- The value of the constant, its index in the `iota` block. -/
def TokenType.toNat : TokenType → Nat
  | .EOF => 0
  | .ILLEGAL => 1
  | .COMMA => 2
  | .SET => 3
  | .ITEM => 4
  | .ASSIGN => 5
  | .UNION => 6
  | .INTERSECTION => 7
  | .DIFFERENCE => 8
  | .SYMMETRIC_DIFFERENCE => 9
  | .SET_OPEN => 10
  | .SET_CLOSE => 11

/-- The table `tokens`, a slice literal keyed by the constants, in index order. -/
def tokens : List String :=
  ["EOF", "ILLEGAL", ",", "SET", "ITEM", "=", "|", "&", "-", "^", "\x7b", "\x7d"]

/-- `TokenType.String`: `tokens[t]`. -/
def TokenType.String (t : TokenType) : String :=
  tokens.getD t.toNat ""

/-- The struct `Position`. -/
structure Position where
  line : Int
  column : Int
  deriving DecidableEq, Repr

def Position.Line (p : Position) : Int := p.line

def Position.Column (p : Position) : Int := p.column

/-- The struct `Token`; `tokenPosition` points to a private copy of the position,
so it is a value here. -/
structure Token where
  tokenType : TokenType
  tokenPosition : Position
  tokenValue : String
  deriving DecidableEq, Repr

def Token.Type (t : Token) : TokenType := t.tokenType

def Token.Position (t : Token) : Position := t.tokenPosition

def Token.Value (t : Token) : String := t.tokenValue

def tokenFromLexer (tokenType : TokenType) (tokenPosition : Position) (tokenValue : String) :
    Token :=
  { tokenType := tokenType, tokenPosition := tokenPosition, tokenValue := tokenValue }

/-- The struct `Lexer`.  The buffered reader is the sequence of runes that
`ReadRune` has still to deliver (a Go string is read as the runes its UTF-8
decoding yields). -/
structure Lexer where
  reader : List Char
  pos : Position
  deriving DecidableEq, Repr

/-- `NewLexer`: the position starts at line 1, column 0. -/
def NewLexer (reader : List Char) : Lexer :=
  { reader := reader, pos := { line := 1, column := 0 } }

/-- `resetPosition`. -/
def Lexer.resetPosition (l : Lexer) : Lexer :=
  { l with pos := { line := l.pos.line + 1, column := 0 } }

/-- `backup`: `UnreadRune` puts the rune `r` just read back in front of the
reader, and the column is decremented.  Every call in the source directly follows
a successful `ReadRune`, so `UnreadRune` does not fail. -/
def Lexer.backup (l : Lexer) (r : Char) : Lexer :=
  { reader := r :: l.reader, pos := { l.pos with column := l.pos.column - 1 } }

/-- The loop of `lexIdent`, on the runes left, the position and `lit`. -/
def lexIdentLoop (u : unicode.Tables) : List Char → Position → String → String × Lexer
  | [], pos, lit => (lit, { reader := [], pos := pos })
  | r :: rest, pos, lit =>
    let l : Lexer := { reader := rest, pos := { pos with column := pos.column + 1 } }
    if unicode.IsLetter u r || unicode.IsDigit u r || r == ':' then
      lexIdentLoop u rest l.pos (lit ++ String.singleton r)
    else
      (lit, l.backup r)

/-- `lexIdent`. -/
def Lexer.lexIdent (u : unicode.Tables) (l : Lexer) : String × Lexer :=
  lexIdentLoop u l.reader l.pos ""

/-- The loop of `lexItem`. -/
def lexItemLoop : List Char → Position → String → String × Lexer
  | [], pos, lit => (lit, { reader := [], pos := pos })
  | r :: rest, pos, lit =>
    let pos1 : Position := { pos with column := pos.column + 1 }
    if r != '"' && r != '\'' then
      lexItemLoop rest pos1 (lit ++ String.singleton r)
    else
      (lit ++ String.singleton r, { reader := rest, pos := pos1 })

/-- `lexItem`: the opening quote is read without advancing the column. -/
def Lexer.lexItem (l : Lexer) : String × Lexer :=
  match l.reader with
  | [] => ("", l)
  | r :: rest =>
    if r != '"' && r != '\'' then ("", { l with reader := rest })
    else lexItemLoop rest l.pos ("" ++ String.singleton r)

/-- The loop of `Lex`, on the runes left and the position. -/
def lexLoop (u : unicode.Tables) : List Char → Position → Token × Lexer
  | [], pos => (tokenFromLexer .EOF pos "", { reader := [], pos := pos })
  | r :: rest, pos =>
    let l : Lexer := { reader := rest, pos := { pos with column := pos.column + 1 } }
    if r = '\n' then lexLoop u rest l.resetPosition.pos
    else if r = ',' then (tokenFromLexer .COMMA l.pos ",", l)
    else if r = '|' then (tokenFromLexer .UNION l.pos "|", l)
    else if r = '&' then (tokenFromLexer .INTERSECTION l.pos "&", l)
    else if r = '-' then (tokenFromLexer .DIFFERENCE l.pos "-", l)
    else if r = '^' then (tokenFromLexer .SYMMETRIC_DIFFERENCE l.pos "^", l)
    else if r = '{' then (tokenFromLexer .SET_OPEN l.pos "(", l)
    else if r = '}' then (tokenFromLexer .SET_CLOSE l.pos ")", l)
    else if r = '=' then (tokenFromLexer .ASSIGN l.pos "=", l)
    else if r = '\'' then
      let startPos := l.pos
      let lit := (l.backup r).lexItem
      (tokenFromLexer .ITEM startPos lit.1, lit.2)
    else if unicode.IsSpace u r then lexLoop u rest l.pos
    else if unicode.IsLetter u r then
      let startPos := l.pos
      let lit := (l.backup r).lexIdent u
      (tokenFromLexer .SET startPos lit.1, lit.2)
    else if unicode.IsDigit u r then
      let startPos := l.pos
      let lit := (l.backup r).lexIdent u
      (tokenFromLexer .ITEM startPos lit.1, lit.2)
    else (tokenFromLexer .ILLEGAL l.pos (String.singleton r), l)

/-- `Lex`: the next token and the lexer after it. -/
def Lexer.Lex (u : unicode.Tables) (l : Lexer) : Token × Lexer :=
  lexLoop u l.reader l.pos

end lexer

/-! ## Package `ast` -/

namespace ast

/-- The interface `Node` with its four implementations `AssignExpr`, `BinaryExpr`,
`Set` and `Item`, one constructor each, with the fields of the struct. -/
inductive Node
  | AssignExpr (Name : String) (Expr : Node)
  | BinaryExpr (Operator : lexer.TokenType) (LHS : Node) (RHS : Node)
  | Set (Name : String) (Node : List Node)
  | Item (Name : String)
  deriving Repr

mutual
/-- Equality of nodes is decidable. -/
def Node.decEq : (a b : Node) → Decidable (a = b)
  | .AssignExpr n e, .AssignExpr m f =>
    if h : n = m then
      match Node.decEq e f with
      | isTrue he => isTrue (by rw [h, he])
      | isFalse he => isFalse (fun x => he (by cases x; rfl))
    else isFalse (fun x => h (by cases x; rfl))
  | .BinaryExpr o l r, .BinaryExpr o' l' r' =>
    if h : o = o' then
      match Node.decEq l l', Node.decEq r r' with
      | isTrue hl, isTrue hr => isTrue (by rw [h, hl, hr])
      | isFalse hl, _ => isFalse (fun x => hl (by cases x; rfl))
      | _, isFalse hr => isFalse (fun x => hr (by cases x; rfl))
    else isFalse (fun x => h (by cases x; rfl))
  | .Set n l, .Set m k =>
    if h : n = m then
      match Node.decEqList l k with
      | isTrue hl => isTrue (by rw [h, hl])
      | isFalse hl => isFalse (fun x => hl (by cases x; rfl))
    else isFalse (fun x => h (by cases x; rfl))
  | .Item n, .Item m =>
    if h : n = m then isTrue (by rw [h]) else isFalse (fun x => h (by cases x; rfl))
  | .AssignExpr _ _, .BinaryExpr _ _ _ => isFalse (fun x => by cases x)
  | .AssignExpr _ _, .Set _ _ => isFalse (fun x => by cases x)
  | .AssignExpr _ _, .Item _ => isFalse (fun x => by cases x)
  | .BinaryExpr _ _ _, .AssignExpr _ _ => isFalse (fun x => by cases x)
  | .BinaryExpr _ _ _, .Set _ _ => isFalse (fun x => by cases x)
  | .BinaryExpr _ _ _, .Item _ => isFalse (fun x => by cases x)
  | .Set _ _, .AssignExpr _ _ => isFalse (fun x => by cases x)
  | .Set _ _, .BinaryExpr _ _ _ => isFalse (fun x => by cases x)
  | .Set _ _, .Item _ => isFalse (fun x => by cases x)
  | .Item _, .AssignExpr _ _ => isFalse (fun x => by cases x)
  | .Item _, .BinaryExpr _ _ _ => isFalse (fun x => by cases x)
  | .Item _, .Set _ _ => isFalse (fun x => by cases x)
/-- Equality of lists of nodes is decidable. -/
def Node.decEqList : (as bs : List Node) → Decidable (as = bs)
  | [], [] => isTrue rfl
  | [], _ :: _ => isFalse (fun x => by cases x)
  | _ :: _, [] => isFalse (fun x => by cases x)
  | a :: as, b :: bs =>
    match Node.decEq a b, Node.decEqList as bs with
    | isTrue h, isTrue hs => isTrue (by rw [h, hs])
    | isFalse h, _ => isFalse (fun x => h (by cases x; rfl))
    | _, isFalse hs => isFalse (fun x => hs (by cases x; rfl))
end

instance : DecidableEq Node := Node.decEq

/-- The struct `ResolvedSet`. -/
structure ResolvedSet where
  Name : String
  Pattern : Node
  deriving DecidableEq

def NewResolvedSet (name : String) (pattern : Node) : ResolvedSet :=
  { Name := name, Pattern := pattern }

mutual
/-- The methods `ToQuery` of the four node types. -/
def Node.ToQuery : Node → String
  | .AssignExpr Name Expr => Name ++ " = " ++ Expr.ToQuery
  | .BinaryExpr Operator LHS RHS => LHS.ToQuery ++ Operator.String ++ RHS.ToQuery
  | .Set Name Node =>
    if Name = "" then ToQueryItems Node "\x7b" ++ "\x7d"
    else Name
  | .Item Name => Name
/-- The loop `for i, item := range n.Node` of `Set.ToQuery`, on the items left and
`buf`; `i != len(n.Node)-1` holds when items are left after the current one. -/
def ToQueryItems : List Node → String → String
  | [], buf => buf
  | item :: rest, buf =>
    if rest.isEmpty then ToQueryItems rest (buf ++ item.ToQuery)
    else ToQueryItems rest (buf ++ item.ToQuery ++ ",")
end

/-- How a call ends when it returns no value: with a Go `error`, or with a panic. -/
inductive Failure (ε : Type) where
  | error (err : ε)
  | panic (msg : String)
  deriving DecidableEq

/-- The `switch n.Operator` of `BinaryExpr.Evaluate`; `none` is the `default`
branch.  `sets.Difference` can panic, so every primitive returns an option. -/
def binaryOp : lexer.TokenType → Option (List sets.Set → Option sets.Set)
  | .UNION => some (fun ss => some (sets.Union ss))
  | .INTERSECTION => some (fun ss => some (sets.Intersection ss))
  | .DIFFERENCE => some sets.Difference
  | .SYMMETRIC_DIFFERENCE => some (fun ss => some (sets.SymmetricDifference ss))
  | _ => none

/-- The loop `for _, item := range n.Node` of `Set.Evaluate`, on the items left and
`resolvedSets`, with `ev` the evaluation of one item. -/
def evaluateItems {ε S : Type} (ev : Node → S → Option (Except (Failure ε) sets.Set × S)) :
    List Node → List sets.Set → S → Option (Except (Failure ε) (List sets.Set) × S)
  | [], resolvedSets, s => some (.ok resolvedSets, s)
  | item :: rest, resolvedSets, s =>
    match ev item s with
    | none => none
    | some (.error e, s1) => some (.error e, s1)
    | some (.ok results, s1) => evaluateItems ev rest (resolvedSets ++ [results]) s1

/-- The methods `Evaluate` of the four node types.  The callback `cb` is a closure
over mutable state, here the state `S` passed along; the outer option is `none`
when the fuel runs out (Go recurses into every fetched pattern without a bound). -/
def Node.Evaluate {ε S : Type}
    (cb : String → S → Option (Except ε ResolvedSet × S)) :
    Nat → Node → S → Option (Except (Failure ε) sets.Set × S)
  | 0, _, _ => none
  | fuel + 1, .AssignExpr _ Expr, s => Node.Evaluate cb fuel Expr s
  | fuel + 1, .BinaryExpr Operator LHS RHS, s =>
    match binaryOp Operator with
    | none => some (.error (.panic ("unknown operation: " ++ Operator.String)), s)
    | some op =>
      match Node.Evaluate cb fuel LHS s with
      | none => none
      | some (.error e, s1) => some (.error e, s1)
      | some (.ok lhs, s1) =>
        match Node.Evaluate cb fuel RHS s1 with
        | none => none
        | some (.error e, s2) => some (.error e, s2)
        | some (.ok rhs, s2) =>
          match op [lhs, rhs] with
          | none => some (.error (.panic "index out of range"), s2)
          | some result => some (.ok result, s2)
  | fuel + 1, .Set Name Node, s =>
    if Name ≠ "" then
      match cb Name s with
      | none => none
      | some (.error err, s1) => some (.error (.error err), s1)
      | some (.ok resolvedSet, s1) => Node.Evaluate cb fuel resolvedSet.Pattern s1
    else
      match evaluateItems (Node.Evaluate cb fuel) Node [] s with
      | none => none
      | some (.error e, s1) => some (.error e, s1)
      | some (.ok resolvedSets, s1) => some (.ok (sets.Union resolvedSets), s1)
  | _ + 1, .Item Name, s => some (.ok (sets.NewSet [Name]), s)

end ast

/-! ## Package `parser` -/

namespace parser

open lexer ast

/-- The map `binopPrecedence` together with `getTokenPrecedence`. -/
def getTokenPrecedence (tokenType : TokenType) : Int :=
  match tokenType with
  | .UNION => 10
  | .INTERSECTION => 10
  | .DIFFERENCE => 10
  | .SYMMETRIC_DIFFERENCE => 10
  | _ => -1

/-- The struct `ParserError`. -/
structure ParserError where
  token : Token
  msg : String
  deriving DecidableEq, Repr

/-- `ParseError(token, format, args...)` with `msg` the formatted message: the
text built in `output` is dropped by the source, the error keeps token and
message. -/
def ParseError (token : Token) (msg : String) : ParserError :=
  { token := token, msg := msg }

/-- The method `Error` of `ParserError`; `%d` writes an `int` in decimal, `%s`
writes the token type through its method `String`. -/
def ParserError.Error (e : ParserError) : String :=
  let token := e.token
  let msg := e.msg
  let output := "line " ++ toString token.Position.Line ++ ", column " ++
    toString token.Position.Column ++ ": " ++ msg ++ ", got: " ++ token.Type.String
  if token.Type.String ≠ token.Value then output ++ (" (" ++ token.Value ++ ")")
  else output

def ParserError.Line (e : ParserError) : Int := e.token.Position.Line

def ParserError.Column (e : ParserError) : Int := e.token.Position.Column

/-- The struct `Parser`; `readAhead` is a pointer that is nil or holds a token. -/
structure Parser where
  lexer : Lexer
  readAhead : Option Token
  deriving DecidableEq, Repr

def NewParser (l : Lexer) : Parser :=
  { lexer := l, readAhead := none }

/-- `peekToken`. -/
def Parser.peekToken (u : unicode.Tables) (p : Parser) : Token × Parser :=
  match p.readAhead with
  | some token => (token, p)
  | none =>
    let r := p.lexer.Lex u
    (r.1, { lexer := r.2, readAhead := some r.1 })

/-- `readToken`. -/
def Parser.readToken (u : unicode.Tables) (p : Parser) : Token × Parser :=
  match p.readAhead with
  | some token => (token, { p with readAhead := none })
  | none =>
    let r := p.lexer.Lex u
    (r.1, { p with lexer := r.2 })

/-- What a parsing method returns, `(ast.Node, error)`, with the parser after the
call. -/
abbrev Parsed := Except ParserError Node × Parser

mutual
/-- `parseInlineSet`. -/
def parseInlineSet (u : unicode.Tables) : Nat → Parser → Option Parsed
  | 0, _ => none
  | fuel + 1, p =>
    let t := p.readToken u
    if t.1.Type ≠ .SET_OPEN then some (.error (ParseError t.1 "expected '\x7b'"), t.2)
    else parseInlineSetLoop u fuel t.2 []
/-- The `for` loop of `parseInlineSet` and the code after it, on `items`. -/
def parseInlineSetLoop (u : unicode.Tables) : Nat → Parser → List Node → Option Parsed
  | 0, _, _ => none
  | fuel + 1, p, items =>
    let t := p.peekToken u
    if t.1.Type = .EOF ∨ t.1.Type = .SET_CLOSE then
      if t.1.Type ≠ .SET_CLOSE then some (.error (ParseError t.1 "expected '\x7d'"), t.2)
      else some (.ok (.Set "" items), (t.2.readToken u).2)
    else
      match parseExpr u fuel t.2 with
      | none => none
      | some (.error err, p1) => some (.error err, p1)
      | some (.ok item, p1) =>
        let t1 := p1.peekToken u
        if t1.1.Type ≠ .SET_CLOSE then
          if t1.1.Type ≠ .COMMA then some (.error (ParseError t1.1 "expected ','"), t1.2)
          else parseInlineSetLoop u fuel (t1.2.readToken u).2 (items ++ [item])
        else parseInlineSetLoop u fuel t1.2 (items ++ [item])
/-- `parseAssign`. -/
def parseAssign (u : unicode.Tables) : Nat → Parser → Option Parsed
  | 0, _ => none
  | fuel + 1, p =>
    let t := p.readToken u
    if t.1.Type ≠ .ASSIGN then some (.error (ParseError t.1 "expected set name"), t.2)
    else parseExpr u fuel t.2
/-- `parseSet`. -/
def parseSet (u : unicode.Tables) : Nat → Parser → Option Parsed
  | 0, _ => none
  | fuel + 1, p =>
    let t := p.readToken u
    if t.1.Type ≠ .SET then some (.error (ParseError t.1 "expected set name"), t.2)
    else
      let name := t.1.Value
      let t1 := t.2.peekToken u
      if t1.1.Type = .ASSIGN then
        match parseAssign u fuel t1.2 with
        | none => none
        | some (.error err, p1) => some (.error err, p1)
        | some (.ok expr, p1) => some (.ok (.AssignExpr name expr), p1)
      else some (.ok (.Set name []), t1.2)
/-- `parseItem`. -/
def parseItem (u : unicode.Tables) : Nat → Parser → Option Parsed
  | 0, _ => none
  | _ + 1, p =>
    let t := p.readToken u
    if t.1.Type ≠ .ITEM then some (.error (ParseError t.1 "expected item name"), t.2)
    else some (.ok (.Item t.1.Value), t.2)
/-- `parseExprPrimary`. -/
def parseExprPrimary (u : unicode.Tables) : Nat → Parser → Option Parsed
  | 0, _ => none
  | fuel + 1, p =>
    let t := p.peekToken u
    if t.1.Type = .SET then parseSet u fuel t.2
    else if t.1.Type = .ITEM then parseItem u fuel t.2
    else if t.1.Type = .SET_OPEN then parseInlineSet u fuel t.2
    else some (.error (ParseError t.1 ("unexpected token " ++ t.1.Type.String)), t.2)
/-- `parseExprBinOpRHS`; a turn of its `for` loop is a call with the new `LHS`. -/
def parseExprBinOpRHS (u : unicode.Tables) : Nat → Int → Node → Parser → Option Parsed
  | 0, _, _, _ => none
  | fuel + 1, precedence, LHS, p =>
    let cur := p.peekToken u
    let curPrecedence := getTokenPrecedence cur.1.Type
    if curPrecedence < precedence then some (.ok LHS, cur.2)
    else
      let binOp := cur.2.readToken u
      match parseExprPrimary u fuel binOp.2 with
      | none => none
      | some (.error err, p1) => some (.error err, p1)
      | some (.ok RHS, p1) =>
        let next := p1.peekToken u
        let nextPrecedence := getTokenPrecedence next.1.Type
        if curPrecedence < nextPrecedence then
          match parseExprBinOpRHS u fuel (curPrecedence + 1) RHS next.2 with
          | none => none
          | some (.error err, p2) => some (.error err, p2)
          | some (.ok RHS2, p2) =>
            parseExprBinOpRHS u fuel precedence (.BinaryExpr binOp.1.Type LHS RHS2) p2
        else parseExprBinOpRHS u fuel precedence (.BinaryExpr binOp.1.Type LHS RHS) next.2
/-- `parseExpr`. -/
def parseExpr (u : unicode.Tables) : Nat → Parser → Option Parsed
  | 0, _ => none
  | fuel + 1, p =>
    match parseExprPrimary u fuel p with
    | none => none
    | some (.error err, p1) => some (.error err, p1)
    | some (.ok LHS, p1) => parseExprBinOpRHS u fuel 0 LHS p1
end

/-- `Parse`.  The fuel bounds the calls and the loop turns together; the depth of
the stack is left out of account here and bounded in `stack.Parse`. -/
def Parser.Parse (u : unicode.Tables) (fuel : Nat) (p : Parser) : Option Parsed :=
  match parseExpr u fuel p with
  | none => none
  | some (.error err, p1) => some (.error err, p1)
  | some (.ok parsedAST, p1) =>
    let t := p1.peekToken u
    if t.1.Type ≠ .EOF then some (.error (ParseError t.1 "expected EOF"), t.2)
    else some (.ok parsedAST, t.2)

/-- The composition `NewParser(NewLexer(strings.NewReader(pattern))).Parse()` that
`Database.Query` runs on a query and on every fetched pattern. -/
def ParseString (u : unicode.Tables) (fuel : Nat) (pattern : String) :
    Option (Except ParserError Node) :=
  (Parser.Parse u fuel (NewParser (NewLexer pattern.data))).map Prod.fst

end parser

/-! ## Package `setdb` -/

namespace setdb

open ast

/-- The methods of the interface `Backend` that `Database.Query` calls, over a
backend state `σ` and backend errors `β`.  A call returns its result together
with the state it leaves. -/
structure Backend (σ β : Type) where
  Persist : σ → String → String → List String → Option β × σ
  Pattern : σ → String → Except β String × σ

/-- A call of a backend method, as recorded in the order the calls are made. -/
inductive BackendCall where
  | Pattern (name : String)
  | Persist (name : String) (pattern : String) (dependencies : List String)
  deriving DecidableEq, Repr

/-- The errors `Database.Query` returns: a parser error, the error
`fmt.Errorf("cyclic reference is forbidden")`, or an error of the backend. -/
inductive QueryError (β : Type) where
  | parse (err : parser.ParserError)
  | cyclicReference
  | backend (err : β)
  deriving DecidableEq

/-- The struct `Database`; the state of its backend is passed along separately. -/
structure Database (σ β : Type) where
  backend : Backend σ β
  name : String

/-- The struct `Set` that `Query` returns (the field `database` points back to the
receiver and is left out). -/
structure Set where
  items : sets.Set
  patternAST : Node
  name : String
  dependsOn : List String

instance : DecidableEq Set := fun a b =>
  decidable_of_iff
    (a.items = b.items ∧ a.patternAST = b.patternAST ∧ a.name = b.name ∧
      a.dependsOn = b.dependsOn)
    (by cases a; cases b; simp)

/-- What the closure `setResolver` reads and writes: the state of the backend, the
slice `dependencies`, and the record of the backend calls made so far. -/
structure Resolving (σ : Type) where
  backend : σ
  dependencies : List String
  calls : List BackendCall

/-- The closure `setResolver` of `Database.Query`, with `name` the captured name of
the assignment. -/
def setResolver {σ β : Type} (u : unicode.Tables) (fuel : Nat) (db : Database σ β)
    (name : String) (_name : String) (s : Resolving σ) :
    Option (Except (QueryError β) ResolvedSet × Resolving σ) :=
  if name = _name then some (.error .cyclicReference, s)
  else
    let r := db.backend.Pattern s.backend _name
    let s1 : Resolving σ := { s with backend := r.2, calls := s.calls ++ [.Pattern _name] }
    match r.1 with
    | .error err => some (.error (.backend err), s1)
    | .ok subpattern =>
      match parser.ParseString u fuel subpattern with
      | none => none
      | some (.error err) => some (.error (.parse err), s1)
      | some (.ok subqueryAST) =>
        some (.ok (NewResolvedSet name subqueryAST),
          { s1 with dependencies := s1.dependencies ++ [_name] })

/-- What one call of `Database.Query` amounts to: the returned `(*Set, error)` (or
a panic), the state of the backend after the call, and the backend calls made. -/
structure Queried (σ β : Type) where
  result : Except (Failure (QueryError β)) Set
  backend : σ
  calls : List BackendCall

instance {σ β : Type} [DecidableEq σ] [DecidableEq β] : DecidableEq (Queried σ β) := fun a b =>
  decidable_of_iff (a.result = b.result ∧ a.backend = b.backend ∧ a.calls = b.calls)
    (by cases a; cases b; simp)

/-- `Database.Query` on the backend state `st`; `none` when the fuel runs out. -/
def Database.Query {σ β : Type} (u : unicode.Tables) (fuel : Nat) (db : Database σ β)
    (st : σ) (pattern : String) : Option (Queried σ β) :=
  match parser.ParseString u fuel pattern with
  | none => none
  | some (.error err) => some { result := .error (.error (.parse err)), backend := st, calls := [] }
  | some (.ok parsed) =>
    let name := match parsed with
      | .AssignExpr Name _ => Name
      | _ => ""
    let queryAST := match parsed with
      | .AssignExpr _ Expr => Expr
      | node => node
    match queryAST.Evaluate (setResolver u fuel db name) fuel
        { backend := st, dependencies := [], calls := [] } with
    | none => none
    | some (.error e, s) => some { result := .error e, backend := s.backend, calls := s.calls }
    | some (.ok resultset, s) =>
      if name ≠ "" then
        let r := db.backend.Persist s.backend name queryAST.ToQuery s.dependencies
        let calls := s.calls ++ [.Persist name queryAST.ToQuery s.dependencies]
        match r.1 with
        | some err => some { result := .error (.error (.backend err)), backend := r.2, calls := calls }
        | none =>
          some { result := .ok { items := resultset, name := name, patternAST := queryAST,
                                 dependsOn := s.dependencies },
                 backend := r.2, calls := calls }
      else
        some { result := .ok { items := resultset, name := name, patternAST := queryAST,
                               dependsOn := s.dependencies },
               backend := s.backend, calls := s.calls }

end setdb

/-! ## Token streams

Definitions used to state and prove the properties of lexer and parser: the
kind and lexeme of the tokens that the lexer yields from a sequence of runes,
independently of positions, and the stream of tokens a parser still has to
read. -/

namespace lexer

/-- Kind and lexeme of a token. -/
abbrev Tok := TokenType × String

/-- A token without its position. -/
def Token.erase (t : Token) : Tok := (t.tokenType, t.tokenValue)

/-- The test of the loop of `lexIdent`. -/
def identBody (u : unicode.Tables) (r : Char) : Bool :=
  unicode.IsLetter u r || unicode.IsDigit u r || r == ':'

/-- The test of the loop of `lexItem`. -/
def notQuote (r : Char) : Bool :=
  r != '"' && r != '\''

/-- What the loop of `lexItem` appends to `lit`: the runes before the next quote
and that quote, or all the runes when there is no quote. -/
def quotedBody (rs : List Char) : List Char :=
  rs.takeWhile notQuote ++ (rs.dropWhile notQuote).take 1

/-- What the loop of `lexItem` leaves in the reader. -/
def quotedRest (rs : List Char) : List Char :=
  (rs.dropWhile notQuote).drop 1

/-- Kind and lexeme of the next token of `rs`, and the runes after it. -/
def lexTok (u : unicode.Tables) : List Char → Tok × List Char
  | [] => ((.EOF, ""), [])
  | r :: rest =>
    if r = '\n' then lexTok u rest
    else if r = ',' then ((.COMMA, ","), rest)
    else if r = '|' then ((.UNION, "|"), rest)
    else if r = '&' then ((.INTERSECTION, "&"), rest)
    else if r = '-' then ((.DIFFERENCE, "-"), rest)
    else if r = '^' then ((.SYMMETRIC_DIFFERENCE, "^"), rest)
    else if r = '{' then ((.SET_OPEN, "("), rest)
    else if r = '}' then ((.SET_CLOSE, ")"), rest)
    else if r = '=' then ((.ASSIGN, "="), rest)
    else if r = '\'' then ((.ITEM, String.mk (r :: quotedBody rest)), quotedRest rest)
    else if unicode.IsSpace u r then lexTok u rest
    else if unicode.IsLetter u r then
      ((.SET, String.mk ((r :: rest).takeWhile (identBody u))),
        (r :: rest).dropWhile (identBody u))
    else if unicode.IsDigit u r then
      ((.ITEM, String.mk ((r :: rest).takeWhile (identBody u))),
        (r :: rest).dropWhile (identBody u))
    else ((.ILLEGAL, String.singleton r), rest)

/-- The tokens of `rs` before `EOF`, at most `n` of them. -/
def tokensFuel (u : unicode.Tables) : Nat → List Char → List Tok
  | 0, _ => []
  | n + 1, rs =>
    if (lexTok u rs).1.1 = .EOF then []
    else (lexTok u rs).1 :: tokensFuel u n (lexTok u rs).2

/-- The tokens of `rs` before `EOF` (every token takes at least one rune). -/
def tokensOf (u : unicode.Tables) (rs : List Char) : List Tok :=
  tokensFuel u rs.length rs

/-- The kind of the first token of a stream, `EOF` for the empty stream. -/
def headType : List Tok → TokenType
  | [] => .EOF
  | t :: _ => t.1

/-- The lexeme of the first token of a stream. -/
def headValue : List Tok → String
  | [] => ""
  | t :: _ => t.2

end lexer

namespace parser

open lexer ast

/-- The tokens the parser has still to read: the token read ahead, if any, then
the tokens of the reader. -/
def Parser.stream (u : unicode.Tables) (p : Parser) : List Tok :=
  match p.readAhead with
  | none => tokensOf u p.lexer.reader
  | some t => if t.tokenType = .EOF then [] else t.erase :: tokensOf u p.lexer.reader

/-- A token read ahead is what the lexer returned: if it is `EOF`, the reader has
no token left. -/
def Parser.Consistent (u : unicode.Tables) (p : Parser) : Prop :=
  ∀ t, p.readAhead = some t → t.tokenType = .EOF → tokensOf u p.lexer.reader = []

/-- The four binary operators. -/
def isBinop : TokenType → Bool
  | .UNION => true
  | .INTERSECTION => true
  | .DIFFERENCE => true
  | .SYMMETRIC_DIFFERENCE => true
  | _ => false

end parser

/-! ## The grammar the parser implements

`Derives g fuel ts r ts'` says that the parsing method for `g`, run with `fuel` on
a parser whose token stream is `ts`, succeeds with result `r` and leaves the
stream `ts'`.  It is stated on token streams only; the lemmas `sound` and
`complete` below relate it to the parsing methods. -/

namespace parser

open lexer ast

/-- The parsing methods: `parseExpr`, `parseExprPrimary`, `parseSet`,
`parseAssign`, `parseItem`, `parseInlineSet`, the loop of `parseInlineSet`, and
`parseExprBinOpRHS` at precedence 0. -/
inductive Goal
  | expr
  | primary
  | set
  | assign
  | item
  | inlineSet
  | elems
  | ops

/-- What a derivation yields: a node, the nodes a literal loop appends to `items`,
or the operators and right operands `parseExprBinOpRHS` merges into `LHS`. -/
inductive Res
  | one (t : Node)
  | many (items : List Node)
  | ops (pairs : List (TokenType × Node))

/-- The tree `parseExprBinOpRHS` builds from `LHS` and the operator-operand pairs
it reads: every pair is merged to the left. -/
def build (LHS : Node) (pairs : List (TokenType × Node)) : Node :=
  pairs.foldl (fun lhs x => .BinaryExpr x.1 lhs x.2) LHS

inductive Derives : Goal → Nat → List Tok → Res → List Tok → Prop
  | item (fuel : Nat) (v : String) (ts : List Tok) :
      Derives .item (fuel + 1) ((.ITEM, v) :: ts) (.one (.Item v)) ts
  | setRef (fuel : Nat) (name : String) (ts : List Tok) (h : headType ts ≠ .ASSIGN) :
      Derives .set (fuel + 1) ((.SET, name) :: ts) (.one (.Set name [])) ts
  | setAssign (fuel : Nat) (name : String) (ts : List Tok) (expr : Node) (ts' : List Tok)
      (h : headType ts = .ASSIGN) (he : Derives .assign fuel ts (.one expr) ts') :
      Derives .set (fuel + 1) ((.SET, name) :: ts) (.one (.AssignExpr name expr)) ts'
  | assign (fuel : Nat) (v : String) (ts : List Tok) (expr : Node) (ts' : List Tok)
      (he : Derives .expr fuel ts (.one expr) ts') :
      Derives .assign (fuel + 1) ((.ASSIGN, v) :: ts) (.one expr) ts'
  | inlineSet (fuel : Nat) (v : String) (ts : List Tok) (items : List Node) (ts' : List Tok)
      (h : Derives .elems fuel ts (.many items) ts') :
      Derives .inlineSet (fuel + 1) ((.SET_OPEN, v) :: ts) (.one (.Set "" items)) ts'
  | elemsClose (fuel : Nat) (v : String) (ts : List Tok) :
      Derives .elems (fuel + 1) ((.SET_CLOSE, v) :: ts) (.many []) ts
  | elemsComma (fuel : Nat) (ts : List Tok) (item : Node) (v : String) (ts1 : List Tok)
      (items : List Node) (ts' : List Tok)
      (h1 : Derives .expr fuel ts (.one item) ((.COMMA, v) :: ts1))
      (h2 : Derives .elems fuel ts1 (.many items) ts') :
      Derives .elems (fuel + 1) ts (.many (item :: items)) ts'
  | elemsLast (fuel : Nat) (ts : List Tok) (item : Node) (v : String) (ts' : List Tok)
      (h1 : Derives .expr fuel ts (.one item) ((.SET_CLOSE, v) :: ts')) :
      Derives .elems (fuel + 1) ts (.many [item]) ts'
  | primarySet (fuel : Nat) (ts : List Tok) (t : Node) (ts' : List Tok)
      (h : Derives .set fuel ts (.one t) ts') :
      Derives .primary (fuel + 1) ts (.one t) ts'
  | primaryItem (fuel : Nat) (ts : List Tok) (t : Node) (ts' : List Tok)
      (h : Derives .item fuel ts (.one t) ts') :
      Derives .primary (fuel + 1) ts (.one t) ts'
  | primaryInline (fuel : Nat) (ts : List Tok) (t : Node) (ts' : List Tok)
      (h : Derives .inlineSet fuel ts (.one t) ts') :
      Derives .primary (fuel + 1) ts (.one t) ts'
  | opsDone (fuel : Nat) (ts : List Tok) (h : isBinop (headType ts) = false) :
      Derives .ops (fuel + 1) ts (.ops []) ts
  | opsStep (fuel : Nat) (op : TokenType) (v : String) (ts : List Tok) (rhs : Node)
      (ts1 : List Tok) (pairs : List (TokenType × Node)) (ts' : List Tok)
      (hop : isBinop op = true)
      (h1 : Derives .primary fuel ts (.one rhs) ts1)
      (h2 : Derives .ops fuel ts1 (.ops pairs) ts') :
      Derives .ops (fuel + 1) ((op, v) :: ts) (.ops ((op, rhs) :: pairs)) ts'
  | expr (fuel : Nat) (ts : List Tok) (lhs : Node) (ts1 : List Tok)
      (pairs : List (TokenType × Node)) (ts' : List Tok)
      (h1 : Derives .primary fuel ts (.one lhs) ts1)
      (h2 : Derives .ops fuel ts1 (.ops pairs) ts') :
      Derives .expr (fuel + 1) ts (.one (build lhs pairs)) ts'

/-- Soundness of a parsing method that returns a node, at one fuel. -/
def SoundOne (u : unicode.Tables) (f : Nat → Parser → Option Parsed) (g : Goal) (fuel : Nat) :
    Prop :=
  ∀ p t p', p.Consistent u → f fuel p = some (.ok t, p') →
    Derives g fuel (p.stream u) (.one t) (p'.stream u) ∧ p'.Consistent u

/-- Soundness of the loop of `parseInlineSet`, at one fuel. -/
def SoundLoop (u : unicode.Tables) (fuel : Nat) : Prop :=
  ∀ p items t p', p.Consistent u → parseInlineSetLoop u fuel p items = some (.ok t, p') →
    ∃ elems, t = .Set "" (items ++ elems) ∧
      Derives .elems fuel (p.stream u) (.many elems) (p'.stream u) ∧ p'.Consistent u

/-- Soundness of `parseExprBinOpRHS` at precedence 0, at one fuel. -/
def SoundOps (u : unicode.Tables) (fuel : Nat) : Prop :=
  ∀ p LHS t p', p.Consistent u → parseExprBinOpRHS u fuel 0 LHS p = some (.ok t, p') →
    ∃ pairs, t = build LHS pairs ∧
      Derives .ops fuel (p.stream u) (.ops pairs) (p'.stream u) ∧ p'.Consistent u

/-- A parsing method `f` run on any consistent parser with token stream `ts`
returns the node `t` and leaves a consistent parser with token stream `ts'`. -/
def Runs (u : unicode.Tables) (f : Parser → Option Parsed) (ts : List Tok) (t : Node)
    (ts' : List Tok) : Prop :=
  ∀ p : Parser, p.Consistent u → p.stream u = ts →
    ∃ p', f p = some (.ok t, p') ∧ p'.stream u = ts' ∧ p'.Consistent u

/-- What a derivation says of the parsing methods. -/
def Realized (u : unicode.Tables) : Goal → Nat → List Tok → Res → List Tok → Prop
  | .expr, fuel, ts, .one t, ts' => Runs u (parseExpr u fuel) ts t ts'
  | .primary, fuel, ts, .one t, ts' => Runs u (parseExprPrimary u fuel) ts t ts'
  | .set, fuel, ts, .one t, ts' => Runs u (parseSet u fuel) ts t ts'
  | .assign, fuel, ts, .one t, ts' => Runs u (parseAssign u fuel) ts t ts'
  | .item, fuel, ts, .one t, ts' => Runs u (parseItem u fuel) ts t ts'
  | .inlineSet, fuel, ts, .one t, ts' => Runs u (parseInlineSet u fuel) ts t ts'
  | .elems, fuel, ts, .many elems, ts' =>
    ∀ items, Runs u (fun p => parseInlineSetLoop u fuel p items) ts (.Set "" (items ++ elems)) ts'
  | .ops, fuel, ts, .ops pairs, ts' =>
    ∀ LHS, Runs u (fun p => parseExprBinOpRHS u fuel 0 LHS p) ts (build LHS pairs) ts'
  | _, _, _, _, _ => True

/-- A node starts with a set name, an item or an opening brace. -/
def startsPrimary (ts : List Tok) : Prop :=
  headType ts = .SET ∨ headType ts = .ITEM ∨ headType ts = .SET_OPEN

end parser

/-! ## The tokens of a serialized node

`toks t` is the token stream that the lexer yields from `t.ToQuery()` when `t` is
a node the parser returned; the lemmas `Derives.reparse` and `Derives.relex` below
say so. -/

namespace parser

open lexer ast

mutual
/-- The tokens of the canonical text of a node. -/
def toks : Node → List Tok
  | .AssignExpr Name Expr => (.SET, Name) :: (.ASSIGN, "=") :: toks Expr
  | .BinaryExpr Operator LHS RHS => toks LHS ++ (Operator, Operator.String) :: toks RHS
  | .Set Name Node =>
    if Name = "" then (.SET_OPEN, "(") :: (toksItems Node ++ [(.SET_CLOSE, ")")])
    else [(.SET, Name)]
  | .Item Name => [(.ITEM, Name)]
/-- The tokens of the elements of a literal, with the commas between them. -/
def toksItems : List Node → List Tok
  | [] => []
  | item :: rest =>
    if rest.isEmpty then toks item ++ toksItems rest
    else toks item ++ (.COMMA, ",") :: toksItems rest
end

/-- The text `Set.ToQuery` puts between the braces. -/
def itemsText : List Node → List Char
  | [] => []
  | item :: rest =>
    if rest.isEmpty then item.ToQuery.data ++ itemsText rest
    else item.ToQuery.data ++ ',' :: itemsText rest

/-- The tokens of the operators and right operands merged into a left operand. -/
def pairsToks : List (TokenType × Node) → List Tok
  | [] => []
  | x :: rest => (x.1, x.1.String) :: (toks x.2 ++ pairsToks rest)

/-- The text of the operators and right operands merged into a left operand. -/
def pairsText : List (TokenType × Node) → List Char
  | [] => []
  | x :: rest => x.1.String.data ++ (x.2.ToQuery.data ++ pairsText rest)

/-- The stream `rest` may follow a node in place of `ts'`: where the parser looks
at the token after a node, it finds an operator or `=` in `rest` only if it found
one in `ts'`. -/
def Follows (rest ts' : List Tok) : Prop :=
  (isBinop (headType rest) = true → isBinop (headType ts') = true) ∧
    (headType rest = .ASSIGN → headType ts' = .ASSIGN)

/-- The runes `cs` end an identifier: they do not start with a rune of an
identifier body. -/
def Delim (u : unicode.Tables) (cs : List Char) : Prop :=
  ∀ c rest, cs = c :: rest → identBody u c = false

/-- Every set name and item of the stream is lexed again from its lexeme, alone
and, when a token follows it in the stream, in front of any runes that end an
identifier. -/
def StreamOK (u : unicode.Tables) : List Tok → Prop
  | [] => True
  | tok :: rest =>
    ((tok.1 = .SET ∨ tok.1 = .ITEM) →
      ∀ cs, Delim u cs → (cs ≠ [] → rest ≠ []) → lexTok u (tok.2.data ++ cs) = (tok, cs)) ∧
    StreamOK u rest

/-- What a derivation says of the tokens of its result: they derive the same
result again. -/
def Reparses (u : unicode.Tables) : Goal → Nat → List Tok → Res → List Tok → Prop
  | .expr, fuel, ts, .one t, ts' => StreamOK u ts → ∀ rest, Follows rest ts' →
      Derives .expr fuel (toks t ++ rest) (.one t) rest
  | .primary, fuel, ts, .one t, ts' => StreamOK u ts → ∀ rest, Follows rest ts' →
      Derives .primary fuel (toks t ++ rest) (.one t) rest
  | .set, fuel, ts, .one t, ts' => StreamOK u ts → ∀ rest, Follows rest ts' →
      Derives .set fuel (toks t ++ rest) (.one t) rest
  | .item, fuel, ts, .one t, ts' => StreamOK u ts → ∀ rest, Follows rest ts' →
      Derives .item fuel (toks t ++ rest) (.one t) rest
  | .inlineSet, fuel, ts, .one t, ts' => StreamOK u ts → ∀ rest, Follows rest ts' →
      Derives .inlineSet fuel (toks t ++ rest) (.one t) rest
  | .assign, fuel, ts, .one t, ts' => StreamOK u ts → ∀ rest, Follows rest ts' →
      Derives .assign fuel ((.ASSIGN, "=") :: (toks t ++ rest)) (.one t) rest
  | .elems, fuel, ts, .many elems, _ => StreamOK u ts → ∀ rest,
      Derives .elems fuel (toksItems elems ++ (.SET_CLOSE, ")") :: rest) (.many elems) rest
  | .ops, fuel, ts, .ops pairs, ts' => StreamOK u ts → ∀ rest, Follows rest ts' →
      Derives .ops fuel (pairsToks pairs ++ rest) (.ops pairs) rest
  | _, _, _, _, _ => True

end parser

namespace parser

open lexer ast

/-- What a derivation on a well-lexed stream says of the canonical text of its
result: the lexer yields the tokens of the result from it. -/
def Relexes (u : unicode.Tables) : Goal → Nat → List Tok → Res → List Tok → Prop
  | .elems, _, ts, .many elems, _ => StreamOK u ts → ∀ cs,
      tokensOf u (itemsText elems ++ '}' :: cs) =
        toksItems elems ++ (.SET_CLOSE, ")") :: tokensOf u cs
  | .ops, _, ts, .ops pairs, ts' => StreamOK u ts → ∀ cs, Delim u cs → (cs ≠ [] → ts' ≠ []) →
      tokensOf u (pairsText pairs ++ cs) = pairsToks pairs ++ tokensOf u cs
  | _, _, ts, .one t, ts' => StreamOK u ts → ∀ cs, Delim u cs → (cs ≠ [] → ts' ≠ []) →
      tokensOf u (t.ToQuery.data ++ cs) = toks t ++ tokensOf u cs
  | _, _, _, _, _ => True

end parser

/-! ## ASCII inputs, fuel, operands and the place of assignments -/

namespace lexer

/-- All runes are ASCII. -/
def AllASCII (rs : List Char) : Prop := ∀ c ∈ rs, c.toNat < 128

end lexer

namespace parser

open lexer ast

/-- On an ASCII input a parsing method does not depend on the Unicode tables, and
it leaves an ASCII input. -/
def TablesFree (u u' : unicode.Tables) (f : unicode.Tables → Parser → Option Parsed) : Prop :=
  ∀ p : Parser, AllASCII p.lexer.reader →
    f u p = f u' p ∧ ∀ r p', f u p = some (r, p') → AllASCII p'.lexer.reader

/-- More fuel does not change what a parsing method returns. -/
def FuelMono (f : Nat → Parser → Option Parsed) (n : Nat) : Prop :=
  ∀ p r, f n p = some r → f (n + 1) p = some r

/-- From the parser `p` on, the input holds the operators and operands `pairs`,
every operand read by `parseExprPrimary` right after its operator, and then a
token that is not an operator; `p'` is the parser in front of that token. -/
def Operands (u : unicode.Tables) (fuel : Nat) :
    List (TokenType × Node) → Parser → Parser → Prop
  | [], p, p' => isBinop (p.peekToken u).1.Type = false ∧ p' = (p.peekToken u).2
  | x :: more, p, p' =>
    isBinop x.1 = true ∧ (p.peekToken u).1.Type = x.1 ∧
      ∃ p1, parseExprPrimary u fuel ((p.peekToken u).2.readToken u).2 = some (.ok x.2, p1) ∧
        Operands u fuel more p1 p'

end parser

namespace ast

/-- The node is an `AssignExpr`. -/
def Node.isAssign : Node → Bool
  | .AssignExpr _ _ => true
  | _ => false

mutual
/-- No `AssignExpr` is the left operand of a `BinaryExpr`, anywhere in the node. -/
def Node.noAssignLHS : Node → Bool
  | .AssignExpr _ Expr => Expr.noAssignLHS
  | .BinaryExpr _ LHS RHS => !LHS.isAssign && LHS.noAssignLHS && RHS.noAssignLHS
  | .Set _ Node => noAssignLHSItems Node
  | .Item _ => true
/-- The same for every node of a list. -/
def noAssignLHSItems : List Node → Bool
  | [] => true
  | item :: rest => item.noAssignLHS && noAssignLHSItems rest
end

end ast

namespace parser

open lexer ast

/-- What a derivation says of the place of `AssignExpr` nodes in its result, and
of the token after an `AssignExpr`. -/
def AssignPlaced : Goal → Res → List Tok → Prop
  | .ops, .ops pairs, ts' =>
    (∀ x ∈ pairs, x.2.noAssignLHS = true) ∧ isBinop (headType ts') = false
  | .elems, .many items, _ => noAssignLHSItems items = true
  | .expr, .one t, ts' => t.noAssignLHS = true ∧ isBinop (headType ts') = false
  | .assign, .one t, ts' => t.noAssignLHS = true ∧ isBinop (headType ts') = false
  | _, .one t, ts' =>
    t.noAssignLHS = true ∧ (t.isAssign = true → isBinop (headType ts') = false)
  | _, _, _ => True

end parser

/-! ## Set names, recorded calls, and a backend that is a map -/

namespace lexer

/-- The lexeme is a set name: a letter followed by runes of an identifier body. -/
def isSetName (u : unicode.Tables) (name : String) : Bool :=
  match name.data with
  | [] => false
  | c :: body => unicode.IsLetter u c && body.all (identBody u)

end lexer

namespace setdb

/-- The recorded call is a call of `Persist`. -/
def BackendCall.isPersist : BackendCall → Bool
  | .Persist _ _ _ => true
  | .Pattern _ => false

/-- A catalog held in memory, the latest entry of a name first: the table `sets`
of the sqlite backend, restricted to the columns `name`, `pattern` and
`dependsOn`. -/
abbrev Catalog := List (String × String × List String)

/-- A backend over a catalog held in memory: `Persist` replaces the entry of the
name (`INSERT OR REPLACE` on the unique column `name`), `Pattern` returns the
pattern stored under the name or fails with `set <name> does not exist`. -/
def memoryBackend : Backend Catalog String where
  Persist := fun st name pattern dependencies =>
    (none, (name, pattern, dependencies) :: st.filter (fun e => e.1 != name))
  Pattern := fun st name =>
    match st.find? (fun e => e.1 == name) with
    | some e => (.ok e.2.1, st)
    | none => (.error ("set " ++ name ++ " does not exist"), st)

/-- A database over the backend held in memory. -/
def memoryDatabase : Database Catalog String :=
  { backend := memoryBackend, name := "memory" }

/-- The state of the backend after the recorded calls are made on it, in order. -/
def replay {σ β : Type} (db : Database σ β) : σ → List BackendCall → σ
  | st, [] => st
  | st, .Pattern name :: rest => replay db (db.backend.Pattern st name).2 rest
  | st, .Persist name pattern dependencies :: rest =>
    replay db (db.backend.Persist st name pattern dependencies).2 rest

/-- The record of calls holds no call of `Persist`. -/
def NoPersist {σ : Type} (s : Resolving σ) : Prop :=
  ∀ c ∈ s.calls, c.isPersist = false

end setdb

/-! ## What a query denotes and which names it resolves

Definitions that follow the wording of the specification, to be compared with
`Evaluate` and with the closure `setResolver`. -/

namespace ast

mutual
/-- The number of nested calls of `Evaluate` on a node that holds no set name. -/
def Node.height : Node → Nat
  | .AssignExpr _ Expr => Expr.height + 1
  | .BinaryExpr _ LHS RHS => max LHS.height RHS.height + 1
  | .Set _ items => heightItems items + 1
  | .Item _ => 1
/-- The largest height of the nodes of a list. -/
def heightItems : List Node → Nat
  | [] => 0
  | item :: rest => max item.height (heightItems rest)
end

mutual
/-- The node holds no set name: it is made of items, brace literals and the four
binary operators only. -/
def Node.closed : Node → Bool
  | .AssignExpr _ _ => false
  | .BinaryExpr Operator LHS RHS => parser.isBinop Operator && LHS.closed && RHS.closed
  | .Set Name items => Name == "" && closedItems items
  | .Item _ => true
/-- Every node of the list holds no set name. -/
def closedItems : List Node → Bool
  | [] => true
  | item :: rest => item.closed && closedItems rest
end

mutual
/-- The set an expression without set names denotes: an item denotes the
singleton of its lexeme, a brace literal the union of what its elements denote,
and `|`, `&`, `-`, `^` the union, intersection, difference and symmetric
difference of what the operands denote. -/
def Node.denote : Node → Finset String
  | .AssignExpr _ Expr => Expr.denote
  | .BinaryExpr Operator LHS RHS =>
    match Operator with
    | .UNION => LHS.denote ∪ RHS.denote
    | .INTERSECTION => LHS.denote ∩ RHS.denote
    | .DIFFERENCE => LHS.denote \ RHS.denote
    | .SYMMETRIC_DIFFERENCE => (LHS.denote \ RHS.denote) ∪ (RHS.denote \ LHS.denote)
    | _ => ∅
  | .Set _ items => denoteItems items
  | .Item lexeme => {lexeme}
/-- The union of what the nodes of a list denote. -/
def denoteItems : List Node → Finset String
  | [] => ∅
  | item :: rest => item.denote ∪ denoteItems rest
end

end ast

namespace parser

open lexer ast

/-- The nodes of a result hold no set name. -/
def Res.closed : Res → Bool
  | .one t => t.closed
  | .many items => closedItems items
  | .ops pairs => pairs.all (fun p => isBinop p.1 && p.2.closed)

end parser

namespace setdb

open ast

/-- The names resolved in the nodes of a list, from left to right, by `f` on
one node. -/
def resolvedItems {σ : Type} (f : Node → σ → Option (List String × σ)) :
    List Node → σ → Option (List String × σ)
  | [], st => some ([], st)
  | item :: rest, st =>
    match f item st with
    | none => none
    | some (first, st1) =>
      match resolvedItems f rest st1 with
      | none => none
      | some (others, st2) => some (first ++ others, st2)

/-- The names resolved while a node is evaluated, in the order of the
specification: left to right and depth first, a set name being followed by the
names resolved in the pattern fetched for it, every occurrence counted.  The
result is `none` when a pattern cannot be fetched or parsed, or when the nesting
of fetched patterns exceeds `depth`; the state of the backend is passed along.
Patterns are parsed with `fuel`. -/
def resolved {σ β : Type} (u : unicode.Tables) (fuel : Nat) (db : Database σ β) :
    (depth : Nat) → Node → σ → Option (List String × σ)
  | 0, _, _ => none
  | depth + 1, .AssignExpr _ Expr, st => resolved u fuel db depth Expr st
  | depth + 1, .BinaryExpr _ LHS RHS, st =>
    match resolved u fuel db depth LHS st with
    | none => none
    | some (left, st1) =>
      match resolved u fuel db depth RHS st1 with
      | none => none
      | some (right, st2) => some (left ++ right, st2)
  | depth + 1, .Set Name items, st =>
    if Name ≠ "" then
      match db.backend.Pattern st Name with
      | (.error _, _) => none
      | (.ok pattern, st1) =>
        match parser.ParseString u fuel pattern with
        | some (.ok fetched) =>
          match resolved u fuel db depth fetched st1 with
          | none => none
          | some (inner, st2) => some (Name :: inner, st2)
        | _ => none
    else resolvedItems (resolved u fuel db depth) items st
  | _ + 1, .Item _, st => some ([], st)

/-- The name `Query` assigns to: the name of an assignment at the root, or the
empty string. -/
def assignedName : Node → String
  | .AssignExpr Name _ => Name
  | _ => ""

/-- The expression `Query` evaluates: the right-hand side of an assignment at
the root, or the whole tree. -/
def assignedExpr : Node → Node
  | .AssignExpr _ Expr => Expr
  | node => node

end setdb

/-! ## Inputs that end inside a literal

`EndsOpen g fuel ts` says that the parsing method for `g`, run with `fuel` on the
token stream `ts`, reaches the end of the stream at a place where the loop of a
brace literal looks for the next element or for the closing brace: directly after
the opening brace, or directly after the comma that follows an element. -/

namespace parser

open lexer ast

inductive EndsOpen : Goal → Nat → List Tok → Prop
  | loopEnd (fuel : Nat) : EndsOpen .elems (fuel + 1) []
  | loopElem (fuel : Nat) (ts : List Tok) (item : Node) (v : String) (ts1 : List Tok)
      (h1 : Derives .expr fuel ts (.one item) ((.COMMA, v) :: ts1))
      (h2 : EndsOpen .elems fuel ts1) :
      EndsOpen .elems (fuel + 1) ts
  | loopIn (fuel : Nat) (ts : List Tok) (h : EndsOpen .expr fuel ts) :
      EndsOpen .elems (fuel + 1) ts
  | inlineSet (fuel : Nat) (v : String) (ts : List Tok) (h : EndsOpen .elems fuel ts) :
      EndsOpen .inlineSet (fuel + 1) ((.SET_OPEN, v) :: ts)
  | primaryInline (fuel : Nat) (ts : List Tok) (h : EndsOpen .inlineSet fuel ts) :
      EndsOpen .primary (fuel + 1) ts
  | primarySet (fuel : Nat) (ts : List Tok) (h : EndsOpen .set fuel ts) :
      EndsOpen .primary (fuel + 1) ts
  | setAssign (fuel : Nat) (name : String) (ts : List Tok) (hh : headType ts = .ASSIGN)
      (h : EndsOpen .assign fuel ts) :
      EndsOpen .set (fuel + 1) ((.SET, name) :: ts)
  | assign (fuel : Nat) (v : String) (ts : List Tok) (h : EndsOpen .expr fuel ts) :
      EndsOpen .assign (fuel + 1) ((.ASSIGN, v) :: ts)
  | exprPrimary (fuel : Nat) (ts : List Tok) (h : EndsOpen .primary fuel ts) :
      EndsOpen .expr (fuel + 1) ts
  | exprOps (fuel : Nat) (ts : List Tok) (lhs : Node) (ts1 : List Tok)
      (h1 : Derives .primary fuel ts (.one lhs) ts1) (h2 : EndsOpen .ops fuel ts1) :
      EndsOpen .expr (fuel + 1) ts
  | opsPrimary (fuel : Nat) (op : TokenType) (v : String) (ts : List Tok)
      (hop : isBinop op = true) (h : EndsOpen .primary fuel ts) :
      EndsOpen .ops (fuel + 1) ((op, v) :: ts)
  | opsStep (fuel : Nat) (op : TokenType) (v : String) (ts : List Tok) (rhs : Node)
      (ts1 : List Tok) (hop : isBinop op = true)
      (h1 : Derives .primary fuel ts (.one rhs) ts1) (h2 : EndsOpen .ops fuel ts1) :
      EndsOpen .ops (fuel + 1) ((op, v) :: ts)

/-- The parsing method `f`, run on any consistent parser with token stream `ts`,
fails with the message `expected '}'` carried on an `EOF` token. -/
def Stops (u : unicode.Tables) (f : Parser → Option Parsed) (ts : List Tok) : Prop :=
  ∀ p : Parser, p.Consistent u → p.stream u = ts →
    ∃ t p', f p = some (.error (ParseError t "expected '\x7d'"), p') ∧ t.tokenType = .EOF

/-- What `EndsOpen` says of the parsing methods. -/
def Stopped (u : unicode.Tables) : Goal → Nat → List Tok → Prop
  | .expr, fuel, ts => Stops u (parseExpr u fuel) ts
  | .primary, fuel, ts => Stops u (parseExprPrimary u fuel) ts
  | .set, fuel, ts => Stops u (parseSet u fuel) ts
  | .assign, fuel, ts => Stops u (parseAssign u fuel) ts
  | .item, fuel, ts => Stops u (parseItem u fuel) ts
  | .inlineSet, fuel, ts => Stops u (parseInlineSet u fuel) ts
  | .elems, fuel, ts => ∀ items, Stops u (fun p => parseInlineSetLoop u fuel p items) ts
  | .ops, fuel, ts => ∀ LHS, Stops u (fun p => parseExprBinOpRHS u fuel 0 LHS p) ts

end parser

/-! ## The place of a comma -/

namespace lexer

/-- The kind of the last token of a stream, `EOF` for the empty stream. -/
def lastType : List Tok → TokenType
  | [] => .EOF
  | [t] => t.1
  | _ :: t :: ts => lastType (t :: ts)

end lexer

namespace parser

open lexer

/-- Where a comma may stand between two adjacent tokens: a comma follows the
last token of an element (an item, a set name or a closing brace), and is followed
by the first token of an element (an item, a set name or an opening brace) or by a
closing brace. -/
def CommaPlaced (a b : Tok) : Prop :=
  (b.1 = .COMMA → a.1 = .ITEM ∨ a.1 = .SET ∨ a.1 = .SET_CLOSE) ∧
  (a.1 = .COMMA → b.1 = .ITEM ∨ b.1 = .SET ∨ b.1 = .SET_OPEN ∨ b.1 = .SET_CLOSE)

/-- The stream `ts2` is the stream `ts` with a comma put in front of some of the
closing braces that follow the last token of an element (an item, a set name or
a closing brace); `prev` is the kind of the token in front of the streams. -/
inductive TrailingCommas : TokenType → List Tok → List Tok → Prop
  | nil (prev : TokenType) : TrailingCommas prev [] []
  | keep (prev : TokenType) (t : Tok) (ts ts2 : List Tok) (h : TrailingCommas t.1 ts ts2) :
      TrailingCommas prev (t :: ts) (t :: ts2)
  | comma (prev : TokenType) (v c : String) (ts ts2 : List Tok)
      (hprev : prev = .ITEM ∨ prev = .SET ∨ prev = .SET_CLOSE)
      (h : TrailingCommas .SET_CLOSE ts ts2) :
      TrailingCommas prev ((.SET_CLOSE, v) :: ts) ((.COMMA, c) :: (.SET_CLOSE, v) :: ts2)

end parser

/-! ## Termination of the parsing methods -/

namespace parser

open lexer ast

/-- The parsing method `f` returns (a node or an error) on every consistent
parser that has at most `n` tokens left to read. -/
def Terminates (u : unicode.Tables) (f : Parser → Option Parsed) (n : Nat) : Prop :=
  ∀ p : Parser, p.Consistent u → (p.stream u).length ≤ n → (f p).isSome = true

end parser

/-! ## The reference graph of a catalog -/

namespace ast

mutual
/-- The set names `Evaluate` resolves in a node itself, from left to right: the
name of a reference, and the names in the elements of a literal and in the
operands of a binary node. -/
def Node.refs : Node → List String
  | .AssignExpr _ Expr => Expr.refs
  | .BinaryExpr _ LHS RHS => LHS.refs ++ RHS.refs
  | .Set Name items => if Name ≠ "" then [Name] else refsItems items
  | .Item _ => []
/-- The set names resolved in the nodes of a list. -/
def refsItems : List Node → List String
  | [] => []
  | item :: rest => item.refs ++ refsItems rest
end

end ast

namespace setdb

open ast

/-- The pattern stored under a name in a catalog held in memory, if any. -/
def stored (cat : Catalog) (name : String) : Option String :=
  (cat.find? (fun e => e.1 == name)).map (fun e => e.2.1)

/-- An edge of the reference graph of a catalog: `n` has an entry whose stored
pattern parses to a tree that refers to the set name `m`. -/
def References (u : unicode.Tables) (cat : Catalog) (n m : String) : Prop :=
  ∃ pattern fuel t, stored cat n = some pattern ∧
    parser.ParseString u fuel pattern = some (.ok t) ∧ m ∈ t.refs

/-- Every name referenced by a stored pattern has an entry. -/
def Resolvable (u : unicode.Tables) (cat : Catalog) : Prop :=
  ∀ n m, References u cat n m → (stored cat m).isSome = true

/-- No stored pattern reaches its own name through one or more references. -/
def Acyclic (u : unicode.Tables) (cat : Catalog) : Prop :=
  ∀ n, ¬ Relation.TransGen (References u cat) n n

/-- Every name reached from the names `refs` through the reference graph differs
from `name` and has an entry. -/
def Safe (u : unicode.Tables) (cat : Catalog) (name : String) (refs : List String) : Prop :=
  ∀ m0 ∈ refs, ∀ m, Relation.ReflTransGen (References u cat) m0 m →
    m ≠ name ∧ (stored cat m).isSome = true

/-- The catalog reached from `cat` by a sequence of queries, each run with its
own fuel; `none` when the fuel of a query runs out. -/
def runQueries (u : unicode.Tables) : List (Nat × String) → Catalog → Option Catalog
  | [], cat => some cat
  | (fuel, q) :: rest, cat =>
    match memoryDatabase.Query u fuel cat q with
    | none => none
    | some out => runQueries u rest out.backend

end setdb

/-! ## The parsing methods on a stack of bounded depth

The Go runtime ends the process with the fatal error `stack overflow` when the
stack of a goroutine outgrows its limit; no `recover` catches it.  The parsing
methods call one another without bound on the input, so the depth of the stack
is made explicit here: `frames` is the number of calls of parsing methods that
still fit on the stack below the running one.  A call of a parsing method takes
one frame for as long as it runs, a turn of a `for` loop takes none.  The calls
of `peekToken`, `readToken`, `Lex` and `ParseError` return before the next
parsing method is called; they add a bounded depth on top of any frame and are
not counted.  The fuel is used exactly as in the methods above. -/

namespace parser

namespace stack

open lexer ast

/-- What a call on a bounded stack comes to: the fatal `stack overflow` of the
runtime, or the value the call returns. -/
inductive Bounded (α : Type) where
  | overflow
  | returned (a : α)
  deriving DecidableEq, Repr

mutual
/-- `parseInlineSet`, with `frames` free below its own frame. -/
def parseInlineSet (u : unicode.Tables) : Nat → Nat → Parser → Option (Bounded Parsed)
  | 0, _, _ => none
  | fuel + 1, frames, p =>
    let t := p.readToken u
    if t.1.Type ≠ .SET_OPEN then
      some (.returned (.error (ParseError t.1 "expected '\x7b'"), t.2))
    else parseInlineSetLoop u fuel frames t.2 []
termination_by structural fuel _ _ => fuel
/-- The `for` loop of `parseInlineSet` and the code after it, on `items`; the
call of `parseExpr` needs a frame. -/
def parseInlineSetLoop (u : unicode.Tables) :
    Nat → Nat → Parser → List Node → Option (Bounded Parsed)
  | 0, _, _, _ => none
  | fuel + 1, frames, p, items =>
    let t := p.peekToken u
    if t.1.Type = .EOF ∨ t.1.Type = .SET_CLOSE then
      if t.1.Type ≠ .SET_CLOSE then
        some (.returned (.error (ParseError t.1 "expected '\x7d'"), t.2))
      else some (.returned (.ok (.Set "" items), (t.2.readToken u).2))
    else
      match frames with
      | 0 => some .overflow
      | below + 1 =>
        match parseExpr u fuel below t.2 with
        | none => none
        | some .overflow => some .overflow
        | some (.returned (.error err, p1)) => some (.returned (.error err, p1))
        | some (.returned (.ok item, p1)) =>
          let t1 := p1.peekToken u
          if t1.1.Type ≠ .SET_CLOSE then
            if t1.1.Type ≠ .COMMA then
              some (.returned (.error (ParseError t1.1 "expected ','"), t1.2))
            else parseInlineSetLoop u fuel (below + 1) (t1.2.readToken u).2 (items ++ [item])
          else parseInlineSetLoop u fuel (below + 1) t1.2 (items ++ [item])
termination_by structural fuel _ _ _ => fuel
/-- `parseAssign`; the call of `parseExpr` needs a frame. -/
def parseAssign (u : unicode.Tables) : Nat → Nat → Parser → Option (Bounded Parsed)
  | 0, _, _ => none
  | fuel + 1, frames, p =>
    let t := p.readToken u
    if t.1.Type ≠ .ASSIGN then
      some (.returned (.error (ParseError t.1 "expected set name"), t.2))
    else
      match frames with
      | 0 => some .overflow
      | below + 1 => parseExpr u fuel below t.2
termination_by structural fuel _ _ => fuel
/-- `parseSet`; the call of `parseAssign` needs a frame. -/
def parseSet (u : unicode.Tables) : Nat → Nat → Parser → Option (Bounded Parsed)
  | 0, _, _ => none
  | fuel + 1, frames, p =>
    let t := p.readToken u
    if t.1.Type ≠ .SET then
      some (.returned (.error (ParseError t.1 "expected set name"), t.2))
    else
      let name := t.1.Value
      let t1 := t.2.peekToken u
      if t1.1.Type = .ASSIGN then
        match frames with
        | 0 => some .overflow
        | below + 1 =>
          match parseAssign u fuel below t1.2 with
          | none => none
          | some .overflow => some .overflow
          | some (.returned (.error err, p1)) => some (.returned (.error err, p1))
          | some (.returned (.ok expr, p1)) => some (.returned (.ok (.AssignExpr name expr), p1))
      else some (.returned (.ok (.Set name []), t1.2))
termination_by structural fuel _ _ => fuel
/-- `parseItem`. -/
def parseItem (u : unicode.Tables) : Nat → Nat → Parser → Option (Bounded Parsed)
  | 0, _, _ => none
  | _ + 1, _, p =>
    let t := p.readToken u
    if t.1.Type ≠ .ITEM then
      some (.returned (.error (ParseError t.1 "expected item name"), t.2))
    else some (.returned (.ok (.Item t.1.Value), t.2))
/-- `parseExprPrimary`; the call of `parseSet`, `parseItem` or `parseInlineSet`
needs a frame. -/
def parseExprPrimary (u : unicode.Tables) : Nat → Nat → Parser → Option (Bounded Parsed)
  | 0, _, _ => none
  | fuel + 1, frames, p =>
    let t := p.peekToken u
    if t.1.Type = .SET then
      match frames with
      | 0 => some .overflow
      | below + 1 => parseSet u fuel below t.2
    else if t.1.Type = .ITEM then
      match frames with
      | 0 => some .overflow
      | below + 1 => parseItem u fuel below t.2
    else if t.1.Type = .SET_OPEN then
      match frames with
      | 0 => some .overflow
      | below + 1 => parseInlineSet u fuel below t.2
    else
      some (.returned (.error (ParseError t.1 ("unexpected token " ++ t.1.Type.String)), t.2))
termination_by structural fuel _ _ => fuel
/-- `parseExprBinOpRHS`; a turn of its `for` loop is a call with the new `LHS` on
the same frame, the calls of `parseExprPrimary` and of `parseExprBinOpRHS` for
the right operand need a frame. -/
def parseExprBinOpRHS (u : unicode.Tables) :
    Nat → Nat → Int → Node → Parser → Option (Bounded Parsed)
  | 0, _, _, _, _ => none
  | fuel + 1, frames, precedence, LHS, p =>
    let cur := p.peekToken u
    let curPrecedence := getTokenPrecedence cur.1.Type
    if curPrecedence < precedence then some (.returned (.ok LHS, cur.2))
    else
      let binOp := cur.2.readToken u
      match frames with
      | 0 => some .overflow
      | below + 1 =>
        match parseExprPrimary u fuel below binOp.2 with
        | none => none
        | some .overflow => some .overflow
        | some (.returned (.error err, p1)) => some (.returned (.error err, p1))
        | some (.returned (.ok RHS, p1)) =>
          let next := p1.peekToken u
          let nextPrecedence := getTokenPrecedence next.1.Type
          if curPrecedence < nextPrecedence then
            match parseExprBinOpRHS u fuel below (curPrecedence + 1) RHS next.2 with
            | none => none
            | some .overflow => some .overflow
            | some (.returned (.error err, p2)) => some (.returned (.error err, p2))
            | some (.returned (.ok RHS2, p2)) =>
              parseExprBinOpRHS u fuel (below + 1) precedence
                (.BinaryExpr binOp.1.Type LHS RHS2) p2
          else
            parseExprBinOpRHS u fuel (below + 1) precedence
              (.BinaryExpr binOp.1.Type LHS RHS) next.2
termination_by structural fuel _ _ _ _ => fuel
/-- `parseExpr`; the calls of `parseExprPrimary` and of `parseExprBinOpRHS` need a
frame. -/
def parseExpr (u : unicode.Tables) : Nat → Nat → Parser → Option (Bounded Parsed)
  | 0, _, _ => none
  | fuel + 1, frames, p =>
    match frames with
    | 0 => some .overflow
    | below + 1 =>
      match parseExprPrimary u fuel below p with
      | none => none
      | some .overflow => some .overflow
      | some (.returned (.error err, p1)) => some (.returned (.error err, p1))
      | some (.returned (.ok LHS, p1)) => parseExprBinOpRHS u fuel below 0 LHS p1
termination_by structural fuel _ _ => fuel
end

/-- `Parse`, with `frames` free below its own frame; the call of `parseExpr`
needs a frame. -/
def Parse (u : unicode.Tables) (fuel frames : Nat) (p : Parser) : Option (Bounded Parsed) :=
  match frames with
  | 0 => some .overflow
  | below + 1 =>
    match parseExpr u fuel below p with
    | none => none
    | some .overflow => some .overflow
    | some (.returned (.error err, p1)) => some (.returned (.error err, p1))
    | some (.returned (.ok parsedAST, p1)) =>
      let t := p1.peekToken u
      if t.1.Type ≠ .EOF then some (.returned (.error (ParseError t.1 "expected EOF"), t.2))
      else some (.returned (.ok parsedAST, t.2))

/-- The composition `NewParser(NewLexer(strings.NewReader(pattern))).Parse()` on
a stack that has room for `frames` calls of parsing methods, the call of `Parse`
included. -/
def ParseString (u : unicode.Tables) (fuel frames : Nat) (pattern : String) :
    Option (Bounded (Except ParserError Node)) :=
  match frames with
  | 0 => some .overflow
  | below + 1 =>
    match Parse u fuel below (NewParser (NewLexer pattern.data)) with
    | none => none
    | some .overflow => some .overflow
    | some (.returned r) => some (.returned r.1)

/-- The input of `n` opening braces. -/
def braces (n : Nat) : String := String.mk (List.replicate n '\x7b')

end stack

end parser

namespace parser

namespace stack

open lexer ast

/-- What the method `f` returns with the fuel `k`, the method `g` on a bounded
stack returns with any fuel and any number of free frames from `k` on. -/
def Lifts (f : Nat → Parser → Option Parsed) (g : Nat → Nat → Parser → Option (Bounded Parsed))
    (k : Nat) : Prop :=
  ∀ fuel frames p r, k ≤ fuel → k ≤ frames → f k p = some r →
    g fuel frames p = some (.returned r)

end stack

end parser

/-! ## Lemmas on the set primitives -/

namespace sets

theorem NewSet_nil_items : (NewSet []).items = ∅ := rfl

theorem mem_foldl_union (sets : List Set) (S : Set) (x : String) :
    x ∈ (sets.foldl (fun S set => (⟨S.items ∪ set.items⟩ : Set)) S).items ↔
      x ∈ S.items ∨ ∃ T ∈ sets, x ∈ T.items := by
  induction sets generalizing S with
  | nil => simp
  | cons T rest ih =>
    simp only [List.foldl_cons, ih, Finset.mem_union, List.mem_cons, exists_eq_or_imp]
    tauto

theorem mem_foldl_sdiff (sets : List Set) (S : Set) (x : String) :
    x ∈ (sets.foldl (fun S set => (⟨S.items \ set.items⟩ : Set)) S).items ↔
      x ∈ S.items ∧ ∀ T ∈ sets, x ∉ T.items := by
  induction sets generalizing S with
  | nil => simp
  | cons T rest ih =>
    simp only [List.foldl_cons, ih, Finset.mem_sdiff, List.mem_cons, forall_eq_or_imp]
    tauto

theorem count_foldl_items (sets : List Set) (m : Multiset String) (x : String) :
    (sets.foldl (fun m set => m + set.items.val) m).count x =
      m.count x + sets.countP (fun S => decide (x ∈ S.items)) := by
  induction sets generalizing m with
  | nil => simp
  | cons T rest ih =>
    rw [List.foldl_cons, ih, Multiset.count_add, List.countP_cons]
    by_cases hx : x ∈ T.items
    · have h1 : T.items.val.count x = 1 :=
        Multiset.count_eq_one_of_mem T.items.nodup hx
      simp [hx, h1, Nat.add_assoc, Nat.add_comm]
    · have h0 : T.items.val.count x = 0 :=
        Multiset.count_eq_zero_of_not_mem hx
      simp [hx, h0]

theorem count_countItems (sets : List Set) (x : String) :
    (countItems sets).count x = sets.countP (fun S => decide (x ∈ S.items)) := by
  simp [countItems, count_foldl_items]

theorem mem_Intersection_iff_count (sets : List Set) (h : sets ≠ []) (x : String) :
    x ∈ (Intersection sets).items ↔
      sets.countP (fun S => decide (x ∈ S.items)) = sets.length := by
  have hpos : 0 < sets.length := List.length_pos.mpr h
  simp only [Intersection, NewSet_nil_items, Finset.empty_union, Finset.mem_filter,
    Multiset.mem_toFinset, count_countItems]
  constructor
  · exact fun hx => hx.2
  · intro hc
    refine ⟨?_, hc⟩
    rw [← Multiset.count_pos, count_countItems, hc]
    exact hpos

theorem mem_SymmetricDifference_iff_count (sets : List Set) (x : String) :
    x ∈ (SymmetricDifference sets).items ↔
      sets.countP (fun S => decide (x ∈ S.items)) = 1 := by
  simp only [SymmetricDifference, NewSet_nil_items, Finset.empty_union, Finset.mem_filter,
    Multiset.mem_toFinset, count_countItems]
  constructor
  · exact fun hx => hx.2
  · intro hc
    refine ⟨?_, hc⟩
    rw [← Multiset.count_pos, count_countItems, hc]
    exact Nat.one_pos

end sets

/-! ## Lemmas on the lexer -/

namespace lexer

theorem string_append_singleton (lit : String) (r : Char) :
    lit ++ String.singleton r = String.mk (lit.data ++ [r]) := rfl

theorem lexIdentLoop_fst (u : unicode.Tables) (rs : List Char) (pos : Position) (lit : String) :
    (lexIdentLoop u rs pos lit).1 = String.mk (lit.data ++ rs.takeWhile (identBody u)) := by
  induction rs generalizing pos lit with
  | nil => simp [lexIdentLoop]
  | cons r rest ih =>
    unfold lexIdentLoop
    by_cases h : identBody u r = true
    · have h2 : (unicode.IsLetter u r || unicode.IsDigit u r || r == ':') = true := h
      simp only [h2, if_true, ih, List.takeWhile_cons, h, string_append_singleton]
      simp
    · have h2 : (unicode.IsLetter u r || unicode.IsDigit u r || r == ':') = false := by
        simpa [identBody] using h
      simp [h2, List.takeWhile_cons, h]

theorem lexIdentLoop_reader (u : unicode.Tables) (rs : List Char) (pos : Position)
    (lit : String) :
    (lexIdentLoop u rs pos lit).2.reader = rs.dropWhile (identBody u) := by
  induction rs generalizing pos lit with
  | nil => simp [lexIdentLoop]
  | cons r rest ih =>
    unfold lexIdentLoop
    by_cases h : identBody u r = true
    · have h2 : (unicode.IsLetter u r || unicode.IsDigit u r || r == ':') = true := h
      simp only [h2, if_true, ih, List.dropWhile_cons, h]
    · have h2 : (unicode.IsLetter u r || unicode.IsDigit u r || r == ':') = false := by
        simpa [identBody] using h
      simp [h2, List.dropWhile_cons, h, Lexer.backup]

theorem lexItemLoop_fst (rs : List Char) (pos : Position) (lit : String) :
    (lexItemLoop rs pos lit).1 = String.mk (lit.data ++ quotedBody rs) := by
  induction rs generalizing pos lit with
  | nil => simp [lexItemLoop, quotedBody]
  | cons r rest ih =>
    unfold lexItemLoop
    by_cases h : notQuote r = true
    · have h2 : (r != '"' && r != '\'') = true := h
      simp only [h2, if_true, ih, quotedBody, List.takeWhile_cons, List.dropWhile_cons, h,
        string_append_singleton]
      simp
    · have h2 : (r != '"' && r != '\'') = false := by simpa [notQuote] using h
      simp [h2, quotedBody, List.takeWhile_cons, List.dropWhile_cons, h,
        string_append_singleton]

theorem lexItemLoop_reader (rs : List Char) (pos : Position) (lit : String) :
    (lexItemLoop rs pos lit).2.reader = quotedRest rs := by
  induction rs generalizing pos lit with
  | nil => simp [lexItemLoop, quotedRest]
  | cons r rest ih =>
    unfold lexItemLoop
    by_cases h : notQuote r = true
    · have h2 : (r != '"' && r != '\'') = true := h
      simp only [h2, if_true, ih, quotedRest, List.dropWhile_cons, h]
    · have h2 : (r != '"' && r != '\'') = false := by simpa [notQuote] using h
      simp [h2, quotedRest, List.dropWhile_cons, h]

/-- Kind, lexeme and remaining runes of the token `Lex` returns do not depend on
the position. -/
theorem lexLoop_erase (u : unicode.Tables) (rs : List Char) (pos : Position) :
    (lexLoop u rs pos).1.erase = (lexTok u rs).1 ∧
      (lexLoop u rs pos).2.reader = (lexTok u rs).2 := by
  induction rs generalizing pos with
  | nil => simp [lexLoop, lexTok, Token.erase, tokenFromLexer]
  | cons r rest ih =>
    unfold lexLoop lexTok
    by_cases h1 : r = '\n'
    · simp only [h1, if_true]; exact ih _
    by_cases h2 : r = ','
    · simp [h2, Token.erase, tokenFromLexer]
    by_cases h3 : r = '|'
    · simp [h3, Token.erase, tokenFromLexer]
    by_cases h4 : r = '&'
    · simp [h4, Token.erase, tokenFromLexer]
    by_cases h5 : r = '-'
    · simp [h5, Token.erase, tokenFromLexer]
    by_cases h6 : r = '^'
    · simp [h6, Token.erase, tokenFromLexer]
    by_cases h7 : r = '{'
    · simp [h7, Token.erase, tokenFromLexer]
    by_cases h8 : r = '}'
    · simp [h8, Token.erase, tokenFromLexer]
    by_cases h9 : r = '='
    · simp [h9, Token.erase, tokenFromLexer]
    by_cases h10 : r = '\''
    · subst h10
      simp [Token.erase, tokenFromLexer, Lexer.backup, Lexer.lexItem, lexItemLoop_fst,
        lexItemLoop_reader]
    simp only [h1, h2, h3, h4, h5, h6, h7, h8, h9, h10, if_false]
    by_cases hs : unicode.IsSpace u r = true
    · simp only [hs, if_true]; exact ih _
    by_cases hl : unicode.IsLetter u r = true
    · simp [hs, hl, Token.erase, tokenFromLexer, Lexer.backup, Lexer.lexIdent,
        lexIdentLoop_fst, lexIdentLoop_reader]
    by_cases hd : unicode.IsDigit u r = true
    · simp [hs, hl, hd, Token.erase, tokenFromLexer, Lexer.backup, Lexer.lexIdent,
        lexIdentLoop_fst, lexIdentLoop_reader]
    simp [hs, hl, hd, Token.erase, tokenFromLexer]

end lexer

namespace lexer

theorem identBody_of_letter (u : unicode.Tables) (r : Char) (h : unicode.IsLetter u r = true) :
    identBody u r = true := by
  simp [identBody, h]

theorem identBody_of_digit (u : unicode.Tables) (r : Char) (h : unicode.IsDigit u r = true) :
    identBody u r = true := by
  simp [identBody, h]

theorem length_dropWhile_le (p : Char → Bool) (rs : List Char) :
    (rs.dropWhile p).length ≤ rs.length := by
  induction rs with
  | nil => simp
  | cons r rest ih =>
    rw [List.dropWhile_cons]
    split
    · exact Nat.le_succ_of_le ih
    · exact Nat.le_refl _

theorem length_quotedRest_le (rs : List Char) : (quotedRest rs).length ≤ rs.length := by
  unfold quotedRest
  rw [List.length_drop]
  exact Nat.le_trans (Nat.sub_le _ _) (length_dropWhile_le _ _)

/-- Every token other than `EOF` takes at least one rune, and `EOF` leaves no
rune. -/
theorem lexTok_consumes (u : unicode.Tables) (rs : List Char) :
    ((lexTok u rs).1.1 = .EOF → (lexTok u rs).2 = []) ∧
    ((lexTok u rs).1.1 ≠ .EOF → (lexTok u rs).2.length < rs.length) ∧
    (lexTok u rs).2.length ≤ rs.length := by
  induction rs with
  | nil => simp [lexTok]
  | cons r rest ih =>
    unfold lexTok
    have hstep : ∀ {n : Nat}, n < rest.length → n < (r :: rest).length := fun h => by
      simp only [List.length_cons]; omega
    by_cases h1 : r = '\n'
    · simp only [h1, if_true]
      exact ⟨ih.1, fun h => hstep (ih.2.1 h), Nat.le_succ_of_le ih.2.2⟩
    by_cases h2 : r = ','
    · simp [h2]
    by_cases h3 : r = '|'
    · simp [h3]
    by_cases h4 : r = '&'
    · simp [h4]
    by_cases h5 : r = '-'
    · simp [h5]
    by_cases h6 : r = '^'
    · simp [h6]
    by_cases h7 : r = '{'
    · simp [h7]
    by_cases h8 : r = '}'
    · simp [h8]
    by_cases h9 : r = '='
    · simp [h9]
    by_cases h10 : r = '\''
    · subst h10
      have := length_quotedRest_le rest
      simp
      omega
    simp only [h1, h2, h3, h4, h5, h6, h7, h8, h9, h10, if_false]
    by_cases hs : unicode.IsSpace u r = true
    · simp only [hs, if_true]
      exact ⟨ih.1, fun h => hstep (ih.2.1 h), Nat.le_succ_of_le ih.2.2⟩
    by_cases hl : unicode.IsLetter u r = true
    · have := length_dropWhile_le (identBody u) rest
      simp [hs, hl, List.dropWhile_cons, identBody_of_letter u r hl]
      omega
    by_cases hd : unicode.IsDigit u r = true
    · have := length_dropWhile_le (identBody u) rest
      simp [hs, hl, hd, List.dropWhile_cons, identBody_of_digit u r hd]
      omega
    simp [hs, hl, hd]

theorem tokensFuel_eq (u : unicode.Tables) (n m : Nat) (rs : List Char)
    (hn : rs.length ≤ n) (hm : rs.length ≤ m) : tokensFuel u n rs = tokensFuel u m rs := by
  induction n generalizing m rs with
  | zero =>
    have hrs : rs = [] := List.length_eq_zero.mp (Nat.le_zero.mp hn)
    subst hrs
    cases m <;> simp [tokensFuel, lexTok]
  | succ n ih =>
    cases m with
    | zero =>
      have hrs : rs = [] := List.length_eq_zero.mp (Nat.le_zero.mp hm)
      subst hrs
      simp [tokensFuel, lexTok]
    | succ m =>
      unfold tokensFuel
      by_cases h : (lexTok u rs).1.1 = .EOF
      · simp [h]
      · have hlt := (lexTok_consumes u rs).2.1 h
        simp only [h, if_false]
        rw [ih m _ (by omega) (by omega)]

/-- The tokens of `rs`: none at `EOF`, else the next token followed by the tokens
of the runes after it. -/
theorem tokensOf_eq (u : unicode.Tables) (rs : List Char) :
    tokensOf u rs =
      if (lexTok u rs).1.1 = .EOF then [] else (lexTok u rs).1 :: tokensOf u (lexTok u rs).2 := by
  have h := tokensFuel_eq u rs.length (rs.length + 1) rs (Nat.le_refl _) (Nat.le_succ _)
  unfold tokensOf
  rw [h, tokensFuel]
  by_cases h1 : (lexTok u rs).1.1 = .EOF
  · simp [h1]
  · have hlt := (lexTok_consumes u rs).2.1 h1
    simp only [h1, if_false]
    rw [tokensFuel_eq u rs.length (lexTok u rs).2.length _ (by omega) (Nat.le_refl _)]

theorem tokensOf_nil (u : unicode.Tables) : tokensOf u [] = [] := rfl

end lexer

/-! ## Lemmas on the token stream of a parser -/

namespace parser

open lexer ast

theorem readToken_fst (u : unicode.Tables) (p : Parser) :
    (p.readToken u).1 = (p.peekToken u).1 := by
  unfold Parser.readToken Parser.peekToken
  cases p.readAhead <;> rfl

theorem peekToken_type (u : unicode.Tables) (p : Parser) :
    (p.peekToken u).1.tokenType = headType (p.stream u) := by
  unfold Parser.peekToken Parser.stream
  cases hra : p.readAhead with
  | some t =>
    by_cases ht : t.tokenType = .EOF <;> simp [ht, headType, Token.erase]
  | none =>
    have h := (lexLoop_erase u p.lexer.reader p.lexer.pos).1
    simp only [Lexer.Lex]
    rw [tokensOf_eq]
    have h1 : (lexLoop u p.lexer.reader p.lexer.pos).1.tokenType = (lexTok u p.lexer.reader).1.1 :=
      congrArg Prod.fst h
    by_cases ht : (lexTok u p.lexer.reader).1.1 = .EOF <;> simp [ht, headType, h1]

theorem peekToken_value (u : unicode.Tables) (p : Parser)
    (hne : (p.peekToken u).1.tokenType ≠ .EOF) :
    (p.peekToken u).1.tokenValue = headValue (p.stream u) := by
  revert hne
  unfold Parser.peekToken Parser.stream
  cases hra : p.readAhead with
  | some t =>
    intro hne
    simp only at hne
    simp [hne, headValue, Token.erase]
  | none =>
    have h := (lexLoop_erase u p.lexer.reader p.lexer.pos).1
    simp only [Lexer.Lex]
    rw [tokensOf_eq]
    have h1 : (lexLoop u p.lexer.reader p.lexer.pos).1.tokenType = (lexTok u p.lexer.reader).1.1 :=
      congrArg Prod.fst h
    have h2 : (lexLoop u p.lexer.reader p.lexer.pos).1.tokenValue =
        (lexTok u p.lexer.reader).1.2 := congrArg Prod.snd h
    intro hne
    rw [h1] at hne
    simp [hne, headValue, h2]

theorem peekToken_stream (u : unicode.Tables) (p : Parser) :
    (p.peekToken u).2.stream u = p.stream u := by
  unfold Parser.peekToken
  cases hra : p.readAhead with
  | some t => rfl
  | none =>
    have h := lexLoop_erase u p.lexer.reader p.lexer.pos
    have h1 : (lexLoop u p.lexer.reader p.lexer.pos).1.tokenType = (lexTok u p.lexer.reader).1.1 :=
      congrArg Prod.fst h.1
    simp only [Parser.stream, hra, Lexer.Lex]
    rw [tokensOf_eq u p.lexer.reader, h1, h.1, h.2]

theorem peekToken_consistent (u : unicode.Tables) (p : Parser) (hp : p.Consistent u) :
    (p.peekToken u).2.Consistent u := by
  unfold Parser.peekToken
  cases hra : p.readAhead with
  | some t => exact hp
  | none =>
    have h := lexLoop_erase u p.lexer.reader p.lexer.pos
    have h1 : (lexLoop u p.lexer.reader p.lexer.pos).1.tokenType = (lexTok u p.lexer.reader).1.1 :=
      congrArg Prod.fst h.1
    intro t ht hEOF
    simp only [Lexer.Lex, Option.some.injEq] at ht
    subst ht
    simp only [Lexer.Lex]
    rw [h.2, (lexTok_consumes u p.lexer.reader).1 (h1 ▸ hEOF)]
    rfl

theorem readToken_stream (u : unicode.Tables) (p : Parser) (hp : p.Consistent u) :
    (p.readToken u).2.stream u = (p.stream u).tail := by
  unfold Parser.readToken
  cases hra : p.readAhead with
  | some t =>
    simp only [Parser.stream, hra]
    by_cases ht : t.tokenType = .EOF
    · simp [ht, hp t hra ht]
    · simp [ht]
  | none =>
    have h := lexLoop_erase u p.lexer.reader p.lexer.pos
    simp only [Parser.stream, hra, Lexer.Lex]
    rw [tokensOf_eq u p.lexer.reader, h.2]
    by_cases ht : (lexTok u p.lexer.reader).1.1 = .EOF
    · simp [ht, (lexTok_consumes u p.lexer.reader).1 ht, tokensOf_nil]
    · simp [ht]

theorem readToken_consistent (u : unicode.Tables) (p : Parser) :
    (p.readToken u).2.Consistent u := by
  unfold Parser.readToken
  cases hra : p.readAhead <;> intro t ht <;> simp at ht

theorem NewParser_consistent (u : unicode.Tables) (l : Lexer) : (NewParser l).Consistent u := by
  intro t ht
  simp [NewParser] at ht

theorem NewParser_stream (u : unicode.Tables) (rs : List Char) :
    (NewParser (NewLexer rs)).stream u = tokensOf u rs := rfl

end parser

/-! ## Soundness of the grammar -/

namespace parser

open lexer ast

theorem stream_eq_cons (s : List Tok) (ty : TokenType) (h : headType s = ty) (hne : ty ≠ .EOF) :
    s = (ty, headValue s) :: s.tail := by
  cases s with
  | nil => exact absurd h.symm hne
  | cons t rest =>
    simp only [headType] at h
    simp [headValue, ← h]

theorem stream_cons_of_read (u : unicode.Tables) (p : Parser) (hp : p.Consistent u)
    (ty : TokenType) (hty : (p.readToken u).1.tokenType = ty) (hne : ty ≠ .EOF) :
    p.stream u = (ty, (p.readToken u).1.tokenValue) :: (p.readToken u).2.stream u := by
  rw [readToken_fst] at hty
  have h1 := peekToken_type u p
  have h2 := peekToken_value u p (by rw [hty]; exact hne)
  rw [readToken_fst, readToken_stream u p hp, h2]
  exact stream_eq_cons _ _ (by rw [← h1, hty]) hne

theorem readToken_type (u : unicode.Tables) (p : Parser) :
    (p.readToken u).1.tokenType = headType (p.stream u) := by
  rw [readToken_fst, peekToken_type]

theorem sound_item (u : unicode.Tables) (fuel : Nat) : SoundOne u (parseItem u) .item fuel := by
  intro p t p' hp h
  cases fuel with
  | zero => simp [parseItem] at h
  | succ n =>
    simp only [parseItem] at h
    split at h
    · simp at h
    · rename_i hty
      simp only [Option.some.injEq, Prod.mk.injEq, Except.ok.injEq] at h
      obtain ⟨rfl, rfl⟩ := h
      have hcons := stream_cons_of_read u p hp .ITEM (by simpa [Token.Type] using hty) (by decide)
      rw [hcons]
      exact ⟨Derives.item _ _ _, readToken_consistent u p⟩

theorem sound_assign_step (u : unicode.Tables) (n : Nat)
    (ihE : SoundOne u (parseExpr u) .expr n) : SoundOne u (parseAssign u) .assign (n + 1) := by
  intro p t p' hp h
  simp only [parseAssign] at h
  split at h
  · simp at h
  · rename_i hty
    have hcons := stream_cons_of_read u p hp .ASSIGN (by simpa [Token.Type] using hty) (by decide)
    obtain ⟨hd, hc⟩ := ihE _ t p' (readToken_consistent u p) h
    rw [hcons]
    exact ⟨Derives.assign _ _ _ _ _ hd, hc⟩

theorem sound_set_step (u : unicode.Tables) (n : Nat)
    (ihA : SoundOne u (parseAssign u) .assign n) : SoundOne u (parseSet u) .set (n + 1) := by
  intro p t p' hp h
  simp only [parseSet] at h
  split at h
  · simp at h
  · rename_i hty
    have hcons := stream_cons_of_read u p hp .SET (by simpa [Token.Type] using hty) (by decide)
    have hc1 := readToken_consistent u p
    have hpk := peekToken_type u (p.readToken u).2
    have hps := peekToken_stream u (p.readToken u).2
    have hpc := peekToken_consistent u (p.readToken u).2 hc1
    split at h
    · rename_i hasg
      split at h
      · simp at h
      · simp at h
      · rename_i expr p1 hA
        simp only [Option.some.injEq, Prod.mk.injEq, Except.ok.injEq] at h
        obtain ⟨rfl, rfl⟩ := h
        obtain ⟨hd, hc⟩ := ihA _ expr p1 hpc hA
        rw [hps] at hd
        rw [hcons]
        refine ⟨Derives.setAssign _ _ _ _ _ ?_ hd, hc⟩
        rw [← hpk]
        simpa [Token.Type] using hasg
    · rename_i hasg
      simp only [Option.some.injEq, Prod.mk.injEq, Except.ok.injEq] at h
      obtain ⟨rfl, rfl⟩ := h
      rw [hcons, hps]
      refine ⟨Derives.setRef _ _ _ ?_, hpc⟩
      rw [← hpk]
      simpa [Token.Type] using hasg

theorem sound_inline_step (u : unicode.Tables) (n : Nat)
    (ihL : SoundLoop u n) : SoundOne u (parseInlineSet u) .inlineSet (n + 1) := by
  intro p t p' hp h
  simp only [parseInlineSet] at h
  split at h
  · simp at h
  · rename_i hty
    have hcons := stream_cons_of_read u p hp .SET_OPEN (by simpa [Token.Type] using hty)
      (by decide)
    obtain ⟨elems, rfl, hd, hc⟩ := ihL _ [] t p' (readToken_consistent u p) h
    rw [hcons]
    exact ⟨Derives.inlineSet _ _ _ _ _ hd, hc⟩

theorem sound_loop_step (u : unicode.Tables) (n : Nat)
    (ihE : SoundOne u (parseExpr u) .expr n) (ihL : SoundLoop u n) : SoundLoop u (n + 1) := by
  intro p items t p' hp h
  simp only [parseInlineSetLoop] at h
  have hpk := peekToken_type u p
  have hps := peekToken_stream u p
  have hpc := peekToken_consistent u p hp
  split at h
  · split at h
    · simp at h
    · rename_i hcl
      simp only [Option.some.injEq, Prod.mk.injEq, Except.ok.injEq] at h
      obtain ⟨rfl, rfl⟩ := h
      have hcons := stream_cons_of_read u (p.peekToken u).2 hpc .SET_CLOSE
        (by rw [readToken_type, hps, ← hpk]; simpa [Token.Type] using hcl) (by decide)
      rw [hps] at hcons
      refine ⟨[], by simp, ?_, readToken_consistent u _⟩
      rw [hcons]
      exact Derives.elemsClose _ _ _
  · split at h
    · simp at h
    · simp at h
    · rename_i item p1 hE
      obtain ⟨hdE, hc1⟩ := ihE _ item p1 hpc hE
      rw [hps] at hdE
      have hpk1 := peekToken_type u p1
      have hps1 := peekToken_stream u p1
      have hpc1 := peekToken_consistent u p1 hc1
      split at h
      · split at h
        · simp at h
        · rename_i hcomma
          have hcons := stream_cons_of_read u (p1.peekToken u).2 hpc1 .COMMA
            (by rw [readToken_type, hps1, ← hpk1]; simpa [Token.Type] using hcomma) (by decide)
          rw [hps1] at hcons
          obtain ⟨elems, rfl, hdL, hc⟩ := ihL _ _ t p' (readToken_consistent u _) h
          rw [hcons] at hdE
          exact ⟨item :: elems, by simp, Derives.elemsComma _ _ _ _ _ _ _ hdE hdL, hc⟩
      · rename_i hclose
        have hclose' : (p1.peekToken u).1.tokenType = .SET_CLOSE := by
          simpa [Token.Type] using hclose
        cases n with
        | zero => simp [parseInlineSetLoop] at h
        | succ m =>
          simp only [parseInlineSetLoop] at h
          have hpk2 := peekToken_type u (p1.peekToken u).2
          have hps2 := peekToken_stream u (p1.peekToken u).2
          have hpc2 := peekToken_consistent u (p1.peekToken u).2 hpc1
          have hty2 : ((p1.peekToken u).2.peekToken u).1.tokenType = .SET_CLOSE := by
            rw [hpk2, hps1, ← hpk1]; exact hclose'
          simp only [Token.Type, hty2, or_true, if_true, ne_eq, not_true_eq_false,
            if_false, Option.some.injEq, Prod.mk.injEq, Except.ok.injEq] at h
          obtain ⟨rfl, rfl⟩ := h
          have hcons := stream_cons_of_read u ((p1.peekToken u).2.peekToken u).2 hpc2 .SET_CLOSE
            (by rw [readToken_type, hps2, hps1, ← hpk1]; exact hclose') (by decide)
          rw [hps2, hps1] at hcons
          rw [hcons] at hdE
          exact ⟨[item], by simp, Derives.elemsLast _ _ _ _ _ hdE, readToken_consistent u _⟩

theorem sound_primary_step (u : unicode.Tables) (n : Nat)
    (ihS : SoundOne u (parseSet u) .set n) (ihI : SoundOne u (parseItem u) .item n)
    (ihL : SoundOne u (parseInlineSet u) .inlineSet n) :
    SoundOne u (parseExprPrimary u) .primary (n + 1) := by
  intro p t p' hp h
  simp only [parseExprPrimary] at h
  have hps := peekToken_stream u p
  have hpc := peekToken_consistent u p hp
  split at h
  · obtain ⟨hd, hc⟩ := ihS _ t p' hpc h
    rw [hps] at hd
    exact ⟨Derives.primarySet _ _ _ _ hd, hc⟩
  · split at h
    · obtain ⟨hd, hc⟩ := ihI _ t p' hpc h
      rw [hps] at hd
      exact ⟨Derives.primaryItem _ _ _ _ hd, hc⟩
    · split at h
      · obtain ⟨hd, hc⟩ := ihL _ t p' hpc h
        rw [hps] at hd
        exact ⟨Derives.primaryInline _ _ _ _ hd, hc⟩
      · simp at h

theorem getTokenPrecedence_lt_zero (ty : TokenType) :
    getTokenPrecedence ty < 0 ↔ isBinop ty = false := by
  cases ty <;> simp [getTokenPrecedence, isBinop]

theorem getTokenPrecedence_not_lt (ty ty' : TokenType) (h : ¬ getTokenPrecedence ty < 0) :
    ¬ getTokenPrecedence ty < getTokenPrecedence ty' := by
  cases ty <;> cases ty' <;> simp [getTokenPrecedence] at h ⊢

theorem isBinop_ne_EOF (ty : TokenType) (h : isBinop ty = true) : ty ≠ .EOF := by
  cases ty <;> simp [isBinop] at h ⊢

theorem sound_ops_step (u : unicode.Tables) (n : Nat)
    (ihP : SoundOne u (parseExprPrimary u) .primary n) (ihO : SoundOps u n) :
    SoundOps u (n + 1) := by
  intro p LHS t p' hp h
  simp only [parseExprBinOpRHS] at h
  have hpk := peekToken_type u p
  have hps := peekToken_stream u p
  have hpc := peekToken_consistent u p hp
  split at h
  · rename_i hlt
    simp only [Option.some.injEq, Prod.mk.injEq, Except.ok.injEq] at h
    obtain ⟨rfl, rfl⟩ := h
    refine ⟨[], rfl, ?_, hpc⟩
    rw [hps]
    refine Derives.opsDone _ _ ?_
    rw [← hpk]
    exact (getTokenPrecedence_lt_zero _).mp hlt
  · rename_i hlt
    have hbin : isBinop (p.peekToken u).1.tokenType = true := by
      have := (getTokenPrecedence_lt_zero (p.peekToken u).1.tokenType).not.mp hlt
      simpa using this
    have hcons := stream_cons_of_read u (p.peekToken u).2 hpc (p.peekToken u).1.tokenType
      (by rw [readToken_type, hps, ← hpk]) (isBinop_ne_EOF _ hbin)
    rw [hps] at hcons
    have hrt : ((p.peekToken u).2.readToken u).1.tokenType = (p.peekToken u).1.tokenType := by
      rw [readToken_type, hps, ← hpk]
    split at h
    · simp at h
    · simp at h
    · rename_i RHS p1 hP
      obtain ⟨hdP, hc1⟩ := ihP _ RHS p1 (readToken_consistent u _) hP
      have hps1 := peekToken_stream u p1
      have hpc1 := peekToken_consistent u p1 hc1
      rw [if_neg (getTokenPrecedence_not_lt _ _ hlt)] at h
      obtain ⟨pairs, rfl, hdO, hc⟩ := ihO _ _ t p' hpc1 h
      rw [hps1] at hdO
      refine ⟨((p.peekToken u).1.tokenType, RHS) :: pairs, ?_, ?_, hc⟩
      · simp [build, Token.Type, hrt]
      · rw [hcons]
        exact Derives.opsStep _ _ _ _ _ _ _ _ hbin hdP hdO

theorem sound_expr_step (u : unicode.Tables) (n : Nat)
    (ihP : SoundOne u (parseExprPrimary u) .primary n) (ihO : SoundOps u n) :
    SoundOne u (parseExpr u) .expr (n + 1) := by
  intro p t p' hp h
  simp only [parseExpr] at h
  split at h
  · simp at h
  · simp at h
  · rename_i LHS p1 hP
    obtain ⟨hdP, hc1⟩ := ihP _ LHS p1 hp hP
    obtain ⟨pairs, rfl, hdO, hc⟩ := ihO _ _ t p' hc1 h
    exact ⟨Derives.expr _ _ _ _ _ _ hdP hdO, hc⟩

/-- Soundness: a successful run of a parsing method is a derivation on the token
streams before and after it. -/
theorem sound (u : unicode.Tables) (fuel : Nat) :
    SoundOne u (parseExpr u) .expr fuel ∧ SoundOne u (parseExprPrimary u) .primary fuel ∧
    SoundOne u (parseSet u) .set fuel ∧ SoundOne u (parseAssign u) .assign fuel ∧
    SoundOne u (parseInlineSet u) .inlineSet fuel ∧ SoundLoop u fuel ∧ SoundOps u fuel := by
  induction fuel with
  | zero =>
    refine ⟨?_, ?_, ?_, ?_, ?_, ?_, ?_⟩ <;> intro p
    · intro t p' _ h; simp [parseExpr] at h
    · intro t p' _ h; simp [parseExprPrimary] at h
    · intro t p' _ h; simp [parseSet] at h
    · intro t p' _ h; simp [parseAssign] at h
    · intro t p' _ h; simp [parseInlineSet] at h
    · intro items t p' _ h; simp [parseInlineSetLoop] at h
    · intro LHS t p' _ h; simp [parseExprBinOpRHS] at h
  | succ n ih =>
    obtain ⟨ihE, ihP, ihS, ihA, ihI, ihL, ihO⟩ := ih
    exact ⟨sound_expr_step u n ihP ihO,
      sound_primary_step u n ihS (sound_item u n) ihI,
      sound_set_step u n ihA, sound_assign_step u n ihE, sound_inline_step u n ihL,
      sound_loop_step u n ihE ihL, sound_ops_step u n ihP ihO⟩

end parser

/-! ## Completeness of the grammar -/

namespace parser

open lexer ast

theorem Derives.fuel_pos {g : Goal} {fuel : Nat} {ts : List Tok} {r : Res} {ts' : List Tok}
    (h : Derives g fuel ts r ts') : 0 < fuel := by
  cases h <;> exact Nat.succ_pos _

theorem Derives.head {g : Goal} {fuel : Nat} {ts : List Tok} {r : Res} {ts' : List Tok}
    (h : Derives g fuel ts r ts') :
    (g = .expr ∨ g = .primary ∨ g = .set ∨ g = .item ∨ g = .inlineSet) → startsPrimary ts := by
  induction h with
  | item => intro _; simp [startsPrimary, headType]
  | setRef => intro _; simp [startsPrimary, headType]
  | setAssign => intro _; simp [startsPrimary, headType]
  | assign => intro hg; simp at hg
  | inlineSet => intro _; simp [startsPrimary, headType]
  | elemsClose => intro hg; simp at hg
  | elemsComma => intro hg; simp at hg
  | elemsLast => intro hg; simp at hg
  | primarySet _ _ _ _ _ ih => intro _; exact ih (by simp)
  | primaryItem _ _ _ _ _ ih => intro _; exact ih (by simp)
  | primaryInline _ _ _ _ _ ih => intro _; exact ih (by simp)
  | opsDone => intro hg; simp at hg
  | opsStep => intro hg; simp at hg
  | expr _ _ _ _ _ _ _ _ ih1 _ => intro _; exact ih1 (by simp)

theorem read_of_stream (u : unicode.Tables) (p : Parser) (hp : p.Consistent u)
    (ty : TokenType) (v : String) (ts : List Tok) (hs : p.stream u = (ty, v) :: ts)
    (hne : ty ≠ .EOF) :
    (p.readToken u).1.tokenType = ty ∧ (p.readToken u).1.tokenValue = v ∧
      (p.readToken u).2.stream u = ts ∧ (p.readToken u).2.Consistent u := by
  have h1 : (p.readToken u).1.tokenType = ty := by rw [readToken_type, hs]; rfl
  refine ⟨h1, ?_, ?_, readToken_consistent u p⟩
  · rw [readToken_fst, peekToken_value u p (by rw [← readToken_fst, h1]; exact hne), hs]; rfl
  · rw [readToken_stream u p hp, hs]; rfl

theorem peek_of_stream (u : unicode.Tables) (p : Parser) (hp : p.Consistent u) :
    (p.peekToken u).1.tokenType = headType (p.stream u) ∧
      (p.peekToken u).2.stream u = p.stream u ∧ (p.peekToken u).2.Consistent u :=
  ⟨peekToken_type u p, peekToken_stream u p, peekToken_consistent u p hp⟩

theorem getTokenPrecedence_of_isBinop (ty : TokenType) (h : isBinop ty = true) :
    getTokenPrecedence ty = 10 := by
  cases ty <;> simp [isBinop] at h <;> rfl

theorem getTokenPrecedence_le (ty : TokenType) : getTokenPrecedence ty ≤ 10 := by
  cases ty <;> simp [getTokenPrecedence]

/-- Completeness: a derivation is realized by the parsing methods, on every
consistent parser with the token stream of the derivation. -/
theorem complete (u : unicode.Tables) {g : Goal} {fuel : Nat} {ts : List Tok} {r : Res}
    {ts' : List Tok} (h : Derives g fuel ts r ts') : Realized u g fuel ts r ts' := by
  induction h with
  | item fuel v ts =>
    intro p hp hs
    obtain ⟨h1, h2, h3, h4⟩ := read_of_stream u p hp _ _ _ hs (by decide)
    exact ⟨_, by simp [parseItem, Token.Type, Token.Value, h1, h2], h3, h4⟩
  | setRef fuel name ts h =>
    intro p hp hs
    obtain ⟨h1, h2, h3, h4⟩ := read_of_stream u p hp _ _ _ hs (by decide)
    obtain ⟨k1, k2, k3⟩ := peek_of_stream u _ h4
    rw [h3] at k1 k2
    refine ⟨_, ?_, k2, k3⟩
    simp [parseSet, Token.Type, Token.Value, h1, h2, k1, h]
  | setAssign fuel name ts expr ts' h _ ih =>
    intro p hp hs
    obtain ⟨h1, h2, h3, h4⟩ := read_of_stream u p hp _ _ _ hs (by decide)
    obtain ⟨k1, k2, k3⟩ := peek_of_stream u _ h4
    rw [h3] at k1 k2
    obtain ⟨p', hA, hs', hc'⟩ := ih _ k3 k2
    refine ⟨p', ?_, hs', hc'⟩
    simp [parseSet, Token.Type, Token.Value, h1, h2, k1, h, hA]
  | assign fuel v ts expr ts' _ ih =>
    intro p hp hs
    obtain ⟨h1, _, h3, h4⟩ := read_of_stream u p hp _ _ _ hs (by decide)
    obtain ⟨p', hE, hs', hc'⟩ := ih _ h4 h3
    exact ⟨p', by simp [parseAssign, Token.Type, h1, hE], hs', hc'⟩
  | inlineSet fuel v ts items ts' _ ih =>
    intro p hp hs
    obtain ⟨h1, _, h3, h4⟩ := read_of_stream u p hp _ _ _ hs (by decide)
    obtain ⟨p', hL, hs', hc'⟩ := ih [] _ h4 h3
    exact ⟨p', by simpa [parseInlineSet, Token.Type, h1] using hL, hs', hc'⟩
  | elemsClose fuel v ts =>
    intro items p hp hs
    obtain ⟨k1, k2, k3⟩ := peek_of_stream u p hp
    rw [hs] at k1 k2
    obtain ⟨_, _, h3, h4⟩ := read_of_stream u _ k3 _ _ _ k2 (by decide)
    refine ⟨_, ?_, h3, h4⟩
    have k1' : (p.peekToken u).1.tokenType = .SET_CLOSE := k1
    simp [parseInlineSetLoop, Token.Type, k1']
  | elemsComma fuel ts item v ts1 items ts' h1 _ ih1 ih2 =>
    intro items0 p hp hs
    obtain ⟨k1, k2, k3⟩ := peek_of_stream u p hp
    rw [hs] at k1 k2
    obtain ⟨p1, hE, hs1, hc1⟩ := ih1 _ k3 k2
    obtain ⟨m1, m2, m3⟩ := peek_of_stream u p1 hc1
    rw [hs1] at m1 m2
    obtain ⟨_, _, r3, r4⟩ := read_of_stream u _ m3 _ _ _ m2 (by decide)
    obtain ⟨p', hL, hs', hc'⟩ := ih2 (items0 ++ [item]) _ r4 r3
    refine ⟨p', ?_, hs', hc'⟩
    have hstart := h1.head (by simp)
    have m1' : (p1.peekToken u).1.tokenType = .COMMA := m1
    have hne : ¬ ((p.peekToken u).1.tokenType = .EOF ∨ (p.peekToken u).1.tokenType = .SET_CLOSE) := by
      rw [k1]
      rcases hstart with h | h | h <;> simp [h]
    simp only [parseInlineSetLoop, Token.Type, hne, if_false, hE, m1']
    simpa using hL
  | elemsLast fuel ts item v ts' h1 ih1 =>
    intro items0 p hp hs
    obtain ⟨k1, k2, k3⟩ := peek_of_stream u p hp
    rw [hs] at k1 k2
    obtain ⟨p1, hE, hs1, hc1⟩ := ih1 _ k3 k2
    obtain ⟨m1, m2, m3⟩ := peek_of_stream u p1 hc1
    rw [hs1] at m1 m2
    obtain ⟨n1, n2, n3⟩ := peek_of_stream u _ m3
    rw [m2] at n1 n2
    obtain ⟨_, _, r3, r4⟩ := read_of_stream u _ n3 _ _ _ n2 (by decide)
    refine ⟨_, ?_, r3, r4⟩
    have hstart := h1.head (by simp)
    have m1' : (p1.peekToken u).1.tokenType = .SET_CLOSE := m1
    have n1' : ((p1.peekToken u).2.peekToken u).1.tokenType = .SET_CLOSE := n1
    have hne : ¬ ((p.peekToken u).1.tokenType = .EOF ∨ (p.peekToken u).1.tokenType = .SET_CLOSE) := by
      rw [k1]
      rcases hstart with h | h | h <;> simp [h]
    obtain ⟨m, rfl⟩ : ∃ m, fuel = m + 1 := ⟨fuel - 1, by have := h1.fuel_pos; omega⟩
    simp only [parseInlineSetLoop, Token.Type, hne, if_false, hE, m1']
    simp [n1']
  | primarySet fuel ts t ts' h ih =>
    intro p hp hs
    obtain ⟨k1, k2, k3⟩ := peek_of_stream u p hp
    rw [hs] at k1 k2
    obtain ⟨p', hS, hs', hc'⟩ := ih _ k3 k2
    have hhead : headType ts = .SET := by cases h <;> rfl
    exact ⟨p', by simp [parseExprPrimary, Token.Type, k1, hhead, hS], hs', hc'⟩
  | primaryItem fuel ts t ts' h ih =>
    intro p hp hs
    obtain ⟨k1, k2, k3⟩ := peek_of_stream u p hp
    rw [hs] at k1 k2
    obtain ⟨p', hS, hs', hc'⟩ := ih _ k3 k2
    have hhead : headType ts = .ITEM := by cases h; rfl
    exact ⟨p', by simp [parseExprPrimary, Token.Type, k1, hhead, hS], hs', hc'⟩
  | primaryInline fuel ts t ts' h ih =>
    intro p hp hs
    obtain ⟨k1, k2, k3⟩ := peek_of_stream u p hp
    rw [hs] at k1 k2
    obtain ⟨p', hS, hs', hc'⟩ := ih _ k3 k2
    have hhead : headType ts = .SET_OPEN := by cases h; rfl
    exact ⟨p', by simp [parseExprPrimary, Token.Type, k1, hhead, hS], hs', hc'⟩
  | opsDone fuel ts h =>
    intro LHS p hp hs
    obtain ⟨k1, k2, k3⟩ := peek_of_stream u p hp
    rw [hs] at k1 k2
    refine ⟨_, ?_, k2, k3⟩
    have hlt := (getTokenPrecedence_lt_zero (headType ts)).mpr h
    simp [parseExprBinOpRHS, Token.Type, k1, hlt, build]
  | opsStep fuel op v ts rhs ts1 pairs ts' hop _ _ ih1 ih2 =>
    intro LHS p hp hs
    obtain ⟨k1, k2, k3⟩ := peek_of_stream u p hp
    rw [hs] at k1 k2
    obtain ⟨r1, _, r3, r4⟩ := read_of_stream u _ k3 _ _ _ k2 (isBinop_ne_EOF _ hop)
    obtain ⟨p1, hP, hs1, hc1⟩ := ih1 _ r4 r3
    obtain ⟨m1, m2, m3⟩ := peek_of_stream u p1 hc1
    rw [hs1] at m2
    obtain ⟨p', hO, hs', hc'⟩ := ih2 (.BinaryExpr op LHS rhs) _ m3 m2
    refine ⟨p', ?_, hs', hc'⟩
    have k1' : (p.peekToken u).1.tokenType = op := k1
    have hprec := getTokenPrecedence_of_isBinop op hop
    have hle := getTokenPrecedence_le (p1.peekToken u).1.tokenType
    have hnlt : ¬ (10 : Int) < getTokenPrecedence (p1.peekToken u).1.tokenType := by omega
    simp only [parseExprBinOpRHS, Token.Type, k1', hprec, hP, r1, hnlt, if_false]
    simpa [build] using hO
  | expr fuel ts lhs ts1 pairs ts' _ _ ih1 ih2 =>
    intro p hp hs
    obtain ⟨p1, hP, hs1, hc1⟩ := ih1 _ hp hs
    obtain ⟨p', hO, hs', hc'⟩ := ih2 lhs _ hc1 hs1
    exact ⟨p', by simp [parseExpr, hP, hO], hs', hc'⟩

end parser

/-! ## Parsing the tokens of a result again -/

namespace parser

open lexer ast

theorem Derives.suffix {g : Goal} {fuel : Nat} {ts : List Tok} {r : Res} {ts' : List Tok}
    (h : Derives g fuel ts r ts') : ∃ pre, ts = pre ++ ts' := by
  induction h with
  | item _ v ts => exact ⟨[_], rfl⟩
  | setRef _ name ts _ => exact ⟨[_], rfl⟩
  | setAssign _ name ts _ _ _ _ ih =>
    obtain ⟨pre, rfl⟩ := ih
    exact ⟨_ :: pre, rfl⟩
  | assign _ v ts _ _ _ ih =>
    obtain ⟨pre, rfl⟩ := ih
    exact ⟨_ :: pre, rfl⟩
  | inlineSet _ v ts _ _ _ ih =>
    obtain ⟨pre, rfl⟩ := ih
    exact ⟨_ :: pre, rfl⟩
  | elemsClose _ v ts => exact ⟨[_], rfl⟩
  | elemsComma _ ts _ v ts1 _ _ _ _ ih1 ih2 =>
    obtain ⟨pre1, rfl⟩ := ih1
    obtain ⟨pre2, rfl⟩ := ih2
    exact ⟨pre1 ++ ((.COMMA, v) :: pre2), by simp⟩
  | elemsLast _ ts _ v _ _ ih1 =>
    obtain ⟨pre1, rfl⟩ := ih1
    exact ⟨pre1 ++ [(.SET_CLOSE, v)], by simp⟩
  | primarySet _ _ _ _ _ ih => exact ih
  | primaryItem _ _ _ _ _ ih => exact ih
  | primaryInline _ _ _ _ _ ih => exact ih
  | opsDone _ ts _ => exact ⟨[], rfl⟩
  | opsStep _ op v ts _ ts1 _ _ _ _ _ ih1 ih2 =>
    obtain ⟨pre1, rfl⟩ := ih1
    obtain ⟨pre2, rfl⟩ := ih2
    exact ⟨(op, v) :: (pre1 ++ pre2), by simp⟩
  | expr _ ts _ ts1 _ _ _ _ ih1 ih2 =>
    obtain ⟨pre1, rfl⟩ := ih1
    obtain ⟨pre2, rfl⟩ := ih2
    exact ⟨pre1 ++ pre2, by simp⟩

theorem StreamOK.tail (u : unicode.Tables) (tok : Tok) (ts : List Tok)
    (h : StreamOK u (tok :: ts)) : StreamOK u ts := h.2

theorem StreamOK.drop (u : unicode.Tables) (pre ts : List Tok) (h : StreamOK u (pre ++ ts)) :
    StreamOK u ts := by
  induction pre with
  | nil => exact h
  | cons tok pre ih => exact ih h.2

theorem StreamOK.after {u : unicode.Tables} {g : Goal} {fuel : Nat} {ts : List Tok} {r : Res}
    {ts' : List Tok} (h : Derives g fuel ts r ts') (hok : StreamOK u ts) : StreamOK u ts' := by
  obtain ⟨pre, rfl⟩ := h.suffix
  exact StreamOK.drop u pre ts' hok

theorem lexTok_nil (u : unicode.Tables) : lexTok u [] = ((.EOF, ""), []) := rfl

theorem Delim.nil (u : unicode.Tables) : Delim u [] := by
  intro c rest h
  cases h

/-- A set name in a well-lexed stream is not empty. -/
theorem StreamOK.name_ne (u : unicode.Tables) (name : String) (ts : List Tok)
    (h : StreamOK u ((.SET, name) :: ts)) : name ≠ "" := by
  intro hn
  subst hn
  have := h.1 (Or.inl rfl) [] (Delim.nil u) (fun hc => absurd rfl hc)
  simp [lexTok] at this

theorem toks_build (lhs : Node) (pairs : List (TokenType × Node)) :
    toks (build lhs pairs) = toks lhs ++ pairsToks pairs := by
  induction pairs generalizing lhs with
  | nil => simp [build, pairsToks]
  | cons x rest ih =>
    have : build lhs (x :: rest) = build (.BinaryExpr x.1 lhs x.2) rest := rfl
    rw [this, ih, toks, pairsToks]
    simp

theorem Follows.refl (ts : List Tok) : Follows ts ts := ⟨id, id⟩

theorem Follows.of_cons_binop (op : TokenType) (v : String) (rest ts' : List Tok)
    (v' : String) (ts'' : List Tok) (hop : isBinop op = true) (h : ts' = (op, v') :: ts'') :
    Follows ((op, v) :: rest) ts' := by
  subst h
  refine ⟨fun _ => hop, fun h => ?_⟩
  simp only [headType] at h
  subst h
  simp [isBinop] at hop

theorem Follows.of_closing (ty : TokenType) (v : String) (rest ts' : List Tok)
    (h : ty = .SET_CLOSE ∨ ty = .COMMA) : Follows ((ty, v) :: rest) ts' := by
  rcases h with h | h <;> subst h <;> constructor <;> intro h <;> simp [headType, isBinop] at h

/-- The tokens of the result of a derivation on a well-lexed stream derive the
same result again, with the same fuel. -/
theorem Derives.reparse (u : unicode.Tables) {g : Goal} {fuel : Nat} {ts : List Tok} {r : Res}
    {ts' : List Tok} (h : Derives g fuel ts r ts') : Reparses u g fuel ts r ts' := by
  induction h with
  | item fuel v ts =>
    intro _ rest _
    exact Derives.item fuel v rest
  | setRef fuel name ts h =>
    intro hok rest hf
    have hne := StreamOK.name_ne u name ts hok
    simp only [toks, hne, if_false]
    refine Derives.setRef fuel name rest ?_
    intro hr
    exact h (hf.2 hr)
  | setAssign fuel name ts expr ts' h he ih =>
    intro hok rest hf
    simp only [toks]
    exact Derives.setAssign fuel name _ expr rest rfl (ih hok.2 rest hf)
  | assign fuel v ts expr ts' he ih =>
    intro hok rest hf
    exact Derives.assign fuel "=" _ expr rest (ih hok.2 rest hf)
  | inlineSet fuel v ts items ts' h ih =>
    intro hok rest _
    simp only [toks, if_true]
    have := ih hok.2 rest
    simpa using Derives.inlineSet fuel "(" _ items rest this
  | elemsClose fuel v ts =>
    intro _ rest
    exact Derives.elemsClose fuel ")" rest
  | elemsComma fuel ts item v ts1 items ts' h1 h2 ih1 ih2 =>
    intro hok rest
    have hok1 : StreamOK u ts1 := (StreamOK.after h1 hok).2
    cases items with
    | nil =>
      have := ih1 hok ((.SET_CLOSE, ")") :: rest) (Follows.of_closing _ _ _ _ (Or.inl rfl))
      simpa [toksItems] using Derives.elemsLast fuel _ item ")" rest this
    | cons item2 more =>
      have e1 := ih1 hok ((.COMMA, ",") :: (toksItems (item2 :: more) ++ (.SET_CLOSE, ")") :: rest))
        (Follows.of_closing _ _ _ _ (Or.inr rfl))
      have e2 := ih2 hok1 rest
      have := Derives.elemsComma fuel _ item "," _ (item2 :: more) rest e1 e2
      have hcons : toksItems (item :: item2 :: more) =
          toks item ++ (.COMMA, ",") :: toksItems (item2 :: more) := by
        rw [toksItems]; simp
      rw [hcons]
      simpa using this
  | elemsLast fuel ts item v ts' h1 ih1 =>
    intro hok rest
    have := ih1 hok ((.SET_CLOSE, ")") :: rest) (Follows.of_closing _ _ _ _ (Or.inl rfl))
    simpa [toksItems] using Derives.elemsLast fuel _ item ")" rest this
  | primarySet fuel ts t ts' h ih =>
    intro hok rest hf
    exact Derives.primarySet fuel _ t rest (ih hok rest hf)
  | primaryItem fuel ts t ts' h ih =>
    intro hok rest hf
    exact Derives.primaryItem fuel _ t rest (ih hok rest hf)
  | primaryInline fuel ts t ts' h ih =>
    intro hok rest hf
    exact Derives.primaryInline fuel _ t rest (ih hok rest hf)
  | opsDone fuel ts h =>
    intro _ rest hf
    refine Derives.opsDone fuel rest ?_
    cases hb : isBinop (headType rest) with
    | false => rfl
    | true => rw [hf.1 hb] at h; exact absurd h (by simp)
  | opsStep fuel op v ts rhs ts1 pairs ts' hop h1 h2 ih1 ih2 =>
    intro hok rest hf
    have hok1 : StreamOK u ts1 := StreamOK.after h1 hok.2
    have e2 := ih2 hok1 rest hf
    have hf1 : Follows (pairsToks pairs ++ rest) ts1 := by
      cases h2 with
      | opsDone _ _ _ => simpa [pairsToks] using hf
      | opsStep _ op2 v2 ts2 rhs2 ts3 pairs2 _ hop2 _ _ =>
        exact Follows.of_cons_binop op2 _ _ _ v2 ts2 hop2 rfl
    have e1 := ih1 hok.2 (pairsToks pairs ++ rest) hf1
    have := Derives.opsStep fuel op op.String _ rhs _ pairs rest hop e1 e2
    simpa [pairsToks] using this
  | expr fuel ts lhs ts1 pairs ts' h1 h2 ih1 ih2 =>
    intro hok rest hf
    have hok1 : StreamOK u ts1 := StreamOK.after h1 hok
    have e2 := ih2 hok1 rest hf
    have hf1 : Follows (pairsToks pairs ++ rest) ts1 := by
      cases h2 with
      | opsDone _ _ _ => simpa [pairsToks] using hf
      | opsStep _ op2 v2 ts2 rhs2 ts3 pairs2 _ hop2 _ _ =>
        exact Follows.of_cons_binop op2 _ _ _ v2 ts2 hop2 rfl
    have e1 := ih1 hok (pairsToks pairs ++ rest) hf1
    have := Derives.expr fuel _ lhs _ pairs rest e1 e2
    rw [toks_build]
    simpa using this

end parser

/-! ## Lexing the lexeme of a token again -/

namespace lexer

theorem takeWhile_append_of_delim (p : Char → Bool) (l cs : List Char)
    (h : ∀ c rest, cs = c :: rest → p c = false) :
    (l.takeWhile p ++ cs).takeWhile p = l.takeWhile p ∧
      (l.takeWhile p ++ cs).dropWhile p = cs := by
  induction l with
  | nil =>
    cases cs with
    | nil => simp
    | cons c rest => simp [List.takeWhile_cons, List.dropWhile_cons, h c rest rfl]
  | cons a l ih =>
    by_cases ha : p a = true
    · simp [List.takeWhile_cons, List.dropWhile_cons, ha, ih.1, ih.2]
    · cases cs with
      | nil => simp [List.takeWhile_cons, ha]
      | cons c rest => simp [List.takeWhile_cons, List.dropWhile_cons, ha, h c rest rfl]

theorem quotedBody_append (rest cs : List Char) (h : cs ≠ [] → quotedRest rest ≠ []) :
    quotedBody (quotedBody rest ++ cs) = quotedBody rest ∧
      quotedRest (quotedBody rest ++ cs) = cs := by
  induction rest with
  | nil =>
    have hcs : cs = [] := by
      by_contra hne
      exact h hne rfl
    subst hcs
    simp [quotedBody, quotedRest]
  | cons a rest ih =>
    by_cases ha : notQuote a = true
    · have h' : cs ≠ [] → quotedRest rest ≠ [] := by
        intro hne
        have := h hne
        simpa [quotedRest, List.dropWhile_cons, ha] using this
      have ih' := ih h'
      have e1 : quotedBody (a :: rest) = a :: quotedBody rest := by
        simp [quotedBody, List.takeWhile_cons, List.dropWhile_cons, ha]
      rw [e1]
      constructor
      · have : quotedBody (a :: (quotedBody rest ++ cs)) = a :: quotedBody (quotedBody rest ++ cs) := by
          simp [quotedBody, List.takeWhile_cons, List.dropWhile_cons, ha]
        rw [List.cons_append, this, ih'.1]
      · have : quotedRest (a :: (quotedBody rest ++ cs)) = quotedRest (quotedBody rest ++ cs) := by
          simp [quotedRest, List.dropWhile_cons, ha]
        rw [List.cons_append, this, ih'.2]
    · simp [quotedBody, quotedRest, List.takeWhile_cons, List.dropWhile_cons, ha]

/-- A set name or item that the lexer returns is lexed again from its lexeme,
in front of any runes that end an identifier (no runes when the token took all
the input). -/
theorem lexTok_relex (u : unicode.Tables) (rs : List Char)
    (hty : (lexTok u rs).1.1 = .SET ∨ (lexTok u rs).1.1 = .ITEM) (cs : List Char)
    (hd : ∀ c rest, cs = c :: rest → identBody u c = false)
    (hcs : cs ≠ [] → (lexTok u rs).2 ≠ []) :
    lexTok u ((lexTok u rs).1.2.data ++ cs) = ((lexTok u rs).1, cs) := by
  induction rs with
  | nil => simp [lexTok] at hty
  | cons r rest ih =>
    revert hty hcs
    rw [lexTok]
    by_cases h1 : r = '\n'
    · simp only [h1, if_true]; exact ih
    by_cases h2 : r = ','
    · simp [h2]
    by_cases h3 : r = '|'
    · simp [h3]
    by_cases h4 : r = '&'
    · simp [h4]
    by_cases h5 : r = '-'
    · simp [h5]
    by_cases h6 : r = '^'
    · simp [h6]
    by_cases h7 : r = '{'
    · simp [h7]
    by_cases h8 : r = '}'
    · simp [h8]
    by_cases h9 : r = '='
    · simp [h9]
    by_cases h10 : r = '\''
    · subst h10
      intro _ hcs
      simp only [Char.reduceEq, if_false, if_true] at hcs ⊢
      have hq := quotedBody_append rest cs hcs
      rw [List.cons_append, lexTok]
      simp [hq.1, hq.2]
    simp only [h1, h2, h3, h4, h5, h6, h7, h8, h9, h10, if_false]
    by_cases hs : unicode.IsSpace u r = true
    · simp only [hs, if_true]; exact ih
    by_cases hl : unicode.IsLetter u r = true
    · intro _ _
      have hib := identBody_of_letter u r hl
      have htw := takeWhile_append_of_delim (identBody u) (r :: rest) cs hd
      simp only [hs, hl, if_true, if_false, Bool.false_eq_true] at htw ⊢
      have e : (r :: rest).takeWhile (identBody u) = r :: rest.takeWhile (identBody u) := by
        simp [List.takeWhile_cons, hib]
      rw [e] at htw ⊢
      rw [List.cons_append, lexTok]
      simp only [h1, h2, h3, h4, h5, h6, h7, h8, h9, h10, hs, hl, if_true, if_false,
        Bool.false_eq_true]
      rw [← List.cons_append, htw.1, htw.2]
    by_cases hdg : unicode.IsDigit u r = true
    · intro _ _
      have hib := identBody_of_digit u r hdg
      have htw := takeWhile_append_of_delim (identBody u) (r :: rest) cs hd
      simp only [hs, hl, hdg, if_true, if_false, Bool.false_eq_true] at htw ⊢
      have e : (r :: rest).takeWhile (identBody u) = r :: rest.takeWhile (identBody u) := by
        simp [List.takeWhile_cons, hib]
      rw [e] at htw ⊢
      rw [List.cons_append, lexTok]
      simp only [h1, h2, h3, h4, h5, h6, h7, h8, h9, h10, hs, hl, hdg, if_true, if_false,
        Bool.false_eq_true]
      rw [← List.cons_append, htw.1, htw.2]
    simp [hs, hl, hdg]

theorem tokensOf_cons (u : unicode.Tables) (rs : List Char) (tok : Tok) (rs' : List Char)
    (h : lexTok u rs = (tok, rs')) (hne : tok.1 ≠ .EOF) :
    tokensOf u rs = tok :: tokensOf u rs' := by
  rw [tokensOf_eq, h]
  simp [hne]

theorem tokensOf_ne_nil (u : unicode.Tables) (rs : List Char) (h : tokensOf u rs ≠ []) :
    rs ≠ [] := by
  intro hrs
  subst hrs
  exact h rfl

end lexer

namespace parser
open lexer ast

theorem streamOK_tokensOf_aux (u : unicode.Tables) (n : Nat) :
    ∀ rs : List Char, rs.length ≤ n → StreamOK u (tokensOf u rs) := by
  induction n with
  | zero =>
    intro rs hn
    have hrs : rs = [] := List.length_eq_zero.mp (Nat.le_zero.mp hn)
    subst hrs
    simp [tokensOf_nil, StreamOK]
  | succ n ih =>
    intro rs hn
    rw [tokensOf_eq]
    by_cases hE : (lexTok u rs).1.1 = .EOF
    · simp [hE, StreamOK]
    · simp only [hE, if_false, StreamOK]
      have hlt := (lexTok_consumes u rs).2.1 hE
      refine ⟨?_, ih _ (by omega)⟩
      intro hty cs hd hcs
      exact lexTok_relex u rs hty cs hd (fun hne => tokensOf_ne_nil u _ (hcs hne))

/-- The tokens of any input form a well-lexed stream. -/
theorem streamOK_tokensOf (u : unicode.Tables) (rs : List Char) : StreamOK u (tokensOf u rs) :=
  streamOK_tokensOf_aux u rs.length rs (Nat.le_refl _)

end parser

/-! ## Lexing the canonical text of a result -/

namespace parser

open lexer ast

theorem ToQueryItems_data (items : List Node) (buf : String) :
    (ToQueryItems items buf).data = buf.data ++ itemsText items := by
  induction items generalizing buf with
  | nil => simp [ToQueryItems, itemsText]
  | cons item rest ih =>
    rw [ToQueryItems, itemsText]
    cases rest with
    | nil => simp [ToQueryItems, itemsText]
    | cons item2 more =>
      simp only [List.isEmpty_cons, Bool.false_eq_true, if_false]
      rw [ih]
      simp [String.data_append]

theorem ToQuery_literal_data (items : List Node) :
    (Node.Set "" items).ToQuery.data = '{' :: (itemsText items ++ ['}']) := by
  rw [Node.ToQuery]
  simp [String.data_append, ToQueryItems_data]

theorem ToQuery_build_data (lhs : Node) (pairs : List (TokenType × Node)) :
    (build lhs pairs).ToQuery.data = lhs.ToQuery.data ++ pairsText pairs := by
  induction pairs generalizing lhs with
  | nil => simp [build, pairsText]
  | cons x rest ih =>
    have : build lhs (x :: rest) = build (.BinaryExpr x.1 lhs x.2) rest := rfl
    rw [this, ih, Node.ToQuery, pairsText]
    simp [String.data_append]

theorem tokensOf_space (u : unicode.Tables) (cs : List Char) :
    tokensOf u (' ' :: cs) = tokensOf u cs := by
  have h : lexTok u (' ' :: cs) = lexTok u cs := by
    rw [lexTok]
    simp [unicode.IsSpace]
  rw [tokensOf_eq u (' ' :: cs), tokensOf_eq u cs, h]

/-- An operator is serialized as one rune, which ends an identifier and is lexed
as the operator. -/
theorem binop_text (u : unicode.Tables) (op : TokenType) (hop : isBinop op = true) :
    ∃ c, op.String.data = [c] ∧ identBody u c = false ∧
      ∀ cs, lexTok u (c :: cs) = ((op, op.String), cs) := by
  cases op <;> simp [isBinop] at hop
  · exact ⟨'|', rfl, rfl, fun cs => rfl⟩
  · exact ⟨'&', rfl, rfl, fun cs => rfl⟩
  · exact ⟨'-', rfl, rfl, fun cs => rfl⟩
  · exact ⟨'^', rfl, rfl, fun cs => rfl⟩

theorem Delim.cons (u : unicode.Tables) (c : Char) (cs : List Char) (h : identBody u c = false) :
    Delim u (c :: cs) := by
  intro c' rest heq
  cases heq
  exact h

/-- The text of the operands that follow a node ends an identifier, and is empty
only if nothing was read after the node. -/
theorem Derives.ops_text (u : unicode.Tables) {fuel : Nat} {ts : List Tok}
    {pairs : List (TokenType × Node)} {ts' : List Tok}
    (h : Derives .ops fuel ts (.ops pairs) ts') (cs : List Char) (hd : Delim u cs)
    (hcs : cs ≠ [] → ts' ≠ []) :
    Delim u (pairsText pairs ++ cs) ∧ (pairsText pairs ++ cs ≠ [] → ts ≠ []) := by
  cases h with
  | opsDone _ _ _ => simpa [pairsText] using ⟨hd, hcs⟩
  | opsStep _ op v ts0 rhs ts1 pairs' _ hop _ _ =>
    obtain ⟨c, hc, hib, _⟩ := binop_text u op hop
    simp only [pairsText, hc, List.cons_append, List.nil_append]
    exact ⟨Delim.cons u c _ hib, fun _ => by simp⟩

theorem headType_ne_nil (ts : List Tok) (ty : TokenType) (h : headType ts = ty)
    (hne : ty ≠ .EOF) : ts ≠ [] := by
  intro hts
  subst hts
  exact hne h.symm

/-- On a well-lexed stream, the lexer yields the tokens of the result of a
derivation from the canonical text of the result. -/
theorem Derives.relex (u : unicode.Tables) {g : Goal} {fuel : Nat} {ts : List Tok} {r : Res}
    {ts' : List Tok} (h : Derives g fuel ts r ts') : Relexes u g fuel ts r ts' := by
  induction h with
  | item fuel v ts =>
    intro hok cs hd hcs
    have := hok.1 (Or.inr rfl) cs hd hcs
    simpa [Node.ToQuery, toks] using tokensOf_cons u _ _ _ this (by simp)
  | setRef fuel name ts h =>
    intro hok cs hd hcs
    have hne := StreamOK.name_ne u name ts hok
    have := hok.1 (Or.inl rfl) cs hd hcs
    simpa [Node.ToQuery, toks, hne] using tokensOf_cons u _ _ _ this (by simp)
  | setAssign fuel name ts expr ts' h he ih =>
    intro hok cs hd hcs
    have hts : ts ≠ [] := headType_ne_nil ts _ h (by decide)
    have h1 := hok.1 (Or.inl rfl) (' ' :: '=' :: ' ' :: (expr.ToQuery.data ++ cs))
      (Delim.cons u _ _ rfl) (fun _ => hts)
    have h2 : lexTok u ('=' :: ' ' :: (expr.ToQuery.data ++ cs)) =
        ((.ASSIGN, "="), ' ' :: (expr.ToQuery.data ++ cs)) := rfl
    have h3 := ih hok.2 cs hd hcs
    have e : (Node.AssignExpr name expr).ToQuery.data ++ cs =
        name.data ++ ' ' :: '=' :: ' ' :: (expr.ToQuery.data ++ cs) := by
      rw [Node.ToQuery]
      simp [String.data_append]
    rw [e, tokensOf_cons u _ _ _ h1 (by simp), tokensOf_space,
      tokensOf_cons u _ _ _ h2 (by decide), tokensOf_space, h3]
    simp [toks]
  | assign fuel v ts expr ts' he ih =>
    intro hok cs hd hcs
    exact ih hok.2 cs hd hcs
  | inlineSet fuel v ts items ts' h ih =>
    intro hok cs _ _
    have h1 : lexTok u ('{' :: (itemsText items ++ '}' :: cs)) =
        ((.SET_OPEN, "("), itemsText items ++ '}' :: cs) := rfl
    rw [ToQuery_literal_data]
    simp only [List.cons_append, List.append_assoc, List.nil_append]
    rw [tokensOf_cons u _ _ _ h1 (by decide), ih hok.2 cs]
    simp [toks]
  | elemsClose fuel v ts =>
    intro _ cs
    have h1 : lexTok u ('}' :: cs) = ((.SET_CLOSE, ")"), cs) := rfl
    simpa [itemsText, toksItems] using tokensOf_cons u _ _ _ h1 (by decide)
  | elemsComma fuel ts item v ts1 items ts' h1 h2 ih1 ih2 =>
    intro hok cs
    have hok1 : StreamOK u ts1 := (StreamOK.after h1 hok).2
    cases items with
    | nil =>
      have hc : lexTok u ('}' :: cs) = ((.SET_CLOSE, ")"), cs) := rfl
      have := ih1 hok ('}' :: cs) (Delim.cons u _ _ rfl) (fun _ => by simp)
      simp only [itemsText, toksItems, List.isEmpty_nil, if_true, List.append_nil]
      rw [this, tokensOf_cons u _ _ _ hc (by decide)]
    | cons item2 more =>
      have hc : lexTok u (',' :: (itemsText (item2 :: more) ++ '}' :: cs)) =
          ((.COMMA, ","), itemsText (item2 :: more) ++ '}' :: cs) := rfl
      have e1 := ih1 hok (',' :: (itemsText (item2 :: more) ++ '}' :: cs))
        (Delim.cons u _ _ rfl) (fun _ => by simp)
      have e2 := ih2 hok1 cs
      have ht : itemsText (item :: item2 :: more) =
          item.ToQuery.data ++ ',' :: itemsText (item2 :: more) := by
        rw [itemsText]; simp
      have hk : toksItems (item :: item2 :: more) =
          toks item ++ (.COMMA, ",") :: toksItems (item2 :: more) := by
        rw [toksItems]; simp
      rw [ht, hk]
      simp only [List.append_assoc, List.cons_append]
      rw [e1, tokensOf_cons u _ _ _ hc (by decide), e2]
  | elemsLast fuel ts item v ts' h1 ih1 =>
    intro hok cs
    have hc : lexTok u ('}' :: cs) = ((.SET_CLOSE, ")"), cs) := rfl
    have := ih1 hok ('}' :: cs) (Delim.cons u _ _ rfl) (fun _ => by simp)
    simp only [itemsText, toksItems, List.isEmpty_nil, if_true, List.append_nil]
    rw [this, tokensOf_cons u _ _ _ hc (by decide)]
  | primarySet fuel ts t ts' h ih => exact ih
  | primaryItem fuel ts t ts' h ih => exact ih
  | primaryInline fuel ts t ts' h ih => exact ih
  | opsDone fuel ts h =>
    intro _ cs _ _
    simp [pairsText, pairsToks]
  | opsStep fuel op v ts rhs ts1 pairs ts' hop h1 h2 ih1 ih2 =>
    intro hok cs hd hcs
    have hok1 : StreamOK u ts1 := StreamOK.after h1 hok.2
    obtain ⟨c, hc, _, hlex⟩ := binop_text u op hop
    obtain ⟨hd1, hcs1⟩ := h2.ops_text u cs hd hcs
    have e1 := ih1 hok.2 (pairsText pairs ++ cs) hd1 hcs1
    have e2 := ih2 hok1 cs hd hcs
    simp only [pairsText, pairsToks, hc, List.cons_append, List.nil_append, List.append_assoc]
    rw [tokensOf_cons u _ _ _ (hlex _) (isBinop_ne_EOF _ hop), e1, e2]
  | expr fuel ts lhs ts1 pairs ts' h1 h2 ih1 ih2 =>
    intro hok cs hd hcs
    have hok1 : StreamOK u ts1 := StreamOK.after h1 hok
    obtain ⟨hd1, hcs1⟩ := h2.ops_text u cs hd hcs
    have e1 := ih1 hok (pairsText pairs ++ cs) hd1 hcs1
    have e2 := ih2 hok1 cs hd hcs
    rw [ToQuery_build_data, toks_build, List.append_assoc, e1, e2, List.append_assoc]

end parser

/-! ## `Parse` and the grammar -/

namespace parser

open lexer ast

theorem Derives.mono {g : Goal} {fuel : Nat} {ts : List Tok} {r : Res} {ts' : List Tok}
    (h : Derives g fuel ts r ts') : Derives g (fuel + 1) ts r ts' := by
  induction h with
  | item fuel v ts => exact Derives.item _ v ts
  | setRef fuel name ts h => exact Derives.setRef _ name ts h
  | setAssign fuel name ts expr ts' h _ ih => exact Derives.setAssign _ name ts expr ts' h ih
  | assign fuel v ts expr ts' _ ih => exact Derives.assign _ v ts expr ts' ih
  | inlineSet fuel v ts items ts' _ ih => exact Derives.inlineSet _ v ts items ts' ih
  | elemsClose fuel v ts => exact Derives.elemsClose _ v ts
  | elemsComma fuel ts item v ts1 items ts' _ _ ih1 ih2 =>
    exact Derives.elemsComma _ ts item v ts1 items ts' ih1 ih2
  | elemsLast fuel ts item v ts' _ ih1 => exact Derives.elemsLast _ ts item v ts' ih1
  | primarySet fuel ts t ts' _ ih => exact Derives.primarySet _ ts t ts' ih
  | primaryItem fuel ts t ts' _ ih => exact Derives.primaryItem _ ts t ts' ih
  | primaryInline fuel ts t ts' _ ih => exact Derives.primaryInline _ ts t ts' ih
  | opsDone fuel ts h => exact Derives.opsDone _ ts h
  | opsStep fuel op v ts rhs ts1 pairs ts' hop _ _ ih1 ih2 =>
    exact Derives.opsStep _ op v ts rhs ts1 pairs ts' hop ih1 ih2
  | expr fuel ts lhs ts1 pairs ts' _ _ ih1 ih2 => exact Derives.expr _ ts lhs ts1 pairs ts' ih1 ih2

theorem Derives.mono_le {g : Goal} {fuel fuel' : Nat} {ts : List Tok} {r : Res} {ts' : List Tok}
    (h : Derives g fuel ts r ts') (hle : fuel ≤ fuel') : Derives g fuel' ts r ts' := by
  induction hle with
  | refl => exact h
  | step _ ih => exact ih.mono

/-- A token stream of a parser does not start with an `EOF` token. -/
theorem stream_nil_of_headType (u : unicode.Tables) (p : Parser)
    (h : headType (p.stream u) = .EOF) : p.stream u = [] := by
  revert h
  unfold Parser.stream
  cases p.readAhead with
  | some t =>
    by_cases ht : t.tokenType = .EOF
    · simp [ht]
    · simp [ht, headType, Token.erase]
  | none =>
    simp only
    rw [tokensOf_eq]
    by_cases ht : (lexTok u p.lexer.reader).1.1 = .EOF
    · simp [ht]
    · simp [ht, headType]

/-- `Parse` accepts an input with the node `t` exactly when the tokens of the
input derive `t` as an expression and nothing is left. -/
theorem ParseString_ok_iff (u : unicode.Tables) (fuel : Nat) (q : String) (t : Node) :
    ParseString u fuel q = some (.ok t) ↔
      Derives .expr fuel (tokensOf u q.data) (.one t) [] := by
  have hc0 := NewParser_consistent u (NewLexer q.data)
  have hs0 := NewParser_stream u q.data
  constructor
  · intro h
    simp only [ParseString, Option.map_eq_some', Parser.Parse] at h
    obtain ⟨⟨r, p2⟩, h, hr⟩ := h
    simp only at hr
    subst hr
    split at h
    · simp at h
    · simp at h
    · rename_i parsedAST p1 hE
      split at h
      · simp at h
      · rename_i hty
        simp only [Option.some.injEq, Prod.mk.injEq, Except.ok.injEq] at h
        obtain ⟨rfl, _⟩ := h
        obtain ⟨hd, hc1⟩ := (sound u fuel).1 _ _ _ hc0 hE
        have hnil : p1.stream u = [] := by
          apply stream_nil_of_headType
          rw [← peekToken_type]
          simpa [Token.Type] using hty
        rw [hs0, hnil] at hd
        exact hd
  · intro h
    obtain ⟨p1, hE, hs1, hc1⟩ := complete u h _ hc0 hs0
    have hty : (p1.peekToken u).1.tokenType = .EOF := by
      rw [peekToken_type, hs1]; rfl
    simp [ParseString, Parser.Parse, hE, Token.Type, hty]

end parser

/-! ## Independence of the Unicode tables on ASCII inputs -/

namespace lexer

theorem IsSpace_ascii (u u' : unicode.Tables) (c : Char) (h : c.toNat < 128) :
    unicode.IsSpace u c = unicode.IsSpace u' c := by
  simp [unicode.IsSpace, h]

theorem IsLetter_ascii (u u' : unicode.Tables) (c : Char) (h : c.toNat < 128) :
    unicode.IsLetter u c = unicode.IsLetter u' c := by
  simp [unicode.IsLetter, h]

theorem IsDigit_ascii (u u' : unicode.Tables) (c : Char) (h : c.toNat < 128) :
    unicode.IsDigit u c = unicode.IsDigit u' c := by
  simp [unicode.IsDigit, h]

theorem AllASCII.rest {r : Char} {rest : List Char} (h : AllASCII (r :: rest)) : AllASCII rest :=
  fun c hc => h c (List.mem_cons_of_mem _ hc)

theorem AllASCII.first {r : Char} {rest : List Char} (h : AllASCII (r :: rest)) : r.toNat < 128 :=
  h r (List.mem_cons_self _ _)

theorem lexIdentLoop_ascii (u u' : unicode.Tables) (rs : List Char) (h : AllASCII rs)
    (pos : Position) (lit : String) :
    lexIdentLoop u rs pos lit = lexIdentLoop u' rs pos lit := by
  induction rs generalizing pos lit with
  | nil => rfl
  | cons r rest ih =>
    rw [lexIdentLoop, lexIdentLoop, IsLetter_ascii u u' r h.first, IsDigit_ascii u u' r h.first]
    simp only [ih h.rest]

theorem lexLoop_ascii (u u' : unicode.Tables) (rs : List Char) (h : AllASCII rs)
    (pos : Position) : lexLoop u rs pos = lexLoop u' rs pos := by
  induction rs generalizing pos with
  | nil => rfl
  | cons r rest ih =>
    rw [lexLoop, lexLoop, IsSpace_ascii u u' r h.first, IsLetter_ascii u u' r h.first,
      IsDigit_ascii u u' r h.first]
    simp only [ih h.rest, Lexer.lexIdent, Lexer.backup, lexIdentLoop_ascii u u' (r :: rest) h]

theorem lexTok_suffix (u : unicode.Tables) (rs : List Char) : (lexTok u rs).2 <:+ rs := by
  induction rs with
  | nil => simp [lexTok]
  | cons r rest ih =>
    rw [lexTok]
    have hq : quotedRest rest <:+ r :: rest :=
      ((List.drop_suffix 1 _).trans (List.dropWhile_suffix _)).trans (List.suffix_cons r rest)
    have hr := List.suffix_cons r rest
    by_cases h1 : r = '\n'
    · simp only [h1, if_true]; exact ih.trans (List.suffix_cons _ rest)
    by_cases h2 : r = ','
    · simp only [h2, Char.reduceEq, if_true, if_false]; exact List.suffix_cons _ rest
    by_cases h3 : r = '|'
    · simp only [h3, Char.reduceEq, if_true, if_false]; exact List.suffix_cons _ rest
    by_cases h4 : r = '&'
    · simp only [h4, Char.reduceEq, if_true, if_false]; exact List.suffix_cons _ rest
    by_cases h5 : r = '-'
    · simp only [h5, Char.reduceEq, if_true, if_false]; exact List.suffix_cons _ rest
    by_cases h6 : r = '^'
    · simp only [h6, Char.reduceEq, if_true, if_false]; exact List.suffix_cons _ rest
    by_cases h7 : r = '{'
    · simp only [h7, Char.reduceEq, if_true, if_false]; exact List.suffix_cons _ rest
    by_cases h8 : r = '}'
    · simp only [h8, Char.reduceEq, if_true, if_false]; exact List.suffix_cons _ rest
    by_cases h9 : r = '='
    · simp only [h9, Char.reduceEq, if_true, if_false]; exact List.suffix_cons _ rest
    by_cases h10 : r = '\''
    · simp only [h10, Char.reduceEq, if_true, if_false]; exact h10 ▸ hq
    simp only [h1, h2, h3, h4, h5, h6, h7, h8, h9, h10, if_false]
    by_cases hs : unicode.IsSpace u r = true
    · simp only [hs, if_true]; exact ih.trans hr
    by_cases hl : unicode.IsLetter u r = true
    · simp only [hs, hl, if_true, if_false]; exact List.dropWhile_suffix _
    by_cases hd : unicode.IsDigit u r = true
    · simp only [hs, hl, hd, if_true, if_false]; exact List.dropWhile_suffix _
    simp only [hs, hl, hd, if_false]; exact hr

theorem Lex_ascii (u u' : unicode.Tables) (l : Lexer) (h : AllASCII l.reader) :
    l.Lex u = l.Lex u' ∧ AllASCII (l.Lex u).2.reader := by
  refine ⟨lexLoop_ascii u u' _ h _, ?_⟩
  intro c hc
  have h2 := (lexLoop_erase u l.reader l.pos).2
  simp only [Lexer.Lex] at hc
  rw [h2] at hc
  exact h c ((lexTok_suffix u l.reader).subset hc)

end lexer

namespace parser
open lexer ast

theorem peekToken_ascii (u u' : unicode.Tables) (p : Parser) (h : AllASCII p.lexer.reader) :
    p.peekToken u = p.peekToken u' ∧ AllASCII (p.peekToken u).2.lexer.reader := by
  unfold Parser.peekToken
  cases p.readAhead with
  | some t => exact ⟨rfl, h⟩
  | none =>
    obtain ⟨h1, h2⟩ := Lex_ascii u u' p.lexer h
    simp only [h1]
    exact ⟨trivial, h1 ▸ h2⟩

theorem readToken_ascii (u u' : unicode.Tables) (p : Parser) (h : AllASCII p.lexer.reader) :
    p.readToken u = p.readToken u' ∧ AllASCII (p.readToken u).2.lexer.reader := by
  unfold Parser.readToken
  cases p.readAhead with
  | some t => exact ⟨rfl, h⟩
  | none =>
    obtain ⟨h1, h2⟩ := Lex_ascii u u' p.lexer h
    simp only [h1]
    exact ⟨trivial, h1 ▸ h2⟩

theorem tablesFree_item (u u' : unicode.Tables) (fuel : Nat) :
    TablesFree u u' (fun u => parseItem u fuel) := by
  intro p hp
  cases fuel with
  | zero => simp [parseItem]
  | succ n =>
    obtain ⟨h1, h2⟩ := readToken_ascii u u' p hp
    simp only [parseItem, ← h1]
    refine ⟨trivial, ?_⟩
    intro r p' h
    split at h <;> simp only [Option.some.injEq, Prod.mk.injEq] at h <;> obtain ⟨_, rfl⟩ := h <;>
      exact h2

end parser

namespace parser
open lexer ast

theorem tablesFree_assign_step (u u' : unicode.Tables) (n : Nat)
    (ihE : TablesFree u u' (fun u => parseExpr u n)) :
    TablesFree u u' (fun u => parseAssign u (n + 1)) := by
  intro p hp
  obtain ⟨h1, h2⟩ := readToken_ascii u u' p hp
  simp only [parseAssign, ← h1]
  by_cases hty : (p.readToken u).1.Type ≠ .ASSIGN
  · simp only [if_pos hty, true_and]
    intro r p' h
    simp only [Option.some.injEq, Prod.mk.injEq] at h
    obtain ⟨_, rfl⟩ := h
    exact h2
  · simp only [if_neg hty]
    exact ihE _ h2

theorem tablesFree_set_step (u u' : unicode.Tables) (n : Nat)
    (ihA : TablesFree u u' (fun u => parseAssign u n)) :
    TablesFree u u' (fun u => parseSet u (n + 1)) := by
  intro p hp
  obtain ⟨h1, h2⟩ := readToken_ascii u u' p hp
  obtain ⟨k1, k2⟩ := peekToken_ascii u u' _ h2
  simp only [parseSet, ← h1, ← k1]
  by_cases hty : (p.readToken u).1.Type ≠ .SET
  · simp only [if_pos hty, true_and]
    intro r p' h
    simp only [Option.some.injEq, Prod.mk.injEq] at h
    obtain ⟨_, rfl⟩ := h
    exact h2
  · simp only [if_neg hty]
    by_cases hasg : ((p.readToken u).2.peekToken u).1.Type = .ASSIGN
    · obtain ⟨a1, a2⟩ := ihA _ k2
      simp only [hasg, if_true, ← a1]
      refine ⟨trivial, ?_⟩
      intro r p' h
      cases hA : parseAssign u n ((p.readToken u).2.peekToken u).2 with
      | none => simp [hA] at h
      | some rp =>
        obtain ⟨r1, p1⟩ := rp
        have hp1 := a2 r1 p1 hA
        cases r1 <;> simp only [hA, Option.some.injEq, Prod.mk.injEq] at h <;>
          obtain ⟨_, rfl⟩ := h <;> exact hp1
    · simp only [hasg, if_false, true_and]
      intro r p' h
      simp only [Option.some.injEq, Prod.mk.injEq] at h
      obtain ⟨_, rfl⟩ := h
      exact k2

theorem tablesFree_inline_step (u u' : unicode.Tables) (n : Nat)
    (ihL : ∀ items, TablesFree u u' (fun u p => parseInlineSetLoop u n p items)) :
    TablesFree u u' (fun u => parseInlineSet u (n + 1)) := by
  intro p hp
  obtain ⟨h1, h2⟩ := readToken_ascii u u' p hp
  simp only [parseInlineSet, ← h1]
  by_cases hty : (p.readToken u).1.Type ≠ .SET_OPEN
  · simp only [if_pos hty, true_and]
    intro r p' h
    simp only [Option.some.injEq, Prod.mk.injEq] at h
    obtain ⟨_, rfl⟩ := h
    exact h2
  · simp only [if_neg hty]
    exact ihL [] _ h2

theorem tablesFree_loop_step (u u' : unicode.Tables) (n : Nat)
    (ihE : TablesFree u u' (fun u => parseExpr u n))
    (ihL : ∀ items, TablesFree u u' (fun u p => parseInlineSetLoop u n p items)) (items : List Node) :
    TablesFree u u' (fun u p => parseInlineSetLoop u (n + 1) p items) := by
  intro p hp
  obtain ⟨k1, k2⟩ := peekToken_ascii u u' p hp
  obtain ⟨r1, r2⟩ := readToken_ascii u u' _ k2
  obtain ⟨e1, e2⟩ := ihE _ k2
  simp only [parseInlineSetLoop, ← k1, ← r1, ← e1]
  by_cases hend : (p.peekToken u).1.Type = .EOF ∨ (p.peekToken u).1.Type = .SET_CLOSE
  · simp only [hend, if_true]
    by_cases hcl : (p.peekToken u).1.Type ≠ .SET_CLOSE
    · simp only [if_pos hcl, true_and]
      intro r p' h
      simp only [Option.some.injEq, Prod.mk.injEq] at h
      obtain ⟨_, rfl⟩ := h
      exact k2
    · simp only [if_neg hcl, true_and]
      intro r p' h
      simp only [Option.some.injEq, Prod.mk.injEq] at h
      obtain ⟨_, rfl⟩ := h
      exact r2
  · simp only [hend, if_false]
    cases hE : parseExpr u n (p.peekToken u).2 with
    | none => simp
    | some rp =>
      obtain ⟨res, p1⟩ := rp
      have hp1 := e2 res p1 hE
      cases res with
      | error err =>
        simp only [true_and]
        intro r p' h
        simp only [Option.some.injEq, Prod.mk.injEq] at h
        obtain ⟨_, rfl⟩ := h
        exact hp1
      | ok item =>
        obtain ⟨m1, m2⟩ := peekToken_ascii u u' p1 hp1
        obtain ⟨s1, s2⟩ := readToken_ascii u u' _ m2
        simp only [← m1, ← s1]
        by_cases hclose : (p1.peekToken u).1.Type ≠ .SET_CLOSE
        · simp only [if_pos hclose]
          by_cases hcomma : (p1.peekToken u).1.Type ≠ .COMMA
          · simp only [if_pos hcomma, true_and]
            intro r p' h
            simp only [Option.some.injEq, Prod.mk.injEq] at h
            obtain ⟨_, rfl⟩ := h
            exact m2
          · simp only [if_neg hcomma]
            exact ihL _ _ s2
        · simp only [if_neg hclose]
          exact ihL _ _ m2

theorem tablesFree_primary_step (u u' : unicode.Tables) (n : Nat)
    (ihS : TablesFree u u' (fun u => parseSet u n))
    (ihI : TablesFree u u' (fun u => parseItem u n))
    (ihL : TablesFree u u' (fun u => parseInlineSet u n)) :
    TablesFree u u' (fun u => parseExprPrimary u (n + 1)) := by
  intro p hp
  obtain ⟨k1, k2⟩ := peekToken_ascii u u' p hp
  simp only [parseExprPrimary, ← k1]
  by_cases h1 : (p.peekToken u).1.Type = .SET
  · simp only [h1, if_true]
    exact ihS _ k2
  by_cases h2 : (p.peekToken u).1.Type = .ITEM
  · simp only [h1, h2, if_true, if_false]
    exact ihI _ k2
  by_cases h3 : (p.peekToken u).1.Type = .SET_OPEN
  · simp only [h1, h2, h3, if_true, if_false]
    exact ihL _ k2
  simp only [h1, h2, h3, if_false, true_and]
  intro r p' h
  simp only [Option.some.injEq, Prod.mk.injEq] at h
  obtain ⟨_, rfl⟩ := h
  exact k2

theorem tablesFree_ops_step (u u' : unicode.Tables) (n : Nat)
    (ihP : TablesFree u u' (fun u => parseExprPrimary u n))
    (ihO : ∀ prec LHS, TablesFree u u' (fun u p => parseExprBinOpRHS u n prec LHS p))
    (prec : Int) (LHS : Node) :
    TablesFree u u' (fun u p => parseExprBinOpRHS u (n + 1) prec LHS p) := by
  intro p hp
  obtain ⟨k1, k2⟩ := peekToken_ascii u u' p hp
  obtain ⟨r1, r2⟩ := readToken_ascii u u' _ k2
  obtain ⟨e1, e2⟩ := ihP _ r2
  simp only [parseExprBinOpRHS, ← k1, ← r1, ← e1]
  by_cases hlt : getTokenPrecedence (p.peekToken u).1.Type < prec
  · simp only [hlt, if_true, true_and]
    intro r p' h
    simp only [Option.some.injEq, Prod.mk.injEq] at h
    obtain ⟨_, rfl⟩ := h
    exact k2
  · simp only [hlt, if_false]
    cases hP : parseExprPrimary u n ((p.peekToken u).2.readToken u).2 with
    | none => simp
    | some rp =>
      obtain ⟨res, p1⟩ := rp
      have hp1 := e2 res p1 hP
      cases res with
      | error err =>
        simp only [true_and]
        intro r p' h
        simp only [Option.some.injEq, Prod.mk.injEq] at h
        obtain ⟨_, rfl⟩ := h
        exact hp1
      | ok RHS =>
        obtain ⟨m1, m2⟩ := peekToken_ascii u u' p1 hp1
        simp only [← m1]
        by_cases hnext : getTokenPrecedence (p.peekToken u).1.Type <
            getTokenPrecedence (p1.peekToken u).1.Type
        · simp only [hnext, if_true]
          obtain ⟨o1, o2⟩ := ihO (getTokenPrecedence (p.peekToken u).1.Type + 1) RHS _ m2
          simp only at o1 o2
          simp only [← o1]
          cases hO : parseExprBinOpRHS u n (getTokenPrecedence (p.peekToken u).1.Type + 1) RHS
              (p1.peekToken u).2 with
          | none => simp
          | some rp2 =>
            obtain ⟨res2, p2⟩ := rp2
            have hp2 := o2 res2 p2 hO
            cases res2 with
            | error err =>
              simp only [true_and]
              intro r p' h
              simp only [Option.some.injEq, Prod.mk.injEq] at h
              obtain ⟨_, rfl⟩ := h
              exact hp2
            | ok RHS2 => exact ihO _ _ _ hp2
        · simp only [hnext, if_false]
          exact ihO _ _ _ m2

theorem tablesFree_expr_step (u u' : unicode.Tables) (n : Nat)
    (ihP : TablesFree u u' (fun u => parseExprPrimary u n))
    (ihO : ∀ prec LHS, TablesFree u u' (fun u p => parseExprBinOpRHS u n prec LHS p)) :
    TablesFree u u' (fun u => parseExpr u (n + 1)) := by
  intro p hp
  obtain ⟨e1, e2⟩ := ihP _ hp
  simp only [parseExpr, ← e1]
  cases hP : parseExprPrimary u n p with
  | none => simp
  | some rp =>
    obtain ⟨res, p1⟩ := rp
    have hp1 := e2 res p1 hP
    cases res with
    | error err =>
      simp only [true_and]
      intro r p' h
      simp only [Option.some.injEq, Prod.mk.injEq] at h
      obtain ⟨_, rfl⟩ := h
      exact hp1
    | ok LHS => exact ihO _ _ _ hp1

theorem tablesFree (u u' : unicode.Tables) (fuel : Nat) :
    TablesFree u u' (fun u => parseExpr u fuel) ∧
    TablesFree u u' (fun u => parseExprPrimary u fuel) ∧
    TablesFree u u' (fun u => parseSet u fuel) ∧
    TablesFree u u' (fun u => parseAssign u fuel) ∧
    TablesFree u u' (fun u => parseInlineSet u fuel) ∧
    (∀ items, TablesFree u u' (fun u p => parseInlineSetLoop u fuel p items)) ∧
    (∀ prec LHS, TablesFree u u' (fun u p => parseExprBinOpRHS u fuel prec LHS p)) := by
  induction fuel with
  | zero =>
    refine ⟨?_, ?_, ?_, ?_, ?_, ?_, ?_⟩
    · intro p _; simp [parseExpr]
    · intro p _; simp [parseExprPrimary]
    · intro p _; simp [parseSet]
    · intro p _; simp [parseAssign]
    · intro p _; simp [parseInlineSet]
    · intro items p _; simp [parseInlineSetLoop]
    · intro prec LHS p _; simp [parseExprBinOpRHS]
  | succ n ih =>
    obtain ⟨ihE, ihP, ihS, ihA, ihI, ihL, ihO⟩ := ih
    exact ⟨tablesFree_expr_step u u' n ihP ihO,
      tablesFree_primary_step u u' n ihS (tablesFree_item u u' n) ihI,
      tablesFree_set_step u u' n ihA, tablesFree_assign_step u u' n ihE,
      tablesFree_inline_step u u' n ihL, tablesFree_loop_step u u' n ihE ihL,
      tablesFree_ops_step u u' n ihP ihO⟩

/-- On an ASCII input `Parse` does not depend on the Unicode tables. -/
theorem ParseString_ascii (u u' : unicode.Tables) (fuel : Nat) (q : String)
    (h : q.data.all (fun c => decide (c.toNat < 128)) = true) :
    ParseString u fuel q = ParseString u' fuel q := by
  have hq : AllASCII (NewParser (NewLexer q.data)).lexer.reader := by
    intro c hc
    simpa using List.all_eq_true.mp h c hc
  obtain ⟨e1, e2⟩ := (tablesFree u u' fuel).1 _ hq
  simp only at e1 e2
  simp only [ParseString, Parser.Parse, ← e1]
  cases hE : parseExpr u fuel (NewParser (NewLexer q.data)) with
  | none => rfl
  | some rp =>
    obtain ⟨res, p1⟩ := rp
    cases res with
    | error err => rfl
    | ok t =>
      obtain ⟨m1, _⟩ := peekToken_ascii u u' p1 (e2 _ _ hE)
      simp only [← m1]

end parser

/-! ## Fuel -/

namespace parser

open lexer ast

theorem fuelMono_item (u : unicode.Tables) (n : Nat) : FuelMono (parseItem u) n := by
  intro p r h
  cases n with
  | zero => simp [parseItem] at h
  | succ n => simpa [parseItem] using h

theorem fuelMono_assign_step (u : unicode.Tables) (n : Nat)
    (ihE : FuelMono (parseExpr u) n) : FuelMono (parseAssign u) (n + 1) := by
  intro p r h
  simp only [parseAssign] at h ⊢
  split
  · rename_i hty; rw [if_pos hty] at h; exact h
  · rename_i hty; rw [if_neg hty] at h; exact ihE _ _ h

theorem fuelMono_set_step (u : unicode.Tables) (n : Nat)
    (ihA : FuelMono (parseAssign u) n) : FuelMono (parseSet u) (n + 1) := by
  intro p r h
  simp only [parseSet] at h ⊢
  split
  · rename_i hty; rw [if_pos hty] at h; exact h
  · rename_i hty
    rw [if_neg hty] at h
    split
    · rename_i hasg
      rw [if_pos hasg] at h
      cases hA : parseAssign u n ((p.readToken u).2.peekToken u).2 with
      | none => simp [hA] at h
      | some rp => rw [ihA _ _ hA]; simpa [hA] using h
    · rename_i hasg; rw [if_neg hasg] at h; exact h

theorem fuelMono_inline_step (u : unicode.Tables) (n : Nat)
    (ihL : ∀ items, FuelMono (fun k p => parseInlineSetLoop u k p items) n) :
    FuelMono (parseInlineSet u) (n + 1) := by
  intro p r h
  simp only [parseInlineSet] at h ⊢
  split
  · rename_i hty; rw [if_pos hty] at h; exact h
  · rename_i hty; rw [if_neg hty] at h; exact ihL _ _ _ h

theorem fuelMono_loop_step (u : unicode.Tables) (n : Nat)
    (ihE : FuelMono (parseExpr u) n)
    (ihL : ∀ items, FuelMono (fun k p => parseInlineSetLoop u k p items) n) (items : List Node) :
    FuelMono (fun k p => parseInlineSetLoop u k p items) (n + 1) := by
  intro p r h
  simp only [parseInlineSetLoop] at h ⊢
  split
  · rename_i hend; rw [if_pos hend] at h; exact h
  · rename_i hend
    rw [if_neg hend] at h
    cases hE : parseExpr u n (p.peekToken u).2 with
    | none => simp [hE] at h
    | some rp =>
      rw [ihE _ _ hE]
      rw [hE] at h
      obtain ⟨res, p1⟩ := rp
      cases res with
      | error err => exact h
      | ok item =>
        simp only at h ⊢
        split
        · rename_i hclose
          rw [if_pos hclose] at h
          split
          · rename_i hcomma; rw [if_pos hcomma] at h; exact h
          · rename_i hcomma; rw [if_neg hcomma] at h; exact ihL _ _ _ h
        · rename_i hclose; rw [if_neg hclose] at h; exact ihL _ _ _ h

theorem fuelMono_primary_step (u : unicode.Tables) (n : Nat)
    (ihS : FuelMono (parseSet u) n) (ihI : FuelMono (parseItem u) n)
    (ihL : FuelMono (parseInlineSet u) n) : FuelMono (parseExprPrimary u) (n + 1) := by
  intro p r h
  simp only [parseExprPrimary] at h ⊢
  split
  · rename_i h1; rw [if_pos h1] at h; exact ihS _ _ h
  · rename_i h1
    rw [if_neg h1] at h
    split
    · rename_i h2; rw [if_pos h2] at h; exact ihI _ _ h
    · rename_i h2
      rw [if_neg h2] at h
      split
      · rename_i h3; rw [if_pos h3] at h; exact ihL _ _ h
      · rename_i h3; rw [if_neg h3] at h; exact h

theorem fuelMono_ops_step (u : unicode.Tables) (n : Nat)
    (ihP : FuelMono (parseExprPrimary u) n)
    (ihO : ∀ prec LHS, FuelMono (fun k p => parseExprBinOpRHS u k prec LHS p) n)
    (prec : Int) (LHS : Node) :
    FuelMono (fun k p => parseExprBinOpRHS u k prec LHS p) (n + 1) := by
  intro p r h
  change parseExprBinOpRHS u (n + 1) prec LHS p = some r at h
  change parseExprBinOpRHS u (n + 1 + 1) prec LHS p = some r
  rw [parseExprBinOpRHS] at h ⊢
  dsimp only at h ⊢
  split
  · rename_i hlt; rw [if_pos hlt] at h; exact h
  · rename_i hlt
    rw [if_neg hlt] at h
    cases hP : parseExprPrimary u n ((p.peekToken u).2.readToken u).2 with
    | none => simp [hP] at h
    | some rp =>
      rw [ihP _ _ hP]
      rw [hP] at h
      obtain ⟨res, p1⟩ := rp
      cases res with
      | error err => exact h
      | ok RHS =>
        simp only at h ⊢
        split
        · rename_i hnext
          rw [if_pos hnext] at h
          cases hO : parseExprBinOpRHS u n (getTokenPrecedence (p.peekToken u).1.Type + 1) RHS
              (p1.peekToken u).2 with
          | none => simp [hO] at h
          | some rp2 =>
            have hO' : parseExprBinOpRHS u (n + 1)
                (getTokenPrecedence (p.peekToken u).1.Type + 1) RHS (p1.peekToken u).2 = some rp2 :=
              ihO _ _ _ _ hO
            rw [hO']
            rw [hO] at h
            obtain ⟨res2, p2⟩ := rp2
            cases res2 with
            | error err => exact h
            | ok RHS2 => exact ihO _ _ _ _ h
        · rename_i hnext; rw [if_neg hnext] at h; exact ihO _ _ _ _ h

theorem fuelMono_expr_step (u : unicode.Tables) (n : Nat)
    (ihP : FuelMono (parseExprPrimary u) n)
    (ihO : ∀ prec LHS, FuelMono (fun k p => parseExprBinOpRHS u k prec LHS p) n) :
    FuelMono (parseExpr u) (n + 1) := by
  intro p r h
  simp only [parseExpr] at h ⊢
  cases hP : parseExprPrimary u n p with
  | none => simp [hP] at h
  | some rp =>
    rw [ihP _ _ hP]
    rw [hP] at h
    obtain ⟨res, p1⟩ := rp
    cases res with
    | error err => exact h
    | ok LHS => exact ihO _ _ _ _ h

theorem fuelMono (u : unicode.Tables) (fuel : Nat) :
    FuelMono (parseExpr u) fuel ∧ FuelMono (parseExprPrimary u) fuel ∧
    FuelMono (parseSet u) fuel ∧ FuelMono (parseAssign u) fuel ∧
    FuelMono (parseInlineSet u) fuel ∧
    (∀ items, FuelMono (fun k p => parseInlineSetLoop u k p items) fuel) ∧
    (∀ prec LHS, FuelMono (fun k p => parseExprBinOpRHS u k prec LHS p) fuel) := by
  induction fuel with
  | zero =>
    refine ⟨?_, ?_, ?_, ?_, ?_, ?_, ?_⟩
    · intro p r h; simp [parseExpr] at h
    · intro p r h; simp [parseExprPrimary] at h
    · intro p r h; simp [parseSet] at h
    · intro p r h; simp [parseAssign] at h
    · intro p r h; simp [parseInlineSet] at h
    · intro items p r h; simp [parseInlineSetLoop] at h
    · intro prec LHS p r h; simp [parseExprBinOpRHS] at h
  | succ n ih =>
    obtain ⟨ihE, ihP, ihS, ihA, ihI, ihL, ihO⟩ := ih
    exact ⟨fuelMono_expr_step u n ihP ihO,
      fuelMono_primary_step u n ihS (fuelMono_item u n) ihI,
      fuelMono_set_step u n ihA, fuelMono_assign_step u n ihE,
      fuelMono_inline_step u n ihL, fuelMono_loop_step u n ihE ihL,
      fuelMono_ops_step u n ihP ihO⟩

theorem parseExprPrimary_mono (u : unicode.Tables) {fuel fuel' : Nat} (hle : fuel ≤ fuel')
    (p : Parser) (r : Parsed) (h : parseExprPrimary u fuel p = some r) :
    parseExprPrimary u fuel' p = some r := by
  induction hle with
  | refl => exact h
  | step _ ih => exact (fuelMono u _).2.1 _ _ ih

theorem parseExpr_mono (u : unicode.Tables) {fuel fuel' : Nat} (hle : fuel ≤ fuel')
    (p : Parser) (r : Parsed) (h : parseExpr u fuel p = some r) :
    parseExpr u fuel' p = some r := by
  induction hle with
  | refl => exact h
  | step _ ih => exact (fuelMono u _).1 _ _ ih

/-- More fuel does not change what `Parse` returns. -/
theorem ParseString_mono (u : unicode.Tables) {fuel fuel' : Nat} (hle : fuel ≤ fuel')
    (q : String) (r : Except ParserError Node) (h : ParseString u fuel q = some r) :
    ParseString u fuel' q = some r := by
  simp only [ParseString, Parser.Parse, Option.map_eq_some'] at h ⊢
  obtain ⟨⟨r1, p1⟩, h, rfl⟩ := h
  refine ⟨(r1, p1), ?_, rfl⟩
  cases hE : parseExpr u fuel (NewParser (NewLexer q.data)) with
  | none => simp [hE] at h
  | some rp =>
    rw [parseExpr_mono u hle _ _ hE]
    rw [hE] at h
    exact h

end parser

/-! ## Operands of the binary operators -/

namespace parser

open lexer ast

theorem peekToken_idem (u : unicode.Tables) (p : Parser) :
    (p.peekToken u).2.peekToken u = p.peekToken u := by
  cases h : p.readAhead with
  | some t => simp [Parser.peekToken, h]
  | none => simp [Parser.peekToken, h]

theorem Operands.of_peek (u : unicode.Tables) (fuel : Nat) (pairs : List (TokenType × Node))
    (p p' : Parser) (h : Operands u fuel pairs p p') :
    Operands u fuel pairs (p.peekToken u).2 p' := by
  cases pairs with
  | nil => simpa [Operands, peekToken_idem] using h
  | cons x more => simpa [Operands, peekToken_idem] using h

/-- The loop of `parseExprBinOpRHS` merges the operands it reads to the left. -/
theorem parseExprBinOpRHS_operands (u : unicode.Tables) (fuel : Nat)
    (pairs : List (TokenType × Node)) :
    ∀ (LHS : Node) (p p' : Parser) (F : Nat), fuel ≤ F → Operands u fuel pairs p p' →
      parseExprBinOpRHS u (F + pairs.length + 1) 0 LHS p = some (.ok (build LHS pairs), p') := by
  induction pairs with
  | nil =>
    intro LHS p p' F _ h
    obtain ⟨h1, rfl⟩ := h
    have hlt := (getTokenPrecedence_lt_zero _).mpr h1
    simp [parseExprBinOpRHS, hlt, build]
  | cons x more ih =>
    intro LHS p p' F hF h
    obtain ⟨hop, hty, p1, hP, hmore⟩ := h
    have hP' : parseExprPrimary u (F + more.length + 1) ((p.peekToken u).2.readToken u).2 =
        some (.ok x.2, p1) := parseExprPrimary_mono u (by omega) _ _ hP
    have hprec : getTokenPrecedence (p.peekToken u).1.Type = 10 := by
      rw [hty]; exact getTokenPrecedence_of_isBinop _ hop
    have hle := getTokenPrecedence_le (p1.peekToken u).1.Type
    have hnlt : ¬ (10 : Int) < getTokenPrecedence (p1.peekToken u).1.Type := by omega
    have hrd : ((p.peekToken u).2.readToken u).1.Type = x.1 := by
      rw [readToken_fst, peekToken_idem]; exact hty
    have ih' := ih (.BinaryExpr x.1 LHS x.2) _ p' F hF (hmore.of_peek u fuel more p1 p')
    have e : F + (x :: more).length + 1 = (F + more.length + 1) + 1 := by
      simp only [List.length_cons]; omega
    rw [e, parseExprBinOpRHS]
    simp only [hprec, hP', hrd, hnlt, if_false]
    simpa [build] using ih'

end parser


/-! ## The place of assignments in a parsed node -/

namespace parser

open lexer ast

theorem build_noAssignLHS (pairs : List (TokenType × Node)) :
    ∀ lhs : Node, lhs.noAssignLHS = true → (∀ x ∈ pairs, x.2.noAssignLHS = true) →
      (pairs ≠ [] → lhs.isAssign = false) → (build lhs pairs).noAssignLHS = true := by
  induction pairs with
  | nil => intro lhs h _ _; simpa [build] using h
  | cons x rest ih =>
    intro lhs h hall hne
    have : build lhs (x :: rest) = build (.BinaryExpr x.1 lhs x.2) rest := rfl
    rw [this]
    apply ih
    · simp [Node.noAssignLHS, h, hne (by simp), hall x (List.mem_cons_self _ _)]
    · intro y hy; exact hall y (List.mem_cons_of_mem _ hy)
    · intro _; rfl

/-- In the result of a derivation no `AssignExpr` is the left operand of a
`BinaryExpr`. -/
theorem Derives.assignPlaced {g : Goal} {fuel : Nat} {ts : List Tok} {r : Res} {ts' : List Tok}
    (h : Derives g fuel ts r ts') : AssignPlaced g r ts' := by
  induction h with
  | item fuel v ts => simp [AssignPlaced, Node.noAssignLHS, Node.isAssign]
  | setRef fuel name ts h => simp [AssignPlaced, Node.noAssignLHS, noAssignLHSItems, Node.isAssign]
  | setAssign fuel name ts expr ts' h _ ih =>
    exact ⟨by simpa [Node.noAssignLHS] using ih.1, fun _ => ih.2⟩
  | assign fuel v ts expr ts' _ ih => exact ih
  | inlineSet fuel v ts items ts' _ ih =>
    exact ⟨by simpa [Node.noAssignLHS] using ih, fun h => by simp [Node.isAssign] at h⟩
  | elemsClose fuel v ts => simp [AssignPlaced, noAssignLHSItems]
  | elemsComma fuel ts item v ts1 items ts' _ _ ih1 ih2 =>
    simp only [AssignPlaced, noAssignLHSItems, Bool.and_eq_true]
    exact ⟨ih1.1, ih2⟩
  | elemsLast fuel ts item v ts' _ ih1 =>
    simp only [AssignPlaced, noAssignLHSItems, Bool.and_eq_true, and_true]
    exact ih1.1
  | primarySet fuel ts t ts' _ ih => exact ih
  | primaryItem fuel ts t ts' _ ih => exact ih
  | primaryInline fuel ts t ts' _ ih => exact ih
  | opsDone fuel ts h => exact ⟨by simp, h⟩
  | opsStep fuel op v ts rhs ts1 pairs ts' hop _ _ ih1 ih2 =>
    refine ⟨?_, ih2.2⟩
    intro x hx
    rcases List.mem_cons.mp hx with rfl | hx
    · exact ih1.1
    · exact ih2.1 x hx
  | expr fuel ts lhs ts1 pairs ts' _ h2 ih1 ih2 =>
    refine ⟨build_noAssignLHS pairs lhs ih1.1 ih2.1 ?_, ih2.2⟩
    intro hne
    cases h2 with
    | opsDone _ _ _ => exact absurd rfl hne
    | opsStep _ op2 v2 ts2 rhs2 ts3 pairs2 _ hop2 _ _ =>
      cases hA : lhs.isAssign with
      | false => rfl
      | true =>
        have := ih1.2 hA
        simp [headType, hop2] at this

end parser


/-! ## Lexing a set name -/

namespace lexer

theorem IsSpace_of_letter (u : unicode.Tables) (c : Char) (h : unicode.IsLetter u c = true) :
    unicode.IsSpace u c = false := by
  unfold unicode.IsLetter at h
  unfold unicode.IsSpace
  by_cases hc : c.toNat < 128
  · simp only [hc, if_true] at h ⊢
    by_contra hs
    simp only [Bool.not_eq_false, Bool.or_eq_true, beq_iff_eq] at hs
    rcases hs with ((((hs | hs) | hs) | hs) | hs) | hs <;> subst hs <;> simp at h
  · simp only [hc, if_false] at h ⊢
    cases hs : u.White_Space c with
    | false => rfl
    | true => rw [u.space_not_letter c hs] at h; exact absurd h (by simp)

theorem not_special_of_letter (u : unicode.Tables) (c : Char) (h : unicode.IsLetter u c = true) :
    c ≠ '\n' ∧ c ≠ ',' ∧ c ≠ '|' ∧ c ≠ '&' ∧ c ≠ '-' ∧ c ≠ '^' ∧ c ≠ '{' ∧ c ≠ '}' ∧
      c ≠ '=' ∧ c ≠ '\'' := by
  refine ⟨?_, ?_, ?_, ?_, ?_, ?_, ?_, ?_, ?_, ?_⟩ <;> intro hc <;> subst hc <;>
    simp [unicode.IsLetter] at h

/-- A set name in front of runes that end an identifier is lexed as one `SET`
token with the name as lexeme. -/
theorem lexTok_setName (u : unicode.Tables) (name : String) (h : isSetName u name = true)
    (cs : List Char) (hd : ∀ c rest, cs = c :: rest → identBody u c = false) :
    lexTok u (name.data ++ cs) = ((.SET, name), cs) := by
  unfold isSetName at h
  cases hn : name.data with
  | nil => simp [hn] at h
  | cons c body =>
    simp only [hn, Bool.and_eq_true, List.all_eq_true] at h
    obtain ⟨hl, hbody⟩ := h
    obtain ⟨h1, h2, h3, h4, h5, h6, h7, h8, h9, h10⟩ := not_special_of_letter u c hl
    have hs := IsSpace_of_letter u c hl
    have hall : (c :: body).takeWhile (identBody u) = c :: body := by
      rw [List.takeWhile_eq_self_iff]
      intro x hx
      rcases List.mem_cons.mp hx with rfl | hx
      · exact identBody_of_letter u x hl
      · exact hbody x hx
    have htw := takeWhile_append_of_delim (identBody u) (c :: body) cs hd
    rw [hall] at htw
    rw [List.cons_append, lexTok]
    simp only [h1, h2, h3, h4, h5, h6, h7, h8, h9, h10, hs, hl, if_true, if_false,
      Bool.false_eq_true]
    rw [← List.cons_append, htw.1, htw.2, ← hn]

theorem isSetName_ne_empty (u : unicode.Tables) (name : String) (h : isSetName u name = true) :
    name ≠ "" := by
  intro hn
  subst hn
  simp [isSetName] at h

end lexer

/-! ## Parsing the self-referring assignments -/

namespace parser
open lexer ast

theorem Derives.setRef_expr (fuel : Nat) (name : String) (ts : List Tok)
    (h1 : headType ts ≠ .ASSIGN) (h2 : isBinop (headType ts) = false) :
    Derives .expr (fuel + 3) ((.SET, name) :: ts) (.one (.Set name [])) ts :=
  Derives.expr _ _ _ _ [] _
    (Derives.primarySet _ _ _ _ (Derives.setRef fuel name ts h1)) (Derives.opsDone _ ts h2)

theorem Derives.assign_expr (fuel : Nat) (name : String) (v : String) (ts : List Tok)
    (expr : Node) (ts' : List Tok) (he : Derives .expr fuel ts (.one expr) ts')
    (h2 : isBinop (headType ts') = false) :
    Derives .expr (fuel + 4) ((.SET, name) :: (.ASSIGN, v) :: ts)
      (.one (.AssignExpr name expr)) ts' :=
  Derives.expr _ _ _ _ [] _
    (Derives.primarySet _ _ _ _
      (Derives.setAssign _ name _ expr ts' rfl (Derives.assign _ v ts expr ts' he)))
    (Derives.opsDone _ ts' h2)

theorem Delim.space (u : unicode.Tables) (cs : List Char) : Delim u (' ' :: cs) :=
  Delim.cons u ' ' cs rfl

/-- The tokens of `N = N`. -/
theorem tokensOf_self_assign (u : unicode.Tables) (N : String) (hN : isSetName u N = true) :
    tokensOf u (N ++ " = " ++ N).data = [(.SET, N), (.ASSIGN, "="), (.SET, N)] := by
  have e : (N ++ " = " ++ N).data = N.data ++ ' ' :: '=' :: ' ' :: (N.data ++ []) := by
    simp [String.data_append]
  have h1 := lexTok_setName u N hN _ (Delim.space u ('=' :: ' ' :: (N.data ++ [])))
  have h2 : lexTok u ('=' :: ' ' :: (N.data ++ [])) = ((.ASSIGN, "="), ' ' :: (N.data ++ [])) := rfl
  have h3 := lexTok_setName u N hN [] (Delim.nil u)
  rw [e, tokensOf_cons u _ _ _ h1 (by simp), tokensOf_space,
    tokensOf_cons u _ _ _ h2 (by decide), tokensOf_space,
    tokensOf_cons u _ _ _ h3 (by simp), tokensOf_nil]

/-- The tokens of `N = {N}`. -/
theorem tokensOf_literal_assign (u : unicode.Tables) (N : String) (hN : isSetName u N = true) :
    tokensOf u (N ++ " = \x7b" ++ N ++ "\x7d").data =
      [(.SET, N), (.ASSIGN, "="), (.SET_OPEN, "("), (.SET, N), (.SET_CLOSE, ")")] := by
  have e : (N ++ " = \x7b" ++ N ++ "\x7d").data =
      N.data ++ ' ' :: '=' :: ' ' :: '{' :: (N.data ++ ['}']) := by
    simp [String.data_append]
  have h1 := lexTok_setName u N hN _ (Delim.space u ('=' :: ' ' :: '{' :: (N.data ++ ['}'])))
  have h2 : lexTok u ('=' :: ' ' :: '{' :: (N.data ++ ['}'])) =
      ((.ASSIGN, "="), ' ' :: '{' :: (N.data ++ ['}'])) := rfl
  have h3 : lexTok u ('{' :: (N.data ++ ['}'])) = ((.SET_OPEN, "("), N.data ++ ['}']) := rfl
  have h4 := lexTok_setName u N hN ['}'] (Delim.cons u '}' [] rfl)
  have h5 : lexTok u ['}'] = ((.SET_CLOSE, ")"), []) := rfl
  rw [e, tokensOf_cons u _ _ _ h1 (by simp), tokensOf_space,
    tokensOf_cons u _ _ _ h2 (by decide), tokensOf_space,
    tokensOf_cons u _ _ _ h3 (by decide), tokensOf_cons u _ _ _ h4 (by simp),
    tokensOf_cons u _ _ _ h5 (by decide), tokensOf_nil]

/-- The tokens of `N = N | X`. -/
theorem tokensOf_union_assign (u : unicode.Tables) (N X : String) (hN : isSetName u N = true)
    (hX : isSetName u X = true) :
    tokensOf u (N ++ " = " ++ N ++ " | " ++ X).data =
      [(.SET, N), (.ASSIGN, "="), (.SET, N), (.UNION, "|"), (.SET, X)] := by
  have e : (N ++ " = " ++ N ++ " | " ++ X).data =
      N.data ++ ' ' :: '=' :: ' ' :: (N.data ++ ' ' :: '|' :: ' ' :: (X.data ++ [])) := by
    simp [String.data_append]
  have h1 := lexTok_setName u N hN _
    (Delim.space u ('=' :: ' ' :: (N.data ++ ' ' :: '|' :: ' ' :: (X.data ++ []))))
  have h2 : lexTok u ('=' :: ' ' :: (N.data ++ ' ' :: '|' :: ' ' :: (X.data ++ []))) =
      ((.ASSIGN, "="), ' ' :: (N.data ++ ' ' :: '|' :: ' ' :: (X.data ++ []))) := rfl
  have h3 := lexTok_setName u N hN _ (Delim.space u ('|' :: ' ' :: (X.data ++ [])))
  have h4 : lexTok u ('|' :: ' ' :: (X.data ++ [])) = ((.UNION, "|"), ' ' :: (X.data ++ [])) := rfl
  have h5 := lexTok_setName u X hX [] (Delim.nil u)
  rw [e, tokensOf_cons u _ _ _ h1 (by simp), tokensOf_space,
    tokensOf_cons u _ _ _ h2 (by decide), tokensOf_space,
    tokensOf_cons u _ _ _ h3 (by simp), tokensOf_space,
    tokensOf_cons u _ _ _ h4 (by decide), tokensOf_space,
    tokensOf_cons u _ _ _ h5 (by simp), tokensOf_nil]

/-- `Parse` accepts `N = N`, `N = {N}` and `N = N | X` as assignments to `N`. -/
theorem ParseString_cyclic (u : unicode.Tables) (N X : String) (hN : isSetName u N = true)
    (hX : isSetName u X = true) (fuel : Nat) (hfuel : 12 ≤ fuel) :
    ParseString u fuel (N ++ " = " ++ N) = some (.ok (.AssignExpr N (.Set N []))) ∧
    ParseString u fuel (N ++ " = \x7b" ++ N ++ "\x7d") =
      some (.ok (.AssignExpr N (.Set "" [.Set N []]))) ∧
    ParseString u fuel (N ++ " = " ++ N ++ " | " ++ X) =
      some (.ok (.AssignExpr N (.BinaryExpr .UNION (.Set N []) (.Set X [])))) := by
  refine ⟨?_, ?_, ?_⟩
  · rw [ParseString_ok_iff, tokensOf_self_assign u N hN]
    have d1 := Derives.setRef_expr 0 N [] (by decide) (by decide)
    exact (Derives.assign_expr 3 N "=" _ _ _ d1 (by decide)).mono_le (by omega)
  · rw [ParseString_ok_iff, tokensOf_literal_assign u N hN]
    have d1 := Derives.setRef_expr 0 N [(.SET_CLOSE, ")")] (by decide) (by decide)
    have d2 : Derives .expr 7 [(.SET_OPEN, "("), (.SET, N), (.SET_CLOSE, ")")]
        (.one (.Set "" [.Set N []])) [] :=
      Derives.expr _ _ _ _ [] _
        (Derives.primaryInline _ _ _ _
          (Derives.inlineSet _ "(" _ _ _ (Derives.elemsLast _ _ _ ")" [] d1)))
        (Derives.opsDone _ [] (by decide))
    exact (Derives.assign_expr 7 N "=" _ _ _ d2 (by decide)).mono_le (by omega)
  · rw [ParseString_ok_iff, tokensOf_union_assign u N X hN hX]
    have dN : Derives .primary 3 [(.SET, N), (.UNION, "|"), (.SET, X)] (.one (.Set N []))
        [(.UNION, "|"), (.SET, X)] :=
      Derives.primarySet _ _ _ _ (Derives.setRef 1 N _ (by simp [headType]))
    have dX : Derives .primary 2 [(.SET, X)] (.one (.Set X [])) [] :=
      Derives.primarySet _ _ _ _ (Derives.setRef 0 X _ (by decide))
    have dO : Derives .ops 3 [(.UNION, "|"), (.SET, X)] (.ops [(.UNION, .Set X [])]) [] :=
      Derives.opsStep _ .UNION "|" _ _ _ [] _ rfl dX (Derives.opsDone _ [] (by decide))
    have d2 : Derives .expr 4 [(.SET, N), (.UNION, "|"), (.SET, X)]
        (.one (.BinaryExpr .UNION (.Set N []) (.Set X []))) [] :=
      Derives.expr _ _ _ _ _ _ dN dO
    exact (Derives.assign_expr 4 N "=" _ _ _ d2 (by decide)).mono_le (by omega)

end parser

/-! ## Evaluation and the calls of the backend -/

namespace ast

theorem evaluateItems_invariant {ε S : Type}
    (ev : Node → S → Option (Except (Failure ε) sets.Set × S)) (I : S → Prop)
    (hev : ∀ n s r s', I s → ev n s = some (r, s') → I s') :
    ∀ (items : List Node) (acc : List sets.Set) (s : S)
      (r : Except (Failure ε) (List sets.Set)) (s' : S),
      I s → evaluateItems ev items acc s = some (r, s') → I s' := by
  intro items
  induction items with
  | nil =>
    intro acc s r s' hI h
    simp only [evaluateItems, Option.some.injEq, Prod.mk.injEq] at h
    exact h.2 ▸ hI
  | cons item rest ih =>
    intro acc s r s' hI h
    simp only [evaluateItems] at h
    cases hE : ev item s with
    | none => simp [hE] at h
    | some rp =>
      obtain ⟨res, s1⟩ := rp
      have hI1 := hev item s res s1 hI hE
      rw [hE] at h
      cases res with
      | error e =>
        simp only [Option.some.injEq, Prod.mk.injEq] at h
        exact h.2 ▸ hI1
      | ok results => exact ih _ _ _ _ hI1 h

/-- A property of the state that the callback keeps is kept by `Evaluate`. -/
theorem Evaluate_invariant {ε S : Type} (cb : String → S → Option (Except ε ResolvedSet × S))
    (I : S → Prop) (hcb : ∀ name s r s', I s → cb name s = some (r, s') → I s') :
    ∀ (fuel : Nat) (n : Node) (s : S) (r : Except (Failure ε) sets.Set) (s' : S),
      I s → Node.Evaluate cb fuel n s = some (r, s') → I s' := by
  intro fuel
  induction fuel with
  | zero => intro n s r s' _ h; simp [Node.Evaluate] at h
  | succ k ih =>
    intro n s r s' hI h
    cases n with
    | AssignExpr Name Expr =>
      simp only [Node.Evaluate] at h
      exact ih _ _ _ _ hI h
    | BinaryExpr Operator LHS RHS =>
      simp only [Node.Evaluate] at h
      cases hop : binaryOp Operator with
      | none =>
        simp only [hop, Option.some.injEq, Prod.mk.injEq] at h
        exact h.2 ▸ hI
      | some op =>
        simp only [hop] at h
        cases hL : Node.Evaluate cb k LHS s with
        | none => simp [hL] at h
        | some rp =>
          obtain ⟨res, s1⟩ := rp
          have hI1 := ih _ _ _ _ hI hL
          rw [hL] at h
          cases res with
          | error e =>
            simp only [Option.some.injEq, Prod.mk.injEq] at h
            exact h.2 ▸ hI1
          | ok lhs =>
            simp only at h
            cases hR : Node.Evaluate cb k RHS s1 with
            | none => simp [hR] at h
            | some rp2 =>
              obtain ⟨res2, s2⟩ := rp2
              have hI2 := ih _ _ _ _ hI1 hR
              rw [hR] at h
              cases res2 with
              | error e =>
                simp only [Option.some.injEq, Prod.mk.injEq] at h
                exact h.2 ▸ hI2
              | ok rhs =>
                simp only at h
                cases hres : op [lhs, rhs] with
                | none =>
                  simp only [hres, Option.some.injEq, Prod.mk.injEq] at h
                  exact h.2 ▸ hI2
                | some result =>
                  simp only [hres, Option.some.injEq, Prod.mk.injEq] at h
                  exact h.2 ▸ hI2
    | Set Name items =>
      simp only [Node.Evaluate] at h
      by_cases hN : Name ≠ ""
      · rw [if_pos hN] at h
        cases hc : cb Name s with
        | none => simp [hc] at h
        | some rp =>
          obtain ⟨res, s1⟩ := rp
          have hI1 := hcb _ _ _ _ hI hc
          rw [hc] at h
          cases res with
          | error e =>
            simp only [Option.some.injEq, Prod.mk.injEq] at h
            exact h.2 ▸ hI1
          | ok resolvedSet => exact ih _ _ _ _ hI1 h
      · rw [if_neg hN] at h
        cases hE : evaluateItems (Node.Evaluate cb k) items [] s with
        | none => simp [hE] at h
        | some rp =>
          obtain ⟨res, s1⟩ := rp
          have hI1 := evaluateItems_invariant (Node.Evaluate cb k) I ih _ _ _ _ _ hI hE
          rw [hE] at h
          cases res with
          | error e =>
            simp only [Option.some.injEq, Prod.mk.injEq] at h
            exact h.2 ▸ hI1
          | ok resolvedSets =>
            simp only [Option.some.injEq, Prod.mk.injEq] at h
            exact h.2 ▸ hI1
    | Item Name =>
      simp only [Node.Evaluate, Option.some.injEq, Prod.mk.injEq] at h
      exact h.2 ▸ hI

end ast

namespace setdb
open ast

/-- The closure `setResolver` makes no call of `Persist`. -/
theorem setResolver_noPersist {σ β : Type} (u : unicode.Tables) (fuel : Nat)
    (db : Database σ β) (name : String) (_name : String) (s : Resolving σ)
    (r : Except (QueryError β) ResolvedSet) (s' : Resolving σ) (hs : NoPersist s)
    (h : setResolver u fuel db name _name s = some (r, s')) : NoPersist s' := by
  have hs1 : NoPersist (⟨(db.backend.Pattern s.backend _name).2, s.dependencies,
      s.calls ++ [.Pattern _name]⟩ : Resolving σ) := by
    intro c hc
    simp only [List.mem_append, List.mem_singleton] at hc
    rcases hc with hc | hc
    · exact hs c hc
    · subst hc; rfl
  unfold setResolver at h
  split at h
  · simp only [Option.some.injEq, Prod.mk.injEq] at h
    exact h.2 ▸ hs
  · simp only at h
    split at h
    · simp only [Option.some.injEq, Prod.mk.injEq] at h
      exact h.2 ▸ hs1
    · split at h
      · simp at h
      · simp only [Option.some.injEq, Prod.mk.injEq] at h
        exact h.2 ▸ hs1
      · simp only [Option.some.injEq, Prod.mk.injEq] at h
        exact h.2 ▸ hs1

/-- Evaluation with `setResolver` makes no call of `Persist`. -/
theorem Evaluate_noPersist {σ β : Type} (u : unicode.Tables) (fuel : Nat)
    (db : Database σ β) (name : String) (k : Nat) (n : Node) (s : Resolving σ)
    (r : Except (Failure (QueryError β)) sets.Set) (s' : Resolving σ) (hs : NoPersist s)
    (h : n.Evaluate (setResolver u fuel db name) k s = some (r, s')) : NoPersist s' :=
  Evaluate_invariant (setResolver u fuel db name) NoPersist
    (fun _name s r s' hs h => setResolver_noPersist u fuel db name _name s r s' hs h)
    k n s r s' hs h

end setdb

namespace parser
open lexer ast

theorem build_binary_ne_assign (rest : List (TokenType × Node)) :
    ∀ (op : TokenType) (l r : Node) (n : String) (e : Node),
      build (.BinaryExpr op l r) rest ≠ .AssignExpr n e := by
  induction rest with
  | nil => intro op l r n e h; simp [build] at h
  | cons x rest ih =>
    intro op l r n e
    exact ih x.1 (.BinaryExpr op l r) x.2 n e

theorem build_eq_assign (lhs : Node) (pairs : List (TokenType × Node)) (n : String) (e : Node)
    (h : build lhs pairs = .AssignExpr n e) : pairs = [] ∧ lhs = .AssignExpr n e := by
  cases pairs with
  | nil => exact ⟨rfl, h⟩
  | cons x rest => exact absurd h (build_binary_ne_assign rest x.1 lhs x.2 n e)

/-- The name of an assignment in the result of a derivation on a well-lexed
stream is not empty. -/
theorem Derives.assign_name_ne (u : unicode.Tables) {g : Goal} {fuel : Nat} {ts : List Tok}
    {r : Res} {ts' : List Tok} (h : Derives g fuel ts r ts') :
    ∀ (name : String) (inner : Node), r = .one (.AssignExpr name inner) → StreamOK u ts →
      name ≠ "" := by
  induction h with
  | item fuel v ts => intro name inner hr; simp at hr
  | setRef fuel name ts h => intro name' inner hr; simp at hr
  | setAssign fuel name ts expr ts' h _ ih =>
    intro name' inner hr hok
    simp only [Res.one.injEq, Node.AssignExpr.injEq] at hr
    rw [← hr.1]
    exact StreamOK.name_ne u name ts hok
  | assign fuel v ts expr ts' _ ih => intro name inner hr hok; exact ih name inner hr hok.2
  | inlineSet fuel v ts items ts' _ ih => intro name inner hr; simp at hr
  | elemsClose fuel v ts => intro name inner hr; simp at hr
  | elemsComma fuel ts item v ts1 items ts' _ _ ih1 ih2 => intro name inner hr; simp at hr
  | elemsLast fuel ts item v ts' _ ih1 => intro name inner hr; simp at hr
  | primarySet fuel ts t ts' _ ih => exact ih
  | primaryItem fuel ts t ts' _ ih => exact ih
  | primaryInline fuel ts t ts' _ ih => exact ih
  | opsDone fuel ts h => intro name inner hr; simp at hr
  | opsStep fuel op v ts rhs ts1 pairs ts' hop _ _ ih1 ih2 => intro name inner hr; simp at hr
  | expr fuel ts lhs ts1 pairs ts' _ _ ih1 ih2 =>
    intro name inner hr hok
    simp only [Res.one.injEq] at hr
    obtain ⟨_, hl⟩ := build_eq_assign lhs pairs name inner hr
    exact ih1 name inner (by rw [hl]) hok

/-- The name of an assignment that `Parse` returns is not empty. -/
theorem ParseString_assign_name_ne (u : unicode.Tables) (fuel : Nat) (q : String)
    (name : String) (inner : Node)
    (h : ParseString u fuel q = some (.ok (.AssignExpr name inner))) : name ≠ "" :=
  ((ParseString_ok_iff u fuel q _).mp h).assign_name_ne u name inner rfl
    (streamOK_tokensOf u q.data)

end parser

/-! ## Lemmas on the facade -/

namespace setdb
open ast

theorem filter_isPersist_of_noPersist (calls : List BackendCall)
    (h : ∀ c ∈ calls, c.isPersist = false) : calls.filter BackendCall.isPersist = [] := by
  rw [List.filter_eq_nil_iff]
  intro c hc
  simp [h c hc]

theorem NoPersist.initial {σ : Type} (st : σ) :
    NoPersist ({ backend := st, dependencies := [], calls := [] } : Resolving σ) := by
  intro c hc
  simp at hc

end setdb


/-! ## Lexing past spaces, quoted items and identifiers -/

namespace lexer

theorem lexTok_skip_space (u : unicode.Tables) (c : Char) (rest : List Char)
    (h : unicode.IsSpace u c = true) : lexTok u (c :: rest) = lexTok u rest := by
  rw [lexTok]
  by_cases h1 : c = '\n'
  · simp [h1]
  have h2 : c ≠ ',' := by intro hc; subst hc; simp [unicode.IsSpace] at h
  have h3 : c ≠ '|' := by intro hc; subst hc; simp [unicode.IsSpace] at h
  have h4 : c ≠ '&' := by intro hc; subst hc; simp [unicode.IsSpace] at h
  have h5 : c ≠ '-' := by intro hc; subst hc; simp [unicode.IsSpace] at h
  have h6 : c ≠ '^' := by intro hc; subst hc; simp [unicode.IsSpace] at h
  have h7 : c ≠ '{' := by intro hc; subst hc; simp [unicode.IsSpace] at h
  have h8 : c ≠ '}' := by intro hc; subst hc; simp [unicode.IsSpace] at h
  have h9 : c ≠ '=' := by intro hc; subst hc; simp [unicode.IsSpace] at h
  have h10 : c ≠ '\'' := by intro hc; subst hc; simp [unicode.IsSpace] at h
  simp [h1, h2, h3, h4, h5, h6, h7, h8, h9, h10, h]

theorem lexTok_skip_spaces (u : unicode.Tables) (ws rs : List Char)
    (h : ∀ c ∈ ws, unicode.IsSpace u c = true) : lexTok u (ws ++ rs) = lexTok u rs := by
  induction ws with
  | nil => rfl
  | cons c ws ih =>
    rw [List.cons_append, lexTok_skip_space u c _ (h c (List.mem_cons_self _ _))]
    exact ih (fun d hd => h d (List.mem_cons_of_mem _ hd))

theorem quoted_split (cs rest : List Char) (q : Char)
    (hcs : ∀ c ∈ cs, c ≠ '\'' ∧ c ≠ '"') (hq : q = '\'' ∨ q = '"') :
    quotedBody (cs ++ q :: rest) = cs ++ [q] ∧ quotedRest (cs ++ q :: rest) = rest := by
  have hnq : notQuote q = false := by
    rcases hq with rfl | rfl <;> decide
  induction cs with
  | nil => simp [quotedBody, quotedRest, List.takeWhile, List.dropWhile, hnq]
  | cons c cs ih =>
    have hc : notQuote c = true := by
      have := hcs c (List.mem_cons_self _ _)
      simp [notQuote, this.1, this.2]
    have ih' := ih (fun d hd => hcs d (List.mem_cons_of_mem _ hd))
    unfold quotedBody quotedRest at ih' ⊢
    simp only [List.cons_append, List.takeWhile_cons, List.dropWhile_cons, hc, if_true]
    exact ⟨by rw [ih'.1], ih'.2⟩

theorem lexTok_quoted (u : unicode.Tables) (cs rest : List Char) (q : Char)
    (hcs : ∀ c ∈ cs, c ≠ '\'' ∧ c ≠ '"') (hq : q = '\'' ∨ q = '"') :
    lexTok u ('\'' :: (cs ++ q :: rest)) = ((.ITEM, String.mk ('\'' :: (cs ++ [q]))), rest) := by
  obtain ⟨hb, hr⟩ := quoted_split cs rest q hcs hq
  rw [lexTok]
  simp [hb, hr]

end lexer

namespace lexer

theorem IsSpace_of_digit (u : unicode.Tables) (c : Char) (h : unicode.IsDigit u c = true) :
    unicode.IsSpace u c = false := by
  unfold unicode.IsDigit at h
  unfold unicode.IsSpace
  by_cases hc : c.toNat < 128
  · simp only [hc, if_true] at h ⊢
    by_contra hs
    simp only [Bool.not_eq_false, Bool.or_eq_true, beq_iff_eq] at hs
    rcases hs with ((((hs | hs) | hs) | hs) | hs) | hs <;> subst hs <;> simp at h
  · simp only [hc, if_false] at h ⊢
    cases hs : u.White_Space c with
    | false => rfl
    | true => rw [u.space_not_digit c hs] at h; exact absurd h (by simp)

theorem IsLetter_of_digit (u : unicode.Tables) (c : Char) (h : unicode.IsDigit u c = true) :
    unicode.IsLetter u c = false := by
  unfold unicode.IsDigit at h
  unfold unicode.IsLetter
  by_cases hc : c.toNat < 128
  · simp only [hc, if_true] at h ⊢
    simp only [Bool.and_eq_true, decide_eq_true_eq] at h
    simp only [Bool.or_eq_false_iff, Bool.and_eq_false_iff, decide_eq_false_iff_not]
    omega
  · simp only [hc, if_false] at h ⊢
    cases hs : u.Letter c with
    | false => rfl
    | true => rw [u.letter_not_digit c hs] at h; exact absurd h (by simp)

theorem not_special_of_digit (u : unicode.Tables) (c : Char) (h : unicode.IsDigit u c = true) :
    c ≠ '\n' ∧ c ≠ ',' ∧ c ≠ '|' ∧ c ≠ '&' ∧ c ≠ '-' ∧ c ≠ '^' ∧ c ≠ '{' ∧ c ≠ '}' ∧
      c ≠ '=' ∧ c ≠ '\'' := by
  refine ⟨?_, ?_, ?_, ?_, ?_, ?_, ?_, ?_, ?_, ?_⟩ <;> intro hc <;> subst hc <;>
    simp [unicode.IsDigit] at h

/-- The runes `run` in front of `after` are the longest run of identifier runes. -/
theorem ident_split (u : unicode.Tables) (run after : List Char)
    (hrun : ∀ c ∈ run, identBody u c = true)
    (hafter : ∀ c tl, after = c :: tl → identBody u c = false) :
    (run ++ after).takeWhile (identBody u) = run ∧
      (run ++ after).dropWhile (identBody u) = after := by
  induction run with
  | nil =>
    cases after with
    | nil => simp
    | cons c tl => simp [List.takeWhile_cons, List.dropWhile_cons, hafter c tl rfl]
  | cons c run ih =>
    have hc := hrun c (List.mem_cons_self _ _)
    have ih' := ih (fun d hd => hrun d (List.mem_cons_of_mem _ hd))
    simp only [List.cons_append, List.takeWhile_cons, List.dropWhile_cons, hc, if_true]
    exact ⟨by rw [ih'.1], ih'.2⟩

theorem lexTok_letter (u : unicode.Tables) (r : Char) (run after : List Char)
    (hr : unicode.IsLetter u r = true)
    (hrun : ∀ c ∈ run, identBody u c = true)
    (hafter : ∀ c tl, after = c :: tl → identBody u c = false) :
    lexTok u (r :: (run ++ after)) = ((.SET, String.mk (r :: run)), after) := by
  obtain ⟨h1, h2, h3, h4, h5, h6, h7, h8, h9, h10⟩ := not_special_of_letter u r hr
  have hs := IsSpace_of_letter u r hr
  have hsp := ident_split u (r :: run) after
    (fun c hc => by
      rcases List.mem_cons.mp hc with rfl | hc
      · exact identBody_of_letter u _ hr
      · exact hrun c hc) hafter
  rw [List.cons_append] at hsp
  rw [lexTok]
  simp only [h1, h2, h3, h4, h5, h6, h7, h8, h9, h10, hs, hr, if_false, if_true, hsp.1, hsp.2]
  simp

theorem lexTok_digit (u : unicode.Tables) (r : Char) (run after : List Char)
    (hr : unicode.IsDigit u r = true)
    (hrun : ∀ c ∈ run, identBody u c = true)
    (hafter : ∀ c tl, after = c :: tl → identBody u c = false) :
    lexTok u (r :: (run ++ after)) = ((.ITEM, String.mk (r :: run)), after) := by
  obtain ⟨h1, h2, h3, h4, h5, h6, h7, h8, h9, h10⟩ := not_special_of_digit u r hr
  have hs := IsSpace_of_digit u r hr
  have hl := IsLetter_of_digit u r hr
  have hsp := ident_split u (r :: run) after
    (fun c hc => by
      rcases List.mem_cons.mp hc with rfl | hc
      · exact identBody_of_digit u _ hr
      · exact hrun c hc) hafter
  rw [List.cons_append] at hsp
  rw [lexTok]
  simp only [h1, h2, h3, h4, h5, h6, h7, h8, h9, h10, hs, hl, hr, if_false, if_true, hsp.1, hsp.2]
  simp

end lexer

/-! ## The text of a literal -/

namespace ast

theorem intercalate_go_append (buf a s : String) (as : List String) :
    String.intercalate.go (buf ++ a) s as = buf ++ String.intercalate.go a s as := by
  induction as generalizing a with
  | nil => simp [String.intercalate.go]
  | cons b as ih =>
    simp only [String.intercalate.go]
    rw [← ih, String.append_assoc, String.append_assoc, String.append_assoc]

theorem ToQueryItems_cons_go (items : List Node) :
    ∀ (item : Node) (buf : String), ToQueryItems (item :: items) buf =
      String.intercalate.go (buf ++ item.ToQuery) "," (items.map Node.ToQuery) := by
  induction items with
  | nil => intro item buf; simp [ToQueryItems, String.intercalate.go]
  | cons item2 more ih =>
    intro item buf
    rw [ToQueryItems]
    simp only [List.isEmpty_cons, Bool.false_eq_true, if_false]
    rw [ih, List.map_cons, String.intercalate.go]

theorem ToQueryItems_intercalate (items : List Node) (buf : String) :
    ToQueryItems items buf = buf ++ String.intercalate "," (items.map Node.ToQuery) := by
  cases items with
  | nil => simp [ToQueryItems, String.intercalate]
  | cons item rest =>
    rw [ToQueryItems_cons_go, List.map_cons, String.intercalate, intercalate_go_append]

end ast

/-! ## Successful queries and the names they resolve -/


namespace setdb
open ast

/-- The part of `Query` that follows parsing, on the assigned name and the
expression to evaluate. -/
theorem Query_tail_ok {σ β : Type} (u : unicode.Tables) (fuel : Nat) (db : Database σ β)
    (st : σ) (name : String) (expr : Node) (out : Queried σ β) (s : Set)
    (h : (match expr.Evaluate (setResolver u fuel db name) fuel
          { backend := st, dependencies := [], calls := [] } with
      | none => none
      | some (.error e, s) => some { result := .error e, backend := s.backend, calls := s.calls }
      | some (.ok resultset, s) =>
        if name ≠ "" then
          match (db.backend.Persist s.backend name expr.ToQuery s.dependencies).1 with
          | some err =>
            some { result := .error (.error (.backend err)),
                   backend := (db.backend.Persist s.backend name expr.ToQuery s.dependencies).2,
                   calls := s.calls ++ [.Persist name expr.ToQuery s.dependencies] }
          | none =>
            some { result := .ok { items := resultset, name := name, patternAST := expr,
                                   dependsOn := s.dependencies },
                   backend := (db.backend.Persist s.backend name expr.ToQuery s.dependencies).2,
                   calls := s.calls ++ [.Persist name expr.ToQuery s.dependencies] }
        else
          some { result := .ok { items := resultset, name := name, patternAST := expr,
                                 dependsOn := s.dependencies },
                 backend := s.backend, calls := s.calls }) = some out)
    (hs : out.result = .ok s) :
    ∃ r, s.name = name ∧ s.patternAST = expr ∧
      expr.Evaluate (setResolver u fuel db name) fuel
        { backend := st, dependencies := [], calls := [] } = some (.ok s.items, r) ∧
      s.dependsOn = r.dependencies ∧
      (s.name = "" → out.calls = r.calls ∧ out.backend = r.backend) ∧
      (s.name ≠ "" →
        out.calls = r.calls ++ [.Persist s.name s.patternAST.ToQuery s.dependsOn]) := by
  cases hE : expr.Evaluate (setResolver u fuel db name) fuel
      { backend := st, dependencies := [], calls := [] } with
  | none => simp [hE] at h
  | some rp =>
    obtain ⟨res, r⟩ := rp
    rw [hE] at h
    cases res with
    | error e =>
      simp only [Option.some.injEq] at h
      subst h
      simp at hs
    | ok resultset =>
      simp only at h
      by_cases hn : name ≠ ""
      · rw [if_pos hn] at h
        split at h
        · simp only [Option.some.injEq] at h
          subst h
          simp at hs
        · simp only [Option.some.injEq] at h
          subst h
          simp only [Except.ok.injEq] at hs
          subst hs
          exact ⟨r, rfl, rfl, rfl, rfl, fun h0 => absurd h0 hn, fun _ => rfl⟩
      · rw [if_neg hn] at h
        simp only [Option.some.injEq] at h
        subst h
        simp only [Except.ok.injEq] at hs
        subst hs
        exact ⟨r, rfl, rfl, rfl, rfl, fun _ => ⟨rfl, rfl⟩, fun h0 => absurd h0 hn⟩

/-- How a call of `Query` that returns a set came about. -/
theorem Query_ok {σ β : Type} (u : unicode.Tables) (fuel : Nat) (db : Database σ β)
    (st : σ) (q : String) (out : Queried σ β) (s : Set)
    (h : db.Query u fuel st q = some out) (hs : out.result = .ok s) :
    ∃ parsed r, parser.ParseString u fuel q = some (.ok parsed) ∧
      s.name = assignedName parsed ∧ s.patternAST = assignedExpr parsed ∧
      (assignedExpr parsed).Evaluate (setResolver u fuel db (assignedName parsed)) fuel
        { backend := st, dependencies := [], calls := [] } = some (.ok s.items, r) ∧
      s.dependsOn = r.dependencies ∧
      (s.name = "" → out.calls = r.calls ∧ out.backend = r.backend) ∧
      (s.name ≠ "" →
        out.calls = r.calls ++ [.Persist s.name s.patternAST.ToQuery s.dependsOn]) := by
  unfold Database.Query at h
  cases hP : parser.ParseString u fuel q with
  | none => simp [hP] at h
  | some pr =>
    rw [hP] at h
    cases pr with
    | error err =>
      simp only [Option.some.injEq] at h
      subst h
      simp at hs
    | ok parsed =>
      cases parsed with
      | AssignExpr n e =>
        obtain ⟨r, h1, h2, h3, h4, h5, h6⟩ := Query_tail_ok u fuel db st n e out s h hs
        exact ⟨_, r, rfl, h1, h2, h3, h4, h5, h6⟩
      | BinaryExpr op l r0 =>
        obtain ⟨r, h1, h2, h3, h4, h5, h6⟩ :=
          Query_tail_ok u fuel db st "" (.BinaryExpr op l r0) out s h hs
        exact ⟨_, r, rfl, h1, h2, h3, h4, h5, h6⟩
      | Set nm items =>
        obtain ⟨r, h1, h2, h3, h4, h5, h6⟩ :=
          Query_tail_ok u fuel db st "" (.Set nm items) out s h hs
        exact ⟨_, r, rfl, h1, h2, h3, h4, h5, h6⟩
      | Item nm =>
        obtain ⟨r, h1, h2, h3, h4, h5, h6⟩ :=
          Query_tail_ok u fuel db st "" (.Item nm) out s h hs
        exact ⟨_, r, rfl, h1, h2, h3, h4, h5, h6⟩

end setdb


namespace setdb
open ast

/-- What a successful call of the closure `setResolver` did. -/
theorem setResolver_ok {σ β : Type} (u : unicode.Tables) (fuel : Nat) (db : Database σ β)
    (name : String) (_name : String) (s : Resolving σ) (rs : ResolvedSet) (s1 : Resolving σ)
    (h : setResolver u fuel db name _name s = some (.ok rs, s1)) :
    name ≠ _name ∧ ∃ pattern, db.backend.Pattern s.backend _name = (.ok pattern, s1.backend) ∧
      parser.ParseString u fuel pattern = some (.ok rs.Pattern) ∧
      s1.dependencies = s.dependencies ++ [_name] ∧
      s1.calls = s.calls ++ [.Pattern _name] := by
  unfold setResolver at h
  split at h
  · simp at h
  · rename_i hne
    refine ⟨hne, ?_⟩
    simp only at h
    cases hpat : db.backend.Pattern s.backend _name with
    | mk res st1 =>
      rw [hpat] at h
      cases res with
      | error err => simp at h
      | ok subpattern =>
        simp only at h
        cases hP : parser.ParseString u fuel subpattern with
        | none => simp [hP] at h
        | some pr =>
          rw [hP] at h
          cases pr with
          | error err => simp at h
          | ok subqueryAST =>
            simp only [Option.some.injEq, Prod.mk.injEq, Except.ok.injEq] at h
            obtain ⟨h1, h2⟩ := h
            subst h1 h2
            exact ⟨subpattern, rfl, hP, rfl, rfl⟩

theorem evaluateItems_resolved {σ β : Type} (u : unicode.Tables) (fuel : Nat)
    (db : Database σ β) (name : String) (k : Nat)
    (ih : ∀ (n : Node) (s : Resolving σ) (res : sets.Set) (s' : Resolving σ),
      n.Evaluate (setResolver u fuel db name) k s = some (.ok res, s') →
      ∃ names, resolved u fuel db k n s.backend = some (names, s'.backend) ∧
        s'.dependencies = s.dependencies ++ names ∧
        s'.calls = s.calls ++ names.map BackendCall.Pattern) :
    ∀ (items : List Node) (acc : List sets.Set) (s : Resolving σ) (res : List sets.Set)
      (s' : Resolving σ),
      evaluateItems (Node.Evaluate (setResolver u fuel db name) k) items acc s =
        some (.ok res, s') →
      ∃ names, resolvedItems (resolved u fuel db k) items s.backend = some (names, s'.backend) ∧
        s'.dependencies = s.dependencies ++ names ∧
        s'.calls = s.calls ++ names.map BackendCall.Pattern := by
  intro items
  induction items with
  | nil =>
    intro acc s res s' h
    simp only [evaluateItems, Option.some.injEq, Prod.mk.injEq] at h
    obtain ⟨_, rfl⟩ := h
    exact ⟨[], rfl, by simp, by simp⟩
  | cons item rest ihr =>
    intro acc s res s' h
    simp only [evaluateItems] at h
    cases hE : Node.Evaluate (setResolver u fuel db name) k item s with
    | none => simp [hE] at h
    | some rp =>
      obtain ⟨r1, s1⟩ := rp
      rw [hE] at h
      cases r1 with
      | error e => simp at h
      | ok results =>
        simp only at h
        obtain ⟨a, ha, hd, hc⟩ := ih item s results s1 hE
        obtain ⟨b, hb, hd2, hc2⟩ := ihr _ s1 res s' h
        refine ⟨a ++ b, ?_, ?_, ?_⟩
        · simp only [resolvedItems, ha, hb]
        · rw [hd2, hd, List.append_assoc]
        · rw [hc2, hc, List.map_append, List.append_assoc]

/-- A successful evaluation appends to `dependencies` the names resolved in the
node, in the order of `resolved`, and makes one call of `Pattern` for each. -/
theorem Evaluate_resolved {σ β : Type} (u : unicode.Tables) (fuel : Nat)
    (db : Database σ β) (name : String) :
    ∀ (k : Nat) (n : Node) (s : Resolving σ) (res : sets.Set) (s' : Resolving σ),
      n.Evaluate (setResolver u fuel db name) k s = some (.ok res, s') →
      ∃ names, resolved u fuel db k n s.backend = some (names, s'.backend) ∧
        s'.dependencies = s.dependencies ++ names ∧
        s'.calls = s.calls ++ names.map BackendCall.Pattern := by
  intro k
  induction k with
  | zero => intro n s res s' h; simp [Node.Evaluate] at h
  | succ k ih =>
    intro n s res s' h
    cases n with
    | AssignExpr Name Expr =>
      simp only [Node.Evaluate] at h
      obtain ⟨a, ha, hd, hc⟩ := ih _ _ _ _ h
      exact ⟨a, by simp only [resolved, ha], hd, hc⟩
    | BinaryExpr Operator LHS RHS =>
      simp only [Node.Evaluate] at h
      cases hop : binaryOp Operator with
      | none => simp [hop] at h
      | some op =>
        simp only [hop] at h
        cases hL : Node.Evaluate (setResolver u fuel db name) k LHS s with
        | none => simp [hL] at h
        | some rp =>
          obtain ⟨r1, s1⟩ := rp
          rw [hL] at h
          cases r1 with
          | error e => simp at h
          | ok lhs =>
            simp only at h
            cases hR : Node.Evaluate (setResolver u fuel db name) k RHS s1 with
            | none => simp [hR] at h
            | some rp2 =>
              obtain ⟨r2, s2⟩ := rp2
              rw [hR] at h
              cases r2 with
              | error e => simp at h
              | ok rhs =>
                simp only at h
                cases hres : op [lhs, rhs] with
                | none => simp [hres] at h
                | some result =>
                  simp only [hres, Option.some.injEq, Prod.mk.injEq] at h
                  obtain ⟨_, rfl⟩ := h
                  obtain ⟨a, ha, hd, hc⟩ := ih _ _ _ _ hL
                  obtain ⟨b, hb, hd2, hc2⟩ := ih _ _ _ _ hR
                  refine ⟨a ++ b, ?_, ?_, ?_⟩
                  · simp only [resolved, ha, hb]
                  · rw [hd2, hd, List.append_assoc]
                  · rw [hc2, hc, List.map_append, List.append_assoc]
    | Set Name items =>
      simp only [Node.Evaluate] at h
      by_cases hN : Name ≠ ""
      · rw [if_pos hN] at h
        cases hc : setResolver u fuel db name Name s with
        | none => simp [hc] at h
        | some rp =>
          obtain ⟨r1, s1⟩ := rp
          rw [hc] at h
          cases r1 with
          | error e => simp at h
          | ok resolvedSet =>
            simp only at h
            obtain ⟨_, pattern, hpat, hparse, hd, hcl⟩ :=
              setResolver_ok u fuel db name Name s resolvedSet s1 hc
            obtain ⟨b, hb, hd2, hc2⟩ := ih _ _ _ _ h
            refine ⟨Name :: b, ?_, ?_, ?_⟩
            · simp only [resolved, if_pos hN, hpat, hparse, hb]
            · rw [hd2, hd, List.append_assoc, List.singleton_append]
            · rw [hc2, hcl, List.map_cons, List.append_assoc, List.singleton_append]
      · rw [if_neg hN] at h
        cases hE : evaluateItems (Node.Evaluate (setResolver u fuel db name) k) items [] s with
        | none => simp [hE] at h
        | some rp =>
          obtain ⟨r1, s1⟩ := rp
          rw [hE] at h
          cases r1 with
          | error e => simp at h
          | ok resolvedSets =>
            simp only [Option.some.injEq, Prod.mk.injEq] at h
            obtain ⟨_, rfl⟩ := h
            obtain ⟨a, ha, hd, hc⟩ := evaluateItems_resolved u fuel db name k ih _ _ _ _ _ hE
            exact ⟨a, by simp only [resolved, if_neg hN, ha], hd, hc⟩
    | Item Name =>
      simp only [Node.Evaluate, Option.some.injEq, Prod.mk.injEq] at h
      obtain ⟨_, rfl⟩ := h
      exact ⟨[], by simp only [resolved], by simp, by simp⟩

end setdb

/-! ## Evaluating a call on a concrete input -/

/-- An option that holds a value, and no value other than `a`, is `some a`. -/
theorem eq_some_of_forall_mem {α : Type} (o : Option α) (a : α) (h1 : o.isSome = true)
    (h2 : ∀ b ∈ o, b = a) : o = some a := by
  cases o with
  | none => simp at h1
  | some b => rw [h2 b rfl]

/-! ## References to the assigned name -/

namespace parser
open ast lexer

/-- The tokens of `A = B`. -/
theorem tokensOf_assign_name (u : unicode.Tables) (A B : String) (hA : isSetName u A = true)
    (hB : isSetName u B = true) :
    tokensOf u (A ++ " = " ++ B).data = [(.SET, A), (.ASSIGN, "="), (.SET, B)] := by
  have e : (A ++ " = " ++ B).data = A.data ++ ' ' :: '=' :: ' ' :: (B.data ++ []) := by
    simp [String.data_append]
  have h1 := lexTok_setName u A hA _ (Delim.space u ('=' :: ' ' :: (B.data ++ [])))
  have h2 : lexTok u ('=' :: ' ' :: (B.data ++ [])) = ((.ASSIGN, "="), ' ' :: (B.data ++ [])) := rfl
  have h3 := lexTok_setName u B hB [] (Delim.nil u)
  rw [e, tokensOf_cons u _ _ _ h1 (by simp), tokensOf_space,
    tokensOf_cons u _ _ _ h2 (by decide), tokensOf_space,
    tokensOf_cons u _ _ _ h3 (by simp), tokensOf_nil]

/-- `Parse` accepts `A = B` as the assignment of the reference `B` to `A`, and a
set name alone as a reference. -/
theorem ParseString_assign_name (u : unicode.Tables) (A B : String) (hA : isSetName u A = true)
    (hB : isSetName u B = true) (fuel : Nat) (hfuel : 12 ≤ fuel) :
    ParseString u fuel (A ++ " = " ++ B) = some (.ok (.AssignExpr A (.Set B []))) ∧
    ParseString u fuel A = some (.ok (.Set A [])) := by
  refine ⟨?_, ?_⟩
  · rw [ParseString_ok_iff, tokensOf_assign_name u A B hA hB]
    have d1 := Derives.setRef_expr 0 B [] (by decide) (by decide)
    exact (Derives.assign_expr 3 A "=" _ _ _ d1 (by decide)).mono_le (by omega)
  · have h3 := lexTok_setName u A hA [] (Delim.nil u)
    rw [List.append_nil] at h3
    rw [ParseString_ok_iff, tokensOf_cons u _ _ _ h3 (by simp), tokensOf_nil]
    exact (Derives.setRef_expr 0 A [] (by decide) (by decide)).mono_le (by omega)

end parser

namespace setdb
open ast

/-- The closure `setResolver` never appends the assigned name to `dependencies`. -/
theorem setResolver_not_self {σ β : Type} (u : unicode.Tables) (fuel : Nat)
    (db : Database σ β) (name : String) (_name : String) (s : Resolving σ)
    (r : Except (QueryError β) ResolvedSet) (s' : Resolving σ) (hs : name ∉ s.dependencies)
    (h : setResolver u fuel db name _name s = some (r, s')) : name ∉ s'.dependencies := by
  unfold setResolver at h
  split at h
  · simp only [Option.some.injEq, Prod.mk.injEq] at h
    exact h.2 ▸ hs
  · rename_i hne
    simp only at h
    split at h
    · simp only [Option.some.injEq, Prod.mk.injEq] at h
      exact h.2 ▸ hs
    · split at h
      · simp at h
      · simp only [Option.some.injEq, Prod.mk.injEq] at h
        exact h.2 ▸ hs
      · simp only [Option.some.injEq, Prod.mk.injEq] at h
        rw [← h.2]
        simp only [List.mem_append, List.mem_singleton, not_or]
        exact ⟨hs, hne⟩

end setdb

/-! ## Queries without set names -/

namespace sets

theorem NewSet_singleton (x : String) : NewSet [x] = ⟨{x}⟩ := rfl

theorem Union_eq (l : List Set) (acc : Set) :
    (l.foldl (fun S set => (⟨S.items ∪ set.items⟩ : Set)) acc).items =
      acc.items ∪ l.foldr (fun set A => set.items ∪ A) ∅ := by
  induction l generalizing acc with
  | nil => simp
  | cons a rest ih =>
    rw [List.foldl_cons, ih, List.foldr_cons]
    simp [Finset.union_assoc]

theorem Union_pair (a b : Set) : Union [a, b] = ⟨a.items ∪ b.items⟩ := by
  simp [Union, NewSet]

theorem Intersection_pair (a b : Set) : Intersection [a, b] = ⟨a.items ∩ b.items⟩ := by
  have h : ∀ x, x ∈ (Intersection [a, b]).items ↔ x ∈ a.items ∩ b.items := by
    intro x
    rw [mem_Intersection_iff_count [a, b] (by simp) x]
    by_cases ha : x ∈ a.items <;> by_cases hb : x ∈ b.items <;>
      simp [List.countP_cons, ha, hb]
  cases hI : Intersection [a, b] with
  | mk items =>
    rw [hI] at h
    congr
    exact Finset.ext h

theorem SymmetricDifference_pair (a b : Set) :
    SymmetricDifference [a, b] = ⟨(a.items \ b.items) ∪ (b.items \ a.items)⟩ := by
  have h : ∀ x, x ∈ (SymmetricDifference [a, b]).items ↔
      x ∈ (a.items \ b.items) ∪ (b.items \ a.items) := by
    intro x
    rw [mem_SymmetricDifference_iff_count [a, b] x]
    by_cases ha : x ∈ a.items <;> by_cases hb : x ∈ b.items <;>
      simp [List.countP_cons, ha, hb]
  cases hI : SymmetricDifference [a, b] with
  | mk items =>
    rw [hI] at h
    congr
    exact Finset.ext h

theorem Difference_pair (a b : Set) : Difference [a, b] = some ⟨a.items \ b.items⟩ := by
  simp [Difference, NewSet]

end sets

namespace ast
open lexer

theorem foldr_denote (items : List Node) :
    (items.map (fun n => (⟨n.denote⟩ : sets.Set))).foldr (fun set A => set.items ∪ A) ∅ =
      denoteItems items := by
  induction items with
  | nil => simp [denoteItems]
  | cons item rest ih => simp [denoteItems, ih]

theorem Union_denote (items : List Node) :
    sets.Union (items.map (fun n => (⟨n.denote⟩ : sets.Set))) = ⟨denoteItems items⟩ := by
  have h : (sets.Union (items.map (fun n => (⟨n.denote⟩ : sets.Set)))).items =
      denoteItems items := by
    rw [sets.Union, sets.Union_eq, foldr_denote]
    simp [sets.NewSet]
  cases hU : sets.Union (items.map (fun n => (⟨n.denote⟩ : sets.Set))) with
  | mk s =>
    rw [hU] at h
    congr

theorem evaluateItems_closed {ε S : Type} (cb : String → S → Option (Except ε ResolvedSet × S))
    (k : Nat)
    (ih : ∀ (n : Node) (s : S), n.closed = true → n.height ≤ k →
      n.Evaluate cb k s = some (.ok ⟨n.denote⟩, s)) :
    ∀ (items : List Node) (acc : List sets.Set) (s : S), closedItems items = true →
      heightItems items ≤ k →
      evaluateItems (Node.Evaluate cb k) items acc s =
        some (.ok (acc ++ items.map (fun n => (⟨n.denote⟩ : sets.Set))), s) := by
  intro items
  induction items with
  | nil => intro acc s _ _; simp [evaluateItems]
  | cons item rest ihr =>
    intro acc s hc hh
    simp only [closedItems, Bool.and_eq_true] at hc
    simp only [heightItems, Nat.max_le] at hh
    simp only [evaluateItems, ih item s hc.1 hh.1]
    rw [ihr _ s hc.2 hh.2]
    simp

/-- A node without set names evaluates to the set it denotes, without a call of
the callback, once the fuel covers its height. -/
theorem Evaluate_closed {ε S : Type} (cb : String → S → Option (Except ε ResolvedSet × S)) :
    ∀ (k : Nat) (n : Node) (s : S), n.closed = true → n.height ≤ k →
      n.Evaluate cb k s = some (.ok ⟨n.denote⟩, s) := by
  intro k
  induction k with
  | zero =>
    intro n s _ hh
    cases n <;> simp [Node.height] at hh
  | succ k ih =>
    intro n s hc hh
    cases n with
    | AssignExpr Name Expr => simp [Node.closed] at hc
    | BinaryExpr Operator LHS RHS =>
      simp only [Node.closed, Bool.and_eq_true] at hc
      simp only [Node.height, Nat.add_le_add_iff_right, Nat.max_le] at hh
      obtain ⟨⟨hop, hl⟩, hr⟩ := hc
      have hL := ih LHS s hl hh.1
      have hR := ih RHS s hr hh.2
      cases Operator <;> simp [parser.isBinop] at hop <;>
        simp [Node.Evaluate, binaryOp, hL, hR, Node.denote, sets.Union_pair,
          sets.Intersection_pair, sets.Difference_pair, sets.SymmetricDifference_pair]
    | Set Name items =>
      simp only [Node.closed, Bool.and_eq_true, beq_iff_eq] at hc
      simp only [Node.height, Nat.add_le_add_iff_right] at hh
      obtain ⟨hN, hi⟩ := hc
      subst hN
      have hE := evaluateItems_closed cb k ih items [] s hi hh
      simp only [Node.Evaluate, ne_eq, not_true_eq_false, if_false, hE, List.nil_append,
        Union_denote, Node.denote]
    | Item Name =>
      simp [Node.Evaluate, Node.denote, sets.NewSet_singleton]

end ast

namespace parser
open ast lexer

theorem build_closed (pairs : List (TokenType × Node)) :
    ∀ lhs : Node, lhs.closed = true →
      pairs.all (fun p => isBinop p.1 && p.2.closed) = true → (build lhs pairs).closed = true := by
  induction pairs with
  | nil => intro lhs h _; exact h
  | cons p rest ih =>
    intro lhs h hp
    simp only [List.all_cons, Bool.and_eq_true] at hp
    have : build lhs (p :: rest) = build (.BinaryExpr p.1 lhs p.2) rest := rfl
    rw [this]
    apply ih _ _ hp.2
    simp [Node.closed, hp.1.1, hp.1.2, h]

theorem Derives.closed {g : Goal} {fuel : Nat} {ts : List Tok} {r : Res} {ts' : List Tok}
    (h : Derives g fuel ts r ts') : (∀ tok ∈ ts, tok.1 ≠ .SET) → r.closed = true := by
  induction h with
  | item fuel v ts => intro _; rfl
  | setRef fuel name ts h => intro hno; exact absurd rfl (hno _ (List.mem_cons_self _ _))
  | setAssign fuel name ts expr ts' h _ ih =>
    intro hno; exact absurd rfl (hno _ (List.mem_cons_self _ _))
  | assign fuel v ts expr ts' _ ih =>
    intro hno; exact ih (fun t ht => hno t (List.mem_cons_of_mem _ ht))
  | inlineSet fuel v ts items ts' _ ih =>
    intro hno
    have := ih (fun t ht => hno t (List.mem_cons_of_mem _ ht))
    simpa [Res.closed, Node.closed] using this
  | elemsClose fuel v ts => intro _; rfl
  | elemsComma fuel ts item v ts1 items ts' h1 _ ih1 ih2 =>
    intro hno
    obtain ⟨pre, hpre⟩ := h1.suffix
    have h1' := ih1 hno
    have h2' := ih2 (fun t ht => hno t (by rw [hpre]; simp [ht]))
    simp only [Res.closed] at h1' h2' ⊢
    simp [closedItems, h1', h2']
  | elemsLast fuel ts item v ts' _ ih1 =>
    intro hno
    have h1' := ih1 hno
    simp only [Res.closed] at h1' ⊢
    simp [closedItems, h1']
  | primarySet fuel ts t ts' _ ih => exact ih
  | primaryItem fuel ts t ts' _ ih => exact ih
  | primaryInline fuel ts t ts' _ ih => exact ih
  | opsDone fuel ts h => intro _; rfl
  | opsStep fuel op v ts rhs ts1 pairs ts' hop h1 _ ih1 ih2 =>
    intro hno
    obtain ⟨pre, hpre⟩ := h1.suffix
    have hno' : ∀ tok ∈ ts, tok.1 ≠ .SET := fun t ht => hno t (List.mem_cons_of_mem _ ht)
    have h1' := ih1 hno'
    have h2' := ih2 (fun t ht => hno' t (by rw [hpre]; simp [ht]))
    simp only [Res.closed] at h1' h2' ⊢
    simp only [List.all_cons, hop, h1', h2', Bool.and_self]
  | expr fuel ts lhs ts1 pairs ts' h1 _ ih1 ih2 =>
    intro hno
    obtain ⟨pre, hpre⟩ := h1.suffix
    have h1' := ih1 hno
    have h2' := ih2 (fun t ht => hno t (by rw [hpre]; simp [ht]))
    simp only [Res.closed] at h1' h2' ⊢
    exact build_closed pairs lhs h1' h2'

end parser

/-! ## Changing what follows a derivation, and the trailing comma -/

namespace parser
open ast lexer

theorem headType_append (pre : List Tok) (h : pre ≠ []) (a b : List Tok) :
    headType (pre ++ a) = headType (pre ++ b) := by
  cases pre with
  | nil => exact absurd rfl h
  | cons x xs => rfl

theorem Follows.of_head (a b : List Tok) (h : headType a = headType b) : Follows a b :=
  ⟨fun ha => h ▸ ha, fun ha => h ▸ ha⟩

theorem Follows.append (pre rest ts' : List Tok) (h : Follows rest ts') :
    Follows (pre ++ rest) (pre ++ ts') := by
  cases pre with
  | nil => exact h
  | cons x xs => exact Follows.of_head _ _ rfl

/-- A derivation consumes a prefix of its stream, and derives the same result in
front of any stream that may follow in place of the one left. -/
theorem Derives.frame {g : Goal} {fuel : Nat} {ts : List Tok} {r : Res} {ts' : List Tok}
    (h : Derives g fuel ts r ts') :
    ∃ pre, ts = pre ++ ts' ∧ (g ≠ .ops → pre ≠ []) ∧
      ∀ rest, (g = .elems ∨ g = .item ∨ g = .inlineSet ∨ Follows rest ts') →
        Derives g fuel (pre ++ rest) r rest := by
  induction h with
  | item fuel v ts =>
    exact ⟨[(.ITEM, v)], rfl, fun _ => by simp, fun rest _ => Derives.item fuel v rest⟩
  | setRef fuel name ts h =>
    refine ⟨[(.SET, name)], rfl, fun _ => by simp, fun rest hf => ?_⟩
    rcases hf with hf | hf | hf | hf
    · simp at hf
    · simp at hf
    · simp at hf
    · exact Derives.setRef fuel name rest (fun hr => h (hf.2 hr))
  | setAssign fuel name ts expr ts' h he ih =>
    obtain ⟨pre, hpre, hne, hfr⟩ := ih
    refine ⟨(.SET, name) :: pre, by rw [hpre]; rfl, fun _ => by simp, fun rest hf => ?_⟩
    rcases hf with hf | hf | hf | hf
    · simp at hf
    · simp at hf
    · simp at hf
    · have hh : headType (pre ++ rest) = .ASSIGN := by
        rw [headType_append pre (hne (by simp)) rest ts', ← hpre]; exact h
      exact Derives.setAssign fuel name _ expr rest hh (hfr rest (Or.inr (Or.inr (Or.inr hf))))
  | assign fuel v ts expr ts' he ih =>
    obtain ⟨pre, hpre, hne, hfr⟩ := ih
    refine ⟨(.ASSIGN, v) :: pre, by rw [hpre]; rfl, fun _ => by simp, fun rest hf => ?_⟩
    rcases hf with hf | hf | hf | hf
    · simp at hf
    · simp at hf
    · simp at hf
    · exact Derives.assign fuel v _ expr rest (hfr rest (Or.inr (Or.inr (Or.inr hf))))
  | inlineSet fuel v ts items ts' h ih =>
    obtain ⟨pre, hpre, hne, hfr⟩ := ih
    refine ⟨(.SET_OPEN, v) :: pre, by rw [hpre]; rfl, fun _ => by simp, fun rest _ => ?_⟩
    exact Derives.inlineSet fuel v _ items rest (hfr rest (Or.inl rfl))
  | elemsClose fuel v ts =>
    exact ⟨[(.SET_CLOSE, v)], rfl, fun _ => by simp, fun rest _ => Derives.elemsClose fuel v rest⟩
  | elemsComma fuel ts item v ts1 items ts' h1 h2 ih1 ih2 =>
    obtain ⟨pre1, hpre1, hne1, hfr1⟩ := ih1
    obtain ⟨pre2, hpre2, hne2, hfr2⟩ := ih2
    refine ⟨pre1 ++ (.COMMA, v) :: pre2, by rw [hpre1, hpre2]; simp,
      fun _ => by simp, fun rest _ => ?_⟩
    have e1 := hfr1 ((.COMMA, v) :: (pre2 ++ rest))
      (Or.inr (Or.inr (Or.inr (Follows.of_closing _ _ _ _ (Or.inr rfl)))))
    have e2 := hfr2 rest (Or.inl rfl)
    have := Derives.elemsComma fuel _ item v _ items rest e1 e2
    simpa using this
  | elemsLast fuel ts item v ts' h1 ih1 =>
    obtain ⟨pre1, hpre1, hne1, hfr1⟩ := ih1
    refine ⟨pre1 ++ [(.SET_CLOSE, v)], by rw [hpre1]; simp, fun _ => by simp, fun rest _ => ?_⟩
    have e1 := hfr1 ((.SET_CLOSE, v) :: rest)
      (Or.inr (Or.inr (Or.inr (Follows.of_closing _ _ _ _ (Or.inl rfl)))))
    have := Derives.elemsLast fuel _ item v rest e1
    simpa using this
  | primarySet fuel ts t ts' h ih =>
    obtain ⟨pre, hpre, hne, hfr⟩ := ih
    refine ⟨pre, hpre, fun _ => hne (by simp), fun rest hf => ?_⟩
    rcases hf with hf | hf | hf | hf
    · simp at hf
    · simp at hf
    · simp at hf
    · exact Derives.primarySet fuel _ t rest (hfr rest (Or.inr (Or.inr (Or.inr hf))))
  | primaryItem fuel ts t ts' h ih =>
    obtain ⟨pre, hpre, hne, hfr⟩ := ih
    exact ⟨pre, hpre, fun _ => hne (by simp), fun rest _ =>
      Derives.primaryItem fuel _ t rest (hfr rest (Or.inr (Or.inl rfl)))⟩
  | primaryInline fuel ts t ts' h ih =>
    obtain ⟨pre, hpre, hne, hfr⟩ := ih
    exact ⟨pre, hpre, fun _ => hne (by simp), fun rest _ =>
      Derives.primaryInline fuel _ t rest (hfr rest (Or.inr (Or.inr (Or.inl rfl))))⟩
  | opsDone fuel ts h =>
    refine ⟨[], rfl, fun hg => absurd rfl hg, fun rest hf => ?_⟩
    rcases hf with hf | hf | hf | hf
    · simp at hf
    · simp at hf
    · simp at hf
    · refine Derives.opsDone fuel rest ?_
      cases hb : isBinop (headType rest) with
      | false => rfl
      | true => rw [hf.1 hb] at h; exact absurd h (by simp)
  | opsStep fuel op v ts rhs ts1 pairs ts' hop h1 h2 ih1 ih2 =>
    obtain ⟨pre1, hpre1, hne1, hfr1⟩ := ih1
    obtain ⟨pre2, hpre2, hne2, hfr2⟩ := ih2
    refine ⟨(op, v) :: (pre1 ++ pre2), by rw [hpre1, hpre2]; simp, fun _ => by simp,
      fun rest hf => ?_⟩
    rcases hf with hf | hf | hf | hf
    · simp at hf
    · simp at hf
    · simp at hf
    · have e2 := hfr2 rest (Or.inr (Or.inr (Or.inr hf)))
      have hf1 : Follows (pre2 ++ rest) ts1 := hpre2 ▸ Follows.append pre2 rest ts' hf
      have e1 := hfr1 (pre2 ++ rest) (Or.inr (Or.inr (Or.inr hf1)))
      have := Derives.opsStep fuel op v _ rhs _ pairs rest hop e1 e2
      simpa using this
  | expr fuel ts lhs ts1 pairs ts' h1 h2 ih1 ih2 =>
    obtain ⟨pre1, hpre1, hne1, hfr1⟩ := ih1
    obtain ⟨pre2, hpre2, hne2, hfr2⟩ := ih2
    refine ⟨pre1 ++ pre2, by rw [hpre1, hpre2]; simp, fun _ => by simp [hne1],
      fun rest hf => ?_⟩
    rcases hf with hf | hf | hf | hf
    · simp at hf
    · simp at hf
    · simp at hf
    · have e2 := hfr2 rest (Or.inr (Or.inr (Or.inr hf)))
      have hf1 : Follows (pre2 ++ rest) ts1 := hpre2 ▸ Follows.append pre2 rest ts' hf
      have e1 := hfr1 (pre2 ++ rest) (Or.inr (Or.inr (Or.inr hf1)))
      have := Derives.expr fuel _ lhs _ pairs rest e1 e2
      simpa using this

end parser

namespace parser
open ast lexer

/-- A comma may be inserted in front of the brace that closes a literal, when the
token before that brace is not a comma: the loop of the literal yields the same
elements. -/
theorem Derives.trailing {g : Goal} {fuel : Nat} {ts : List Tok} {r : Res} {ts' : List Tok}
    (h : Derives g fuel ts r ts') :
    g = .elems → ∀ (pre : List Tok) (last : Tok) (v c : String),
      ts = pre ++ last :: (.SET_CLOSE, v) :: ts' → last.1 ≠ .COMMA →
      Derives .elems fuel (pre ++ last :: (.COMMA, c) :: (.SET_CLOSE, v) :: ts') r ts' := by
  induction h with
  | item fuel v ts => intro hg; cases hg
  | setRef fuel name ts h => intro hg; cases hg
  | setAssign fuel name ts expr ts' h he ih => intro hg; cases hg
  | assign fuel v ts expr ts' he ih => intro hg; cases hg
  | inlineSet fuel v ts items ts' h ih => intro hg; cases hg
  | primarySet fuel ts t ts' h ih => intro hg; cases hg
  | primaryItem fuel ts t ts' h ih => intro hg; cases hg
  | primaryInline fuel ts t ts' h ih => intro hg; cases hg
  | opsDone fuel ts h => intro hg; cases hg
  | opsStep fuel op v ts rhs ts1 pairs ts' hop h1 h2 ih1 ih2 => intro hg; cases hg
  | expr fuel ts lhs ts1 pairs ts' h1 h2 ih1 ih2 => intro hg; cases hg
  | elemsClose fuel v0 ts =>
    intro _ pre last v c heq _
    have := congrArg List.length heq
    simp at this
    omega
  | elemsLast fuel ts item v0 ts' h1 ih1 =>
    intro _ pre last v c heq _
    obtain ⟨pre1, hpre1, _, hfr1⟩ := h1.frame
    obtain ⟨k, rfl⟩ : ∃ k, fuel = k + 1 := ⟨fuel - 1, by have := h1.fuel_pos; omega⟩
    have he : pre1 ++ (.SET_CLOSE, v0) :: ts' = (pre ++ [last]) ++ (.SET_CLOSE, v) :: ts' := by
      have e2 : ts = (pre ++ [last]) ++ (.SET_CLOSE, v) :: ts' := by
        rw [heq]; simp
      exact hpre1.symm.trans e2
    obtain ⟨hp, hc⟩ := List.append_inj' he rfl
    simp only [List.cons.injEq, Prod.mk.injEq, true_and, and_true] at hc
    subst hc
    have e1 := hfr1 ((.COMMA, c) :: (.SET_CLOSE, v0) :: ts')
      (Or.inr (Or.inr (Or.inr (Follows.of_closing _ _ _ _ (Or.inr rfl)))))
    have e2 := Derives.elemsClose k v0 ts'
    have := Derives.elemsComma (k + 1) _ item c _ [] ts' e1 e2
    rw [hp] at this
    simpa using this
  | elemsComma fuel ts item v1 ts1 items ts' h1 h2 ih1 ih2 =>
    intro _ pre last v c heq hlast
    obtain ⟨pre1, hpre1, _, hfr1⟩ := h1.frame
    obtain ⟨pre2, hpre2, hne2, _⟩ := h2.frame
    have hne2' : pre2 ≠ [] := hne2 (by simp)
    have he : (pre1 ++ (.COMMA, v1) :: pre2) ++ ts' = (pre ++ [last, (.SET_CLOSE, v)]) ++ ts' := by
      have e1 : ts = (pre1 ++ (.COMMA, v1) :: pre2) ++ ts' := by
        rw [hpre1, hpre2]; simp
      have e2 : ts = (pre ++ [last, (.SET_CLOSE, v)]) ++ ts' := by
        rw [heq]; simp
      exact e1.symm.trans e2
    have hcut := List.append_cancel_right he
    rcases List.eq_nil_or_concat pre2 with hnil | ⟨init, x, hx⟩
    · exact absurd hnil hne2'
    · subst hx
      have he2 : (pre1 ++ (.COMMA, v1) :: init) ++ [x] = (pre ++ [last]) ++ [(.SET_CLOSE, v)] := by
        simpa using hcut
      obtain ⟨hp2, hx2⟩ := List.append_inj' he2 rfl
      simp only [List.cons.injEq, and_true] at hx2
      subst hx2
      rcases List.eq_nil_or_concat init with hnil | ⟨init', y, hy⟩
      · subst hnil
        have he3 : pre1 ++ [(.COMMA, v1)] = pre ++ [last] := hp2
        obtain ⟨_, hl⟩ := List.append_inj' he3 rfl
        simp only [List.cons.injEq, and_true] at hl
        exact absurd (by rw [← hl]) hlast
      · subst hy
        have he3 : (pre1 ++ (.COMMA, v1) :: init') ++ [y] = pre ++ [last] := by
          simpa using hp2
        obtain ⟨hp3, hy3⟩ := List.append_inj' he3 rfl
        simp only [List.cons.injEq, and_true] at hy3
        subst hy3
        have hts1 : ts1 = init' ++ y :: (.SET_CLOSE, v) :: ts' := by
          rw [hpre2]; simp
        have e2 := ih2 rfl init' y v c hts1 hlast
        have e1 := hfr1 ((.COMMA, v1) :: (init' ++ y :: (.COMMA, c) :: (.SET_CLOSE, v) :: ts'))
          (Or.inr (Or.inr (Or.inr (Follows.of_closing _ _ _ _ (Or.inr rfl)))))
        have := Derives.elemsComma fuel _ item v1 _ items ts' e1 e2
        rw [← hp3]
        simpa using this

end parser

namespace parser
open ast lexer

theorem build_cons_binary (rest : List (TokenType × Node)) :
    ∀ (lhs : Node) (x : TokenType × Node), ∃ op l r, build lhs (x :: rest) = .BinaryExpr op l r := by
  induction rest with
  | nil => intro lhs x; exact ⟨x.1, lhs, x.2, rfl⟩
  | cons y rest ih =>
    intro lhs x
    exact ih (.BinaryExpr x.1 lhs x.2) y

/-- A derivation of a literal from a stream that starts with an opening brace
is a derivation of its elements from the rest of the stream. -/
theorem Derives.literal_inv {fuel : Nat} {v : String} {ts : List Tok} {items : List Node}
    (h : Derives .expr fuel ((.SET_OPEN, v) :: ts) (.one (.Set "" items)) []) :
    ∃ k, fuel = k + 3 ∧ Derives .elems k ts (.many items) [] := by
  generalize hr : Res.one (.Set "" items) = r at h
  cases h with
  | expr f _ lhs ts1 pairs _ h1 h2 =>
    cases pairs with
    | cons x rest =>
      obtain ⟨op, l, r', hb⟩ := build_cons_binary rest lhs x
      rw [hb] at hr
      simp at hr
    | nil =>
      simp only [build, List.foldl_nil, Res.one.injEq] at hr
      subst hr
      cases h1 with
      | primarySet _ _ _ _ hs => cases hs
      | primaryItem _ _ _ _ hs => cases hs
      | primaryInline _ _ _ _ hs =>
        cases hs with
        | inlineSet k _ _ _ _ he =>
          cases h2 with
          | opsDone _ _ _ => exact ⟨k, rfl, he⟩

theorem Derives.literal {k : Nat} {ts : List Tok} {items : List Node} (v : String)
    (h : Derives .elems k ts (.many items) []) :
    Derives .expr (k + 3) ((.SET_OPEN, v) :: ts) (.one (.Set "" items)) [] :=
  Derives.expr _ _ _ _ [] _
    (Derives.primaryInline _ _ _ _ (Derives.inlineSet k v ts items [] h))
    (Derives.opsDone _ [] (by decide))

/-- A literal is parsed to the same node when a comma is inserted in front of
its closing brace, the token before that brace not being a comma. -/
theorem ParseString_trailing_comma (u : unicode.Tables) (q q' : String) (fuel : Nat)
    (items : List Node) (body : List Tok) (last : Tok)
    (hq : tokensOf u q.data = (.SET_OPEN, "(") :: (body ++ [last, (.SET_CLOSE, ")")]))
    (hq' : tokensOf u q'.data =
      (.SET_OPEN, "(") :: (body ++ [last, (.COMMA, ","), (.SET_CLOSE, ")")]))
    (hlast : last.1 ≠ .COMMA)
    (h : ParseString u fuel q = some (.ok (.Set "" items))) :
    ParseString u fuel q' = some (.ok (.Set "" items)) := by
  rw [ParseString_ok_iff, hq] at h
  rw [ParseString_ok_iff, hq']
  obtain ⟨k, rfl, he⟩ := h.literal_inv
  have := he.trailing rfl body last ")" "," (by simp) hlast
  exact Derives.literal "(" (by simpa using this)

end parser

/-! ## The end of input inside a literal -/

namespace parser
open ast lexer

theorem EndsOpen.starts {g : Goal} {fuel : Nat} {ts : List Tok} (h : EndsOpen g fuel ts) :
    (g = .expr ∨ g = .primary ∨ g = .set ∨ g = .inlineSet) → startsPrimary ts := by
  induction h with
  | loopEnd => intro hg; simp at hg
  | loopElem => intro hg; simp at hg
  | loopIn => intro hg; simp at hg
  | inlineSet => intro _; simp [startsPrimary, headType]
  | primaryInline _ _ _ ih => intro _; exact ih (by simp)
  | primarySet _ _ _ ih => intro _; exact ih (by simp)
  | setAssign => intro _; simp [startsPrimary, headType]
  | assign => intro hg; simp at hg
  | exprPrimary _ _ _ ih => intro _; exact ih (by simp)
  | exprOps _ _ _ _ h1 _ _ => intro _; exact h1.head (by simp)
  | opsPrimary => intro hg; simp at hg
  | opsStep => intro hg; simp at hg

/-- An input that ends where a literal looks for an element or its closing brace
makes the parsing methods fail with `expected '}'` on the `EOF` token. -/
theorem EndsOpen.stopped (u : unicode.Tables) {g : Goal} {fuel : Nat} {ts : List Tok}
    (h : EndsOpen g fuel ts) : Stopped u g fuel ts := by
  induction h with
  | loopEnd fuel =>
    intro items p hp hs
    obtain ⟨k1, k2, k3⟩ := peek_of_stream u p hp
    rw [hs] at k1
    have k1' : (p.peekToken u).1.tokenType = .EOF := k1
    exact ⟨(p.peekToken u).1, (p.peekToken u).2,
      by simp [parseInlineSetLoop, Token.Type, k1'], k1'⟩
  | loopElem fuel ts item v ts1 h1 _ ih =>
    intro items0 p hp hs
    obtain ⟨k1, k2, k3⟩ := peek_of_stream u p hp
    rw [hs] at k1 k2
    obtain ⟨p1, hE, hs1, hc1⟩ := complete u h1 _ k3 k2
    obtain ⟨m1, m2, m3⟩ := peek_of_stream u p1 hc1
    rw [hs1] at m1 m2
    obtain ⟨_, _, r3, r4⟩ := read_of_stream u _ m3 _ _ _ m2 (by decide)
    obtain ⟨t, p', hL, ht⟩ := ih (items0 ++ [item]) _ r4 r3
    refine ⟨t, p', ?_, ht⟩
    have hstart := h1.head (by simp)
    have m1' : (p1.peekToken u).1.tokenType = .COMMA := m1
    have hne : ¬ ((p.peekToken u).1.tokenType = .EOF ∨ (p.peekToken u).1.tokenType = .SET_CLOSE) := by
      rw [k1]
      rcases hstart with h | h | h <;> simp [h]
    simp only [parseInlineSetLoop, Token.Type, hne, if_false, hE, m1']
    simpa using hL
  | loopIn fuel ts h ih =>
    intro items0 p hp hs
    obtain ⟨k1, k2, k3⟩ := peek_of_stream u p hp
    rw [hs] at k1 k2
    obtain ⟨t, p', hE, ht⟩ := ih _ k3 k2
    refine ⟨t, p', ?_, ht⟩
    have hstart := h.starts (by simp)
    have hne : ¬ ((p.peekToken u).1.tokenType = .EOF ∨ (p.peekToken u).1.tokenType = .SET_CLOSE) := by
      rw [k1]
      rcases hstart with h | h | h <;> simp [h]
    simp only [parseInlineSetLoop, Token.Type, hne, if_false, hE]
  | inlineSet fuel v ts _ ih =>
    intro p hp hs
    obtain ⟨h1, _, h3, h4⟩ := read_of_stream u p hp _ _ _ hs (by decide)
    obtain ⟨t, p', hL, ht⟩ := ih [] _ h4 h3
    exact ⟨t, p', by simpa [parseInlineSet, Token.Type, h1] using hL, ht⟩
  | primaryInline fuel ts h ih =>
    intro p hp hs
    obtain ⟨k1, k2, k3⟩ := peek_of_stream u p hp
    rw [hs] at k1 k2
    obtain ⟨t, p', hS, ht⟩ := ih _ k3 k2
    have hhead : headType ts = .SET_OPEN := by cases h; rfl
    exact ⟨t, p', by simp [parseExprPrimary, Token.Type, k1, hhead, hS], ht⟩
  | primarySet fuel ts h ih =>
    intro p hp hs
    obtain ⟨k1, k2, k3⟩ := peek_of_stream u p hp
    rw [hs] at k1 k2
    obtain ⟨t, p', hS, ht⟩ := ih _ k3 k2
    have hhead : headType ts = .SET := by cases h; rfl
    exact ⟨t, p', by simp [parseExprPrimary, Token.Type, k1, hhead, hS], ht⟩
  | setAssign fuel name ts hh _ ih =>
    intro p hp hs
    obtain ⟨h1, h2, h3, h4⟩ := read_of_stream u p hp _ _ _ hs (by decide)
    obtain ⟨k1, k2, k3⟩ := peek_of_stream u _ h4
    rw [h3] at k1 k2
    obtain ⟨t, p', hA, ht⟩ := ih _ k3 k2
    refine ⟨t, p', ?_, ht⟩
    simp [parseSet, Token.Type, Token.Value, h1, h2, k1, hh, hA]
  | assign fuel v ts _ ih =>
    intro p hp hs
    obtain ⟨h1, _, h3, h4⟩ := read_of_stream u p hp _ _ _ hs (by decide)
    obtain ⟨t, p', hE, ht⟩ := ih _ h4 h3
    exact ⟨t, p', by simp [parseAssign, Token.Type, h1, hE], ht⟩
  | exprPrimary fuel ts _ ih =>
    intro p hp hs
    obtain ⟨t, p', hP, ht⟩ := ih _ hp hs
    exact ⟨t, p', by simp [parseExpr, hP], ht⟩
  | exprOps fuel ts lhs ts1 h1 _ ih =>
    intro p hp hs
    obtain ⟨p1, hP, hs1, hc1⟩ := complete u h1 _ hp hs
    obtain ⟨t, p', hO, ht⟩ := ih lhs _ hc1 hs1
    exact ⟨t, p', by simp [parseExpr, hP, hO], ht⟩
  | opsPrimary fuel op v ts hop _ ih =>
    intro LHS p hp hs
    obtain ⟨k1, k2, k3⟩ := peek_of_stream u p hp
    rw [hs] at k1 k2
    obtain ⟨r1, _, r3, r4⟩ := read_of_stream u _ k3 _ _ _ k2 (isBinop_ne_EOF _ hop)
    obtain ⟨t, p', hP, ht⟩ := ih _ r4 r3
    refine ⟨t, p', ?_, ht⟩
    have k1' : (p.peekToken u).1.tokenType = op := k1
    have hprec := getTokenPrecedence_of_isBinop op hop
    simp [parseExprBinOpRHS, Token.Type, k1', hprec, hP]
  | opsStep fuel op v ts rhs ts1 hop h1 _ ih =>
    intro LHS p hp hs
    obtain ⟨k1, k2, k3⟩ := peek_of_stream u p hp
    rw [hs] at k1 k2
    obtain ⟨r1, _, r3, r4⟩ := read_of_stream u _ k3 _ _ _ k2 (isBinop_ne_EOF _ hop)
    obtain ⟨p1, hP, hs1, hc1⟩ := complete u h1 _ r4 r3
    obtain ⟨m1, m2, m3⟩ := peek_of_stream u p1 hc1
    rw [hs1] at m2
    obtain ⟨t, p', hO, ht⟩ := ih (.BinaryExpr op LHS rhs) _ m3 m2
    refine ⟨t, p', ?_, ht⟩
    have k1' : (p.peekToken u).1.tokenType = op := k1
    have hprec := getTokenPrecedence_of_isBinop op hop
    have hle := getTokenPrecedence_le (p1.peekToken u).1.tokenType
    have hnlt : ¬ (10 : Int) < getTokenPrecedence (p1.peekToken u).1.tokenType := by omega
    simp only [parseExprBinOpRHS, Token.Type, k1', hprec, hP, r1, hnlt, if_false]
    simpa using hO

end parser

/-! ## Where a comma stands in an accepted query -/

namespace parser
open ast lexer

theorem lastType_cons_cons (x y : Tok) (l : List Tok) :
    lastType (x :: y :: l) = lastType (y :: l) := rfl

theorem lastType_append (l1 l2 : List Tok) (h : l2 ≠ []) :
    lastType (l1 ++ l2) = lastType l2 := by
  induction l1 with
  | nil => rfl
  | cons x l1 ih =>
    cases hl : l1 ++ l2 with
    | nil => simp [h] at hl
    | cons y l => rw [List.cons_append, hl, lastType_cons_cons, ← hl, ih]

theorem headType_append_left (l1 l2 : List Tok) (h : l1 ≠ []) :
    headType (l1 ++ l2) = headType l1 := by
  cases l1 with
  | nil => exact absurd rfl h
  | cons x l => rfl

theorem chain_cons (x : Tok) (l : List Tok) (h : List.Chain' CommaPlaced l)
    (hj : l ≠ [] → (headType l = .COMMA → x.1 = .ITEM ∨ x.1 = .SET ∨ x.1 = .SET_CLOSE) ∧
      (x.1 = .COMMA →
        headType l = .ITEM ∨ headType l = .SET ∨ headType l = .SET_OPEN ∨
          headType l = .SET_CLOSE)) :
    List.Chain' CommaPlaced (x :: l) := by
  cases l with
  | nil => exact List.chain'_singleton x
  | cons y l => exact List.Chain'.cons (hj (by simp)) h

theorem chain_join (l1 l2 : List Tok) (h1 : List.Chain' CommaPlaced l1)
    (h2 : List.Chain' CommaPlaced l2)
    (hj : l1 ≠ [] → l2 ≠ [] →
      (headType l2 = .COMMA →
        lastType l1 = .ITEM ∨ lastType l1 = .SET ∨ lastType l1 = .SET_CLOSE) ∧
      (lastType l1 = .COMMA →
        headType l2 = .ITEM ∨ headType l2 = .SET ∨ headType l2 = .SET_OPEN ∨
          headType l2 = .SET_CLOSE)) :
    List.Chain' CommaPlaced (l1 ++ l2) := by
  induction l1 with
  | nil => exact h2
  | cons x l1 ih =>
    cases l1 with
    | nil =>
      exact chain_cons x l2 h2 (fun hne => hj (by simp) hne)
    | cons y l =>
      have hxy := List.Chain'.rel_head h1
      have ht := List.Chain'.tail h1
      have := ih ht (fun _ hne => hj (by simp) hne)
      exact List.Chain'.cons hxy this

theorem lastType_cons (x : Tok) (l : List Tok) (h : l ≠ []) : lastType (x :: l) = lastType l :=
  lastType_append [x] l h

theorem chain_cons_plain (x : Tok) (l : List Tok) (hx : x.1 ≠ .COMMA)
    (h : List.Chain' CommaPlaced l) (hh : headType l ≠ .COMMA) :
    List.Chain' CommaPlaced (x :: l) :=
  chain_cons x l h (fun _ => ⟨fun hc => absurd hc hh, fun hc => absurd hc hx⟩)

theorem chain_join_plain (l1 l2 : List Tok) (h1 : List.Chain' CommaPlaced l1)
    (h2 : List.Chain' CommaPlaced l2) (hh : headType l2 ≠ .COMMA)
    (hl : l1 ≠ [] → lastType l1 ≠ .COMMA) :
    List.Chain' CommaPlaced (l1 ++ l2) :=
  chain_join l1 l2 h1 h2 (fun hne _ => ⟨fun hc => absurd hc hh, fun hc => absurd hc (hl hne)⟩)

theorem ends_ne_comma (ty : TokenType) (h : ty = .ITEM ∨ ty = .SET ∨ ty = .SET_CLOSE) :
    ty ≠ .COMMA := by
  rcases h with h | h | h <;> subst h <;> decide

theorem starts_ne_comma (ts : List Tok) (h : startsPrimary ts) : headType ts ≠ .COMMA := by
  rcases h with h | h | h <;> rw [h] <;> decide

/-- In the tokens a derivation consumes, every comma follows the last token of
an element and is followed by the first token of an element or by a closing
brace. -/
theorem Derives.commas {g : Goal} {fuel : Nat} {ts : List Tok} {r : Res} {ts' : List Tok}
    (h : Derives g fuel ts r ts') :
    ∃ pre, ts = pre ++ ts' ∧ (g ≠ .ops → pre ≠ []) ∧ List.Chain' CommaPlaced pre ∧
      headType pre ≠ .COMMA ∧
      (g = .elems → headType pre = .ITEM ∨ headType pre = .SET ∨ headType pre = .SET_OPEN ∨
        headType pre = .SET_CLOSE) ∧
      (pre ≠ [] → lastType pre = .ITEM ∨ lastType pre = .SET ∨ lastType pre = .SET_CLOSE) := by
  induction h with
  | item fuel v ts =>
    exact ⟨[(.ITEM, v)], rfl, fun _ => by simp, List.chain'_singleton _, by simp [headType],
      fun hg => (by cases hg), fun _ => Or.inl rfl⟩
  | setRef fuel name ts h =>
    exact ⟨[(.SET, name)], rfl, fun _ => by simp, List.chain'_singleton _, by simp [headType],
      fun hg => (by cases hg), fun _ => Or.inr (Or.inl rfl)⟩
  | setAssign fuel name ts expr ts' h he ih =>
    obtain ⟨pre, hpre, hne, hc, hh, _, hl⟩ := ih
    have hne' := hne (by simp)
    refine ⟨(.SET, name) :: pre, by rw [hpre]; rfl, fun _ => by simp,
      chain_cons_plain _ _ (by simp) hc hh, by simp [headType], fun hg => (by cases hg), fun _ => ?_⟩
    rw [lastType_cons _ _ hne']
    exact hl hne'
  | assign fuel v ts expr ts' he ih =>
    obtain ⟨pre, hpre, hne, hc, hh, _, hl⟩ := ih
    have hne' := hne (by simp)
    refine ⟨(.ASSIGN, v) :: pre, by rw [hpre]; rfl, fun _ => by simp,
      chain_cons_plain _ _ (by simp) hc hh, by simp [headType], fun hg => (by cases hg), fun _ => ?_⟩
    rw [lastType_cons _ _ hne']
    exact hl hne'
  | inlineSet fuel v ts items ts' h ih =>
    obtain ⟨pre, hpre, hne, hc, hh, _, hl⟩ := ih
    have hne' := hne (by simp)
    refine ⟨(.SET_OPEN, v) :: pre, by rw [hpre]; rfl, fun _ => by simp,
      chain_cons_plain _ _ (by simp) hc hh, by simp [headType], fun hg => (by cases hg), fun _ => ?_⟩
    rw [lastType_cons _ _ hne']
    exact hl hne'
  | elemsClose fuel v ts =>
    exact ⟨[(.SET_CLOSE, v)], rfl, fun _ => by simp, List.chain'_singleton _, by simp [headType],
      fun _ => Or.inr (Or.inr (Or.inr rfl)), fun _ => Or.inr (Or.inr rfl)⟩
  | elemsComma fuel ts item v ts1 items ts' h1 h2 ih1 ih2 =>
    obtain ⟨pre1, hpre1, hne1, hc1, hh1, _, hl1⟩ := ih1
    obtain ⟨pre2, hpre2, hne2, hc2, hh2, hs2, hl2⟩ := ih2
    have hne1' := hne1 (by simp)
    have hne2' := hne2 (by simp)
    have hstart : startsPrimary pre1 := by
      have := h1.head (by simp)
      rw [hpre1] at this
      simpa [startsPrimary, headType_append_left _ _ hne1'] using this
    have hcomma : List.Chain' CommaPlaced ((.COMMA, v) :: pre2) :=
      chain_cons _ _ hc2 (fun _ => ⟨fun hc => absurd hc hh2, fun _ => hs2 rfl⟩)
    refine ⟨pre1 ++ (.COMMA, v) :: pre2, by rw [hpre1, hpre2]; simp, fun _ => by simp,
      ?_, ?_, fun _ => ?_, fun _ => ?_⟩
    · exact chain_join _ _ hc1 hcomma
        (fun _ _ => ⟨fun _ => hl1 hne1', fun hc => absurd hc (ends_ne_comma _ (hl1 hne1'))⟩)
    · rw [headType_append_left _ _ hne1']; exact hh1
    · rw [headType_append_left _ _ hne1']
      rcases hstart with h | h | h
      · exact Or.inr (Or.inl h)
      · exact Or.inl h
      · exact Or.inr (Or.inr (Or.inl h))
    · rw [lastType_append _ _ (by simp), lastType_cons _ _ hne2']
      exact hl2 hne2'
  | elemsLast fuel ts item v ts' h1 ih1 =>
    obtain ⟨pre1, hpre1, hne1, hc1, hh1, _, hl1⟩ := ih1
    have hne1' := hne1 (by simp)
    have hstart : startsPrimary pre1 := by
      have := h1.head (by simp)
      rw [hpre1] at this
      simpa [startsPrimary, headType_append_left _ _ hne1'] using this
    refine ⟨pre1 ++ [(.SET_CLOSE, v)], by rw [hpre1]; simp, fun _ => by simp,
      ?_, ?_, fun _ => ?_, fun _ => ?_⟩
    · exact chain_join_plain _ _ hc1 (List.chain'_singleton _) (by simp [headType])
        (fun hne => ends_ne_comma _ (hl1 hne))
    · rw [headType_append_left _ _ hne1']; exact hh1
    · rw [headType_append_left _ _ hne1']
      rcases hstart with h | h | h
      · exact Or.inr (Or.inl h)
      · exact Or.inl h
      · exact Or.inr (Or.inr (Or.inl h))
    · rw [lastType_append _ _ (by simp)]
      exact Or.inr (Or.inr rfl)
  | primarySet fuel ts t ts' h ih =>
    obtain ⟨pre, hpre, hne, hc, hh, _, hl⟩ := ih
    exact ⟨pre, hpre, fun _ => hne (by simp), hc, hh, fun hg => (by cases hg), hl⟩
  | primaryItem fuel ts t ts' h ih =>
    obtain ⟨pre, hpre, hne, hc, hh, _, hl⟩ := ih
    exact ⟨pre, hpre, fun _ => hne (by simp), hc, hh, fun hg => (by cases hg), hl⟩
  | primaryInline fuel ts t ts' h ih =>
    obtain ⟨pre, hpre, hne, hc, hh, _, hl⟩ := ih
    exact ⟨pre, hpre, fun _ => hne (by simp), hc, hh, fun hg => (by cases hg), hl⟩
  | opsDone fuel ts h =>
    exact ⟨[], rfl, fun hg => absurd rfl hg, List.chain'_nil, by decide, fun hg => (by cases hg),
      fun hne => absurd rfl hne⟩
  | opsStep fuel op v ts rhs ts1 pairs ts' hop h1 h2 ih1 ih2 =>
    obtain ⟨pre1, hpre1, hne1, hc1, hh1, _, hl1⟩ := ih1
    obtain ⟨pre2, hpre2, _, hc2, hh2, _, hl2⟩ := ih2
    have hne1' := hne1 (by simp)
    have hopc : op ≠ .COMMA := by intro hc; subst hc; simp [isBinop] at hop
    have hj : List.Chain' CommaPlaced (pre1 ++ pre2) :=
      chain_join_plain _ _ hc1 hc2 hh2 (fun hne => ends_ne_comma _ (hl1 hne))
    refine ⟨(op, v) :: (pre1 ++ pre2), by rw [hpre1, hpre2]; simp, fun _ => by simp,
      ?_, hopc, fun hg => (by cases hg), fun _ => ?_⟩
    · exact chain_cons_plain _ _ hopc hj (by rw [headType_append_left _ _ hne1']; exact hh1)
    · rw [lastType_cons _ _ (by simp [hne1'])]
      by_cases h2e : pre2 = []
      · subst h2e; simpa using hl1 hne1'
      · rw [lastType_append _ _ h2e]; exact hl2 h2e
  | expr fuel ts lhs ts1 pairs ts' h1 h2 ih1 ih2 =>
    obtain ⟨pre1, hpre1, hne1, hc1, hh1, _, hl1⟩ := ih1
    obtain ⟨pre2, hpre2, _, hc2, hh2, _, hl2⟩ := ih2
    have hne1' := hne1 (by simp)
    refine ⟨pre1 ++ pre2, by rw [hpre1, hpre2]; simp, fun _ => by simp [hne1'],
      chain_join_plain _ _ hc1 hc2 hh2 (fun hne => ends_ne_comma _ (hl1 hne)),
      by rw [headType_append_left _ _ hne1']; exact hh1, fun hg => (by cases hg), fun _ => ?_⟩
    by_cases h2e : pre2 = []
    · subst h2e; simpa using hl1 hne1'
    · rw [lastType_append _ _ h2e]; exact hl2 h2e

/-- In a query that `Parse` accepts, every comma follows the last token of an
element and is followed by the first token of an element or by a closing brace;
the query neither starts nor ends with a comma. -/
theorem ParseString_commas (u : unicode.Tables) (fuel : Nat) (q : String) (t : Node)
    (h : ParseString u fuel q = some (.ok t)) :
    List.Chain' CommaPlaced (tokensOf u q.data) ∧ headType (tokensOf u q.data) ≠ .COMMA ∧
      lastType (tokensOf u q.data) ≠ .COMMA := by
  obtain ⟨pre, hpre, hne, hc, hh, _, hl⟩ := ((ParseString_ok_iff u fuel q t).mp h).commas
  rw [List.append_nil] at hpre
  rw [hpre]
  exact ⟨hc, hh, ends_ne_comma _ (hl (hne (by simp)))⟩

end parser

/-! ## The parsing methods return -/

namespace parser
open ast lexer

theorem Derives.length_lt {g : Goal} {fuel : Nat} {ts : List Tok} {r : Res} {ts' : List Tok}
    (h : Derives g fuel ts r ts') (hg : g ≠ .ops) : ts'.length < ts.length := by
  obtain ⟨pre, hpre, hne, _⟩ := h.frame
  have := List.length_pos.mpr (hne hg)
  rw [hpre, List.length_append]
  omega

theorem Derives.length_le {g : Goal} {fuel : Nat} {ts : List Tok} {r : Res} {ts' : List Tok}
    (h : Derives g fuel ts r ts') : ts'.length ≤ ts.length := by
  obtain ⟨pre, hpre, _, _⟩ := h.frame
  rw [hpre, List.length_append]
  omega

/-- Reading a token other than `EOF` takes one token off the stream. -/
theorem read_shrinks (u : unicode.Tables) (p : Parser) (hp : p.Consistent u)
    (hne : (p.readToken u).1.tokenType ≠ .EOF) :
    ((p.readToken u).2.stream u).length + 1 = (p.stream u).length := by
  have := stream_cons_of_read u p hp _ rfl hne
  rw [this]
  simp

theorem total_item (u : unicode.Tables) (fuel n : Nat) (hf : 1 ≤ fuel) :
    Terminates u (parseItem u fuel) n := by
  intro p _ _
  obtain ⟨k, rfl⟩ : ∃ k, fuel = k + 1 := ⟨fuel - 1, by omega⟩
  simp only [parseItem]
  split <;> rfl

theorem total_assign_step (u : unicode.Tables) (n : Nat)
    (ihE : ∀ m, m < n → ∀ f, 4 * m + 8 ≤ f → Terminates u (parseExpr u f) m)
    (fuel : Nat) (hf : 4 * n + 5 ≤ fuel) : Terminates u (parseAssign u fuel) n := by
  intro p hp hn
  obtain ⟨k, rfl⟩ : ∃ k, fuel = k + 1 := ⟨fuel - 1, by omega⟩
  simp only [parseAssign]
  split
  · rfl
  · rename_i hty
    have hty' : (p.readToken u).1.tokenType = .ASSIGN := not_not.mp hty
    have hs := read_shrinks u p hp (by rw [hty']; decide)
    exact ihE (n - 1) (by omega) k (by omega) _ (readToken_consistent u p) (by omega)

theorem total_set_step (u : unicode.Tables) (n : Nat)
    (ihA : ∀ m, m < n → ∀ f, 4 * m + 5 ≤ f → Terminates u (parseAssign u f) m)
    (fuel : Nat) (hf : 4 * n + 6 ≤ fuel) : Terminates u (parseSet u fuel) n := by
  intro p hp hn
  obtain ⟨k, rfl⟩ : ∃ k, fuel = k + 1 := ⟨fuel - 1, by omega⟩
  simp only [parseSet]
  split
  · rfl
  · rename_i hty
    have hty' : (p.readToken u).1.tokenType = .SET := not_not.mp hty
    have hs := read_shrinks u p hp (by rw [hty']; decide)
    split
    · have hc := peekToken_consistent u _ (readToken_consistent u p)
      have hst := peekToken_stream u (p.readToken u).2
      have := ihA (n - 1) (by omega) k (by omega) _ hc (by rw [hst]; omega)
      cases hA : parseAssign u k ((p.readToken u).2.peekToken u).2 with
      | none => rw [hA] at this; exact absurd this (by simp)
      | some rp =>
        obtain ⟨res, p1⟩ := rp
        cases res <;> rfl
    · rfl

theorem total_inline_step (u : unicode.Tables) (n : Nat)
    (ihL : ∀ m, m < n → ∀ f, 4 * m + 9 ≤ f → ∀ items,
      Terminates u (fun p => parseInlineSetLoop u f p items) m)
    (fuel : Nat) (hf : 4 * n + 6 ≤ fuel) : Terminates u (parseInlineSet u fuel) n := by
  intro p hp hn
  obtain ⟨k, rfl⟩ : ∃ k, fuel = k + 1 := ⟨fuel - 1, by omega⟩
  simp only [parseInlineSet]
  split
  · rfl
  · rename_i hty
    have hty' : (p.readToken u).1.tokenType = .SET_OPEN := not_not.mp hty
    have hs := read_shrinks u p hp (by rw [hty']; decide)
    exact ihL (n - 1) (by omega) k (by omega) [] _ (readToken_consistent u p) (by omega)

theorem total_primary_step (u : unicode.Tables) (n : Nat)
    (ihS : ∀ f, 4 * n + 6 ≤ f → Terminates u (parseSet u f) n)
    (ihI : ∀ f, 4 * n + 6 ≤ f → Terminates u (parseInlineSet u f) n)
    (fuel : Nat) (hf : 4 * n + 7 ≤ fuel) : Terminates u (parseExprPrimary u fuel) n := by
  intro p hp hn
  obtain ⟨k, rfl⟩ : ∃ k, fuel = k + 1 := ⟨fuel - 1, by omega⟩
  have hc := peekToken_consistent u p hp
  have hst := peekToken_stream u p
  simp only [parseExprPrimary]
  split
  · exact ihS k (by omega) _ hc (by rw [hst]; exact hn)
  · split
    · exact total_item u k n (by omega) _ hc (by rw [hst]; exact hn)
    · split
      · exact ihI k (by omega) _ hc (by rw [hst]; exact hn)
      · rfl

end parser

namespace parser
open ast lexer

theorem total_ops_step (u : unicode.Tables) (n : Nat)
    (ihP : ∀ m, m < n → ∀ f, 4 * m + 7 ≤ f → Terminates u (parseExprPrimary u f) m)
    (ihO : ∀ m, m < n → ∀ f, 4 * m + 4 ≤ f → ∀ LHS,
      Terminates u (fun p => parseExprBinOpRHS u f 0 LHS p) m)
    (fuel : Nat) (hf : 4 * n + 4 ≤ fuel) (LHS : Node) :
    Terminates u (fun p => parseExprBinOpRHS u fuel 0 LHS p) n := by
  intro p hp hn
  obtain ⟨k, rfl⟩ : ∃ k, fuel = k + 1 := ⟨fuel - 1, by omega⟩
  have hc := peekToken_consistent u p hp
  have hst := peekToken_stream u p
  show (parseExprBinOpRHS u (k + 1) 0 LHS p).isSome = true
  rw [parseExprBinOpRHS]
  dsimp only
  split
  · rfl
  · rename_i hprec
    have hbin : isBinop (p.peekToken u).1.Type = true := by
      cases hb : isBinop (p.peekToken u).1.Type with
      | true => rfl
      | false => exact absurd ((getTokenPrecedence_lt_zero _).mpr hb) hprec
    have hne : ((p.peekToken u).2.readToken u).1.tokenType ≠ .EOF := by
      rw [readToken_fst, peekToken_idem]
      exact isBinop_ne_EOF _ hbin
    have hs := read_shrinks u _ hc hne
    rw [hst] at hs
    have hcr := readToken_consistent u (p.peekToken u).2
    have hP := ihP (n - 1) (by omega) k (by omega) _ hcr (by omega)
    cases hE : parseExprPrimary u k ((p.peekToken u).2.readToken u).2 with
    | none => rw [hE] at hP; exact absurd hP (by simp)
    | some rp =>
      obtain ⟨res, p1⟩ := rp
      cases res with
      | error err => rfl
      | ok RHS =>
        obtain ⟨hd, hc1⟩ := (sound u k).2.1 _ _ _ hcr hE
        have hlt := hd.length_lt (by simp)
        have hle := getTokenPrecedence_le (p1.peekToken u).1.Type
        have hprec10 := getTokenPrecedence_of_isBinop _ hbin
        have hnlt : ¬ getTokenPrecedence (p.peekToken u).1.Type <
            getTokenPrecedence (p1.peekToken u).1.Type := by
          rw [hprec10]; omega
        dsimp only
        rw [if_neg hnlt]
        exact ihO (n - 2) (by omega) k (by omega) _ _ (peekToken_consistent u p1 hc1)
          (by rw [peekToken_stream]; omega)

theorem total_expr_step (u : unicode.Tables) (n : Nat)
    (ihP : ∀ f, 4 * n + 7 ≤ f → Terminates u (parseExprPrimary u f) n)
    (ihO : ∀ m, m < n → ∀ f, 4 * m + 4 ≤ f → ∀ LHS,
      Terminates u (fun p => parseExprBinOpRHS u f 0 LHS p) m)
    (fuel : Nat) (hf : 4 * n + 8 ≤ fuel) : Terminates u (parseExpr u fuel) n := by
  intro p hp hn
  obtain ⟨k, rfl⟩ : ∃ k, fuel = k + 1 := ⟨fuel - 1, by omega⟩
  simp only [parseExpr]
  have hP := ihP k (by omega) p hp hn
  cases hE : parseExprPrimary u k p with
  | none => rw [hE] at hP; exact absurd hP (by simp)
  | some rp =>
    obtain ⟨res, p1⟩ := rp
    cases res with
    | error err => rfl
    | ok lhs =>
      obtain ⟨hd, hc1⟩ := (sound u k).2.1 _ _ _ hp hE
      have hlt := hd.length_lt (by simp)
      exact ihO (n - 1) (by omega) k (by omega) lhs p1 hc1 (by omega)

theorem total_loop_step (u : unicode.Tables) (n : Nat)
    (ihE : ∀ f, 4 * n + 8 ≤ f → Terminates u (parseExpr u f) n)
    (ihL : ∀ m, m < n → ∀ f, 4 * m + 9 ≤ f → ∀ items,
      Terminates u (fun p => parseInlineSetLoop u f p items) m)
    (fuel : Nat) (hf : 4 * n + 9 ≤ fuel) (items : List Node) :
    Terminates u (fun p => parseInlineSetLoop u fuel p items) n := by
  intro p hp hn
  obtain ⟨k, rfl⟩ : ∃ k, fuel = k + 1 := ⟨fuel - 1, by omega⟩
  have hc := peekToken_consistent u p hp
  have hst := peekToken_stream u p
  show (parseInlineSetLoop u (k + 1) p items).isSome = true
  simp only [parseInlineSetLoop]
  split
  · split <;> rfl
  · have hP := ihE k (by omega) _ hc (by rw [hst]; exact hn)
    cases hE : parseExpr u k (p.peekToken u).2 with
    | none => rw [hE] at hP; exact absurd hP (by simp)
    | some rp =>
      obtain ⟨res, p1⟩ := rp
      cases res with
      | error err => rfl
      | ok item =>
        obtain ⟨hd, hc1⟩ := (sound u k).1 _ _ _ hc hE
        have hlt := hd.length_lt (by simp)
        rw [hst] at hlt
        have hc2 := peekToken_consistent u p1 hc1
        have hst2 := peekToken_stream u p1
        simp only
        split
        · split
          · rfl
          · exact ihL (n - 1) (by omega) k (by omega) _ _ (readToken_consistent u _)
              (by
                have := readToken_stream u _ hc2
                rw [this, List.length_tail, hst2]
                omega)
        · exact ihL (n - 1) (by omega) k (by omega) _ _ hc2 (by rw [hst2]; omega)

end parser

namespace parser
open ast lexer

theorem tokensFuel_length (u : unicode.Tables) (n : Nat) (rs : List Char) :
    (tokensFuel u n rs).length ≤ n := by
  induction n generalizing rs with
  | zero => simp [tokensFuel]
  | succ n ih =>
    rw [tokensFuel]
    split
    · simp
    · simp only [List.length_cons]
      have := ih (lexTok u rs).2
      omega

/-- The lexer yields at most one token for every rune. -/
theorem tokensOf_length (u : unicode.Tables) (rs : List Char) :
    (tokensOf u rs).length ≤ rs.length :=
  tokensFuel_length u rs.length rs

/-- Every parsing method returns once the fuel covers the tokens left. -/
theorem total (u : unicode.Tables) (n : Nat) :
    (∀ f, 4 * n + 8 ≤ f → Terminates u (parseExpr u f) n) ∧
    (∀ f, 4 * n + 7 ≤ f → Terminates u (parseExprPrimary u f) n) ∧
    (∀ f, 4 * n + 6 ≤ f → Terminates u (parseSet u f) n) ∧
    (∀ f, 4 * n + 5 ≤ f → Terminates u (parseAssign u f) n) ∧
    (∀ f, 4 * n + 6 ≤ f → Terminates u (parseInlineSet u f) n) ∧
    (∀ f, 4 * n + 9 ≤ f → ∀ items, Terminates u (fun p => parseInlineSetLoop u f p items) n) ∧
    (∀ f, 4 * n + 4 ≤ f → ∀ LHS, Terminates u (fun p => parseExprBinOpRHS u f 0 LHS p) n) := by
  refine Nat.strong_induction_on n ?_
  intro n ih
  have hA := total_assign_step u n (fun m hm => (ih m hm).1)
  have hS := total_set_step u n (fun m hm => (ih m hm).2.2.2.1)
  have hI := total_inline_step u n (fun m hm => (ih m hm).2.2.2.2.2.1)
  have hP := total_primary_step u n hS hI
  have hO := total_ops_step u n (fun m hm => (ih m hm).2.1) (fun m hm => (ih m hm).2.2.2.2.2.2)
  have hE := total_expr_step u n hP (fun m hm => (ih m hm).2.2.2.2.2.2)
  have hL := total_loop_step u n hE (fun m hm => (ih m hm).2.2.2.2.2.1)
  exact ⟨hE, hP, hS, hA, hI, hL, hO⟩

/-- `Parse` returns on every input, once the fuel covers its tokens. -/
theorem ParseString_total (u : unicode.Tables) (q : String) (fuel : Nat)
    (hf : 4 * (tokensOf u q.data).length + 8 ≤ fuel) : ∃ r, ParseString u fuel q = some r := by
  have h := (total u (tokensOf u q.data).length).1 fuel hf (NewParser (NewLexer q.data))
    (NewParser_consistent u _) (by rw [NewParser_stream])
  cases hE : parseExpr u fuel (NewParser (NewLexer q.data)) with
  | none => rw [hE] at h; exact absurd h (by simp)
  | some rp =>
    obtain ⟨res, p1⟩ := rp
    cases res with
    | error err => exact ⟨.error err, by simp [ParseString, Parser.Parse, hE]⟩
    | ok t =>
      by_cases hty : (p1.peekToken u).1.Type ≠ .EOF
      · exact ⟨.error (ParseError (p1.peekToken u).1 "expected EOF"),
          by simp [ParseString, Parser.Parse, hE, hty]⟩
      · exact ⟨.ok t, by simp [ParseString, Parser.Parse, hE, hty]⟩

end parser

/-! ## The reference graph of a catalog held in memory -/

namespace setdb
open ast lexer

theorem memory_Pattern (cat : Catalog) (name : String) :
    memoryDatabase.backend.Pattern cat name =
      (match stored cat name with
        | some p => .ok p
        | none => .error ("set " ++ name ++ " does not exist"), cat) := by
  simp only [memoryDatabase, memoryBackend, stored]
  cases cat.find? (fun e => e.1 == name) <;> rfl

theorem find_filter_ne (cat : Catalog) (name n : String) (h : n ≠ name) :
    (cat.filter (fun e => e.1 != name)).find? (fun e => e.1 == n) =
      cat.find? (fun e => e.1 == n) := by
  induction cat with
  | nil => rfl
  | cons e rest ih =>
    by_cases he : e.1 = name
    · have hen : (e.1 == n) = false := by
        rw [beq_eq_false_iff_ne]; intro e'; exact h (e'.symm.trans he)
      have hf : (e.1 != name) = false := by simp [he]
      rw [List.filter_cons, hf, List.find?_cons, hen]
      simpa using ih
    · have hf : (e.1 != name) = true := by simp [he]
      rw [List.filter_cons, hf]
      simp only [if_true, List.find?_cons]
      rw [ih]

theorem stored_persist (cat : Catalog) (name pattern : String) (deps : List String) (n : String) :
    stored ((name, pattern, deps) :: cat.filter (fun e => e.1 != name)) n =
      if n = name then some pattern else stored cat n := by
  by_cases h : n = name
  · subst h
    simp [stored]
  · have hne : (name == n) = false := by
      rw [beq_eq_false_iff_ne]; exact fun e => h e.symm
    rw [if_neg h]
    unfold stored
    rw [List.find?_cons]
    simp only [hne]
    rw [find_filter_ne cat name n h]

theorem memory_Persist (cat : Catalog) (name pattern : String) (deps : List String) :
    memoryDatabase.backend.Persist cat name pattern deps =
      (none, (name, pattern, deps) :: cat.filter (fun e => e.1 != name)) := rfl

/-- On the backend held in memory the closure `setResolver` leaves the catalog
as it is. -/
theorem setResolver_memory (u : unicode.Tables) (fuel : Nat) (cat : Catalog) (name : String)
    (_name : String) (s s' : Resolving Catalog)
    (r : Except (QueryError String) ResolvedSet) (hs : s.backend = cat)
    (h : setResolver u fuel memoryDatabase name _name s = some (r, s')) : s'.backend = cat := by
  unfold setResolver at h
  rw [memory_Pattern] at h
  split at h
  · simp only [Option.some.injEq, Prod.mk.injEq] at h
    rw [← h.2]; exact hs
  · simp only at h
    split at h
    · simp only [Option.some.injEq, Prod.mk.injEq] at h
      rw [← h.2]; exact hs
    · split at h
      · simp at h
      · simp only [Option.some.injEq, Prod.mk.injEq] at h
        rw [← h.2]; exact hs
      · simp only [Option.some.injEq, Prod.mk.injEq] at h
        rw [← h.2]; exact hs

theorem Evaluate_memory (u : unicode.Tables) (fuel : Nat) (cat : Catalog) (name : String)
    (k : Nat) (n : Node) (s s' : Resolving Catalog)
    (r : Except (Failure (QueryError String)) sets.Set) (hs : s.backend = cat)
    (h : n.Evaluate (setResolver u fuel memoryDatabase name) k s = some (r, s')) :
    s'.backend = cat :=
  Evaluate_invariant (setResolver u fuel memoryDatabase name) (fun s => s.backend = cat)
    (fun _name s r s' hs h => setResolver_memory u fuel cat name _name s s' r hs h)
    k n s r s' hs h

end setdb

namespace setdb
open ast lexer

theorem parse_deterministic (u : unicode.Tables) (p : String) (f1 f2 : Nat) (t1 t2 : Node)
    (h1 : parser.ParseString u f1 p = some (.ok t1))
    (h2 : parser.ParseString u f2 p = some (.ok t2)) : t1 = t2 := by
  have a := parser.ParseString_mono u (Nat.le_max_left f1 f2) _ _ h1
  have b := parser.ParseString_mono u (Nat.le_max_right f1 f2) _ _ h2
  rw [a] at b
  simpa using b

theorem Safe.concat {u : unicode.Tables} {cat : Catalog} {name : String} {a b : List String}
    (ha : Safe u cat name a) (hb : Safe u cat name b) : Safe u cat name (a ++ b) := by
  intro m0 hm0
  rcases List.mem_append.mp hm0 with h | h
  · exact ha m0 h
  · exact hb m0 h

theorem Safe.none (u : unicode.Tables) (cat : Catalog) (name : String) : Safe u cat name [] := by
  intro m0 hm0
  simp at hm0

theorem evaluateItems_safe (u : unicode.Tables) (fuel : Nat) (cat : Catalog) (name : String)
    (k : Nat)
    (ih : ∀ (t : Node) (s s' : Resolving Catalog) (res : sets.Set), s.backend = cat →
      t.Evaluate (setResolver u fuel memoryDatabase name) k s = some (.ok res, s') →
      Safe u cat name t.refs) :
    ∀ (items : List Node) (acc : List sets.Set) (s s' : Resolving Catalog)
      (res : List sets.Set), s.backend = cat →
      evaluateItems (Node.Evaluate (setResolver u fuel memoryDatabase name) k) items acc s =
        some (.ok res, s') →
      Safe u cat name (refsItems items) := by
  intro items
  induction items with
  | nil => intro acc s s' res _ _; exact Safe.none u cat name
  | cons item rest ihr =>
    intro acc s s' res hs h
    simp only [evaluateItems] at h
    cases hE : Node.Evaluate (setResolver u fuel memoryDatabase name) k item s with
    | none => simp [hE] at h
    | some rp =>
      obtain ⟨r1, s1⟩ := rp
      rw [hE] at h
      cases r1 with
      | error e => simp at h
      | ok results =>
        simp only at h
        have hs1 := Evaluate_memory u fuel cat name k item s s1 _ hs hE
        rw [refsItems]
        exact Safe.concat (ih item s s1 results hs hE) (ihr _ s1 _ res hs1 h)

/-- After a successful evaluation on the catalog `cat` with the assigned name
`name`, no name reached from the references of the node is `name`, and every such
name has an entry. -/
theorem Evaluate_safe (u : unicode.Tables) (fuel : Nat) (cat : Catalog) (name : String) :
    ∀ (k : Nat) (t : Node) (s s' : Resolving Catalog) (res : sets.Set), s.backend = cat →
      t.Evaluate (setResolver u fuel memoryDatabase name) k s = some (.ok res, s') →
      Safe u cat name t.refs := by
  intro k
  induction k with
  | zero => intro t s s' res _ h; simp [Node.Evaluate] at h
  | succ k ih =>
    intro t s s' res hs h
    cases t with
    | AssignExpr Name Expr =>
      simp only [Node.Evaluate] at h
      rw [Node.refs]
      exact ih _ _ _ _ hs h
    | BinaryExpr Operator LHS RHS =>
      simp only [Node.Evaluate] at h
      cases hop : binaryOp Operator with
      | none => simp [hop] at h
      | some op =>
        simp only [hop] at h
        cases hL : Node.Evaluate (setResolver u fuel memoryDatabase name) k LHS s with
        | none => simp [hL] at h
        | some rp =>
          obtain ⟨r1, s1⟩ := rp
          rw [hL] at h
          cases r1 with
          | error e => simp at h
          | ok lhs =>
            simp only at h
            have hs1 := Evaluate_memory u fuel cat name k LHS s s1 _ hs hL
            cases hR : Node.Evaluate (setResolver u fuel memoryDatabase name) k RHS s1 with
            | none => simp [hR] at h
            | some rp2 =>
              obtain ⟨r2, s2⟩ := rp2
              rw [hR] at h
              cases r2 with
              | error e => simp at h
              | ok rhs =>
                rw [Node.refs]
                exact Safe.concat (ih _ _ _ _ hs hL) (ih _ _ _ _ hs1 hR)
    | Set Name items =>
      simp only [Node.Evaluate] at h
      by_cases hN : Name ≠ ""
      · rw [if_pos hN] at h
        cases hc : setResolver u fuel memoryDatabase name Name s with
        | none => simp [hc] at h
        | some rp =>
          obtain ⟨r1, s1⟩ := rp
          rw [hc] at h
          cases r1 with
          | error e => simp at h
          | ok resolvedSet =>
            simp only at h
            obtain ⟨hne, pattern, hpat, hparse, _, _⟩ :=
              setResolver_ok u fuel memoryDatabase name Name s resolvedSet s1 hc
            have hs1 := setResolver_memory u fuel cat name Name s s1 _ hs hc
            rw [memory_Pattern, hs] at hpat
            have hst : stored cat Name = some pattern := by
              cases hsc : stored cat Name with
              | none => rw [hsc] at hpat; simp at hpat
              | some p =>
                rw [hsc] at hpat
                simp only [Prod.mk.injEq, Except.ok.injEq] at hpat
                rw [hpat.1]
            have hin := ih _ _ _ _ hs1 h
            rw [Node.refs, if_pos hN]
            intro m0 hm0 m hreach
            simp only [List.mem_singleton] at hm0
            subst hm0
            rcases Relation.ReflTransGen.cases_head hreach with heq | ⟨c, hedge, hrest⟩
            · subst heq
              exact ⟨fun e => hne e.symm, by rw [hst]; rfl⟩
            · obtain ⟨p', f', t', hst', hparse', hc'⟩ := hedge
              rw [hst] at hst'
              simp only [Option.some.injEq] at hst'
              subst hst'
              have := parse_deterministic u _ _ _ _ _ hparse hparse'
              rw [← this] at hc'
              exact hin c hc' m hrest
      · rw [if_neg hN] at h
        cases hE : evaluateItems (Node.Evaluate (setResolver u fuel memoryDatabase name) k)
            items [] s with
        | none => simp [hE] at h
        | some rp =>
          obtain ⟨r1, s1⟩ := rp
          rw [hE] at h
          cases r1 with
          | error e => simp at h
          | ok resolvedSets =>
            rw [Node.refs, if_neg hN]
            exact evaluateItems_safe u fuel cat name k ih _ _ _ _ _ hs hE
    | Item Name =>
      rw [Node.refs]
      exact Safe.none u cat name

end setdb

namespace parser
open ast lexer

/-- A derivation of an assignment at the root is a derivation of its expression
from the tokens after the name and `=`. -/
theorem Derives.assign_inv {fuel : Nat} {ts : List Tok} {name : String} {e : Node}
    (h : Derives .expr fuel ts (.one (.AssignExpr name e)) []) :
    ∃ f v ts0, ts = (.SET, name) :: (.ASSIGN, v) :: ts0 ∧ f ≤ fuel ∧
      Derives .expr f ts0 (.one e) [] := by
  generalize hr : Res.one (.AssignExpr name e) = r at h
  cases h with
  | expr f _ lhs ts1 pairs _ h1 h2 =>
    simp only [Res.one.injEq] at hr
    obtain ⟨hp, hl⟩ := build_eq_assign lhs pairs name e hr.symm
    subst hp hl
    cases h2 with
    | opsDone _ _ _ =>
      cases h1 with
      | primarySet _ _ _ _ hs =>
        cases hs with
        | setAssign _ _ _ _ _ _ he =>
          cases he with
          | assign f0 v ts0 _ _ hx => exact ⟨f0, v, ts0, rfl, by omega, hx⟩
      | primaryItem _ _ _ _ hs => cases hs
      | primaryInline _ _ _ _ hs => cases hs

/-- The text stored for an assignment parses to the expression that was
evaluated. -/
theorem assigned_roundtrip (u : unicode.Tables) (fuel : Nat) (q : String) (name : String)
    (e : Node) (h : ParseString u fuel q = some (.ok (.AssignExpr name e))) :
    ParseString u fuel e.ToQuery = some (.ok e) := by
  have hd := (ParseString_ok_iff u fuel q _).mp h
  have hok := streamOK_tokensOf u q.data
  obtain ⟨f, v, ts0, hts, hle, hx⟩ := hd.assign_inv
  rw [hts] at hok
  have hok0 : StreamOK u ts0 := hok.2.2
  have hre := hx.reparse u hok0 [] (Follows.refl [])
  have hlex := hx.relex u hok0 [] (Delim.nil u) (fun hne => absurd rfl hne)
  simp only [List.append_nil, tokensOf_nil] at hre hlex
  rw [ParseString_ok_iff, hlex]
  exact hre.mono_le hle

end parser

namespace setdb
open ast lexer

/-- The part of `Query` that follows parsing: the state of the backend is the one
the evaluation left, or the evaluation succeeded and `Persist` was called on it. -/
theorem Query_tail_backend {σ β : Type} (u : unicode.Tables) (fuel : Nat) (db : Database σ β)
    (st : σ) (name : String) (expr : Node) (out : Queried σ β)
    (h : (match expr.Evaluate (setResolver u fuel db name) fuel
          { backend := st, dependencies := [], calls := [] } with
      | none => none
      | some (.error e, s) => some { result := .error e, backend := s.backend, calls := s.calls }
      | some (.ok resultset, s) =>
        if name ≠ "" then
          match (db.backend.Persist s.backend name expr.ToQuery s.dependencies).1 with
          | some err =>
            some { result := .error (.error (.backend err)),
                   backend := (db.backend.Persist s.backend name expr.ToQuery s.dependencies).2,
                   calls := s.calls ++ [.Persist name expr.ToQuery s.dependencies] }
          | none =>
            some { result := .ok { items := resultset, name := name, patternAST := expr,
                                   dependsOn := s.dependencies },
                   backend := (db.backend.Persist s.backend name expr.ToQuery s.dependencies).2,
                   calls := s.calls ++ [.Persist name expr.ToQuery s.dependencies] }
        else
          some { result := .ok { items := resultset, name := name, patternAST := expr,
                                 dependsOn := s.dependencies },
                 backend := s.backend, calls := s.calls }) = some out) :
    ∃ r s, expr.Evaluate (setResolver u fuel db name) fuel
        { backend := st, dependencies := [], calls := [] } = some (r, s) ∧
      (out.backend = s.backend ∨
        (name ≠ "" ∧ (∃ res, r = .ok res) ∧
          out.backend = (db.backend.Persist s.backend name expr.ToQuery s.dependencies).2)) := by
  cases hE : expr.Evaluate (setResolver u fuel db name) fuel
      { backend := st, dependencies := [], calls := [] } with
  | none => simp [hE] at h
  | some rp =>
    obtain ⟨res, r⟩ := rp
    rw [hE] at h
    refine ⟨res, r, rfl, ?_⟩
    cases res with
    | error e =>
      simp only [Option.some.injEq] at h
      subst h
      exact Or.inl rfl
    | ok resultset =>
      simp only at h
      by_cases hn : name ≠ ""
      · rw [if_pos hn] at h
        right
        refine ⟨hn, ⟨resultset, rfl⟩, ?_⟩
        split at h
        · simp only [Option.some.injEq] at h
          subst h
          rfl
        · simp only [Option.some.injEq] at h
          subst h
          rfl
      · rw [if_neg hn] at h
        simp only [Option.some.injEq] at h
        subst h
        exact Or.inl rfl

/-- What a call of `Query` does to the state of the backend. -/
theorem Query_backend {σ β : Type} (u : unicode.Tables) (fuel : Nat) (db : Database σ β)
    (st : σ) (q : String) (out : Queried σ β) (h : db.Query u fuel st q = some out) :
    out.backend = st ∨
      ∃ parsed r s, parser.ParseString u fuel q = some (.ok parsed) ∧
        (assignedExpr parsed).Evaluate (setResolver u fuel db (assignedName parsed)) fuel
          { backend := st, dependencies := [], calls := [] } = some (r, s) ∧
        (out.backend = s.backend ∨
          (assignedName parsed ≠ "" ∧ (∃ res, r = .ok res) ∧
            out.backend = (db.backend.Persist s.backend (assignedName parsed)
              (assignedExpr parsed).ToQuery s.dependencies).2)) := by
  unfold Database.Query at h
  cases hP : parser.ParseString u fuel q with
  | none => simp [hP] at h
  | some pr =>
    rw [hP] at h
    cases pr with
    | error err =>
      simp only [Option.some.injEq] at h
      subst h
      exact Or.inl rfl
    | ok parsed =>
      right
      cases parsed with
      | AssignExpr n e =>
        obtain ⟨r, s, h1, h2⟩ := Query_tail_backend u fuel db st n e out h
        exact ⟨_, r, s, rfl, h1, h2⟩
      | BinaryExpr op l r0 =>
        obtain ⟨r, s, h1, h2⟩ := Query_tail_backend u fuel db st "" (.BinaryExpr op l r0) out h
        exact ⟨_, r, s, rfl, h1, h2⟩
      | Set nm items =>
        obtain ⟨r, s, h1, h2⟩ := Query_tail_backend u fuel db st "" (.Set nm items) out h
        exact ⟨_, r, s, rfl, h1, h2⟩
      | Item nm =>
        obtain ⟨r, s, h1, h2⟩ := Query_tail_backend u fuel db st "" (.Item nm) out h
        exact ⟨_, r, s, rfl, h1, h2⟩

/-- What a call of `Query` does to a catalog held in memory. -/
theorem Query_memory (u : unicode.Tables) (fuel : Nat) (cat : Catalog) (q : String)
    (out : Queried Catalog String) (h : memoryDatabase.Query u fuel cat q = some out) :
    out.backend = cat ∨
      ∃ name e res s deps, name ≠ "" ∧
        parser.ParseString u fuel q = some (.ok (.AssignExpr name e)) ∧
        e.Evaluate (setResolver u fuel memoryDatabase name) fuel
          { backend := cat, dependencies := [], calls := [] } = some (.ok res, s) ∧
        out.backend = (name, e.ToQuery, deps) :: cat.filter (fun x => x.1 != name) := by
  rcases Query_backend u fuel memoryDatabase cat q out h with h1 | ⟨parsed, r, s, hP, hE, h2⟩
  · exact Or.inl h1
  · have hb := Evaluate_memory u fuel cat (assignedName parsed) fuel (assignedExpr parsed) _ s r
      rfl hE
    rcases h2 with h2 | ⟨hn, ⟨res, hr⟩, h3⟩
    · exact Or.inl (h2.trans hb)
    · subst hr
      right
      cases parsed with
      | AssignExpr n e =>
        refine ⟨n, e, res, s, s.dependencies, hn, hP, hE, ?_⟩
        rw [h3, memory_Persist, hb]
        rfl
      | BinaryExpr op l r0 => exact absurd rfl hn
      | Set nm items => exact absurd rfl hn
      | Item nm => exact absurd rfl hn

end setdb

namespace setdb
open ast lexer

/-- Paths of the graph after an update of the node `name` that start at one of its
new successors are paths of the graph before, when no such path reached `name`. -/
theorem path_of_updated {α : Type} (R R' : α → α → Prop) (name : α) (refs : α → Prop)
    (h1 : ∀ n m, n ≠ name → R' n m → R n m)
    (hs : ∀ m0, refs m0 → ∀ m, Relation.ReflTransGen R m0 m → m ≠ name)
    (m0 : α) (hm0 : refs m0) (m : α) (h : Relation.ReflTransGen R' m0 m) :
    Relation.ReflTransGen R m0 m := by
  induction h with
  | refl => exact Relation.ReflTransGen.refl
  | tail _ hbc ih => exact ih.tail (h1 _ _ (hs m0 hm0 _ ih) hbc)

/-- A path of the graph after an update of the node `name` is a path of the graph
before, or it passes through `name` and one of its new successors. -/
theorem path_through_updated {α : Type} (R R' : α → α → Prop) (name : α) (refs : α → Prop)
    (h1 : ∀ n m, n ≠ name → R' n m → R n m) (h2 : ∀ m, R' name m → refs m)
    (a b : α) (h : Relation.TransGen R' a b) :
    Relation.TransGen R a b ∨
      ∃ m1, refs m1 ∧ Relation.ReflTransGen R' m1 b ∧ Relation.ReflTransGen R' a name := by
  induction h with
  | single hab =>
    by_cases ha : a = name
    · subst ha
      exact Or.inr ⟨_, h2 _ hab, Relation.ReflTransGen.refl, Relation.ReflTransGen.refl⟩
    · exact Or.inl (Relation.TransGen.single (h1 _ _ ha hab))
  | tail hab hbc ih =>
    rename_i b c
    rcases ih with ih | ⟨m1, hm1, hp, hq⟩
    · by_cases hb : b = name
      · subst hb
        exact Or.inr ⟨_, h2 _ hbc, Relation.ReflTransGen.refl, hab.to_reflTransGen⟩
      · exact Or.inl (ih.tail (h1 _ _ hb hbc))
    · exact Or.inr ⟨m1, hm1, hp.tail hbc, hq⟩

/-- An update of the successors of one node keeps the graph acyclic when no path
from a new successor reached the node before. -/
theorem acyclic_of_updated {α : Type} (R R' : α → α → Prop) (name : α) (refs : α → Prop)
    (h1 : ∀ n m, n ≠ name → R' n m → R n m) (h2 : ∀ m, R' name m → refs m)
    (hs : ∀ m0, refs m0 → ∀ m, Relation.ReflTransGen R m0 m → m ≠ name)
    (hA : ∀ n, ¬ Relation.TransGen R n n) (n : α) : ¬ Relation.TransGen R' n n := by
  intro h
  rcases path_through_updated R R' name refs h1 h2 n n h with h | ⟨m1, hm1, hp, hq⟩
  · exact hA n h
  · exact hs m1 hm1 name (path_of_updated R R' name refs h1 hs m1 hm1 name (hp.trans hq)) rfl

theorem stored_nil (n : String) : stored [] n = none := rfl

theorem Resolvable_nil (u : unicode.Tables) : Resolvable u [] := by
  intro n m h
  obtain ⟨pattern, fuel, t, hs, _⟩ := h
  simp [stored_nil] at hs

theorem Acyclic_nil (u : unicode.Tables) : Acyclic u [] := by
  intro n h
  obtain ⟨c, hc⟩ := (Relation.TransGen.head'_iff).mp h
  obtain ⟨pattern, fuel, t, hs, _⟩ := hc.1
  simp [stored_nil] at hs

/-- The references of a name other than the persisted one are those of before. -/
theorem References_persist_ne (u : unicode.Tables) (cat : Catalog) (name pattern : String)
    (deps : List String) (n m : String) (hn : n ≠ name)
    (h : References u ((name, pattern, deps) :: cat.filter (fun e => e.1 != name)) n m) :
    References u cat n m := by
  obtain ⟨p, fuel, t, hs, hp, hm⟩ := h
  rw [stored_persist, if_neg hn] at hs
  exact ⟨p, fuel, t, hs, hp, hm⟩

/-- The references of the persisted name are those of the persisted expression. -/
theorem References_persist_eq (u : unicode.Tables) (cat : Catalog) (name : String) (e : Node)
    (deps : List String) (m : String) (f : Nat)
    (hP : parser.ParseString u f e.ToQuery = some (.ok e))
    (h : References u ((name, e.ToQuery, deps) :: cat.filter (fun x => x.1 != name)) name m) :
    m ∈ e.refs := by
  obtain ⟨p, fuel, t, hs, hp, hm⟩ := h
  rw [stored_persist, if_pos rfl] at hs
  simp only [Option.some.injEq] at hs
  subst hs
  rw [parse_deterministic u _ _ _ _ _ hP hp]
  exact hm

/-- Persisting an expression whose references are safe keeps the catalog
resolvable and acyclic. -/
theorem persist_keeps (u : unicode.Tables) (cat : Catalog) (name : String) (e : Node)
    (deps : List String) (f : Nat) (hP : parser.ParseString u f e.ToQuery = some (.ok e))
    (hS : Safe u cat name e.refs) (hR : Resolvable u cat) (hA : Acyclic u cat) :
    Resolvable u ((name, e.ToQuery, deps) :: cat.filter (fun x => x.1 != name)) ∧
      Acyclic u ((name, e.ToQuery, deps) :: cat.filter (fun x => x.1 != name)) := by
  constructor
  · intro n m h
    rw [stored_persist]
    by_cases hm : m = name
    · rw [if_pos hm]; rfl
    · rw [if_neg hm]
      by_cases hn : n = name
      · subst hn
        have := References_persist_eq u cat n e deps m f hP h
        exact (hS m this m Relation.ReflTransGen.refl).2
      · exact hR n m (References_persist_ne u cat name _ deps n m hn h)
  · exact acyclic_of_updated (References u cat) _ name (fun m => m ∈ e.refs)
      (fun n m hn h => References_persist_ne u cat name _ deps n m hn h)
      (fun m h => References_persist_eq u cat name e deps m f hP h)
      (fun m0 hm0 m h => (hS m0 hm0 m h).1) hA

/-- A call of `Query` keeps the catalog resolvable and acyclic. -/
theorem Query_keeps (u : unicode.Tables) (fuel : Nat) (cat : Catalog) (q : String)
    (out : Queried Catalog String) (hR : Resolvable u cat) (hA : Acyclic u cat)
    (h : memoryDatabase.Query u fuel cat q = some out) :
    Resolvable u out.backend ∧ Acyclic u out.backend := by
  rcases Query_memory u fuel cat q out h with hb | ⟨name, e, res, s, deps, hn, hP, hE, hb⟩
  · rw [hb]; exact ⟨hR, hA⟩
  · rw [hb]
    exact persist_keeps u cat name e deps fuel (parser.assigned_roundtrip u fuel q name e hP)
      (Evaluate_safe u fuel cat name fuel e _ s res rfl hE) hR hA

/-- A sequence of calls of `Query` keeps the catalog resolvable and acyclic. -/
theorem runQueries_keeps (u : unicode.Tables) :
    ∀ (qs : List (Nat × String)) (cat cat1 : Catalog), Resolvable u cat → Acyclic u cat →
      runQueries u qs cat = some cat1 → Resolvable u cat1 ∧ Acyclic u cat1 := by
  intro qs
  induction qs with
  | nil =>
    intro cat cat1 hR hA h
    simp only [runQueries, Option.some.injEq] at h
    subst h
    exact ⟨hR, hA⟩
  | cons x rest ih =>
    intro cat cat1 hR hA h
    obtain ⟨fuel, q⟩ := x
    simp only [runQueries] at h
    cases hQ : memoryDatabase.Query u fuel cat q with
    | none => simp [hQ] at h
    | some out =>
      rw [hQ] at h
      obtain ⟨hR1, hA1⟩ := Query_keeps u fuel cat q out hR hA hQ
      exact ih _ _ hR1 hA1 h

end setdb

/-! ## The calls of `Persist` and the state of the backend -/

namespace setdb
open ast lexer

theorem replay_append {σ β : Type} (db : Database σ β) :
    ∀ (a b : List BackendCall) (st : σ), replay db st (a ++ b) = replay db (replay db st a) b := by
  intro a
  induction a with
  | nil => intro b st; rfl
  | cons c rest ih =>
    intro b st
    cases c with
    | Pattern name => exact ih b _
    | Persist name pattern deps => exact ih b _

/-- The closure `setResolver` leaves the backend in the state that the calls it
recorded lead to. -/
theorem setResolver_replay {σ β : Type} (u : unicode.Tables) (fuel : Nat)
    (db : Database σ β) (st : σ) (name : String) (_name : String) (s : Resolving σ)
    (r : Except (QueryError β) ResolvedSet) (s' : Resolving σ)
    (hs : s.backend = replay db st s.calls)
    (h : setResolver u fuel db name _name s = some (r, s')) :
    s'.backend = replay db st s'.calls := by
  have hs1 : (db.backend.Pattern s.backend _name).2 =
      replay db st (s.calls ++ [.Pattern _name]) := by
    rw [replay_append, ← hs]; rfl
  unfold setResolver at h
  split at h
  · simp only [Option.some.injEq, Prod.mk.injEq] at h
    exact h.2 ▸ hs
  · simp only at h
    split at h
    · simp only [Option.some.injEq, Prod.mk.injEq] at h
      exact h.2 ▸ hs1
    · split at h
      · simp at h
      · simp only [Option.some.injEq, Prod.mk.injEq] at h
        exact h.2 ▸ hs1
      · simp only [Option.some.injEq, Prod.mk.injEq] at h
        exact h.2 ▸ hs1

/-- Evaluation with `setResolver` leaves the backend in the state that the calls
it recorded lead to. -/
theorem Evaluate_replay {σ β : Type} (u : unicode.Tables) (fuel : Nat)
    (db : Database σ β) (st : σ) (name : String) (k : Nat) (n : Node) (s : Resolving σ)
    (r : Except (Failure (QueryError β)) sets.Set) (s' : Resolving σ)
    (hs : s.backend = replay db st s.calls)
    (h : n.Evaluate (setResolver u fuel db name) k s = some (r, s')) :
    s'.backend = replay db st s'.calls :=
  Evaluate_invariant (setResolver u fuel db name) (fun s => s.backend = replay db st s.calls)
    (fun _name s r s' hs h => setResolver_replay u fuel db st name _name s r s' hs h)
    k n s r s' hs h

/-- The part of `Query` that follows parsing: the backend is left in the state
that the recorded calls lead to, and after a successful evaluation under a name
the state and the result are those of the call of `Persist`. -/
theorem Query_tail_applied {σ β : Type} (u : unicode.Tables) (fuel : Nat) (db : Database σ β)
    (st : σ) (name : String) (expr : Node) (out : Queried σ β)
    (h : (match expr.Evaluate (setResolver u fuel db name) fuel
          { backend := st, dependencies := [], calls := [] } with
      | none => none
      | some (.error e, s) => some { result := .error e, backend := s.backend, calls := s.calls }
      | some (.ok resultset, s) =>
        if name ≠ "" then
          match (db.backend.Persist s.backend name expr.ToQuery s.dependencies).1 with
          | some err =>
            some { result := .error (.error (.backend err)),
                   backend := (db.backend.Persist s.backend name expr.ToQuery s.dependencies).2,
                   calls := s.calls ++ [.Persist name expr.ToQuery s.dependencies] }
          | none =>
            some { result := .ok { items := resultset, name := name, patternAST := expr,
                                   dependsOn := s.dependencies },
                   backend := (db.backend.Persist s.backend name expr.ToQuery s.dependencies).2,
                   calls := s.calls ++ [.Persist name expr.ToQuery s.dependencies] }
        else
          some { result := .ok { items := resultset, name := name, patternAST := expr,
                                 dependsOn := s.dependencies },
                 backend := s.backend, calls := s.calls }) = some out) :
    out.backend = replay db st out.calls ∧
    (∀ items s, expr.Evaluate (setResolver u fuel db name) fuel
        { backend := st, dependencies := [], calls := [] } = some (.ok items, s) → name ≠ "" →
      out.backend = (db.backend.Persist s.backend name expr.ToQuery s.dependencies).2 ∧
      out.result =
        (match (db.backend.Persist s.backend name expr.ToQuery s.dependencies).1 with
          | some err => .error (.error (.backend err))
          | none => .ok { items := items, name := name, patternAST := expr,
                          dependsOn := s.dependencies })) ∧
    (∀ f s, expr.Evaluate (setResolver u fuel db name) fuel
        { backend := st, dependencies := [], calls := [] } = some (.error f, s) →
      out.backend = s.backend ∧ out.result = .error f) := by
  cases hE : expr.Evaluate (setResolver u fuel db name) fuel
      { backend := st, dependencies := [], calls := [] } with
  | none => simp [hE] at h
  | some rp =>
    obtain ⟨res, r⟩ := rp
    have hb := Evaluate_replay u fuel db st name fuel expr _ res r rfl hE
    rw [hE] at h
    cases res with
    | error e =>
      simp only [Option.some.injEq] at h
      subst h
      refine ⟨hb, ?_, ?_⟩
      · intro items s hev; simp at hev
      · intro f s hev
        simp only [Option.some.injEq, Prod.mk.injEq, Except.error.injEq] at hev
        obtain ⟨rfl, rfl⟩ := hev
        exact ⟨rfl, rfl⟩
    | ok resultset =>
      simp only at h
      by_cases hn : name ≠ ""
      · rw [if_pos hn] at h
        have hrep : (db.backend.Persist r.backend name expr.ToQuery r.dependencies).2 =
            replay db st (r.calls ++ [.Persist name expr.ToQuery r.dependencies]) := by
          rw [replay_append, ← hb]; rfl
        refine ⟨?_, ?_, ?_⟩
        · split at h <;> simp only [Option.some.injEq] at h <;> subst h <;> exact hrep
        · intro items s hev _
          simp only [Option.some.injEq, Prod.mk.injEq, Except.ok.injEq] at hev
          obtain ⟨rfl, rfl⟩ := hev
          split at h
          · rename_i err he
            simp only [Option.some.injEq] at h
            subst h
            exact ⟨rfl, by simp only [he]⟩
          · rename_i he
            simp only [Option.some.injEq] at h
            subst h
            exact ⟨rfl, by simp only [he]⟩
        · intro f s hev; simp at hev
      · rw [if_neg hn] at h
        simp only [Option.some.injEq] at h
        subst h
        refine ⟨hb, ?_, ?_⟩
        · intro items s _ hn'; exact absurd hn' hn
        · intro f s hev; simp at hev

/-- What a call of `Query` does to the backend: it is left in the state that the
recorded calls lead to; after a successful evaluation of an assignment the state
and the result are those of the call of `Persist` on the state the evaluation
left. -/
theorem Query_applied {σ β : Type} (u : unicode.Tables) (fuel : Nat) (db : Database σ β)
    (st : σ) (q : String) (out : Queried σ β) (h : db.Query u fuel st q = some out) :
    out.backend = replay db st out.calls ∧
    (∀ name inner items s, parser.ParseString u fuel q = some (.ok (.AssignExpr name inner)) →
      inner.Evaluate (setResolver u fuel db name) fuel
        { backend := st, dependencies := [], calls := [] } = some (.ok items, s) →
      out.backend = (db.backend.Persist s.backend name inner.ToQuery s.dependencies).2 ∧
      out.result =
        (match (db.backend.Persist s.backend name inner.ToQuery s.dependencies).1 with
          | some err => .error (.error (.backend err))
          | none => .ok { items := items, name := name, patternAST := inner,
                          dependsOn := s.dependencies })) := by
  unfold Database.Query at h
  cases hP : parser.ParseString u fuel q with
  | none => simp [hP] at h
  | some pr =>
    have hP0 := hP
    rw [hP] at h
    cases pr with
    | error err =>
      simp only [Option.some.injEq] at h
      subst h
      exact ⟨rfl, fun name inner items s hq => by simp at hq⟩
    | ok parsed =>
      cases parsed with
      | AssignExpr n e =>
        obtain ⟨h1, h2, _⟩ := Query_tail_applied u fuel db st n e out h
        refine ⟨h1, fun name inner items s hq hev => ?_⟩
        simp only [Option.some.injEq, Except.ok.injEq, Node.AssignExpr.injEq] at hq
        obtain ⟨rfl, rfl⟩ := hq
        exact h2 items s hev (parser.ParseString_assign_name_ne u fuel q _ _ hP0)
      | BinaryExpr op l r0 =>
        obtain ⟨h1, _⟩ := Query_tail_applied u fuel db st "" (.BinaryExpr op l r0) out h
        exact ⟨h1, fun name inner items s hq => by simp at hq⟩
      | Set nm items =>
        obtain ⟨h1, _⟩ := Query_tail_applied u fuel db st "" (.Set nm items) out h
        exact ⟨h1, fun name inner items s hq => by simp at hq⟩
      | Item nm =>
        obtain ⟨h1, _⟩ := Query_tail_applied u fuel db st "" (.Item nm) out h
        exact ⟨h1, fun name inner items s hq => by simp at hq⟩

end setdb

/-- The calls of the backend that `Query` records: `Persist` at most once, and
exactly after the successful evaluation of an assignment, as the last call. -/
theorem setdb.Query_calls {σ β : Type} (u : unicode.Tables) (fuel : Nat)
    (db : setdb.Database σ β) (st : σ) (q : String) (out : setdb.Queried σ β)
    (h : db.Query u fuel st q = some out) :
    (out.calls.filter setdb.BackendCall.isPersist).length ≤ 1 ∧
    (∀ name pattern deps, setdb.BackendCall.Persist name pattern deps ∈ out.calls ↔
      ∃ inner items s, parser.ParseString u fuel q = some (.ok (.AssignExpr name inner)) ∧
        inner.Evaluate (setdb.setResolver u fuel db name) fuel
          { backend := st, dependencies := [], calls := [] } = some (.ok items, s) ∧
        pattern = inner.ToQuery ∧ deps = s.dependencies) ∧
    (∀ name inner items s, parser.ParseString u fuel q = some (.ok (.AssignExpr name inner)) →
      inner.Evaluate (setdb.setResolver u fuel db name) fuel
        { backend := st, dependencies := [], calls := [] } = some (.ok items, s) →
      out.calls = s.calls ++ [.Persist name inner.ToQuery s.dependencies]) := by
  unfold setdb.Database.Query at h
  cases hP : parser.ParseString u fuel q with
  | none => simp [hP] at h
  | some r =>
    rw [hP] at h
    cases r with
    | error err =>
      simp only [Option.some.injEq] at h
      subst h
      refine ⟨by simp, fun name pattern deps => ⟨fun hm => by simp at hm, ?_⟩, ?_⟩
      · rintro ⟨inner, items, s, hq, _⟩
        simp at hq
      · intro name inner items s hq
        simp at hq
    | ok parsed =>
      cases parsed with
      | AssignExpr n e =>
        have hn : n ≠ "" := parser.ParseString_assign_name_ne u fuel q n e hP
        simp only at h
        cases hE : e.Evaluate (setdb.setResolver u fuel db n) fuel
            { backend := st, dependencies := [], calls := [] } with
        | none => simp [hE] at h
        | some rp =>
          obtain ⟨res, s⟩ := rp
          have hs := setdb.Evaluate_noPersist u fuel db n fuel e _ res s
            (setdb.NoPersist.initial st) hE
          rw [hE] at h
          cases res with
          | error f =>
            simp only [Option.some.injEq] at h
            subst h
            refine ⟨by simp [setdb.filter_isPersist_of_noPersist _ hs], fun name pattern deps =>
              ⟨fun hm => by simpa [setdb.BackendCall.isPersist] using hs _ hm, ?_⟩, ?_⟩
            · rintro ⟨inner, items, s', hq, hev, _⟩
              simp only [Option.some.injEq, Except.ok.injEq, ast.Node.AssignExpr.injEq] at hq
              obtain ⟨rfl, rfl⟩ := hq
              rw [hE] at hev
              simp at hev
            · intro name inner items s' hq hev
              simp only [Option.some.injEq, Except.ok.injEq, ast.Node.AssignExpr.injEq] at hq
              obtain ⟨rfl, rfl⟩ := hq
              rw [hE] at hev
              simp at hev
          | ok resultset =>
            simp only [if_pos hn] at h
            have hcalls : out.calls = s.calls ++ [.Persist n e.ToQuery s.dependencies] := by
              split at h <;> simp only [Option.some.injEq] at h <;> subst h <;> rfl
            rw [hcalls]
            refine ⟨?_, fun name pattern deps => ⟨fun hm => ?_, ?_⟩, ?_⟩
            · simp [List.filter_append, setdb.filter_isPersist_of_noPersist _ hs,
                setdb.BackendCall.isPersist]
            · simp only [List.mem_append, List.mem_singleton] at hm
              rcases hm with hm | hm
              · exact absurd (hs _ hm) (by simp [setdb.BackendCall.isPersist])
              · simp only [setdb.BackendCall.Persist.injEq] at hm
                obtain ⟨rfl, rfl, rfl⟩ := hm
                exact ⟨e, resultset, s, rfl, hE, rfl, rfl⟩
            · rintro ⟨inner, items, s', hq, hev, rfl, rfl⟩
              simp only [Option.some.injEq, Except.ok.injEq, ast.Node.AssignExpr.injEq] at hq
              obtain ⟨rfl, rfl⟩ := hq
              rw [hE] at hev
              simp only [Option.some.injEq, Prod.mk.injEq, Except.ok.injEq] at hev
              obtain ⟨_, rfl⟩ := hev
              simp
            · intro name inner items s' hq hev
              simp only [Option.some.injEq, Except.ok.injEq, ast.Node.AssignExpr.injEq] at hq
              obtain ⟨rfl, rfl⟩ := hq
              rw [hE] at hev
              simp only [Option.some.injEq, Prod.mk.injEq, Except.ok.injEq] at hev
              obtain ⟨_, rfl⟩ := hev
              rfl
      | BinaryExpr op l r =>
        simp only at h
        cases hE : (ast.Node.BinaryExpr op l r).Evaluate (setdb.setResolver u fuel db "") fuel
            { backend := st, dependencies := [], calls := [] } with
        | none => simp [hE] at h
        | some rp =>
          obtain ⟨res, s⟩ := rp
          have hs := setdb.Evaluate_noPersist u fuel db "" fuel _ _ res s
            (setdb.NoPersist.initial st) hE
          rw [hE] at h
          have hcalls : out.calls = s.calls := by
            cases res <;> simp at h <;> subst h <;> rfl
          rw [hcalls]
          refine ⟨by simp [setdb.filter_isPersist_of_noPersist _ hs], fun name pattern deps =>
            ⟨fun hm => by simpa [setdb.BackendCall.isPersist] using hs _ hm, ?_⟩, ?_⟩
          · rintro ⟨inner, items, s', hq, _⟩
            simp at hq
          · intro name inner items s' hq
            simp at hq
      | Set nm items =>
        simp only at h
        cases hE : (ast.Node.Set nm items).Evaluate (setdb.setResolver u fuel db "") fuel
            { backend := st, dependencies := [], calls := [] } with
        | none => simp [hE] at h
        | some rp =>
          obtain ⟨res, s⟩ := rp
          have hs := setdb.Evaluate_noPersist u fuel db "" fuel _ _ res s
            (setdb.NoPersist.initial st) hE
          rw [hE] at h
          have hcalls : out.calls = s.calls := by
            cases res <;> simp at h <;> subst h <;> rfl
          rw [hcalls]
          refine ⟨by simp [setdb.filter_isPersist_of_noPersist _ hs], fun name pattern deps =>
            ⟨fun hm => by simpa [setdb.BackendCall.isPersist] using hs _ hm, ?_⟩, ?_⟩
          · rintro ⟨inner, items, s', hq, _⟩
            simp at hq
          · intro name inner items' s' hq
            simp at hq
      | Item nm =>
        simp only at h
        cases hE : (ast.Node.Item nm).Evaluate (setdb.setResolver u fuel db "") fuel
            { backend := st, dependencies := [], calls := [] } with
        | none => simp [hE] at h
        | some rp =>
          obtain ⟨res, s⟩ := rp
          have hs := setdb.Evaluate_noPersist u fuel db "" fuel _ _ res s
            (setdb.NoPersist.initial st) hE
          rw [hE] at h
          have hcalls : out.calls = s.calls := by
            cases res <;> simp at h <;> subst h <;> rfl
          rw [hcalls]
          refine ⟨by simp [setdb.filter_isPersist_of_noPersist _ hs], fun name pattern deps =>
            ⟨fun hm => by simpa [setdb.BackendCall.isPersist] using hs _ hm, ?_⟩, ?_⟩
          · rintro ⟨inner, items, s', hq, _⟩
            simp at hq
          · intro name inner items s' hq
            simp at hq

/-! ## Commas in front of closing braces, in any literal -/

namespace parser
open lexer ast

theorem TrailingCommas.headType {prev : TokenType} {a b : List Tok}
    (h : TrailingCommas prev a b) :
    lexer.headType b = lexer.headType a ∨
      (lexer.headType a = .SET_CLOSE ∧ lexer.headType b = .COMMA) := by
  cases h with
  | nil => exact Or.inl rfl
  | keep => exact Or.inl rfl
  | comma => exact Or.inr ⟨rfl, rfl⟩

theorem TrailingCommas.of_nil {prev : TokenType} {b : List Tok}
    (h : TrailingCommas prev [] b) : b = [] := by
  cases h
  rfl

/-- A derivation goes through, with the same result, on the stream that has
commas put in front of closing braces that follow an element. -/
theorem Derives.trailingCommas {g : Goal} {fuel : Nat} {ts : List Tok} {r : Res}
    {ts' : List Tok} (h : Derives g fuel ts r ts') :
    ∀ (prev : TokenType) (ts2 : List Tok), TrailingCommas prev ts ts2 →
      (g = .elems → prev = .COMMA ∨ prev = .SET_OPEN) →
      ∃ prev' ts2', Derives g fuel ts2 r ts2' ∧ TrailingCommas prev' ts' ts2' := by
  induction h with
  | item fuel v ts =>
    intro prev ts2 hL _
    cases hL with
    | keep _ _ _ ts2 h => exact ⟨_, ts2, Derives.item fuel v ts2, h⟩
  | setRef fuel name ts h =>
    intro prev ts2 hL _
    cases hL with
    | keep _ _ _ ts2 hL =>
      refine ⟨_, ts2, Derives.setRef fuel name ts2 (fun hA => ?_), hL⟩
      rcases hL.headType with e | ⟨_, e⟩
      · exact h (e ▸ hA)
      · rw [e] at hA; cases hA
  | setAssign fuel name ts expr ts' h he ih =>
    intro prev ts2 hL _
    cases hL with
    | keep _ _ _ ts2 hL =>
      obtain ⟨prev', ts2', hd, hL'⟩ := ih _ ts2 hL (by simp)
      refine ⟨prev', ts2', Derives.setAssign fuel name ts2 expr ts2' ?_ hd, hL'⟩
      rcases hL.headType with e | ⟨e, _⟩
      · rw [e]; exact h
      · rw [h] at e; cases e
  | assign fuel v ts expr ts' he ih =>
    intro prev ts2 hL _
    cases hL with
    | keep _ _ _ ts2 hL =>
      obtain ⟨prev', ts2', hd, hL'⟩ := ih _ ts2 hL (by simp)
      exact ⟨prev', ts2', Derives.assign fuel v ts2 expr ts2' hd, hL'⟩
  | inlineSet fuel v ts items ts' h ih =>
    intro prev ts2 hL _
    cases hL with
    | keep _ _ _ ts2 hL =>
      obtain ⟨prev', ts2', hd, hL'⟩ := ih _ ts2 hL (fun _ => Or.inr rfl)
      exact ⟨prev', ts2', Derives.inlineSet fuel v ts2 items ts2' hd, hL'⟩
  | elemsClose fuel v ts =>
    intro prev ts2 hL hp
    cases hL with
    | keep _ _ _ ts2 hL => exact ⟨_, ts2, Derives.elemsClose fuel v ts2, hL⟩
    | comma _ _ c _ ts2 hprev hL =>
      rcases hp rfl with e | e <;> subst e <;> simp at hprev
  | elemsComma fuel ts item v ts1 items ts' h1 h2 ih1 ih2 =>
    intro prev ts2 hL _
    obtain ⟨prev1, X, hd1, hL1⟩ := ih1 prev ts2 hL (by simp)
    cases hL1 with
    | keep _ _ _ ts12 hL1 =>
      obtain ⟨prev', ts2', hd2, hL'⟩ := ih2 _ ts12 hL1 (fun _ => Or.inl rfl)
      exact ⟨prev', ts2', Derives.elemsComma fuel ts2 item v ts12 items ts2' hd1 hd2, hL'⟩
  | elemsLast fuel ts item v ts' h1 ih1 =>
    intro prev ts2 hL _
    obtain ⟨prev1, X, hd1, hL1⟩ := ih1 prev ts2 hL (by simp)
    cases hL1 with
    | keep _ _ _ ts2' hL1 =>
      exact ⟨_, ts2', Derives.elemsLast fuel ts2 item v ts2' hd1, hL1⟩
    | comma _ _ c _ ts2' hprev hL1 =>
      obtain ⟨k, rfl⟩ : ∃ k, fuel = k + 1 := ⟨fuel - 1, by have := hd1.fuel_pos; omega⟩
      exact ⟨_, ts2', Derives.elemsComma (k + 1) ts2 item c _ [] ts2' hd1
        (Derives.elemsClose k v ts2'), hL1⟩
  | primarySet fuel ts t ts' h ih =>
    intro prev ts2 hL _
    obtain ⟨prev', ts2', hd, hL'⟩ := ih prev ts2 hL (by simp)
    exact ⟨prev', ts2', Derives.primarySet fuel ts2 t ts2' hd, hL'⟩
  | primaryItem fuel ts t ts' h ih =>
    intro prev ts2 hL _
    obtain ⟨prev', ts2', hd, hL'⟩ := ih prev ts2 hL (by simp)
    exact ⟨prev', ts2', Derives.primaryItem fuel ts2 t ts2' hd, hL'⟩
  | primaryInline fuel ts t ts' h ih =>
    intro prev ts2 hL _
    obtain ⟨prev', ts2', hd, hL'⟩ := ih prev ts2 hL (by simp)
    exact ⟨prev', ts2', Derives.primaryInline fuel ts2 t ts2' hd, hL'⟩
  | opsDone fuel ts h =>
    intro prev ts2 hL _
    refine ⟨prev, ts2, Derives.opsDone fuel ts2 ?_, hL⟩
    rcases hL.headType with e | ⟨_, e⟩
    · rw [e]; exact h
    · rw [e]; rfl
  | opsStep fuel op v ts rhs ts1 pairs ts' hop h1 h2 ih1 ih2 =>
    intro prev ts2 hL _
    cases hL with
    | keep _ _ _ ts2 hL =>
      obtain ⟨prev1, ts12, hd1, hL1⟩ := ih1 _ ts2 hL (by simp)
      obtain ⟨prev', ts2', hd2, hL'⟩ := ih2 _ ts12 hL1 (by simp)
      exact ⟨prev', ts2', Derives.opsStep fuel op v ts2 rhs ts12 pairs ts2' hop hd1 hd2, hL'⟩
    | comma _ _ c _ ts2 hprev hL => simp [isBinop] at hop
  | expr fuel ts lhs ts1 pairs ts' h1 h2 ih1 ih2 =>
    intro prev ts2 hL _
    obtain ⟨prev1, ts12, hd1, hL1⟩ := ih1 prev ts2 hL (by simp)
    obtain ⟨prev', ts2', hd2, hL'⟩ := ih2 _ ts12 hL1 (by simp)
    exact ⟨prev', ts2', Derives.expr fuel ts2 lhs ts12 pairs ts2' hd1 hd2, hL'⟩

/-- A query is parsed to the same node when commas are put in front of closing
braces that follow an element, in any literal of the query. -/
theorem ParseString_trailingCommas (u : unicode.Tables) (q q' : String) (fuel : Nat) (t : Node)
    (hL : TrailingCommas .EOF (tokensOf u q.data) (tokensOf u q'.data))
    (h : ParseString u fuel q = some (.ok t)) : ParseString u fuel q' = some (.ok t) := by
  rw [ParseString_ok_iff] at h ⊢
  obtain ⟨prev', ts2', hd, hL'⟩ := h.trailingCommas .EOF _ hL (by simp)
  rw [hL'.of_nil] at hd
  exact hd

end parser

/-! ## The parsing methods on a bounded stack: what lifts, and what overflows -/

namespace parser

namespace stack

open lexer ast

theorem lifts_item (u : unicode.Tables) (k : Nat) :
    Lifts (parser.parseItem u) (parseItem u) k := by
  intro fuel frames p r hf _ h
  cases k with
  | zero => simp [parser.parseItem] at h
  | succ k =>
    obtain ⟨fuel, rfl⟩ : ∃ f, fuel = f + 1 := ⟨fuel - 1, by omega⟩
    simp only [parser.parseItem] at h
    simp only [parseItem]
    split
    · rename_i hty; rw [if_pos hty] at h; simp only [Option.some.injEq] at h; subst h; rfl
    · rename_i hty; rw [if_neg hty] at h; simp only [Option.some.injEq] at h; subst h; rfl

theorem lifts_assign_step (u : unicode.Tables) (k : Nat)
    (ihE : Lifts (parser.parseExpr u) (parseExpr u) k) :
    Lifts (parser.parseAssign u) (parseAssign u) (k + 1) := by
  intro fuel frames p r hf hs h
  obtain ⟨fuel, rfl⟩ : ∃ f, fuel = f + 1 := ⟨fuel - 1, by omega⟩
  obtain ⟨below, rfl⟩ : ∃ f, frames = f + 1 := ⟨frames - 1, by omega⟩
  simp only [parser.parseAssign] at h
  simp only [parseAssign]
  split
  · rename_i hty; rw [if_pos hty] at h; simp only [Option.some.injEq] at h; subst h; rfl
  · rename_i hty; rw [if_neg hty] at h
    exact ihE _ _ _ _ (by omega) (by omega) h

theorem lifts_set_step (u : unicode.Tables) (k : Nat)
    (ihA : Lifts (parser.parseAssign u) (parseAssign u) k) :
    Lifts (parser.parseSet u) (parseSet u) (k + 1) := by
  intro fuel frames p r hf hs h
  obtain ⟨fuel, rfl⟩ : ∃ f, fuel = f + 1 := ⟨fuel - 1, by omega⟩
  obtain ⟨below, rfl⟩ : ∃ f, frames = f + 1 := ⟨frames - 1, by omega⟩
  simp only [parser.parseSet] at h
  simp only [parseSet]
  split
  · rename_i hty; rw [if_pos hty] at h; simp only [Option.some.injEq] at h; subst h; rfl
  · rename_i hty
    rw [if_neg hty] at h
    split
    · rename_i hasg
      rw [if_pos hasg] at h
      cases hA : parser.parseAssign u k ((p.readToken u).2.peekToken u).2 with
      | none => simp [hA] at h
      | some rp =>
        rw [ihA _ _ _ _ (by omega) (by omega) hA]
        rw [hA] at h
        obtain ⟨res, p1⟩ := rp
        cases res with
        | error err => simp only [Option.some.injEq] at h; subst h; rfl
        | ok expr => simp only [Option.some.injEq] at h; subst h; rfl
    · rename_i hasg; rw [if_neg hasg] at h; simp only [Option.some.injEq] at h; subst h; rfl

theorem lifts_inline_step (u : unicode.Tables) (k : Nat)
    (ihL : ∀ items, Lifts (fun k p => parser.parseInlineSetLoop u k p items)
      (fun fuel frames p => parseInlineSetLoop u fuel frames p items) k) :
    Lifts (parser.parseInlineSet u) (parseInlineSet u) (k + 1) := by
  intro fuel frames p r hf hs h
  obtain ⟨fuel, rfl⟩ : ∃ f, fuel = f + 1 := ⟨fuel - 1, by omega⟩
  simp only [parser.parseInlineSet] at h
  simp only [parseInlineSet]
  split
  · rename_i hty; rw [if_pos hty] at h; simp only [Option.some.injEq] at h; subst h; rfl
  · rename_i hty; rw [if_neg hty] at h
    exact ihL _ _ _ _ _ (by omega) (by omega) h

theorem lifts_loop_step (u : unicode.Tables) (k : Nat)
    (ihE : Lifts (parser.parseExpr u) (parseExpr u) k)
    (ihL : ∀ items, Lifts (fun k p => parser.parseInlineSetLoop u k p items)
      (fun fuel frames p => parseInlineSetLoop u fuel frames p items) k)
    (items : List Node) :
    Lifts (fun k p => parser.parseInlineSetLoop u k p items)
      (fun fuel frames p => parseInlineSetLoop u fuel frames p items) (k + 1) := by
  intro fuel frames p r hf hs h
  obtain ⟨fuel, rfl⟩ : ∃ f, fuel = f + 1 := ⟨fuel - 1, by omega⟩
  obtain ⟨below, rfl⟩ : ∃ f, frames = f + 1 := ⟨frames - 1, by omega⟩
  simp only [parser.parseInlineSetLoop] at h
  simp only [parseInlineSetLoop]
  split
  · rename_i hend
    rw [if_pos hend] at h
    split
    · rename_i hc; rw [if_pos hc] at h; simp only [Option.some.injEq] at h; subst h; rfl
    · rename_i hc; rw [if_neg hc] at h; simp only [Option.some.injEq] at h; subst h; rfl
  · rename_i hend
    rw [if_neg hend] at h
    cases hE : parser.parseExpr u k (p.peekToken u).2 with
    | none => simp [hE] at h
    | some rp =>
      rw [ihE _ _ _ _ (by omega) (by omega) hE]
      rw [hE] at h
      obtain ⟨res, p1⟩ := rp
      cases res with
      | error err => simp only [Option.some.injEq] at h; subst h; rfl
      | ok item =>
        simp only at h ⊢
        split
        · rename_i hclose
          rw [if_pos hclose] at h
          split
          · rename_i hcomma; rw [if_pos hcomma] at h; simp only [Option.some.injEq] at h; subst h; rfl
          · rename_i hcomma; rw [if_neg hcomma] at h
            exact ihL _ _ _ _ _ (by omega) (by omega) h
        · rename_i hclose; rw [if_neg hclose] at h
          exact ihL _ _ _ _ _ (by omega) (by omega) h

theorem lifts_primary_step (u : unicode.Tables) (k : Nat)
    (ihS : Lifts (parser.parseSet u) (parseSet u) k)
    (ihI : Lifts (parser.parseItem u) (parseItem u) k)
    (ihL : Lifts (parser.parseInlineSet u) (parseInlineSet u) k) :
    Lifts (parser.parseExprPrimary u) (parseExprPrimary u) (k + 1) := by
  intro fuel frames p r hf hs h
  obtain ⟨fuel, rfl⟩ : ∃ f, fuel = f + 1 := ⟨fuel - 1, by omega⟩
  obtain ⟨below, rfl⟩ : ∃ f, frames = f + 1 := ⟨frames - 1, by omega⟩
  simp only [parser.parseExprPrimary] at h
  simp only [parseExprPrimary]
  split
  · rename_i h1; rw [if_pos h1] at h; exact ihS _ _ _ _ (by omega) (by omega) h
  · rename_i h1
    rw [if_neg h1] at h
    split
    · rename_i h2; rw [if_pos h2] at h; exact ihI _ _ _ _ (by omega) (by omega) h
    · rename_i h2
      rw [if_neg h2] at h
      split
      · rename_i h3; rw [if_pos h3] at h; exact ihL _ _ _ _ (by omega) (by omega) h
      · rename_i h3; rw [if_neg h3] at h; simp only [Option.some.injEq] at h; subst h; rfl

theorem lifts_ops_step (u : unicode.Tables) (k : Nat)
    (ihP : Lifts (parser.parseExprPrimary u) (parseExprPrimary u) k)
    (ihO : ∀ prec LHS, Lifts (fun k p => parser.parseExprBinOpRHS u k prec LHS p)
      (fun fuel frames p => parseExprBinOpRHS u fuel frames prec LHS p) k)
    (prec : Int) (LHS : Node) :
    Lifts (fun k p => parser.parseExprBinOpRHS u k prec LHS p)
      (fun fuel frames p => parseExprBinOpRHS u fuel frames prec LHS p) (k + 1) := by
  intro fuel frames p r hf hs h
  obtain ⟨fuel, rfl⟩ : ∃ f, fuel = f + 1 := ⟨fuel - 1, by omega⟩
  obtain ⟨below, rfl⟩ : ∃ f, frames = f + 1 := ⟨frames - 1, by omega⟩
  change parser.parseExprBinOpRHS u (k + 1) prec LHS p = some r at h
  change parseExprBinOpRHS u (fuel + 1) (below + 1) prec LHS p = some (.returned r)
  rw [parser.parseExprBinOpRHS] at h
  rw [parseExprBinOpRHS]
  dsimp only at h ⊢
  split
  · rename_i hlt; rw [if_pos hlt] at h; simp only [Option.some.injEq] at h; subst h; rfl
  · rename_i hlt
    rw [if_neg hlt] at h
    cases hP : parser.parseExprPrimary u k ((p.peekToken u).2.readToken u).2 with
    | none => simp [hP] at h
    | some rp =>
      rw [ihP _ _ _ _ (by omega) (by omega) hP]
      rw [hP] at h
      obtain ⟨res, p1⟩ := rp
      cases res with
      | error err => simp only [Option.some.injEq] at h; subst h; rfl
      | ok RHS =>
        simp only at h ⊢
        split
        · rename_i hnext
          rw [if_pos hnext] at h
          cases hO : parser.parseExprBinOpRHS u k
              (getTokenPrecedence (p.peekToken u).1.Type + 1) RHS (p1.peekToken u).2 with
          | none => simp [hO] at h
          | some rp2 =>
            have hO' : parseExprBinOpRHS u fuel below
                (getTokenPrecedence (p.peekToken u).1.Type + 1) RHS (p1.peekToken u).2 =
                  some (.returned rp2) :=
              ihO _ _ _ _ _ _ (by omega) (by omega) hO
            rw [hO']
            rw [hO] at h
            obtain ⟨res2, p2⟩ := rp2
            cases res2 with
            | error err => simp only [Option.some.injEq] at h; subst h; rfl
            | ok RHS2 => exact ihO _ _ _ _ _ _ (by omega) (by omega) h
        · rename_i hnext; rw [if_neg hnext] at h
          exact ihO _ _ _ _ _ _ (by omega) (by omega) h

theorem lifts_expr_step (u : unicode.Tables) (k : Nat)
    (ihP : Lifts (parser.parseExprPrimary u) (parseExprPrimary u) k)
    (ihO : ∀ prec LHS, Lifts (fun k p => parser.parseExprBinOpRHS u k prec LHS p)
      (fun fuel frames p => parseExprBinOpRHS u fuel frames prec LHS p) k) :
    Lifts (parser.parseExpr u) (parseExpr u) (k + 1) := by
  intro fuel frames p r hf hs h
  obtain ⟨fuel, rfl⟩ : ∃ f, fuel = f + 1 := ⟨fuel - 1, by omega⟩
  obtain ⟨below, rfl⟩ : ∃ f, frames = f + 1 := ⟨frames - 1, by omega⟩
  simp only [parser.parseExpr] at h
  simp only [parseExpr]
  cases hP : parser.parseExprPrimary u k p with
  | none => simp [hP] at h
  | some rp =>
    rw [ihP _ _ _ _ (by omega) (by omega) hP]
    rw [hP] at h
    obtain ⟨res, p1⟩ := rp
    cases res with
    | error err => simp only [Option.some.injEq] at h; subst h; rfl
    | ok LHS => exact ihO _ _ _ _ _ _ (by omega) (by omega) h

/-- What the parsing methods return with the fuel `k`, they return on a stack
with at least `k` free frames. -/
theorem lifts (u : unicode.Tables) (k : Nat) :
    Lifts (parser.parseExpr u) (parseExpr u) k ∧
    Lifts (parser.parseExprPrimary u) (parseExprPrimary u) k ∧
    Lifts (parser.parseSet u) (parseSet u) k ∧
    Lifts (parser.parseAssign u) (parseAssign u) k ∧
    Lifts (parser.parseInlineSet u) (parseInlineSet u) k ∧
    (∀ items, Lifts (fun k p => parser.parseInlineSetLoop u k p items)
      (fun fuel frames p => parseInlineSetLoop u fuel frames p items) k) ∧
    (∀ prec LHS, Lifts (fun k p => parser.parseExprBinOpRHS u k prec LHS p)
      (fun fuel frames p => parseExprBinOpRHS u fuel frames prec LHS p) k) := by
  induction k with
  | zero =>
    refine ⟨?_, ?_, ?_, ?_, ?_, ?_, ?_⟩
    · intro fuel frames p r _ _ h; simp [parser.parseExpr] at h
    · intro fuel frames p r _ _ h; simp [parser.parseExprPrimary] at h
    · intro fuel frames p r _ _ h; simp [parser.parseSet] at h
    · intro fuel frames p r _ _ h; simp [parser.parseAssign] at h
    · intro fuel frames p r _ _ h; simp [parser.parseInlineSet] at h
    · intro items fuel frames p r _ _ h; simp [parser.parseInlineSetLoop] at h
    · intro prec LHS fuel frames p r _ _ h; simp [parser.parseExprBinOpRHS] at h
  | succ n ih =>
    obtain ⟨ihE, ihP, ihS, ihA, ihI, ihL, ihO⟩ := ih
    exact ⟨lifts_expr_step u n ihP ihO,
      lifts_primary_step u n ihS (lifts_item u n) ihI,
      lifts_set_step u n ihA, lifts_assign_step u n ihE,
      lifts_inline_step u n ihL, lifts_loop_step u n ihE ihL,
      lifts_ops_step u n ihP ihO⟩

/-- What `Parse` returns with the fuel `k`, it returns on a stack that has room
for `k + 2` calls of parsing methods. -/
theorem ParseString_lifts (u : unicode.Tables) (k fuel frames : Nat) (q : String)
    (r : Except ParserError Node) (hf : k ≤ fuel) (hs : k + 2 ≤ frames)
    (h : parser.ParseString u k q = some r) :
    ParseString u fuel frames q = some (.returned r) := by
  obtain ⟨f1, rfl⟩ : ∃ f, frames = f + 2 := ⟨frames - 2, by omega⟩
  simp only [parser.ParseString, parser.Parser.Parse, Option.map_eq_some'] at h
  obtain ⟨⟨r1, p1⟩, h, rfl⟩ := h
  simp only [ParseString, Parse]
  cases hE : parser.parseExpr u k (NewParser (NewLexer q.data)) with
  | none => simp [hE] at h
  | some rp =>
    rw [(lifts u k).1 _ _ _ _ hf (by omega) hE]
    rw [hE] at h
    obtain ⟨res, p2⟩ := rp
    cases res with
    | error err =>
      simp only [Option.some.injEq, Prod.mk.injEq] at h
      simp only [h.1]
    | ok t =>
      simp only at h ⊢
      by_cases hty : (p2.peekToken u).1.Type ≠ .EOF
      · rw [if_pos hty] at h
        simp only [Option.some.injEq, Prod.mk.injEq] at h
        simp only [if_pos hty, h.1]
      · rw [if_neg hty] at h
        simp only [Option.some.injEq, Prod.mk.injEq] at h
        simp only [if_neg hty, h.1]

end stack

end parser

namespace parser

namespace stack

open lexer ast

theorem stream_replicate_succ (u : unicode.Tables) (p : Parser) (hp : p.Consistent u) (n : Nat)
    (hs : p.stream u = List.replicate (n + 1) (TokenType.SET_OPEN, "(")) :
    (p.peekToken u).1.Type = .SET_OPEN ∧ (p.readToken u).1.Type = .SET_OPEN ∧
      (p.readToken u).2.stream u = List.replicate n (TokenType.SET_OPEN, "(") := by
  refine ⟨?_, ?_, ?_⟩
  · show (p.peekToken u).1.tokenType = _
    rw [peekToken_type, hs]; rfl
  · show (p.readToken u).1.tokenType = _
    rw [readToken_type, hs]; rfl
  · rw [readToken_stream u p hp, hs]; rfl

/-- The loop of `parseInlineSet` in front of `n + 1` opening braces overflows a
stack with fewer than `3 * (n + 1)` free frames, if `parseExpr` does so with fewer
than `3 * (n + 1) - 1`. -/
theorem overflow_step (u : unicode.Tables) (n : Nat)
    (ih : ∀ (frames fuel : Nat) (p : Parser), p.Consistent u →
      p.stream u = List.replicate n (TokenType.SET_OPEN, "(") → frames + 1 < 3 * n →
      4 * n ≤ fuel → parseExpr u fuel frames p = some .overflow)
    (frames fuel : Nat) (p : Parser) (hp : p.Consistent u)
    (hs : p.stream u = List.replicate (n + 1) (TokenType.SET_OPEN, "("))
    (hfr : frames + 1 < 3 * (n + 1)) (hfuel : 4 * (n + 1) ≤ fuel) :
    parseExpr u fuel frames p = some .overflow := by
  obtain ⟨f, rfl⟩ : ∃ f, fuel = f + 4 := ⟨fuel - 4, by omega⟩
  cases frames with
  | zero => simp only [parseExpr]
  | succ a =>
    have hprim : parseExprPrimary u (f + 3) a p = some .overflow := by
      have hpk := (stream_replicate_succ u p hp n hs).1
      have hps : (p.peekToken u).2.stream u = List.replicate (n + 1) (TokenType.SET_OPEN, "(") := by
        rw [peekToken_stream, hs]
      have hpc := peekToken_consistent u p hp
      simp only [parseExprPrimary, hpk]
      rw [if_pos trivial]
      cases a with
      | zero => rfl
      | succ b =>
        simp only
        obtain ⟨hr1, hr2, hr3⟩ := stream_replicate_succ u _ hpc n hps
        have hrc := readToken_consistent u (p.peekToken u).2
        simp only [parseInlineSet, hr2]
        rw [if_neg (by simp)]
        cases n with
        | zero => omega
        | succ m =>
          have hk := (stream_replicate_succ u _ hrc m hr3).1
          simp only [parseInlineSetLoop, hk]
          rw [if_neg (by simp)]
          cases b with
          | zero => rfl
          | succ c =>
            simp only
            rw [ih c f _ (peekToken_consistent u _ hrc) (by rw [peekToken_stream, hr3])
              (by omega) (by omega)]
            simp
    simp only [parseExpr, hprim]

/-- In front of `n` opening braces, `parseExpr` overflows a stack with fewer than
`3 * n - 1` free frames. -/
theorem overflow_expr (u : unicode.Tables) :
    ∀ (n frames fuel : Nat) (p : Parser), p.Consistent u →
      p.stream u = List.replicate n (TokenType.SET_OPEN, "(") → frames + 1 < 3 * n →
      4 * n ≤ fuel → parseExpr u fuel frames p = some .overflow := by
  intro n
  induction n with
  | zero => intro frames fuel p _ _ h; omega
  | succ n ih => exact overflow_step u n ih

theorem tokensOf_braces (u : unicode.Tables) (n : Nat) :
    tokensOf u (braces n).data = List.replicate n (TokenType.SET_OPEN, "(") := by
  induction n with
  | zero => rfl
  | succ n ih =>
    have h : lexTok u ('\x7b' :: (braces n).data) = ((.SET_OPEN, "("), (braces n).data) := rfl
    have e : (braces (n + 1)).data = '\x7b' :: (braces n).data := rfl
    rw [e, tokensOf_cons u _ _ _ h (by decide), ih]
    rfl

/-- The input of `n` opening braces overflows a stack that has room for at most
`3 * n` calls of parsing methods. -/
theorem ParseString_braces_overflow (u : unicode.Tables) (n fuel frames : Nat)
    (hfr : frames ≤ 3 * n) (hfuel : 4 * n ≤ fuel) :
    ParseString u fuel frames (braces n) = some .overflow := by
  cases frames with
  | zero => rfl
  | succ a =>
    cases a with
    | zero => rfl
    | succ b =>
      simp only [ParseString, Parse]
      rw [overflow_expr u n b fuel _ (NewParser_consistent u _)
        (by rw [NewParser_stream, tokensOf_braces]) (by omega) hfuel]

/-- The input of `n` opening braces is rejected on a stack that has room for
`3 * n + 1` calls of parsing methods. -/
theorem ParseString_braces_returns (u : unicode.Tables) (n fuel frames : Nat)
    (hfr : 4 * n + 10 ≤ frames) (hfuel : 4 * n + 8 ≤ fuel) :
    ∃ r, ParseString u fuel frames (braces n) = some (.returned r) := by
  have hl : (tokensOf u (braces n).data).length = n := by
    rw [tokensOf_braces, List.length_replicate]
  obtain ⟨r, hr⟩ := parser.ParseString_total u (braces n) (4 * n + 8) (by rw [hl])
  exact ⟨r, ParseString_lifts u _ fuel frames _ r hfuel (by omega) hr⟩

end stack

end parser

/-! ## Claims on the set primitives -/

/-- C4: for a non-empty argument list, `Intersection` contains `x` exactly when the
number of positions whose set contains `x` equals the number of arguments, that
is, exactly when every argument contains `x`; and `Intersection(A, A) = A`. -/
theorem sets.Intersection_contains_iff (ss : List sets.Set) (h : ss ≠ []) :
    (∀ x, x ∈ (sets.Intersection ss).items ↔
        ss.countP (fun S => decide (x ∈ S.items)) = ss.length) ∧
    (∀ x, x ∈ (sets.Intersection ss).items ↔ ∀ S ∈ ss, x ∈ S.items) ∧
    (∀ A : sets.Set, sets.Intersection [A, A] = A) := by
  refine ⟨fun x => sets.mem_Intersection_iff_count ss h x, fun x => ?_, fun A => ?_⟩
  · rw [sets.mem_Intersection_iff_count ss h x, List.countP_eq_length]
    simp
  · have hA : ∀ x, x ∈ (sets.Intersection [A, A]).items ↔ x ∈ A.items := by
      intro x
      rw [sets.mem_Intersection_iff_count [A, A] (by simp) x, List.countP_eq_length]
      simp
    cases A with
    | mk items =>
      have h2 : (sets.Intersection [⟨items⟩, ⟨items⟩]).items = items := Finset.ext hA
      cases hI : sets.Intersection [⟨items⟩, ⟨items⟩] with
      | mk items2 =>
        rw [hI] at h2
        simpa using h2

/-- Witness for C4 on the two sets `{a, b}` and `{b, c}`. -/
theorem sets.Intersection_contains_iff_witness :
    "b" ∈ (sets.Intersection [sets.NewSet ["a", "b"], sets.NewSet ["b", "c"]]).items ∧
    "a" ∉ (sets.Intersection [sets.NewSet ["a", "b"], sets.NewSet ["b", "c"]]).items :=
  ⟨((sets.Intersection_contains_iff
      [sets.NewSet ["a", "b"], sets.NewSet ["b", "c"]] (by simp)).2.1 "b").mpr (by decide),
   fun hmem => absurd (((sets.Intersection_contains_iff
      [sets.NewSet ["a", "b"], sets.NewSet ["b", "c"]] (by simp)).1 "a").mp hmem) (by decide)⟩

/-- C5: `SymmetricDifference` contains `x` exactly when exactly one position of the
argument list holds a set containing `x`; for two arguments this is the union
minus the intersection, and `SymmetricDifference(A, A)` is empty. -/
theorem sets.SymmetricDifference_contains_iff :
    (∀ (ss : List sets.Set) (x : String), x ∈ (sets.SymmetricDifference ss).items ↔
        ss.countP (fun S => decide (x ∈ S.items)) = 1) ∧
    (∀ A B : sets.Set, (sets.SymmetricDifference [A, B]).items =
        (A.items ∪ B.items) \ (A.items ∩ B.items)) ∧
    (∀ A : sets.Set, (sets.SymmetricDifference [A, A]).items = ∅) := by
  refine ⟨fun ss x => sets.mem_SymmetricDifference_iff_count ss x, fun A B => ?_,
    fun A => ?_⟩
  · ext x
    rw [sets.mem_SymmetricDifference_iff_count]
    by_cases hA : x ∈ A.items <;> by_cases hB : x ∈ B.items <;>
      simp [List.countP_cons, hA, hB]
  · ext x
    rw [sets.mem_SymmetricDifference_iff_count]
    by_cases hA : x ∈ A.items <;> simp [List.countP_cons, hA]

/-- C6: on a non-empty argument list `S1, S2, ..., Sn`, `Difference` returns a set
that contains `x` exactly when `x` is in `S1` and in none of `S2..Sn`; on a single
argument it returns a set with exactly the elements of that argument. -/
theorem sets.Difference_contains_iff (S1 : sets.Set) (rest : List sets.Set) :
    (∃ D, sets.Difference (S1 :: rest) = some D ∧
        ∀ x, x ∈ D.items ↔ x ∈ S1.items ∧ ∀ T ∈ rest, x ∉ T.items) ∧
    sets.Difference [S1] = some S1 := by
  refine ⟨⟨_, rfl, fun x => ?_⟩, ?_⟩
  · rw [sets.mem_foldl_sdiff]
    simp [sets.NewSet_nil_items]
  · cases S1 with
    | mk items => simp [sets.Difference, sets.NewSet_nil_items]

/-- C7: `Union` contains `x` exactly when at least one argument contains `x`. -/
theorem sets.Union_contains_iff (ss : List sets.Set) (x : String) :
    x ∈ (sets.Union ss).items ↔ ∃ S ∈ ss, x ∈ S.items := by
  unfold sets.Union
  rw [sets.mem_foldl_union]
  simp [sets.NewSet_nil_items]

/-- C8: on the empty argument list `Union`, `Intersection` and
`SymmetricDifference` return the empty set, while `Difference` panics on the
read of `sets[0]`. -/
theorem sets.primitives_on_no_arguments :
    sets.Union [] = sets.NewSet [] ∧ (sets.Union []).items = ∅ ∧
    (sets.Intersection []).items = ∅ ∧
    (sets.SymmetricDifference []).items = ∅ ∧
    sets.Difference [] = none := by
  refine ⟨rfl, rfl, ?_, ?_, rfl⟩ <;> decide
/-! ## Claims on the parser -/

/-- C1: when `parseExprPrimary` reads `p0` and then, after each operator, the
operands `p1 .. pn`, `parseExpr` returns the left-leaning tree
`Binary(OPn, ... Binary(OP1, p0, p1) ..., pn)`, and so does `Parse` when the
input ends there; in particular `a OP1 b OP2 c` parses to
`Binary(OP2, Binary(OP1, a, b), c)` for all operators `OP1` and `OP2`. -/
theorem parser.parseExpr_left_leaning (u : unicode.Tables) (fuel : Nat) (p : parser.Parser)
    (t0 : ast.Node) (p1 : parser.Parser) (pairs : List (lexer.TokenType × ast.Node))
    (p' : parser.Parser)
    (h0 : parser.parseExprPrimary u fuel p = some (.ok t0, p1))
    (hops : parser.Operands u fuel pairs p1 p') :
    parser.parseExpr u (fuel + pairs.length + 2) p =
        some (.ok (pairs.foldl (fun lhs x => .BinaryExpr x.1 lhs x.2) t0), p') ∧
    ((p'.peekToken u).1.Type = .EOF →
      parser.Parser.Parse u (fuel + pairs.length + 2) p =
        some (.ok (pairs.foldl (fun lhs x => .BinaryExpr x.1 lhs x.2) t0), (p'.peekToken u).2)) ∧
    (∀ op1 op2 : lexer.TokenType, parser.isBinop op1 = true → parser.isBinop op2 = true →
      parser.ParseString u 8 ("a" ++ op1.String ++ "b" ++ op2.String ++ "c") =
        some (.ok (.BinaryExpr op2 (.BinaryExpr op1 (.Set "a" []) (.Set "b" [])) (.Set "c" [])))) := by
  have hE : parser.parseExpr u (fuel + pairs.length + 2) p =
      some (.ok (parser.build t0 pairs), p') := by
    have hP : parser.parseExprPrimary u (fuel + pairs.length + 1) p = some (.ok t0, p1) :=
      parser.parseExprPrimary_mono u (by omega) _ _ h0
    have hO := parser.parseExprBinOpRHS_operands u fuel pairs t0 p1 p' fuel (Nat.le_refl _) hops
    have e : fuel + pairs.length + 2 = (fuel + pairs.length + 1) + 1 := by omega
    rw [e, parser.parseExpr]
    simp only [hP, hO]
  refine ⟨hE, fun hEOF => ?_, fun op1 op2 h1 h2 => ?_⟩
  · simp only [parser.Parser.Parse, hE]
    simp [hEOF]
    rfl
  · have hascii : ∀ o1 o2 : lexer.TokenType, parser.isBinop o1 = true → parser.isBinop o2 = true →
        ("a" ++ o1.String ++ "b" ++ o2.String ++ "c").data.all
          (fun c => decide (c.toNat < 128)) = true := by
      intro o1 o2 g1 g2
      cases o1 <;> simp [parser.isBinop] at g1 <;> cases o2 <;> simp [parser.isBinop] at g2 <;>
        decide
    rw [parser.ParseString_ascii u unicode.asciiOnly 8 _ (hascii op1 op2 h1 h2)]
    cases op1 <;> simp [parser.isBinop] at h1 <;> cases op2 <;> simp [parser.isBinop] at h2 <;>
      decide

/-- Witness for C1 on the input `x|1`. -/
theorem parser.parseExpr_left_leaning_witness :
    parser.parseExpr unicode.asciiOnly 6 (parser.NewParser (lexer.NewLexer "x|1".data)) =
      some (.ok (.BinaryExpr .UNION (.Set "x" []) (.Item "1")),
        { lexer := { reader := [], pos := { line := 1, column := 3 } },
          readAhead := some { tokenType := .EOF, tokenPosition := { line := 1, column := 3 },
                              tokenValue := "" } }) :=
  (parser.parseExpr_left_leaning unicode.asciiOnly 3
    (parser.NewParser (lexer.NewLexer "x|1".data)) (.Set "x" [])
    { lexer := { reader := ['1'], pos := { line := 1, column := 2 } },
      readAhead := some { tokenType := .UNION, tokenPosition := { line := 1, column := 2 },
                          tokenValue := "|" } }
    [(.UNION, .Item "1")]
    { lexer := { reader := [], pos := { line := 1, column := 3 } },
      readAhead := some { tokenType := .EOF, tokenPosition := { line := 1, column := 3 },
                          tokenValue := "" } }
    (by decide)
    ⟨by decide, by decide,
      { lexer := { reader := [], pos := { line := 1, column := 3 } }, readAhead := none },
      by decide, by decide, by decide⟩).1

/-- C2: round-trip stability.  When `Parse` accepts a query with the node `t`, it
accepts `t.ToQuery()` (with the same fuel) and returns `t` again; hence whatever
`Parse` returns for `t.ToQuery()` serializes to the same text. -/
theorem parser.ParseString_ToQuery_roundtrip (u : unicode.Tables) (fuel : Nat) (q : String)
    (t : ast.Node) (h : parser.ParseString u fuel q = some (.ok t)) :
    parser.ParseString u fuel t.ToQuery = some (.ok t) ∧
    (∀ fuel' t', parser.ParseString u fuel' t.ToQuery = some (.ok t') →
      t' = t ∧ t'.ToQuery = t.ToQuery) := by
  have hd := (parser.ParseString_ok_iff u fuel q t).mp h
  have hok := parser.streamOK_tokensOf u q.data
  have hre := hd.reparse u hok [] (parser.Follows.refl [])
  have hlex := hd.relex u hok [] (parser.Delim.nil u) (fun hne => absurd rfl hne)
  simp only [List.append_nil, lexer.tokensOf_nil] at hre hlex
  have hd' : parser.Derives .expr fuel (lexer.tokensOf u t.ToQuery.data) (.one t) [] := by
    rw [hlex]; exact hre
  have h1 := (parser.ParseString_ok_iff u fuel t.ToQuery t).mpr hd'
  refine ⟨h1, fun fuel' t' h' => ?_⟩
  have a := parser.ParseString_mono u (Nat.le_max_left fuel fuel') _ _ h1
  have b := parser.ParseString_mono u (Nat.le_max_right fuel fuel') _ _ h'
  rw [a] at b
  simp only [Option.some.injEq, Except.ok.injEq] at b
  exact ⟨b.symm, by rw [b]⟩

/-- Witness for C2 on the query `a | {'x', 12 ,} - b`, whose canonical text is
`a|{'x',12}-b`. -/
theorem parser.ParseString_ToQuery_roundtrip_witness :
    parser.ParseString unicode.asciiOnly 20 "a|\x7b'x',12\x7d-b" =
      some (.ok (.BinaryExpr .DIFFERENCE
        (.BinaryExpr .UNION (.Set "a" []) (.Set "" [.Item "'x'", .Item "12"])) (.Set "b" []))) :=
  (parser.ParseString_ToQuery_roundtrip unicode.asciiOnly 20 "a | \x7b'x', 12 ,\x7d - b"
    (.BinaryExpr .DIFFERENCE
      (.BinaryExpr .UNION (.Set "a" []) (.Set "" [.Item "'x'", .Item "12"])) (.Set "b" []))
    (by decide!)).1

/-- C3, as stated, fails: `Parse` accepts an assignment inside a brace literal
and an assignment to the right of a binary operator, whatever the Unicode tables. -/
theorem parser.Parse_accepts_nested_assign :
    (∀ u : unicode.Tables, parser.ParseString u 12 "\x7ba = b\x7d" =
      some (.ok (.Set "" [.AssignExpr "a" (.Set "b" [])]))) ∧
    (∀ u : unicode.Tables, parser.ParseString u 12 "a | b = c" =
      some (.ok (.BinaryExpr .UNION (.Set "a" []) (.AssignExpr "b" (.Set "c" []))))) := by
  constructor <;> intro u
  · rw [parser.ParseString_ascii u unicode.asciiOnly 12 _ (by decide)]; decide
  · rw [parser.ParseString_ascii u unicode.asciiOnly 12 _ (by decide)]; decide

/-- C3, amended: in every node `Parse` returns, an `AssignExpr` is never the left
operand of a `BinaryExpr`; it does occur below the root, as `{a = b}` and
`a | b = c` are accepted with an `AssignExpr` inside a literal and as a right
operand. -/
theorem parser.Parse_assign_not_left_operand (u : unicode.Tables) (fuel : Nat) (q : String)
    (t : ast.Node) (h : parser.ParseString u fuel q = some (.ok t)) :
    t.noAssignLHS = true ∧
    parser.ParseString u 12 "\x7ba = b\x7d" = some (.ok (.Set "" [.AssignExpr "a" (.Set "b" [])])) ∧
    parser.ParseString u 12 "a | b = c" =
      some (.ok (.BinaryExpr .UNION (.Set "a" []) (.AssignExpr "b" (.Set "c" [])))) := by
  refine ⟨((parser.ParseString_ok_iff u fuel q t).mp h).assignPlaced.1, ?_, ?_⟩
  · rw [parser.ParseString_ascii u unicode.asciiOnly 12 _ (by decide)]; decide
  · rw [parser.ParseString_ascii u unicode.asciiOnly 12 _ (by decide)]; decide

/-- Witness for the amended C3 on the query `x = a | b`. -/
theorem parser.Parse_assign_not_left_operand_witness :
    (ast.Node.AssignExpr "x" (.BinaryExpr .UNION (.Set "a" []) (.Set "b" []))).noAssignLHS = true :=
  (parser.Parse_assign_not_left_operand unicode.asciiOnly 12 "x = a | b"
    (.AssignExpr "x" (.BinaryExpr .UNION (.Set "a" []) (.Set "b" []))) (by decide)).1

/-! ## Claims on the facade -/

/-- C9: for set names `N` and `X`, any backend and any state of it, `Query` fails
with the cyclic-reference error on `N = N`, `N = {N}` and `N = N | X`, makes no
call of the backend (so `Persist` is not called) and leaves its state unchanged. -/
theorem setdb.Query_cyclic_reference {σ β : Type} (u : unicode.Tables)
    (db : setdb.Database σ β) (st : σ) (N X : String) (fuel : Nat)
    (hN : lexer.isSetName u N = true) (hX : lexer.isSetName u X = true) (hfuel : 12 ≤ fuel) :
    db.Query u fuel st (N ++ " = " ++ N) =
      some { result := .error (.error .cyclicReference), backend := st, calls := [] } ∧
    db.Query u fuel st (N ++ " = \x7b" ++ N ++ "\x7d") =
      some { result := .error (.error .cyclicReference), backend := st, calls := [] } ∧
    db.Query u fuel st (N ++ " = " ++ N ++ " | " ++ X) =
      some { result := .error (.error .cyclicReference), backend := st, calls := [] } := by
  obtain ⟨k, rfl⟩ : ∃ k, fuel = k + 3 := ⟨fuel - 3, by omega⟩
  obtain ⟨h1, h2, h3⟩ := parser.ParseString_cyclic u N X hN hX (k + 3) hfuel
  have hne := lexer.isSetName_ne_empty u N hN
  refine ⟨?_, ?_, ?_⟩
  · simp [setdb.Database.Query, h1, ast.Node.Evaluate, setdb.setResolver, hne]
  · simp [setdb.Database.Query, h2, ast.Node.Evaluate, ast.evaluateItems, setdb.setResolver, hne]
  · simp [setdb.Database.Query, h3, ast.Node.Evaluate, ast.binaryOp, setdb.setResolver, hne]

/-- Witness for C9 on the name `S`, over the backend held in memory with the
entry `S` stored. -/
theorem setdb.Query_cyclic_reference_witness :
    setdb.memoryDatabase.Query unicode.asciiOnly 12 [("S", "1", [])] ("S" ++ " = " ++ "S") =
      some { result := .error (.error .cyclicReference), backend := [("S", "1", [])],
             calls := [] } :=
  (setdb.Query_cyclic_reference unicode.asciiOnly setdb.memoryDatabase [("S", "1", [])]
    "S" "X" 12 (by decide) (by decide) (by decide)).1

/-- C10: in one call of `Query`, `Persist` is called at most once; it is called
with `(name, pattern, dependencies)` exactly when the query parses to
`Assign(name, inner)`, the evaluation of `inner` succeeds, `pattern` is
`inner.ToQuery()` and `dependencies` is the sequence the resolver collected, and
it is then the last call, after every call made by the evaluation.  So it is not
called when parsing or evaluation fails or the root is not an assignment.  The
record is the record of what was done to the backend: the state `Query` leaves
is the one that the recorded calls lead to from the initial state (`replay`), and
after the successful evaluation of an assignment it is the state that
`db.backend.Persist` returns on the state the evaluation left, the result being
the error of `Persist` if it returns one and the evaluated set otherwise. -/
theorem setdb.Query_persist_once {σ β : Type} (u : unicode.Tables) (fuel : Nat)
    (db : setdb.Database σ β) (st : σ) (q : String) (out : setdb.Queried σ β)
    (h : db.Query u fuel st q = some out) :
    (out.calls.filter setdb.BackendCall.isPersist).length ≤ 1 ∧
    (∀ name pattern deps, setdb.BackendCall.Persist name pattern deps ∈ out.calls ↔
      ∃ inner items s, parser.ParseString u fuel q = some (.ok (.AssignExpr name inner)) ∧
        inner.Evaluate (setdb.setResolver u fuel db name) fuel
          { backend := st, dependencies := [], calls := [] } = some (.ok items, s) ∧
        pattern = inner.ToQuery ∧ deps = s.dependencies) ∧
    (∀ name inner items s, parser.ParseString u fuel q = some (.ok (.AssignExpr name inner)) →
      inner.Evaluate (setdb.setResolver u fuel db name) fuel
        { backend := st, dependencies := [], calls := [] } = some (.ok items, s) →
      out.calls = s.calls ++ [.Persist name inner.ToQuery s.dependencies]) ∧
    out.backend = setdb.replay db st out.calls ∧
    (∀ name inner items s, parser.ParseString u fuel q = some (.ok (.AssignExpr name inner)) →
      inner.Evaluate (setdb.setResolver u fuel db name) fuel
        { backend := st, dependencies := [], calls := [] } = some (.ok items, s) →
      out.backend = (db.backend.Persist s.backend name inner.ToQuery s.dependencies).2 ∧
      out.result =
        (match (db.backend.Persist s.backend name inner.ToQuery s.dependencies).1 with
          | some err => .error (.error (.backend err))
          | none => .ok { items := items, name := name, patternAST := inner,
                          dependsOn := s.dependencies })) :=
  ⟨(setdb.Query_calls u fuel db st q out h).1, (setdb.Query_calls u fuel db st q out h).2.1,
   (setdb.Query_calls u fuel db st q out h).2.2, (setdb.Query_applied u fuel db st q out h).1,
   (setdb.Query_applied u fuel db st q out h).2⟩

/-- Witness for C10 on the query `S = 1` over the empty catalog held in memory:
the one call is `Persist("S", "1", [])`, and the catalog that `Query` leaves holds
the entry that this call stores. -/
theorem setdb.Query_persist_once_witness :
    setdb.memoryDatabase.Query unicode.asciiOnly 12 [] "S = 1" =
      some { result := .ok { items := sets.NewSet ["1"], patternAST := .Item "1", name := "S",
                             dependsOn := [] },
             backend := [("S", "1", [])],
             calls := [.Persist "S" "1" []] } ∧
    ([setdb.BackendCall.Persist "S" "1" []].filter setdb.BackendCall.isPersist).length ≤ 1 ∧
    [("S", "1", [])] =
      setdb.replay setdb.memoryDatabase [] [setdb.BackendCall.Persist "S" "1" []] ∧
    [("S", "1", [])] = (setdb.memoryBackend.Persist [] "S" "1" []).2 :=
  have hq : setdb.memoryDatabase.Query unicode.asciiOnly 12 [] "S = 1" =
      some { result := .ok { items := sets.NewSet ["1"], patternAST := .Item "1", name := "S",
                             dependsOn := [] },
             backend := [("S", "1", [])],
             calls := [.Persist "S" "1" []] } := by decide
  ⟨hq, (setdb.Query_persist_once unicode.asciiOnly 12 setdb.memoryDatabase [] "S = 1" _ hq).1,
   (setdb.Query_persist_once unicode.asciiOnly 12 setdb.memoryDatabase [] "S = 1" _ hq).2.2.2.1,
   rfl⟩

/-! ## Claims on the serializer, the error text and the lexer -/

/-- C13: `ToQuery` is the canonical serializer: an item gives its lexeme, a set
reference its name, a literal the texts of its elements between braces, separated
by commas and with no trailing comma (the empty literal gives the two braces), a
binary node the texts of its operands around the symbol of the operator with
nothing added, and an assignment the name, ` = ` and the text of the
expression. -/
theorem ast.ToQuery_canonical :
    (∀ lexeme : String, (ast.Node.Item lexeme).ToQuery = lexeme) ∧
    (∀ (name : String) (items : List ast.Node), name ≠ "" →
      (ast.Node.Set name items).ToQuery = name) ∧
    (∀ items : List ast.Node, (ast.Node.Set "" items).ToQuery =
      "\x7b" ++ String.intercalate "," (items.map ast.Node.ToQuery) ++ "\x7d") ∧
    ((ast.Node.Set "" []).ToQuery = "\x7b\x7d" ∧
      (ast.Node.Set "" [.Item "1", .Set "s" [], .Set "" [.Item "2"]]).ToQuery =
        "\x7b1,s,\x7b2\x7d\x7d") ∧
    (∀ (op : lexer.TokenType) (lhs rhs : ast.Node),
      (ast.Node.BinaryExpr op lhs rhs).ToQuery = lhs.ToQuery ++ op.String ++ rhs.ToQuery) ∧
    (lexer.TokenType.UNION.String = "|" ∧ lexer.TokenType.INTERSECTION.String = "&" ∧
      lexer.TokenType.DIFFERENCE.String = "-" ∧
      lexer.TokenType.SYMMETRIC_DIFFERENCE.String = "^") ∧
    (∀ (name : String) (expr : ast.Node),
      (ast.Node.AssignExpr name expr).ToQuery = name ++ " = " ++ expr.ToQuery) := by
  refine ⟨fun _ => by rw [ast.Node.ToQuery], fun name items h => ?_, fun items => ?_,
    ⟨by decide, by decide⟩,
    fun _ _ _ => by rw [ast.Node.ToQuery], by decide, fun _ _ => by rw [ast.Node.ToQuery]⟩
  · rw [ast.Node.ToQuery, if_neg h]
  · rw [ast.Node.ToQuery, if_pos rfl, ast.ToQueryItems_intercalate]

/-- C14, as stated, fails: the error that `Parse` returns on `{,}` is raised on
the comma at line 1, column 2, with the message `unexpected token ,`, and its text
is `line 1, column 2: unexpected token ,, got: ,`, not the bracketed text with the
lexeme between parentheses. -/
theorem parser.Error_not_bracketed :
    parser.ParseString unicode.asciiOnly 10 "\x7b,\x7d" =
      some (.error (parser.ParseError ⟨.COMMA, ⟨1, 2⟩, ","⟩ "unexpected token ,")) ∧
    (parser.ParseError ⟨.COMMA, ⟨1, 2⟩, ","⟩ "unexpected token ,").Error =
      "line 1, column 2: unexpected token ,, got: ," ∧
    (parser.ParseError ⟨.COMMA, ⟨1, 2⟩, ","⟩ "unexpected token ,").Error ≠
      "[1:2] unexpected token ,, got: , (,)" := by
  refine ⟨by decide, by decide, by decide⟩

/-- C14, amended: the text of a parser error raised on the token `t` with the
message `m` is `line L, column C: m, got: KIND`, with `L` and `C` the line and
column of `t` in decimal and `KIND` the name of the kind of `t`, followed by the
lexeme of `t` between parentheses when the lexeme differs from `KIND`. -/
theorem parser.Error_rendering (t : lexer.Token) (m : String) :
    (parser.ParseError t m).Error =
      "line " ++ toString t.Position.Line ++ ", column " ++ toString t.Position.Column ++
        ": " ++ m ++ ", got: " ++ t.Type.String ++
        (if t.Type.String = t.Value then "" else " (" ++ t.Value ++ ")") ∧
    (parser.ParseError t m).Line = t.Position.Line ∧
    (parser.ParseError t m).Column = t.Position.Column := by
  refine ⟨?_, rfl, rfl⟩
  unfold parser.ParserError.Error parser.ParseError
  by_cases h : t.Type.String = t.Value
  · simp [h]
  · simp [h]

/-- C15 fails on its own example: in `'a'|'b'` the first item is at column 1, the
`|`, fourth rune of the line, is at column 3 and the second item, which starts at
the fifth rune, at column 4, since `lexItem` reads the opening quote without
advancing the column.  After the three runes of a set name the columns are
right: in `abc|'b'` the `|` is at column 4 and the item at column 5. -/
theorem lexer.Lex_position_after_quoted_item (u : unicode.Tables) :
    ((lexer.Lexer.Lex u (lexer.NewLexer "'a'|'b'".data)).1 = ⟨.ITEM, ⟨1, 1⟩, "'a'"⟩ ∧
      (lexer.Lexer.Lex u (lexer.Lexer.Lex u (lexer.NewLexer "'a'|'b'".data)).2).1 =
        ⟨.UNION, ⟨1, 3⟩, "|"⟩ ∧
      (lexer.Lexer.Lex u (lexer.Lexer.Lex u
          (lexer.Lexer.Lex u (lexer.NewLexer "'a'|'b'".data)).2).2).1 =
        ⟨.ITEM, ⟨1, 4⟩, "'b'"⟩) ∧
    ((lexer.Lexer.Lex u (lexer.NewLexer "abc|'b'".data)).1 = ⟨.SET, ⟨1, 1⟩, "abc"⟩ ∧
      (lexer.Lexer.Lex u (lexer.Lexer.Lex u (lexer.NewLexer "abc|'b'".data)).2).1 =
        ⟨.UNION, ⟨1, 4⟩, "|"⟩ ∧
      (lexer.Lexer.Lex u (lexer.Lexer.Lex u
          (lexer.Lexer.Lex u (lexer.NewLexer "abc|'b'".data)).2).2).1 =
        ⟨.ITEM, ⟨1, 5⟩, "'b'"⟩) := by
  refine ⟨⟨?_, ?_, ?_⟩, ⟨?_, ?_, ?_⟩⟩ <;> rfl

/-- C16: when the runes left are spaces, then `'`, then runes `cs` none of which
is `'` or `"`, then a quote `q` that is `'` or `"`, then `rest`, `Lex` returns one
`ITEM` token whose lexeme is `'`, `cs` and `q`, and leaves the reader at
`rest`, right after `q`. -/
theorem lexer.Lex_quoted_item (u : unicode.Tables) (ws cs rest : List Char) (q : Char)
    (pos : lexer.Position)
    (hws : ∀ c ∈ ws, unicode.IsSpace u c = true)
    (hcs : ∀ c ∈ cs, c ≠ '\'' ∧ c ≠ '"')
    (hq : q = '\'' ∨ q = '"') :
    ((lexer.Lexer.Lex u ⟨ws ++ '\'' :: (cs ++ q :: rest), pos⟩).1.Type = .ITEM ∧
      (lexer.Lexer.Lex u ⟨ws ++ '\'' :: (cs ++ q :: rest), pos⟩).1.Value =
        String.mk ('\'' :: (cs ++ [q]))) ∧
    (lexer.Lexer.Lex u ⟨ws ++ '\'' :: (cs ++ q :: rest), pos⟩).2.reader = rest := by
  have h := lexer.lexLoop_erase u (ws ++ '\'' :: (cs ++ q :: rest)) pos
  rw [lexer.lexTok_skip_spaces u ws _ hws, lexer.lexTok_quoted u cs rest q hcs hq] at h
  obtain ⟨h1, h2⟩ := h
  simp only [lexer.Token.erase, Prod.mk.injEq] at h1
  exact ⟨⟨h1.1, h1.2⟩, h2⟩

/-- Witness for C16 on the runes ` 'ab"|`: the item opened by `'` is closed by
`"`, and `|` is left. -/
theorem lexer.Lex_quoted_item_witness :
    ((lexer.Lexer.Lex unicode.asciiOnly ⟨" 'ab\"|".data, ⟨1, 0⟩⟩).1.Type = .ITEM ∧
      (lexer.Lexer.Lex unicode.asciiOnly ⟨" 'ab\"|".data, ⟨1, 0⟩⟩).1.Value = "'ab\"") ∧
    (lexer.Lexer.Lex unicode.asciiOnly ⟨" 'ab\"|".data, ⟨1, 0⟩⟩).2.reader = ['|'] :=
  lexer.Lex_quoted_item unicode.asciiOnly [' '] ['a', 'b'] ['|'] '"' ⟨1, 0⟩
    (by decide) (by decide) (by decide)

/-- C17: when the runes left are spaces, then a rune `r`, then runes `run` that
are letters, digits or `:`, then runes `after` that are empty or start with a rune
that is none of these, `Lex` returns a `SET` token if `r` is a letter and an
`ITEM` token if `r` is a digit; its lexeme is `r` followed by `run`, and the reader
is left at `after`, whose first rune is not consumed. -/
theorem lexer.Lex_identifier (u : unicode.Tables) (ws : List Char) (r : Char)
    (run after : List Char) (pos : lexer.Position)
    (hws : ∀ c ∈ ws, unicode.IsSpace u c = true)
    (hrun : ∀ c ∈ run, unicode.IsLetter u c = true ∨ unicode.IsDigit u c = true ∨ c = ':')
    (hafter : ∀ c tl, after = c :: tl →
      unicode.IsLetter u c = false ∧ unicode.IsDigit u c = false ∧ c ≠ ':') :
    (unicode.IsLetter u r = true →
      (lexer.Lexer.Lex u ⟨ws ++ r :: (run ++ after), pos⟩).1.Type = .SET ∧
      (lexer.Lexer.Lex u ⟨ws ++ r :: (run ++ after), pos⟩).1.Value = String.mk (r :: run) ∧
      (lexer.Lexer.Lex u ⟨ws ++ r :: (run ++ after), pos⟩).2.reader = after) ∧
    (unicode.IsDigit u r = true →
      (lexer.Lexer.Lex u ⟨ws ++ r :: (run ++ after), pos⟩).1.Type = .ITEM ∧
      (lexer.Lexer.Lex u ⟨ws ++ r :: (run ++ after), pos⟩).1.Value = String.mk (r :: run) ∧
      (lexer.Lexer.Lex u ⟨ws ++ r :: (run ++ after), pos⟩).2.reader = after) := by
  have hrun' : ∀ c ∈ run, lexer.identBody u c = true := by
    intro c hc
    rcases hrun c hc with h | h | h <;> simp [lexer.identBody, h]
  have hafter' : ∀ c tl, after = c :: tl → lexer.identBody u c = false := by
    intro c tl hc
    obtain ⟨h1, h2, h3⟩ := hafter c tl hc
    simp [lexer.identBody, h1, h2, h3]
  have h := lexer.lexLoop_erase u (ws ++ r :: (run ++ after)) pos
  rw [lexer.lexTok_skip_spaces u ws _ hws] at h
  constructor
  · intro hr
    rw [lexer.lexTok_letter u r run after hr hrun' hafter'] at h
    obtain ⟨h1, h2⟩ := h
    simp only [lexer.Token.erase, Prod.mk.injEq] at h1
    exact ⟨h1.1, h1.2, h2⟩
  · intro hr
    rw [lexer.lexTok_digit u r run after hr hrun' hafter'] at h
    obtain ⟨h1, h2⟩ := h
    simp only [lexer.Token.erase, Prod.mk.injEq] at h1
    exact ⟨h1.1, h1.2, h2⟩

/-- Witness for C17: after a newline and a space, `s1:x|b` gives the set name
`s1:x` and leaves `|b`; `42a:,` gives the item `42a:` and leaves the comma. -/
theorem lexer.Lex_identifier_witness :
    ((lexer.Lexer.Lex unicode.asciiOnly ⟨"\n s1:x|b".data, ⟨1, 0⟩⟩).1.Type = .SET ∧
      (lexer.Lexer.Lex unicode.asciiOnly ⟨"\n s1:x|b".data, ⟨1, 0⟩⟩).1.Value = "s1:x" ∧
      (lexer.Lexer.Lex unicode.asciiOnly ⟨"\n s1:x|b".data, ⟨1, 0⟩⟩).2.reader = ['|', 'b']) ∧
    ((lexer.Lexer.Lex unicode.asciiOnly ⟨"42a:,".data, ⟨1, 0⟩⟩).1.Type = .ITEM ∧
      (lexer.Lexer.Lex unicode.asciiOnly ⟨"42a:,".data, ⟨1, 0⟩⟩).1.Value = "42a:" ∧
      (lexer.Lexer.Lex unicode.asciiOnly ⟨"42a:,".data, ⟨1, 0⟩⟩).2.reader = [',']) :=
  ⟨(lexer.Lex_identifier unicode.asciiOnly ['\n', ' '] 's' ['1', ':', 'x'] ['|', 'b'] ⟨1, 0⟩
      (by decide) (by decide) (fun c tl h => by cases h; decide)).1 (by decide),
   (lexer.Lex_identifier unicode.asciiOnly [] '4' ['2', 'a', ':'] [','] ⟨1, 0⟩
      (by decide) (by decide) (fun c tl h => by cases h; decide)).2 (by decide)⟩

/-! ## Claims on evaluation through the facade -/

/-- C11: when `Query` succeeds on an assignment, the sequence `dependsOn` passed
to `Persist` is the sequence of names resolved while the expression is evaluated,
from left to right and depth first, a name being followed by the names resolved in
the pattern fetched for it and every occurrence counted (`resolved`); the calls
made are one call of `Pattern` for each of these names, in this order, then the
call of `Persist`. -/
theorem setdb.Query_dependsOn_order {σ β : Type} (u : unicode.Tables) (fuel : Nat)
    (db : setdb.Database σ β) (st : σ) (q : String) (out : setdb.Queried σ β) (s : setdb.Set)
    (h : db.Query u fuel st q = some out) (hs : out.result = .ok s) (hn : s.name ≠ "") :
    (∃ st1, setdb.resolved u fuel db fuel s.patternAST st = some (s.dependsOn, st1)) ∧
    out.calls = s.dependsOn.map setdb.BackendCall.Pattern ++
      [.Persist s.name s.patternAST.ToQuery s.dependsOn] := by
  obtain ⟨parsed, r, _, h1, h2, hE, h4, _, h6⟩ := setdb.Query_ok u fuel db st q out s h hs
  rw [← h1, ← h2] at hE
  obtain ⟨names, hres, hd, hc⟩ := setdb.Evaluate_resolved u fuel db s.name fuel _ _ _ _ hE
  simp only [List.nil_append] at hd hc
  rw [← hd] at hres hc
  rw [← h4] at hres hc
  exact ⟨⟨_, hres⟩, by rw [h6 hn, hc]⟩

/-- Witness for C11 with `S` stored as `{'a','b'}`: `T = S | {'c'}` persists the
dependencies `S`, `T = S | S` persists `S`, `S`, and `T = {'c'}` persists
none. -/
theorem setdb.Query_dependsOn_order_witness :
    ((∃ st1, setdb.resolved unicode.asciiOnly 20 setdb.memoryDatabase 20
        (.BinaryExpr .UNION (.Set "S" []) (.Set "" [.Item "'c'"]))
        [("S", "\x7b'a','b'\x7d", [])] = some (["S"], st1)) ∧
      [setdb.BackendCall.Pattern "S", .Persist "T" "S|\x7b'c'\x7d" ["S"]] =
        ["S"].map setdb.BackendCall.Pattern ++ [.Persist "T" "S|\x7b'c'\x7d" ["S"]]) ∧
    ((∃ st1, setdb.resolved unicode.asciiOnly 20 setdb.memoryDatabase 20
        (.BinaryExpr .UNION (.Set "S" []) (.Set "S" []))
        [("S", "\x7b'a','b'\x7d", [])] = some (["S", "S"], st1)) ∧
      [setdb.BackendCall.Pattern "S", .Pattern "S", .Persist "T" "S|S" ["S", "S"]] =
        ["S", "S"].map setdb.BackendCall.Pattern ++ [.Persist "T" "S|S" ["S", "S"]]) ∧
    ((∃ st1, setdb.resolved unicode.asciiOnly 20 setdb.memoryDatabase 20
        (.Set "" [.Item "'c'"]) [("S", "\x7b'a','b'\x7d", [])] = some ([], st1)) ∧
      [setdb.BackendCall.Persist "T" "\x7b'c'\x7d" []] =
        ([] : List String).map setdb.BackendCall.Pattern ++ [.Persist "T" "\x7b'c'\x7d" []]) :=
  ⟨setdb.Query_dependsOn_order unicode.asciiOnly 20 setdb.memoryDatabase
      [("S", "\x7b'a','b'\x7d", [])] "T = S | \x7b'c'\x7d"
      { result := .ok { items := sets.NewSet ["'a'", "'b'", "'c'"],
                        patternAST := .BinaryExpr .UNION (.Set "S" []) (.Set "" [.Item "'c'"]),
                        name := "T", dependsOn := ["S"] },
        backend := [("T", "S|\x7b'c'\x7d", ["S"]), ("S", "\x7b'a','b'\x7d", [])],
        calls := [.Pattern "S", .Persist "T" "S|\x7b'c'\x7d" ["S"]] }
      _ (eq_some_of_forall_mem _ _ (by decide) (by decide)) rfl (by decide),
   setdb.Query_dependsOn_order unicode.asciiOnly 20 setdb.memoryDatabase
      [("S", "\x7b'a','b'\x7d", [])] "T = S | S"
      { result := .ok { items := sets.NewSet ["'a'", "'b'"],
                        patternAST := .BinaryExpr .UNION (.Set "S" []) (.Set "S" []),
                        name := "T", dependsOn := ["S", "S"] },
        backend := [("T", "S|S", ["S", "S"]), ("S", "\x7b'a','b'\x7d", [])],
        calls := [.Pattern "S", .Pattern "S", .Persist "T" "S|S" ["S", "S"]] }
      _ (eq_some_of_forall_mem _ _ (by decide) (by decide)) rfl (by decide),
   setdb.Query_dependsOn_order unicode.asciiOnly 20 setdb.memoryDatabase
      [("S", "\x7b'a','b'\x7d", [])] "T = \x7b'c'\x7d"
      { result := .ok { items := sets.NewSet ["'c'"],
                        patternAST := .Set "" [.Item "'c'"],
                        name := "T", dependsOn := [] },
        backend := [("T", "\x7b'c'\x7d", []), ("S", "\x7b'a','b'\x7d", [])],
        calls := [.Persist "T" "\x7b'c'\x7d" []] }
      _ (eq_some_of_forall_mem _ _ (by decide) (by decide)) rfl (by decide)⟩

/-- C12: a query that `Parse` accepts with `fuel` and whose tokens hold no set
name is answered by `Query`, at any fuel that covers `fuel` and the height of the
tree, with the set the tree denotes (`denote`), the tree itself as pattern, no
name and no dependency; the backend is not called and its state is left as it
was. -/
theorem setdb.Query_without_set_name {σ β : Type} (u : unicode.Tables)
    (db : setdb.Database σ β) (st : σ) (q : String) (fuel : Nat) (t : ast.Node)
    (hparse : parser.ParseString u fuel q = some (.ok t))
    (hno : ∀ tok ∈ lexer.tokensOf u q.data, tok.1 ≠ .SET)
    (fuel' : Nat) (h1 : fuel ≤ fuel') (h2 : t.height ≤ fuel') :
    db.Query u fuel' st q =
      some { result := .ok { items := ⟨t.denote⟩, patternAST := t, name := "",
                             dependsOn := [] },
             backend := st, calls := [] } := by
  have hc : t.closed = true :=
    ((parser.ParseString_ok_iff u fuel q t).mp hparse).closed hno
  have hp := parser.ParseString_mono u h1 q _ hparse
  have hE := fun name => ast.Evaluate_closed (setdb.setResolver u fuel' db name) fuel' t
    { backend := st, dependencies := [], calls := [] } hc h2
  unfold setdb.Database.Query
  rw [hp]
  cases t with
  | AssignExpr n e => simp [ast.Node.closed] at hc
  | BinaryExpr op l r => simp only [hE ""]; simp
  | Set nm items => simp only [hE ""]; simp
  | Item nm => simp only [hE ""]; simp

/-- Witness for C12: `{'a','b','c'} & {'b','c','d'}` yields the items `'b'` and
`'c'`, and `{'a','b','c'} - {'b'}` yields `'a'` and `'c'`. -/
theorem setdb.Query_without_set_name_witness :
    (setdb.memoryDatabase.Query unicode.asciiOnly 20 []
        "\x7b'a','b','c'\x7d & \x7b'b','c','d'\x7d" =
      some { result := .ok
               { items := ⟨(ast.Node.BinaryExpr .INTERSECTION
                   (.Set "" [.Item "'a'", .Item "'b'", .Item "'c'"])
                   (.Set "" [.Item "'b'", .Item "'c'", .Item "'d'"])).denote⟩,
                 patternAST := .BinaryExpr .INTERSECTION
                   (.Set "" [.Item "'a'", .Item "'b'", .Item "'c'"])
                   (.Set "" [.Item "'b'", .Item "'c'", .Item "'d'"]),
                 name := "", dependsOn := [] },
             backend := [], calls := [] } ∧
      (ast.Node.BinaryExpr .INTERSECTION
          (.Set "" [.Item "'a'", .Item "'b'", .Item "'c'"])
          (.Set "" [.Item "'b'", .Item "'c'", .Item "'d'"])).denote = {"'b'", "'c'"}) ∧
    (setdb.memoryDatabase.Query unicode.asciiOnly 20 []
        "\x7b'a','b','c'\x7d - \x7b'b'\x7d" =
      some { result := .ok
               { items := ⟨(ast.Node.BinaryExpr .DIFFERENCE
                   (.Set "" [.Item "'a'", .Item "'b'", .Item "'c'"])
                   (.Set "" [.Item "'b'"])).denote⟩,
                 patternAST := .BinaryExpr .DIFFERENCE
                   (.Set "" [.Item "'a'", .Item "'b'", .Item "'c'"])
                   (.Set "" [.Item "'b'"]),
                 name := "", dependsOn := [] },
             backend := [], calls := [] } ∧
      (ast.Node.BinaryExpr .DIFFERENCE
          (.Set "" [.Item "'a'", .Item "'b'", .Item "'c'"])
          (.Set "" [.Item "'b'"])).denote = {"'a'", "'c'"}) :=
  ⟨⟨setdb.Query_without_set_name unicode.asciiOnly setdb.memoryDatabase []
      "\x7b'a','b','c'\x7d & \x7b'b','c','d'\x7d" 20 _ (by decide) (by decide) 20
      (by decide) (by decide), by decide⟩,
   ⟨setdb.Query_without_set_name unicode.asciiOnly setdb.memoryDatabase []
      "\x7b'a','b','c'\x7d - \x7b'b'\x7d" 20 _ (by decide) (by decide) 20
      (by decide) (by decide), by decide⟩⟩

/-- C20, amended: the resolver compares every name it is invoked on, in the
query and in every fetched pattern, with the assigned name.  For set names `A` and
`B` that differ, when the backend returns the pattern `A` for `B`, the query
`A = B` fetches the pattern of `B`, fails with the cyclic-reference error and
`Persist` is not called; and no query that succeeds lists the assigned name among
its dependencies. -/
theorem setdb.Query_rejects_cycle_through_stored_pattern {σ β : Type} (u : unicode.Tables)
    (fuel : Nat) (db : setdb.Database σ β) (st st1 : σ) (A B : String)
    (hA : lexer.isSetName u A = true) (hB : lexer.isSetName u B = true) (hAB : A ≠ B)
    (hpat : db.backend.Pattern st B = (.ok A, st1)) (hfuel : 12 ≤ fuel) :
    db.Query u fuel st (A ++ " = " ++ B) =
      some { result := .error (.error .cyclicReference), backend := st1,
             calls := [.Pattern B] } ∧
    (∀ (st0 : σ) (q : String) (out : setdb.Queried σ β) (s : setdb.Set),
      db.Query u fuel st0 q = some out → out.result = .ok s → s.name ∉ s.dependsOn) := by
  constructor
  · obtain ⟨k, rfl⟩ : ∃ k, fuel = k + 3 := ⟨fuel - 3, by omega⟩
    obtain ⟨h1, h2⟩ := parser.ParseString_assign_name u A B hA hB (k + 3) hfuel
    have hAne := lexer.isSetName_ne_empty u A hA
    have hBne := lexer.isSetName_ne_empty u B hB
    simp [setdb.Database.Query, h1, ast.Node.Evaluate, setdb.setResolver, hAne, hBne, hAB, hpat,
      h2, ast.NewResolvedSet]
  · intro st0 q out s h hs
    obtain ⟨parsed, r, _, h1, h2, hE, h4, _, _⟩ := setdb.Query_ok u fuel db st0 q out s h hs
    rw [h4, h1]
    exact ast.Evaluate_invariant (setdb.setResolver u fuel db (setdb.assignedName parsed))
      (fun s => setdb.assignedName parsed ∉ s.dependencies)
      (fun _name s r s' hs h => setdb.setResolver_not_self u fuel db _ _name s r s' hs h)
      fuel _ _ _ _ (by simp) hE

/-- Witness for C20 on the catalog that holds `B` with the pattern `A`. -/
theorem setdb.Query_rejects_cycle_through_stored_pattern_witness :
    setdb.memoryDatabase.Query unicode.asciiOnly 12
        [("B", "A", ["A"]), ("A", "\x7b'x'\x7d", [])] ("A" ++ " = " ++ "B") =
      some { result := .error (.error .cyclicReference),
             backend := [("B", "A", ["A"]), ("A", "\x7b'x'\x7d", [])],
             calls := [.Pattern "B"] } :=
  (setdb.Query_rejects_cycle_through_stored_pattern unicode.asciiOnly 12 setdb.memoryDatabase
    [("B", "A", ["A"]), ("A", "\x7b'x'\x7d", [])] [("B", "A", ["A"]), ("A", "\x7b'x'\x7d", [])]
    "A" "B" (by decide) (by decide) (by decide) (by decide) (by decide)).1

/-- C20, as stated, fails: with `B` stored under the pattern `A`, the query
`A = B` is rejected with the cyclic-reference error after one call of `Pattern`,
and nothing is persisted. -/
theorem setdb.Query_two_hop_cycle_rejected :
    (setdb.memoryBackend.Pattern [("B", "A", ["A"]), ("A", "\x7b'x'\x7d", [])] "B").1 = .ok "A" ∧
    setdb.memoryDatabase.Query unicode.asciiOnly 20
        [("B", "A", ["A"]), ("A", "\x7b'x'\x7d", [])] "A = B" =
      some { result := .error (.error .cyclicReference),
             backend := [("B", "A", ["A"]), ("A", "\x7b'x'\x7d", [])],
             calls := [.Pattern "B"] } := by
  refine ⟨by decide, by decide⟩

/-! ## Claims on commas and the end of input in a literal -/

/-- C18: a comma may stand in front of the brace that closes a literal with at
least one element: when the tokens of `q'` are those of `q` with a comma inserted
before the final `}`, the token before it not being a comma, and `Parse` returns
a literal for `q`, it returns the same literal for `q'`.  The same holds of every
literal of a query, nested or followed by more of the query: when the tokens of
`q'` are those of `q` with commas put in front of any of the closing braces that
follow an element (`TrailingCommas`), and `Parse` returns a node for `q`, it
returns the same node for `q'`.  In every query that `Parse` accepts, each comma
follows the last token of an element and is followed by the first token of an
element or by `}` (`CommaPlaced` on every two adjacent tokens, and no comma at
either end).  So `{,}` and `{a,,b}` are rejected: they fail with
`unexpected token ,` on the comma that follows `{`, respectively on the second
comma. -/
theorem parser.Parse_comma_in_literal (u : unicode.Tables) :
    (∀ (q q' : String) (fuel : Nat) (items : List ast.Node) (body : List lexer.Tok)
        (last : lexer.Tok),
      lexer.tokensOf u q.data = (.SET_OPEN, "(") :: (body ++ [last, (.SET_CLOSE, ")")]) →
      lexer.tokensOf u q'.data =
        (.SET_OPEN, "(") :: (body ++ [last, (.COMMA, ","), (.SET_CLOSE, ")")]) →
      last.1 ≠ .COMMA →
      parser.ParseString u fuel q = some (.ok (.Set "" items)) →
      parser.ParseString u fuel q' = some (.ok (.Set "" items))) ∧
    (∀ (q q' : String) (fuel : Nat) (t : ast.Node),
      parser.TrailingCommas .EOF (lexer.tokensOf u q.data) (lexer.tokensOf u q'.data) →
      parser.ParseString u fuel q = some (.ok t) →
      parser.ParseString u fuel q' = some (.ok t)) ∧
    (∀ (q : String) (fuel : Nat) (t : ast.Node),
      parser.ParseString u fuel q = some (.ok t) →
      List.Chain' parser.CommaPlaced (lexer.tokensOf u q.data) ∧
        lexer.headType (lexer.tokensOf u q.data) ≠ .COMMA ∧
        lexer.lastType (lexer.tokensOf u q.data) ≠ .COMMA) ∧
    (∀ fuel, 10 ≤ fuel → parser.ParseString u fuel "\x7b,\x7d" =
      some (.error (parser.ParseError ⟨.COMMA, ⟨1, 2⟩, ","⟩ "unexpected token ,"))) ∧
    (∀ fuel, 10 ≤ fuel → parser.ParseString u fuel "\x7ba,,b\x7d" =
      some (.error (parser.ParseError ⟨.COMMA, ⟨1, 4⟩, ","⟩ "unexpected token ,"))) := by
  refine ⟨fun q q' fuel items body last hq hq' hlast h =>
    parser.ParseString_trailing_comma u q q' fuel items body last hq hq' hlast h,
    fun q q' fuel t hL h => parser.ParseString_trailingCommas u q q' fuel t hL h,
    fun q fuel t h => parser.ParseString_commas u fuel q t h, ?_, ?_⟩
  · intro fuel hf
    apply parser.ParseString_mono u hf
    rw [parser.ParseString_ascii u unicode.asciiOnly 10 _ (by decide)]
    decide
  · intro fuel hf
    apply parser.ParseString_mono u hf
    rw [parser.ParseString_ascii u unicode.asciiOnly 10 _ (by decide)]
    decide

/-- Witness for C18: `{{'a',},'b',}|{'c',}`, with a comma in front of the closing
brace of a nested literal, of a literal that is followed by an operator and of
the last literal, is parsed to the node of `{{'a'},'b'}|{'c'}`. -/
theorem parser.Parse_comma_in_literal_witness :
    parser.ParseString unicode.asciiOnly 20 "\x7b\x7b'a'\x7d,'b'\x7d|\x7b'c'\x7d" =
      some (.ok (.BinaryExpr .UNION
        (.Set "" [.Set "" [.Item "'a'"], .Item "'b'"]) (.Set "" [.Item "'c'"]))) ∧
    parser.ParseString unicode.asciiOnly 20 "\x7b\x7b'a',\x7d,'b',\x7d|\x7b'c',\x7d" =
      some (.ok (.BinaryExpr .UNION
        (.Set "" [.Set "" [.Item "'a'"], .Item "'b'"]) (.Set "" [.Item "'c'"]))) :=
  ⟨by decide,
   (parser.Parse_comma_in_literal unicode.asciiOnly).2.1
    "\x7b\x7b'a'\x7d,'b'\x7d|\x7b'c'\x7d" "\x7b\x7b'a',\x7d,'b',\x7d|\x7b'c',\x7d" 20
    (.BinaryExpr .UNION (.Set "" [.Set "" [.Item "'a'"], .Item "'b'"]) (.Set "" [.Item "'c'"]))
    (by
      have h1 : lexer.tokensOf unicode.asciiOnly
            "\x7b\x7b'a'\x7d,'b'\x7d|\x7b'c'\x7d".data =
          [(.SET_OPEN, "("), (.SET_OPEN, "("), (.ITEM, "'a'"), (.SET_CLOSE, ")"),
            (.COMMA, ","), (.ITEM, "'b'"), (.SET_CLOSE, ")"), (.UNION, "|"),
            (.SET_OPEN, "("), (.ITEM, "'c'"), (.SET_CLOSE, ")")] := by decide
      have h2 : lexer.tokensOf unicode.asciiOnly
            "\x7b\x7b'a',\x7d,'b',\x7d|\x7b'c',\x7d".data =
          [(.SET_OPEN, "("), (.SET_OPEN, "("), (.ITEM, "'a'"), (.COMMA, ","),
            (.SET_CLOSE, ")"), (.COMMA, ","), (.ITEM, "'b'"), (.COMMA, ","),
            (.SET_CLOSE, ")"), (.UNION, "|"), (.SET_OPEN, "("), (.ITEM, "'c'"),
            (.COMMA, ","), (.SET_CLOSE, ")")] := by decide
      rw [h1, h2]
      exact .keep _ _ _ _ (.keep _ _ _ _ (.keep _ _ _ _ (.comma _ _ _ _ _ (Or.inl rfl)
        (.keep _ _ _ _ (.keep _ _ _ _ (.comma _ _ _ _ _ (Or.inl rfl)
          (.keep _ _ _ _ (.keep _ _ _ _ (.keep _ _ _ _ (.comma _ _ _ _ _ (Or.inl rfl)
            (.nil _))))))))))))
    (by decide)⟩

/-- C19, as stated, fails: the input `{'a'` ends inside a literal that is not
closed, and `Parse` fails on the `EOF` token with the message `expected ','`. -/
theorem parser.Parse_end_after_element :
    parser.ParseString unicode.asciiOnly 10 "\x7b'a'" =
      some (.error (parser.ParseError ⟨.EOF, ⟨1, 3⟩, ""⟩ "expected ','")) ∧
    (parser.ParseError ⟨.EOF, ⟨1, 3⟩, ""⟩ "expected ','").msg ≠ "expected '\x7d'" := by
  refine ⟨by decide, by decide⟩

/-- C19, amended: when the input ends where a brace literal looks for its next
element or for `}`, directly after `{` or directly after the comma that follows an
element (`EndsOpen`), `Parse` fails with the message `expected '}'` carried on the
`EOF` token, at every fuel that covers the nesting. -/
theorem parser.Parse_end_inside_literal (u : unicode.Tables) (q : String) (fuel fuel' : Nat)
    (h : parser.EndsOpen .expr fuel (lexer.tokensOf u q.data)) (hle : fuel ≤ fuel') :
    ∃ t : lexer.Token,
      parser.ParseString u fuel' q = some (.error (parser.ParseError t "expected '\x7d'")) ∧
        t.Type = .EOF := by
  obtain ⟨t, p', hE, ht⟩ := h.stopped u (parser.NewParser (lexer.NewLexer q.data))
    (parser.NewParser_consistent u _) (parser.NewParser_stream u q.data)
  refine ⟨t, parser.ParseString_mono u hle q _ ?_, ht⟩
  simp [parser.ParseString, parser.Parser.Parse, hE]

/-- Witness for C19 on the input `{'a','b',`. -/
theorem parser.Parse_end_inside_literal_witness :
    ∃ t : lexer.Token,
      parser.ParseString unicode.asciiOnly 10 "\x7b'a','b'," =
        some (.error (parser.ParseError t "expected '\x7d'")) ∧ t.Type = .EOF :=
  parser.Parse_end_inside_literal unicode.asciiOnly "\x7b'a','b'," 9 10
    (by
      have ht : lexer.tokensOf unicode.asciiOnly "\x7b'a','b',".data =
          [(.SET_OPEN, "("), (.ITEM, "'a'"), (.COMMA, ","), (.ITEM, "'b'"), (.COMMA, ",")] := by
        decide
      rw [ht]
      have item : ∀ (n : Nat) (v : String) (ts : List lexer.Tok),
          parser.Derives .expr (n + 3) ((.ITEM, v) :: (.COMMA, ",") :: ts) (.one (.Item v))
            ((.COMMA, ",") :: ts) := fun n v ts =>
        parser.Derives.expr _ _ _ _ [] _
          (parser.Derives.primaryItem _ _ _ _ (parser.Derives.item n v _))
          (parser.Derives.opsDone (n + 1) _ rfl)
      exact parser.EndsOpen.exprPrimary _ _ (parser.EndsOpen.primaryInline _ _
        (parser.EndsOpen.inlineSet _ "(" _
          (parser.EndsOpen.loopElem 5 _ _ "," _ (item 2 "'a'" _)
            (parser.EndsOpen.loopElem 4 _ _ "," _ (item 1 "'b'" _)
              (parser.EndsOpen.loopEnd 3))))))
    (by decide)

/-! ## Further claims on the sets, the lexer and evaluation -/

/-- C21: `A.SupersetOf(B)` is true exactly when `A` has more elements than `B`
and every element of `B` is in `A`, that is when `B` is a strict subset of `A`; so
`A.SupersetOf(A)` is false; and `A.SubsetOf(B)` is `B.SupersetOf(A)`. -/
theorem sets.SupersetOf_iff (A B : sets.Set) :
    (A.SupersetOf B = true ↔ B.items.card < A.items.card ∧ ∀ x ∈ B.items, x ∈ A.items) ∧
    (A.SupersetOf B = true ↔ B.items ⊂ A.items) ∧
    A.SupersetOf A = false ∧
    A.SubsetOf B = B.SupersetOf A := by
  have h1 : A.SupersetOf B = true ↔ B.items.card < A.items.card ∧ ∀ x ∈ B.items, x ∈ A.items := by
    unfold sets.Set.SupersetOf
    by_cases h : A.items.card ≤ B.items.card
    · simp [h]
    · simp [h, Nat.lt_of_not_le h]
  refine ⟨h1, ?_, ?_, rfl⟩
  · rw [h1]
    constructor
    · rintro ⟨hc, hs⟩
      refine ⟨hs, fun hAB => ?_⟩
      have := Finset.card_le_card hAB
      omega
    · intro h
      exact ⟨Finset.card_lt_card h, h.1⟩
  · simp [sets.Set.SupersetOf]

/-- C28: `A.SameAs(B)` is true exactly when `A` and `B` hold the same elements
(equal sizes and every element of `B` in `A` amount to equality), so `SameAs` is
reflexive and symmetric. -/
theorem sets.SameAs_iff (A B : sets.Set) :
    (A.SameAs B = true ↔ A.items = B.items) ∧
    (A.SameAs B = true ↔ ∀ x, A.Contains x = B.Contains x) ∧
    A.SameAs A = true ∧
    A.SameAs B = B.SameAs A := by
  have h1 : ∀ A B : sets.Set, A.SameAs B = true ↔ A.items = B.items := by
    intro A B
    unfold sets.Set.SameAs
    by_cases h : A.items.card ≠ B.items.card
    · rw [if_pos h]
      simp only [Bool.false_eq_true, false_iff]
      intro he
      exact h (by rw [he])
    · rw [if_neg h]
      simp only [Finset.empty_union, decide_eq_true_eq]
      have hc : A.items.card = B.items.card := not_not.mp h
      constructor
      · intro hs
        exact (Finset.eq_of_subset_of_card_le hs (by omega)).symm
      · intro he x hx
        rw [he]; exact hx
  refine ⟨h1 A B, ?_, (h1 A A).mpr rfl, ?_⟩
  · rw [h1]
    simp only [sets.Set.Contains, decide_eq_decide]
    exact Finset.ext_iff
  · cases hAB : A.SameAs B with
    | true => exact ((h1 B A).mpr ((h1 A B).mp hAB).symm).symm
    | false =>
      cases hBA : B.SameAs A with
      | false => rfl
      | true => rw [(h1 A B).mpr ((h1 B A).mp hBA).symm] at hAB; exact absurd hAB (by simp)

/-- C23: on two arguments `Union` and `Intersection` are commutative, and
`Union` is associative. -/
theorem sets.Union_Intersection_comm_assoc (A B C : sets.Set) :
    sets.Union [A, B] = sets.Union [B, A] ∧
    sets.Intersection [A, B] = sets.Intersection [B, A] ∧
    sets.Union [sets.Union [A, B], C] = sets.Union [A, sets.Union [B, C]] := by
  refine ⟨?_, ?_, ?_⟩
  · rw [sets.Union_pair, sets.Union_pair, Finset.union_comm]
  · rw [sets.Intersection_pair, sets.Intersection_pair, Finset.inter_comm]
  · simp only [sets.Union_pair, Finset.union_assoc]

/-- C24: for every set `A` and the empty set `NewSet()`: `Difference(A, A)` and
`SymmetricDifference(A, A)` are empty, `Union(A, E)` is `A` and
`Intersection(A, E)` is empty. -/
theorem sets.identities_with_self_and_empty (A : sets.Set) :
    sets.Difference [A, A] = some (sets.NewSet []) ∧
    sets.SymmetricDifference [A, A] = sets.NewSet [] ∧
    sets.Union [A, sets.NewSet []] = A ∧
    sets.Intersection [A, sets.NewSet []] = sets.NewSet [] ∧
    (sets.NewSet []).Length = 0 ∧ (∀ x, (sets.NewSet []).Contains x = false) := by
  refine ⟨?_, ?_, ?_, ?_, rfl, fun x => by simp [sets.Set.Contains, sets.NewSet]⟩
  · rw [sets.Difference_pair]; simp [sets.NewSet]
  · rw [sets.SymmetricDifference_pair]; simp [sets.NewSet]
  · rw [sets.Union_pair]; simp [sets.NewSet]
  · rw [sets.Intersection_pair]; simp [sets.NewSet]

/-- C22 fails on the code: `Lex` has no case for `"`, which is neither a space,
a letter nor a digit, so a `"` is returned as an `ILLEGAL` token with the lexeme
`"` and `Parse` rejects `"a"`.  Only `'` opens a quoted item, which either quote
closes; `lexItem` itself accepts `"` as the opening quote. -/
theorem lexer.Lex_double_quote_illegal (u : unicode.Tables) :
    (∀ (rest : List Char) (pos : lexer.Position),
      (lexer.Lexer.Lex u ⟨'"' :: rest, pos⟩).1 =
        ⟨.ILLEGAL, ⟨pos.line, pos.column + 1⟩, "\""⟩ ∧
      (lexer.Lexer.Lex u ⟨'"' :: rest, pos⟩).2.reader = rest) ∧
    parser.ParseString u 10 "\"a\"" =
      some (.error (parser.ParseError ⟨.ILLEGAL, ⟨1, 1⟩, "\""⟩ "unexpected token ILLEGAL")) ∧
    (lexer.Lexer.lexItem (lexer.NewLexer "\"a\"".data)).1 = "\"a\"" ∧
    (lexer.Lexer.Lex u (lexer.NewLexer "'a\"".data)).1 = ⟨.ITEM, ⟨1, 1⟩, "'a\""⟩ := by
  refine ⟨fun rest pos => ⟨rfl, rfl⟩, rfl, rfl, rfl⟩

/-- C29 fails on the braces: `Lex` gives the token of `{` the lexeme `(` and the
token of `}` the lexeme `)`, while `String()` of the kinds gives `{` and `}`; a
parser error on `}` is rendered with the lexeme `)` between parentheses.  The
tokens of `,`, `=`, `|`, `&`, `-` and `^` carry the text of their kind. -/
theorem lexer.Lex_brace_lexeme (u : unicode.Tables) :
    (∀ (rest : List Char) (pos : lexer.Position),
      (lexer.Lexer.Lex u ⟨'{' :: rest, pos⟩).1 =
        ⟨.SET_OPEN, ⟨pos.line, pos.column + 1⟩, "("⟩ ∧
      (lexer.Lexer.Lex u ⟨'}' :: rest, pos⟩).1 =
        ⟨.SET_CLOSE, ⟨pos.line, pos.column + 1⟩, ")"⟩) ∧
    (lexer.TokenType.SET_OPEN.String = "\x7b" ∧ lexer.TokenType.SET_CLOSE.String = "\x7d") ∧
    (parser.ParseString u 10 "\x7d" =
        some (.error (parser.ParseError ⟨.SET_CLOSE, ⟨1, 1⟩, ")"⟩ "unexpected token \x7d")) ∧
      (parser.ParseError ⟨.SET_CLOSE, ⟨1, 1⟩, ")"⟩ "unexpected token \x7d").Error =
        "line 1, column 1: unexpected token \x7d, got: \x7d ())") ∧
    (∀ (rest : List Char) (pos : lexer.Position),
      (lexer.Lexer.Lex u ⟨',' :: rest, pos⟩).1 =
        ⟨.COMMA, ⟨pos.line, pos.column + 1⟩, lexer.TokenType.COMMA.String⟩ ∧
      (lexer.Lexer.Lex u ⟨'=' :: rest, pos⟩).1 =
        ⟨.ASSIGN, ⟨pos.line, pos.column + 1⟩, lexer.TokenType.ASSIGN.String⟩ ∧
      (lexer.Lexer.Lex u ⟨'|' :: rest, pos⟩).1 =
        ⟨.UNION, ⟨pos.line, pos.column + 1⟩, lexer.TokenType.UNION.String⟩ ∧
      (lexer.Lexer.Lex u ⟨'&' :: rest, pos⟩).1 =
        ⟨.INTERSECTION, ⟨pos.line, pos.column + 1⟩, lexer.TokenType.INTERSECTION.String⟩ ∧
      (lexer.Lexer.Lex u ⟨'-' :: rest, pos⟩).1 =
        ⟨.DIFFERENCE, ⟨pos.line, pos.column + 1⟩, lexer.TokenType.DIFFERENCE.String⟩ ∧
      (lexer.Lexer.Lex u ⟨'^' :: rest, pos⟩).1 =
        ⟨.SYMMETRIC_DIFFERENCE, ⟨pos.line, pos.column + 1⟩,
          lexer.TokenType.SYMMETRIC_DIFFERENCE.String⟩) := by
  refine ⟨fun rest pos => ⟨rfl, rfl⟩, ⟨rfl, rfl⟩, ⟨rfl, by decide⟩,
    fun rest pos => ⟨rfl, rfl, rfl, rfl, rfl, rfl⟩⟩

/-- C25: the evaluation of a binary node (with one of the four operators) stops
at the first error: when the left operand fails, the error and the state left by
the left operand are returned, so that nothing of the right operand is evaluated
and the resolver is not called for it; when the right operand fails after the
left one succeeded, its error is returned.  A successful evaluation calls the
resolver on the names of `resolved`, left to right and depth first, one call of
`Pattern` each, in this order. -/
theorem ast.Evaluate_short_circuit :
    (∀ (ε S : Type) (cb : String → S → Option (Except ε ast.ResolvedSet × S)) (k : Nat)
        (op : lexer.TokenType) (L R : ast.Node) (s s1 : S) (e : ast.Failure ε),
      ast.binaryOp op ≠ none → L.Evaluate cb k s = some (.error e, s1) →
      (ast.Node.BinaryExpr op L R).Evaluate cb (k + 1) s = some (.error e, s1)) ∧
    (∀ (ε S : Type) (cb : String → S → Option (Except ε ast.ResolvedSet × S)) (k : Nat)
        (op : lexer.TokenType) (L R : ast.Node) (s s1 s2 : S) (lhs : sets.Set)
        (e : ast.Failure ε),
      ast.binaryOp op ≠ none → L.Evaluate cb k s = some (.ok lhs, s1) →
      R.Evaluate cb k s1 = some (.error e, s2) →
      (ast.Node.BinaryExpr op L R).Evaluate cb (k + 1) s = some (.error e, s2)) ∧
    (∀ (σ β : Type) (u : unicode.Tables) (fuel : Nat) (db : setdb.Database σ β)
        (name : String) (k : Nat) (n : ast.Node) (s s' : setdb.Resolving σ) (res : sets.Set),
      n.Evaluate (setdb.setResolver u fuel db name) k s = some (.ok res, s') →
      ∃ names, setdb.resolved u fuel db k n s.backend = some (names, s'.backend) ∧
        s'.calls = s.calls ++ names.map setdb.BackendCall.Pattern) := by
  refine ⟨?_, ?_, ?_⟩
  · intro ε S cb k op L R s s1 e hop hL
    cases hb : ast.binaryOp op with
    | none => exact absurd hb hop
    | some f => simp [ast.Node.Evaluate, hb, hL]
  · intro ε S cb k op L R s s1 s2 lhs e hop hL hR
    cases hb : ast.binaryOp op with
    | none => exact absurd hb hop
    | some f => simp [ast.Node.Evaluate, hb, hL, hR]
  · intro σ β u fuel db name k n s s' res h
    obtain ⟨names, h1, _, h3⟩ := setdb.Evaluate_resolved u fuel db name k n s res s' h
    exact ⟨names, h1, h3⟩

/-- Witness for C25: in `X | S` with `X` not stored, the error of `X` is returned
and `Pattern` is called for `X` only. -/
theorem ast.Evaluate_short_circuit_witness :
    (ast.Node.BinaryExpr .UNION (.Set "X" []) (.Set "S" [])).Evaluate
        (setdb.setResolver unicode.asciiOnly 10 setdb.memoryDatabase "T") (9 + 1)
        { backend := [("S", "\x7b'a'\x7d", [])], dependencies := [], calls := [] } =
      some (.error (.error (.backend "set X does not exist")),
        { backend := [("S", "\x7b'a'\x7d", [])], dependencies := [],
          calls := [] ++ [.Pattern "X"] }) :=
  ast.Evaluate_short_circuit.1 (setdb.QueryError String) (setdb.Resolving setdb.Catalog)
    (setdb.setResolver unicode.asciiOnly 10 setdb.memoryDatabase "T") 9 .UNION
    (.Set "X" []) (.Set "S" []) _ _ _ (by simp [ast.binaryOp]) rfl

/-! ## Claim on termination -/

/-- C27, as stated, fails on a stack of bounded depth: on a stack that has room
for nine calls of parsing methods the input `{{{` ends in the fatal stack
overflow, where a stack with room for ten returns the parser error
`expected '}'`. -/
theorem parser.Parse_deep_nesting_overflows :
    parser.stack.ParseString unicode.asciiOnly 20 9 "\x7b\x7b\x7b" = some .overflow ∧
    parser.stack.ParseString unicode.asciiOnly 20 10 "\x7b\x7b\x7b" =
      some (.returned (.error (parser.ParseError ⟨.EOF, ⟨1, 3⟩, ""⟩ "expected '\x7d'"))) := by
  refine ⟨by decide, by decide⟩

/-- C27, amended: on a stack that has room for `4 * len + 10` calls of parsing
methods, `Parse` returns a node or a parser error on the input `q` of length
`len`, at every fuel from `4 * len + 8`, and what it returns is what the methods
return when the stack is left out of account (the lexer yields at most one token
for a rune, and every turn of the loops of the parser that does not return reads
a token); the kind of every token is an index inside the table `tokens`, so that
`String` does not fail.  On a bounded stack `Parse` is not total: the input of
`n` opening braces ends in the fatal stack overflow on every stack that has room
for at most `3 * n` calls, whatever the fuel from `4 * n`. -/
theorem parser.Parse_total_on_stack (u : unicode.Tables) (q : String) (fuel frames : Nat)
    (hfuel : 4 * q.length + 8 ≤ fuel) (hframes : 4 * q.length + 10 ≤ frames) :
    (∃ r : Except parser.ParserError ast.Node,
      parser.stack.ParseString u fuel frames q = some (.returned r) ∧
        parser.ParseString u fuel q = some r) ∧
    (lexer.tokensOf u q.data).length ≤ q.length ∧
    (∀ t : lexer.Token, t.Type.toNat < lexer.tokens.length) ∧
    (∀ n fuel1 frames1 : Nat, frames1 ≤ 3 * n → 4 * n ≤ fuel1 →
      parser.stack.ParseString u fuel1 frames1 (parser.stack.braces n) = some .overflow) := by
  have hl := parser.tokensOf_length u q.data
  have hq : q.data.length = q.length := rfl
  obtain ⟨r, hr⟩ := parser.ParseString_total u q (4 * q.length + 8) (by omega)
  refine ⟨⟨r, parser.stack.ParseString_lifts u _ fuel frames q r hfuel (by omega) hr,
    parser.ParseString_mono u hfuel q r hr⟩, hl, fun t => ?_,
    fun n fuel1 frames1 h1 h2 => parser.stack.ParseString_braces_overflow u n fuel1 frames1 h1 h2⟩
  cases t.Type <;> decide

/-- Witness for C27 on the input `{a,` with room for 22 calls, and on the input
`{{{` with room for nine. -/
theorem parser.Parse_total_on_stack_witness :
    (∃ r : Except parser.ParserError ast.Node,
      parser.stack.ParseString unicode.asciiOnly 20 22 "\x7ba," = some (.returned r) ∧
        parser.ParseString unicode.asciiOnly 20 "\x7ba," = some r) ∧
    parser.stack.ParseString unicode.asciiOnly 20 9 (parser.stack.braces 3) = some .overflow :=
  ⟨(parser.Parse_total_on_stack unicode.asciiOnly "\x7ba," 20 22 (by decide) (by decide)).1,
   (parser.Parse_total_on_stack unicode.asciiOnly "\x7ba," 20 22 (by decide) (by decide)).2.2.2
     3 20 9 (by decide) (by decide)⟩

/-! ## The catalog stays acyclic -/

/-- C26: on a backend that is a map from names to stored patterns, a call of
`Query`, successful or failed, keeps a catalog resolvable (every name that a
stored pattern refers to has an entry) and acyclic (no entry reaches itself
through one or more references), and so does every sequence of calls; from the
empty catalog, which is both, no sequence of queries stores a set whose pattern
reaches itself. -/
theorem setdb.Query_keeps_catalog_acyclic (u : unicode.Tables) (cat : setdb.Catalog)
    (hR : setdb.Resolvable u cat) (hA : setdb.Acyclic u cat) :
    (∀ (fuel : Nat) (q : String) (out : setdb.Queried setdb.Catalog String),
      setdb.memoryDatabase.Query u fuel cat q = some out →
        setdb.Resolvable u out.backend ∧ setdb.Acyclic u out.backend) ∧
    (∀ (qs : List (Nat × String)) (cat1 : setdb.Catalog),
      setdb.runQueries u qs cat = some cat1 →
        setdb.Resolvable u cat1 ∧ setdb.Acyclic u cat1) :=
  ⟨fun fuel q out h => setdb.Query_keeps u fuel cat q out hR hA h,
   fun qs cat1 h => setdb.runQueries_keeps u qs cat cat1 hR hA h⟩

/-- Witness for C26 from the empty catalog: `a = {'x'}` and `b = a` are stored,
`a = b` is rejected, and the catalog that results is resolvable and acyclic. -/
theorem setdb.Query_keeps_catalog_acyclic_witness :
    setdb.Resolvable unicode.asciiOnly [] ∧ setdb.Acyclic unicode.asciiOnly [] ∧
    setdb.runQueries unicode.asciiOnly
        [(20, "a = \x7b'x'\x7d"), (20, "b = a"), (20, "a = b")] [] =
      some [("b", "a", ["a"]), ("a", "\x7b'x'\x7d", [])] ∧
    setdb.Resolvable unicode.asciiOnly [("b", "a", ["a"]), ("a", "\x7b'x'\x7d", [])] ∧
    setdb.Acyclic unicode.asciiOnly [("b", "a", ["a"]), ("a", "\x7b'x'\x7d", [])] :=
  ⟨setdb.Resolvable_nil _, setdb.Acyclic_nil _, by decide,
   (setdb.Query_keeps_catalog_acyclic unicode.asciiOnly [] (setdb.Resolvable_nil _)
      (setdb.Acyclic_nil _)).2 [(20, "a = \x7b'x'\x7d"), (20, "b = a"), (20, "a = b")]
      [("b", "a", ["a"]), ("a", "\x7b'x'\x7d", [])] (by decide)⟩

